import Mathlib

/-!
# StripClass: a verification development

Shallow embedding of the class-file stripper under `Build/Utils/StripClass`
(`defs.h`, `util.c`, `read.c`, `write.c`, `prune.c`, `refct.c`, `gc.c`, `code.c`,
the walk over the bytecode of `dump.c`, and `main.c`), and of the directory
listings of the watch utilities under `Run/common` (namespace `Watch`).

Conventions of the embedding.

* C integers (`u1`, `u2`, `u4`, `int`) are natural numbers.
* A C array together with its count field is a list holding the elements
  `0 .. count-1`; the count field is kept next to it, as in the structs.  The
  exception table of a Code attribute keeps its stale entries when pruning sets
  its length to zero, and its readers take the first `exception_table_length`
  entries.
* A null pointer is `none`.  Dereferencing a null pointer, reading or writing
  outside an array, overflowing a fixed buffer, overflowing an `int`, and
  leaving a function that returns a value without a `return` make the function
  return `none`.
* A stream (`FILE *`) and a scan pointer are the list of the bytes not yet
  read; what is written or emitted is the list of the bytes.  A read past the
  end of the stream leaves its destination unset: the embedding does not follow
  such a run and returns `none`.
* `malloc`ed memory that the program reads before writing it has the contents
  given by the parameter `uninit`; a `u2` field that receives such an `int`
  keeps its low 16 bits.
* The constant pool is followed twice.  The functions of `refct.c` and `gc.c`
  work on the list of the slots below `constant_pool_count`, where an index at
  or behind the count has no entry and a pass that reads it returns `none`.  In
  C the array keeps its length when the count goes down, and the slots behind
  the count keep their pointers; the section on the pool array in place follows
  the array and the entries it points to, and shows that a run of the driver
  loop that is left on the list is the same run on the array.
-/

namespace StripClass

/-! ## defs.h -/

def BUFLEN : Nat := 1000

def CONSTANT_Class : Nat := 7
def CONSTANT_Double : Nat := 6
def CONSTANT_Fieldref : Nat := 9
def CONSTANT_Float : Nat := 4
def CONSTANT_Integer : Nat := 3
def CONSTANT_InterfaceMethodref : Nat := 11
def CONSTANT_Long : Nat := 5
def CONSTANT_Methodref : Nat := 10
def CONSTANT_NameAndType : Nat := 12
def CONSTANT_String : Nat := 8
def CONSTANT_Utf8 : Nat := 1

def ACC_PUBLIC : Nat := 0x0001
def ACC_PRIVATE : Nat := 0x0002
def ACC_PROTECTED : Nat := 0x0004
def ACC_ABSTRACT : Nat := 0x0400

/-- The variant part of a constant-pool entry (the structs `constant_*`). -/
inductive constant where
  | class_info (name_index : Nat)
  | fieldref_info (class_index : Nat) (name_and_type_index : Nat)
  | methodref_info (class_index : Nat) (name_and_type_index : Nat)
  | interfaceMethodref_info (class_index : Nat) (name_and_type_index : Nat)
  | string (string_index : Nat)
  | integer (bytes : Nat)
  | float (bytes : Nat)
  | long (high_bytes : Nat) (low_bytes : Nat)
  | double (high_bytes : Nat) (low_bytes : Nat)
  | nameAndType_info (name_index : Nat) (descriptor_index : Nat)
  | utf8_info (length : Nat) (bytes : List Nat)
  deriving DecidableEq, Repr

/-- A constant-pool entry: `struct cp_info` with the fields of its variant. -/
structure cp_info where
  refCount : Nat
  info : constant
  deriving DecidableEq, Repr

/-- The `tag` field of a constant-pool entry. -/
def cp_info.tag (cp : cp_info) : Nat :=
  match cp.info with
  | .class_info _ => CONSTANT_Class
  | .fieldref_info _ _ => CONSTANT_Fieldref
  | .methodref_info _ _ => CONSTANT_Methodref
  | .interfaceMethodref_info _ _ => CONSTANT_InterfaceMethodref
  | .string _ => CONSTANT_String
  | .integer _ => CONSTANT_Integer
  | .float _ => CONSTANT_Float
  | .long _ _ => CONSTANT_Long
  | .double _ _ => CONSTANT_Double
  | .nameAndType_info _ _ => CONSTANT_NameAndType
  | .utf8_info _ _ => CONSTANT_Utf8

/-- The test `tag == CONSTANT_Long || tag == CONSTANT_Double`. -/
def isLong (cp : cp_info) : Bool :=
  cp.tag == CONSTANT_Long || cp.tag == CONSTANT_Double

structure exception_table_entry where
  start_pc : Nat
  end_pc : Nat
  handler_pc : Nat
  catch_type : Nat
  deriving DecidableEq, Repr

structure innerclasses_table_entry where
  inner_class_info_index : Nat
  outer_class_info_index : Nat
  inner_name_index : Nat
  inner_class_access_flags : Nat
  deriving DecidableEq, Repr

structure line_number_table_entry where
  start_pc : Nat
  line_number : Nat
  deriving DecidableEq, Repr

structure local_variable_table_entry where
  start_pc : Nat
  length : Nat
  name_index : Nat
  descriptor_index : Nat
  index : Nat
  deriving DecidableEq, Repr

structure local_variable_type_table_entry where
  start_pc : Nat
  length : Nat
  name_index : Nat
  signature_index : Nat
  index : Nat
  deriving DecidableEq, Repr

mutual
/-- The struct `element_value` with its five variants; the variants `e`, `c`,
`@` and `[` have a fixed tag, the constant variant keeps its tag byte. -/
inductive element_value where
  | const (tag : Nat) (const_value_index : Nat)
  | enum_const (type_name_index : Nat) (const_name_index : Nat)
  | class_info (class_info_index : Nat)
  | annotation_value (value : annotation)
  | array (num_values : Nat) (values : List element_value)
/-- The struct `annotation`. -/
inductive annotation where
  | mk (type_index : Nat) (num_element_value_pairs : Nat)
      (element_value_pairs : List element_value_pair)
/-- The struct `element_value_pair`. -/
inductive element_value_pair where
  | mk (element_name_index : Nat) (value : element_value)
end

mutual
/-- The struct `attribute_info`: name index, length, raw payload, decoded value. -/
inductive attribute_info where
  | mk (attribute_name_index : Nat) (attribute_length : Nat) (info : List Nat)
      (value : attribute_value)
/-- The struct `attribute_value` with its sixteen variants (`ATT_*`). -/
inductive attribute_value where
  | Unknown
  | ConstantValue (constantvalue_index : Nat)
  | Code (max_stack : Nat) (max_locals : Nat) (code_length : Nat) (code : List Nat)
      (exception_table_length : Nat) (exception_table : List exception_table_entry)
      (attributes_count : Nat) (attributes : List attribute_info)
  | Exceptions (number_of_exceptions : Nat) (exception_index_table : List Nat)
  | InnerClasses (number_of_classes : Nat) (classes : List innerclasses_table_entry)
  | Synthetic
  | SourceFile (sourcefile_index : Nat)
  | LineNumberTable (line_number_table_length : Nat)
      (line_number_table : List line_number_table_entry)
  | LocalVariableTable (local_variable_table_length : Nat)
      (local_variable_table : List local_variable_table_entry)
  | Deprecated
  | RuntimeVisibleAnnotations (num_annotations : Nat) (annotations : List annotation)
  | EnclosingMethod (class_index : Nat) (method_index : Nat)
  | StackMapTable
  | Signature (signature_index : Nat)
  | LocalVariableTypeTable (local_variable_type_table_length : Nat)
      (local_variable_type_table : List local_variable_type_table_entry)
  | AnnotationDefault (default_value : element_value)
end

def attribute_info.attribute_name_index : attribute_info → Nat
  | .mk n _ _ _ => n

def attribute_info.attribute_length : attribute_info → Nat
  | .mk _ l _ _ => l

def attribute_info.info : attribute_info → List Nat
  | .mk _ _ i _ => i

def attribute_info.value : attribute_info → attribute_value
  | .mk _ _ _ v => v

/-- The struct `field_info`. -/
structure field_info where
  access_flags : Nat
  name_index : Nat
  descriptor_index : Nat
  attributes_count : Nat
  attributes : List attribute_info

/-- The struct `method_info`. -/
structure method_info where
  access_flags : Nat
  name_index : Nat
  descriptor_index : Nat
  attributes_count : Nat
  attributes : List attribute_info

/-- The struct `ClassFile`. -/
structure ClassFile where
  magic : Nat
  minor_version : Nat
  major_version : Nat
  constant_pool_count : Nat
  constant_pool : List (Option cp_info)
  access_flags : Nat
  this_class : Nat
  super_class : Nat
  interfaces_count : Nat
  interfaces : List Nat
  fields_count : Nat
  fields : List field_info
  methods_count : Nat
  methods : List method_info
  attributes_count : Nat
  attributes : List attribute_info
  constant_pool_map : List Nat

/-! ## util.c -/

/-- The bytes of a C string held in a buffer: everything before the first NUL. -/
def cstring (bytes : List Nat) : List Nat :=
  bytes.takeWhile (fun b => b != 0)

/-- The bytes of a C string literal. -/
def cbytes (s : String) : List Nat :=
  s.data.map Char.toNat

/-- The function `pUtf8`: the text of the Utf8 entry at `index`, copied with
`strncpy` into a `BUFLEN` slot, or the text `<invalidutf8>` for an entry of
another variant.  The pool is passed instead of the class file that holds it. -/
def pUtf8 (constant_pool : List (Option cp_info)) (index : Nat) : Option (List Nat) :=
  match constant_pool.get? index with
  | some (some cpi) =>
    match cpi.info with
    | .utf8_info length bytes =>
      if length < BUFLEN then some (cstring (bytes.take length)) else none
    | _ => some (cbytes "<invalidutf8>")
  | _ => none

/-- The function `reverseBytes`. -/
def reverseBytes (data : List Nat) : List Nat :=
  data.reverse

/-- The value of an unsigned integer whose bytes in memory are `mem`, on a
host that is little-endian or not. -/
def from_host (littleEndian : Bool) (mem : List Nat) : Nat :=
  (if littleEndian then mem.reverse else mem).foldl (fun acc b => acc * 256 + b) 0

/-- The bytes in memory of the unsigned integer `val` of `size` bytes, on a
host that is little-endian or not. -/
def to_host (littleEndian : Bool) (size : Nat) (val : Nat) : List Nat :=
  if littleEndian then (List.range size).map (fun k => val / 256 ^ k % 256)
  else (List.range size).reverse.map (fun k => val / 256 ^ k % 256)

/-! ## read.c

A stream (`FILE *`) and a scan pointer are the list of the bytes not yet read.
The flag `g_littleEndian` is the first argument; `testEndianism` sets it to the
byte order of the host. -/

/-- The function `read_u1`. -/
def read_u1 (fyle : List Nat) : Option (Nat × List Nat) :=
  match fyle with
  | b :: rest => some (b, rest)
  | [] => none

/-- The function `read_u1_array`.  Its parameter `length` is an `int`: a `u4` of
2^31 or more arrives negative, and the embedding does not follow such a run. -/
def read_u1_array (fyle : List Nat) (length : Nat) : Option (List Nat × List Nat) :=
  if length < 2147483648 ∧ length ≤ fyle.length then some (fyle.take length, fyle.drop length)
  else none

/-- The function `read_u2`. -/
def read_u2 (g_littleEndian : Bool) (fyle : List Nat) : Option (Nat × List Nat) :=
  match fyle with
  | b0 :: b1 :: rest =>
    some (from_host g_littleEndian
      (if g_littleEndian then reverseBytes [b0, b1] else [b0, b1]), rest)
  | _ => none

/-- The function `read_u2_array`. -/
def read_u2_array (g_littleEndian : Bool) : List Nat → Nat → Option (List Nat × List Nat)
  | fyle, 0 => some ([], fyle)
  | fyle, length + 1 =>
    match read_u2 g_littleEndian fyle with
    | none => none
    | some (v, rest) =>
      match read_u2_array g_littleEndian rest length with
      | none => none
      | some (vs, rest1) => some (v :: vs, rest1)

/-- The function `read_u4`. -/
def read_u4 (g_littleEndian : Bool) (fyle : List Nat) : Option (Nat × List Nat) :=
  match fyle with
  | b0 :: b1 :: b2 :: b3 :: rest =>
    some (from_host g_littleEndian
      (if g_littleEndian then reverseBytes [b0, b1, b2, b3] else [b0, b1, b2, b3]), rest)
  | _ => none

/-- The function `scan_u1`. -/
def scan_u1 (scanptr : List Nat) : Option (Nat × List Nat) :=
  match scanptr with
  | b :: rest => some (b, rest)
  | [] => none

/-- The function `scan_u1_array`.  Its parameter `length` is an `int`: a `u4` of
2^31 or more arrives negative, and the embedding does not follow such a run. -/
def scan_u1_array (scanptr : List Nat) (length : Nat) : Option (List Nat × List Nat) :=
  if length < 2147483648 ∧ length ≤ scanptr.length then
    some (scanptr.take length, scanptr.drop length)
  else none

/-- The function `scan_u2`. -/
def scan_u2 (g_littleEndian : Bool) (scanptr : List Nat) : Option (Nat × List Nat) :=
  match scanptr with
  | b0 :: b1 :: rest =>
    some (from_host g_littleEndian
      (if g_littleEndian then reverseBytes [b0, b1] else [b0, b1]), rest)
  | _ => none

/-- The function `scan_u2_array`. -/
def scan_u2_array (g_littleEndian : Bool) : List Nat → Nat → Option (List Nat × List Nat)
  | scanptr, 0 => some ([], scanptr)
  | scanptr, length + 1 =>
    match scan_u2 g_littleEndian scanptr with
    | none => none
    | some (v, rest) =>
      match scan_u2_array g_littleEndian rest length with
      | none => none
      | some (vs, rest1) => some (v :: vs, rest1)

/-- The function `scan_u4`. -/
def scan_u4 (g_littleEndian : Bool) (scanptr : List Nat) : Option (Nat × List Nat) :=
  match scanptr with
  | b0 :: b1 :: b2 :: b3 :: rest =>
    some (from_host g_littleEndian
      (if g_littleEndian then reverseBytes [b0, b1, b2, b3] else [b0, b1, b2, b3]), rest)
  | _ => none

/-- The function `read_cp_info`: the entry, or null for a tag that has no
`case`, and the stream behind it. -/
def read_cp_info (g_littleEndian : Bool) (fyle : List Nat) :
    Option (Option cp_info × List Nat) :=
  match read_u1 fyle with
  | none => none
  | some (tag, s) =>
    if tag = CONSTANT_Class then
      (read_u2 g_littleEndian s).map (fun r => (some ⟨0, .class_info r.1⟩, r.2))
    else if tag = CONSTANT_Fieldref then
      match read_u2 g_littleEndian s with
      | none => none
      | some (a, s1) =>
        (read_u2 g_littleEndian s1).map (fun r => (some ⟨0, .fieldref_info a r.1⟩, r.2))
    else if tag = CONSTANT_Methodref then
      match read_u2 g_littleEndian s with
      | none => none
      | some (a, s1) =>
        (read_u2 g_littleEndian s1).map (fun r => (some ⟨0, .methodref_info a r.1⟩, r.2))
    else if tag = CONSTANT_InterfaceMethodref then
      match read_u2 g_littleEndian s with
      | none => none
      | some (a, s1) =>
        (read_u2 g_littleEndian s1).map (fun r =>
          (some ⟨0, .interfaceMethodref_info a r.1⟩, r.2))
    else if tag = CONSTANT_String then
      (read_u2 g_littleEndian s).map (fun r => (some ⟨0, .string r.1⟩, r.2))
    else if tag = CONSTANT_Integer then
      (read_u4 g_littleEndian s).map (fun r => (some ⟨0, .integer r.1⟩, r.2))
    else if tag = CONSTANT_Float then
      (read_u4 g_littleEndian s).map (fun r => (some ⟨0, .float r.1⟩, r.2))
    else if tag = CONSTANT_Long then
      match read_u4 g_littleEndian s with
      | none => none
      | some (a, s1) =>
        (read_u4 g_littleEndian s1).map (fun r => (some ⟨0, .long a r.1⟩, r.2))
    else if tag = CONSTANT_Double then
      match read_u4 g_littleEndian s with
      | none => none
      | some (a, s1) =>
        (read_u4 g_littleEndian s1).map (fun r => (some ⟨0, .double a r.1⟩, r.2))
    else if tag = CONSTANT_NameAndType then
      match read_u2 g_littleEndian s with
      | none => none
      | some (a, s1) =>
        (read_u2 g_littleEndian s1).map (fun r => (some ⟨0, .nameAndType_info a r.1⟩, r.2))
    else if tag = CONSTANT_Utf8 then
      match read_u2 g_littleEndian s with
      | none => none
      | some (length, s1) =>
        (read_u1_array s1 length).map (fun r => (some ⟨0, .utf8_info length r.1⟩, r.2))
    else some (none, s)

/-- The loop of `read_constant_pool`, `for (i = 1; i < count; ++i)`; the first
argument is `count - i`.  The body reads `result[i]->tag` without a null check:
when `read_cp_info` has printed its message for a tag without a `case` and
returned null, the last branch is that dereference of the null pointer. -/
def read_constant_pool_loop (g_littleEndian : Bool) :
    Nat → List Nat → Option (List (Option cp_info) × List Nat)
  | 0, fyle => some ([], fyle)
  | r + 1, fyle =>
    match read_cp_info g_littleEndian fyle with
    | some (some cp, s) =>
      if isLong cp then
        match r with
        | 0 => none
        | r1 + 1 =>
          match read_constant_pool_loop g_littleEndian r1 s with
          | none => none
          | some (l, s1) => some (some cp :: none :: l, s1)
      else
        match read_constant_pool_loop g_littleEndian r s with
        | none => none
        | some (l, s1) => some (some cp :: l, s1)
    | _ => none

/-- The function `read_constant_pool`. -/
def read_constant_pool (g_littleEndian : Bool) (fyle : List Nat) (count : Nat) :
    Option (List (Option cp_info) × List Nat) :=
  if count = 0 then none
  else
    match read_constant_pool_loop g_littleEndian (count - 1) fyle with
    | none => none
    | some (l, s) => some (none :: l, s)

/-- The nine tags of an element value that holds one constant index. -/
def isConstTag (tag : Nat) : Bool :=
  tag = 66 || tag = 67 || tag = 68 || tag = 70 || tag = 73 || tag = 74 || tag = 83
    || tag = 115 || tag = 90

/-- A loop that scans `count` structures one after the other. -/
def scan_times {α : Type} (scan : List Nat → Option (α × List Nat)) :
    Nat → List Nat → Option (List α × List Nat)
  | 0, scanptr => some ([], scanptr)
  | count + 1, scanptr =>
    match scan scanptr with
    | none => none
    | some (a, rest) =>
      match scan_times scan count rest with
      | none => none
      | some (as, rest1) => some (a :: as, rest1)

/-- The body of the loop of `scan_annotation`: one pair. -/
def scan_element_value_pair (g_littleEndian : Bool)
    (scan_value : List Nat → Option (element_value × List Nat)) (scanptr : List Nat) :
    Option (element_value_pair × List Nat) :=
  match scan_u2 g_littleEndian scanptr with
  | none => none
  | some (element_name_index, s) =>
    (scan_value s).map (fun r => (.mk element_name_index r.1, r.2))

/-- The function `scan_annotation`, given the scanner of its element values. -/
def scan_annotation_with (g_littleEndian : Bool)
    (scan_value : List Nat → Option (element_value × List Nat)) (scanptr : List Nat) :
    Option ( annotation × List Nat) :=
  match scan_u2 g_littleEndian scanptr with
  | none => none
  | some (type_index, s) =>
    match scan_u2 g_littleEndian s with
    | none => none
    | some (num_element_value_pairs, s1) =>
      (scan_times (scan_element_value_pair g_littleEndian scan_value)
        num_element_value_pairs s1).map
        (fun r => (.mk type_index num_element_value_pairs r.1, r.2))

/-- The function `scan_element_value`.  It calls itself on a shorter part of
the buffer each time; the first argument bounds the nesting, and the length of
the buffer is enough. -/
def scan_element_value (g_littleEndian : Bool) :
    Nat → List Nat → Option (element_value × List Nat)
  | 0, _ => none
  | depth + 1, scanptr =>
    match scan_u1 scanptr with
    | none => none
    | some (tag, s) =>
      if isConstTag tag then
        (scan_u2 g_littleEndian s).map (fun r => (.const tag r.1, r.2))
      else if tag = 101 then
        match scan_u2 g_littleEndian s with
        | none => none
        | some (a, s1) => (scan_u2 g_littleEndian s1).map (fun r => (.enum_const a r.1, r.2))
      else if tag = 99 then
        (scan_u2 g_littleEndian s).map (fun r => (.class_info r.1, r.2))
      else if tag = 64 then
        (scan_annotation_with g_littleEndian (scan_element_value g_littleEndian depth) s).map
          (fun r => (.annotation_value r.1, r.2))
      else if tag = 91 then
        match scan_u2 g_littleEndian s with
        | none => none
        | some (num_values, s1) =>
          (scan_times (scan_element_value g_littleEndian depth) num_values s1).map
            (fun r => (.array num_values r.1, r.2))
      else none

/-- The function `scan_annotation`. -/
def scan_annotation (g_littleEndian : Bool) (scanptr : List Nat) :
    Option ( annotation × List Nat) :=
  scan_annotation_with g_littleEndian (scan_element_value g_littleEndian scanptr.length) scanptr

/-- The function `scan_annotations`. -/
def scan_annotations (g_littleEndian : Bool) (scanptr : List Nat) (count : Nat) :
    Option (List annotation × List Nat) :=
  scan_times (scan_annotation_with g_littleEndian
    (scan_element_value g_littleEndian scanptr.length)) count scanptr

/-- The function `scan_attribute_info`, given the decoder of attribute values. -/
def scan_attribute_info_with (g_littleEndian : Bool)
    (decode : Nat → List Nat → Option attribute_value) (scanptr : List Nat) :
    Option (attribute_info × List Nat) :=
  match scan_u2 g_littleEndian scanptr with
  | none => none
  | some (attribute_name_index, s) =>
    match scan_u4 g_littleEndian s with
    | none => none
    | some (attribute_length, s1) =>
      match scan_u1_array s1 attribute_length with
      | none => none
      | some (info, s2) =>
        (decode attribute_name_index info).map
          (fun value => (.mk attribute_name_index attribute_length info value, s2))

/-- The body of `decode_attribute_value`, given the scanner of the attributes
nested in a Code attribute: the decoded value and the scan pointer at the end. -/
def decode_scan (g_littleEndian : Bool)
    (scan_attributes : Nat → List Nat → Option (List attribute_info × List Nat))
    (constant_pool : List (Option cp_info)) (attribute_name_index : Nat) (info : List Nat) :
    Option (attribute_value × List Nat) :=
  match pUtf8 constant_pool attribute_name_index with
  | none => none
  | some name =>
    if name = cbytes "ConstantValue" then
      (scan_u2 g_littleEndian info).map (fun r => (.ConstantValue r.1, r.2))
    else if name = cbytes "Code" then
      match scan_u2 g_littleEndian info with
      | none => none
      | some (max_stack, s1) =>
      match scan_u2 g_littleEndian s1 with
      | none => none
      | some (max_locals, s2) =>
      match scan_u4 g_littleEndian s2 with
      | none => none
      | some (code_length, s3) =>
      match scan_u1_array s3 code_length with
      | none => none
      | some (code, s4) =>
      match scan_u2 g_littleEndian s4 with
      | none => none
      | some (exception_table_length, s5) =>
      match scan_times (fun s =>
          match scan_u2 g_littleEndian s with
          | none => none
          | some (start_pc, t1) =>
          match scan_u2 g_littleEndian t1 with
          | none => none
          | some (end_pc, t2) =>
          match scan_u2 g_littleEndian t2 with
          | none => none
          | some (handler_pc, t3) =>
            (scan_u2 g_littleEndian t3).map (fun r =>
              (({ start_pc := start_pc, end_pc := end_pc, handler_pc := handler_pc,
                  catch_type := r.1 } : exception_table_entry), r.2)))
          exception_table_length s5 with
      | none => none
      | some (exception_table, s6) =>
      match scan_u2 g_littleEndian s6 with
      | none => none
      | some (attributes_count, s7) =>
        (scan_attributes attributes_count s7).map (fun r =>
          (.Code max_stack max_locals code_length code exception_table_length
            exception_table attributes_count r.1, r.2))
    else if name = cbytes "Exceptions" then
      match scan_u2 g_littleEndian info with
      | none => none
      | some (number_of_exceptions, s1) =>
        (scan_u2_array g_littleEndian s1 number_of_exceptions).map (fun r =>
          (.Exceptions number_of_exceptions r.1, r.2))
    else if name = cbytes "InnerClasses" then
      match scan_u2 g_littleEndian info with
      | none => none
      | some (number_of_classes, s1) =>
        (scan_times (fun s =>
          match scan_u2 g_littleEndian s with
          | none => none
          | some (inner_class_info_index, t1) =>
          match scan_u2 g_littleEndian t1 with
          | none => none
          | some (outer_class_info_index, t2) =>
          match scan_u2 g_littleEndian t2 with
          | none => none
          | some (inner_name_index, t3) =>
            (scan_u2 g_littleEndian t3).map (fun r =>
              (({ inner_class_info_index := inner_class_info_index,
                  outer_class_info_index := outer_class_info_index,
                  inner_name_index := inner_name_index,
                  inner_class_access_flags := r.1 } : innerclasses_table_entry), r.2)))
          number_of_classes s1).map (fun r => (.InnerClasses number_of_classes r.1, r.2))
    else if name = cbytes "Synthetic" then some (.Synthetic, info)
    else if name = cbytes "SourceFile" then
      (scan_u2 g_littleEndian info).map (fun r => (.SourceFile r.1, r.2))
    else if name = cbytes "LineNumberTable" then
      match scan_u2 g_littleEndian info with
      | none => none
      | some (line_number_table_length, s1) =>
        (scan_times (fun s =>
          match scan_u2 g_littleEndian s with
          | none => none
          | some (start_pc, t1) =>
            (scan_u2 g_littleEndian t1).map (fun r =>
              (({ start_pc := start_pc, line_number := r.1 } : line_number_table_entry), r.2)))
          line_number_table_length s1).map (fun r =>
            (.LineNumberTable line_number_table_length r.1, r.2))
    else if name = cbytes "LocalVariableTable" then
      match scan_u2 g_littleEndian info with
      | none => none
      | some (local_variable_table_length, s1) =>
        (scan_times (fun s =>
          match scan_u2 g_littleEndian s with
          | none => none
          | some (start_pc, t1) =>
          match scan_u2 g_littleEndian t1 with
          | none => none
          | some (length, t2) =>
          match scan_u2 g_littleEndian t2 with
          | none => none
          | some (name_index, t3) =>
          match scan_u2 g_littleEndian t3 with
          | none => none
          | some (descriptor_index, t4) =>
            (scan_u2 g_littleEndian t4).map (fun r =>
              (({ start_pc := start_pc, length := length, name_index := name_index,
                  descriptor_index := descriptor_index, index := r.1 }
                  : local_variable_table_entry), r.2)))
          local_variable_table_length s1).map (fun r =>
            (.LocalVariableTable local_variable_table_length r.1, r.2))
    else if name = cbytes "Deprecated" then some (.Deprecated, info)
    else if name = cbytes "RuntimeVisibleAnnotations" then
      match scan_u2 g_littleEndian info with
      | none => none
      | some (num_annotations, s1) =>
        (scan_annotations g_littleEndian s1 num_annotations).map (fun r =>
          (.RuntimeVisibleAnnotations num_annotations r.1, r.2))
    else if name = cbytes "EnclosingMethod" then
      match scan_u2 g_littleEndian info with
      | none => none
      | some (class_index, s1) =>
        (scan_u2 g_littleEndian s1).map (fun r => (.EnclosingMethod class_index r.1, r.2))
    else if name = cbytes "StackMapTable" then some (.StackMapTable, info)
    else if name = cbytes "Signature" then
      (scan_u2 g_littleEndian info).map (fun r => (.Signature r.1, r.2))
    else if name = cbytes "LocalVariableTypeTable" then
      match scan_u2 g_littleEndian info with
      | none => none
      | some (local_variable_type_table_length, s1) =>
        (scan_times (fun s =>
          match scan_u2 g_littleEndian s with
          | none => none
          | some (start_pc, t1) =>
          match scan_u2 g_littleEndian t1 with
          | none => none
          | some (length, t2) =>
          match scan_u2 g_littleEndian t2 with
          | none => none
          | some (name_index, t3) =>
          match scan_u2 g_littleEndian t3 with
          | none => none
          | some (signature_index, t4) =>
            (scan_u2 g_littleEndian t4).map (fun r =>
              (({ start_pc := start_pc, length := length, name_index := name_index,
                  signature_index := signature_index, index := r.1 }
                  : local_variable_type_table_entry), r.2)))
          local_variable_type_table_length s1).map (fun r =>
            (.LocalVariableTypeTable local_variable_type_table_length r.1, r.2))
    else if name = cbytes "AnnotationDefault" then
      (scan_element_value g_littleEndian info.length info).map (fun r =>
        (.AnnotationDefault r.1, r.2))
    else some (.Unknown, info)

/-- The function `decode_attribute_value` with the scan pointer at its end.
Decoding a Code attribute decodes the attributes nested in it, whose payloads
are shorter; the first argument bounds the nesting, and the length of the
payload is enough. -/
def decode_attribute_scan (g_littleEndian : Bool) (constant_pool : List (Option cp_info)) :
    Nat → Nat → List Nat → Option (attribute_value × List Nat)
  | 0, attribute_name_index, info =>
    decode_scan g_littleEndian
      (fun count s => if count = 0 then some ([], s) else none)
      constant_pool attribute_name_index info
  | depth + 1, attribute_name_index, info =>
    decode_scan g_littleEndian
      (scan_times (scan_attribute_info_with g_littleEndian
        (fun n i => (decode_attribute_scan g_littleEndian constant_pool depth n i).map Prod.fst)))
      constant_pool attribute_name_index info

/-- The function `decode_attribute_value`. -/
def decode_attribute_value (g_littleEndian : Bool) (constant_pool : List (Option cp_info))
    (attribute_name_index : Nat) (info : List Nat) : Option attribute_value :=
  (decode_attribute_scan g_littleEndian constant_pool info.length attribute_name_index info).map
    Prod.fst

/-- The function `scan_attribute_info`. -/
def scan_attribute_info (g_littleEndian : Bool) (constant_pool : List (Option cp_info))
    (scanptr : List Nat) : Option (attribute_info × List Nat) :=
  scan_attribute_info_with g_littleEndian
    (decode_attribute_value g_littleEndian constant_pool) scanptr

/-- The function `read_attribute_info`. -/
def read_attribute_info (g_littleEndian : Bool) (constant_pool : List (Option cp_info))
    (fyle : List Nat) : Option (attribute_info × List Nat) :=
  match read_u2 g_littleEndian fyle with
  | none => none
  | some (attribute_name_index, s) =>
    match read_u4 g_littleEndian s with
    | none => none
    | some (attribute_length, s1) =>
      match read_u1_array s1 attribute_length with
      | none => none
      | some (info, s2) =>
        (decode_attribute_value g_littleEndian constant_pool attribute_name_index info).map
          (fun value => (.mk attribute_name_index attribute_length info value, s2))

/-- The function `read_attributes`. -/
def read_attributes (g_littleEndian : Bool) (constant_pool : List (Option cp_info))
    (fyle : List Nat) (count : Nat) : Option (List attribute_info × List Nat) :=
  scan_times (read_attribute_info g_littleEndian constant_pool) count fyle

/-- The function `read_field_info`. -/
def read_field_info (g_littleEndian : Bool) (constant_pool : List (Option cp_info))
    (fyle : List Nat) : Option (field_info × List Nat) :=
  match read_u2 g_littleEndian fyle with
  | none => none
  | some (access_flags, s1) =>
  match read_u2 g_littleEndian s1 with
  | none => none
  | some (name_index, s2) =>
  match read_u2 g_littleEndian s2 with
  | none => none
  | some (descriptor_index, s3) =>
  match read_u2 g_littleEndian s3 with
  | none => none
  | some (attributes_count, s4) =>
    (read_attributes g_littleEndian constant_pool s4 attributes_count).map (fun r =>
      ({ access_flags := access_flags, name_index := name_index,
         descriptor_index := descriptor_index, attributes_count := attributes_count,
         attributes := r.1 }, r.2))

/-- The function `read_fields`. -/
def read_fields (g_littleEndian : Bool) (constant_pool : List (Option cp_info))
    (fyle : List Nat) (count : Nat) : Option (List field_info × List Nat) :=
  scan_times (read_field_info g_littleEndian constant_pool) count fyle

/-- The function `read_method_info`. -/
def read_method_info (g_littleEndian : Bool) (constant_pool : List (Option cp_info))
    (fyle : List Nat) : Option (method_info × List Nat) :=
  match read_u2 g_littleEndian fyle with
  | none => none
  | some (access_flags, s1) =>
  match read_u2 g_littleEndian s1 with
  | none => none
  | some (name_index, s2) =>
  match read_u2 g_littleEndian s2 with
  | none => none
  | some (descriptor_index, s3) =>
  match read_u2 g_littleEndian s3 with
  | none => none
  | some (attributes_count, s4) =>
    (read_attributes g_littleEndian constant_pool s4 attributes_count).map (fun r =>
      ({ access_flags := access_flags, name_index := name_index,
         descriptor_index := descriptor_index, attributes_count := attributes_count,
         attributes := r.1 }, r.2))

/-- The function `read_methods`. -/
def read_methods (g_littleEndian : Bool) (constant_pool : List (Option cp_info))
    (fyle : List Nat) (count : Nat) : Option (List method_info × List Nat) :=
  scan_times (read_method_info g_littleEndian constant_pool) count fyle

/-- The function `read_ClassFile`: the class file and what is left of the
stream.  The field `constant_pool_map` is not set by the reader.  The function
has no failure return: `none` is a run that the embedding does not follow, a
read past the end of the stream or the dereference of a null pointer, and not
a result that the caller could test. -/
def read_ClassFile (g_littleEndian : Bool) (fyle : List Nat) : Option (ClassFile × List Nat) :=
  match read_u4 g_littleEndian fyle with
  | none => none
  | some (magic, s1) =>
  match read_u2 g_littleEndian s1 with
  | none => none
  | some (minor_version, s2) =>
  match read_u2 g_littleEndian s2 with
  | none => none
  | some (major_version, s3) =>
  match read_u2 g_littleEndian s3 with
  | none => none
  | some (constant_pool_count, s4) =>
  match read_constant_pool g_littleEndian s4 constant_pool_count with
  | none => none
  | some (constant_pool, s5) =>
  match read_u2 g_littleEndian s5 with
  | none => none
  | some (access_flags, s6) =>
  match read_u2 g_littleEndian s6 with
  | none => none
  | some (this_class, s7) =>
  match read_u2 g_littleEndian s7 with
  | none => none
  | some (super_class, s8) =>
  match read_u2 g_littleEndian s8 with
  | none => none
  | some (interfaces_count, s9) =>
  match read_u2_array g_littleEndian s9 interfaces_count with
  | none => none
  | some (interfaces, s10) =>
  match read_u2 g_littleEndian s10 with
  | none => none
  | some (fields_count, s11) =>
  match read_fields g_littleEndian constant_pool s11 fields_count with
  | none => none
  | some (fields, s12) =>
  match read_u2 g_littleEndian s12 with
  | none => none
  | some (methods_count, s13) =>
  match read_methods g_littleEndian constant_pool s13 methods_count with
  | none => none
  | some (methods, s14) =>
  match read_u2 g_littleEndian s14 with
  | none => none
  | some (attributes_count, s15) =>
    (read_attributes g_littleEndian constant_pool s15 attributes_count).map (fun r =>
      ({ magic := magic, minor_version := minor_version, major_version := major_version,
         constant_pool_count := constant_pool_count, constant_pool := constant_pool,
         access_flags := access_flags, this_class := this_class, super_class := super_class,
         interfaces_count := interfaces_count, interfaces := interfaces,
         fields_count := fields_count, fields := fields,
         methods_count := methods_count, methods := methods,
         attributes_count := attributes_count, attributes := r.1,
         constant_pool_map := [] }, r.2))

/-! ## write.c

An output stream and an emit buffer are the list of the bytes written. -/

/-- The function `write_u1`. -/
def write_u1 (val : Nat) : List Nat :=
  [val % 256]

/-- The function `write_u1_array`.  It is called with the `u2` length of a Utf8
entry and with the length of a payload built in the buffer of
`encode_attribute_value`. -/
def write_u1_array (length : Nat) (array : List Nat) : List Nat :=
  array.take length

/-- The function `write_u2`. -/
def write_u2 (g_littleEndian : Bool) (val : Nat) : List Nat :=
  if g_littleEndian then reverseBytes (to_host g_littleEndian 2 val)
  else to_host g_littleEndian 2 val

/-- The function `write_u2_array`: the bytes written. -/
def write_u2_array (g_littleEndian : Bool) (length : Nat) (array : List Nat) : List Nat :=
  (array.take length).flatMap (fun val =>
    if g_littleEndian then reverseBytes (to_host g_littleEndian 2 val)
    else to_host g_littleEndian 2 val)

/-- The function `write_u4`. -/
def write_u4 (g_littleEndian : Bool) (val : Nat) : List Nat :=
  if g_littleEndian then reverseBytes (to_host g_littleEndian 4 val)
  else to_host g_littleEndian 4 val

/-- The function `emit_u1`. -/
def emit_u1 (val : Nat) : List Nat :=
  [val % 256]

/-- The function `emit_u1_array`.  Its parameter `length` is an `int`: for a `u4`
of 2^31 or more it is negative and the loop of `emitBytes` emits nothing. -/
def emit_u1_array (length : Nat) (val : List Nat) : List Nat :=
  if length < 2147483648 then val.take length else []

/-- The function `emit_u2`. -/
def emit_u2 (g_littleEndian : Bool) (val : Nat) : List Nat :=
  if g_littleEndian then reverseBytes (to_host g_littleEndian 2 val)
  else to_host g_littleEndian 2 val

/-- The function `emit_u2_array`: the bytes emitted. -/
def emit_u2_array (g_littleEndian : Bool) (length : Nat) (val : List Nat) : List Nat :=
  (val.take length).flatMap (fun v =>
    if g_littleEndian then reverseBytes (to_host g_littleEndian 2 v)
    else to_host g_littleEndian 2 v)

/-- The function `emit_u4`. -/
def emit_u4 (g_littleEndian : Bool) (val : Nat) : List Nat :=
  if g_littleEndian then reverseBytes (to_host g_littleEndian 4 val)
  else to_host g_littleEndian 4 val

/-- The function `write_cp_info`. -/
def write_cp_info (g_littleEndian : Bool) (cpi : cp_info) : List Nat :=
  write_u1 cpi.tag ++
    match cpi.info with
    | .class_info name_index => write_u2 g_littleEndian name_index
    | .fieldref_info class_index name_and_type_index =>
      write_u2 g_littleEndian class_index ++ write_u2 g_littleEndian name_and_type_index
    | .methodref_info class_index name_and_type_index =>
      write_u2 g_littleEndian class_index ++ write_u2 g_littleEndian name_and_type_index
    | .interfaceMethodref_info class_index name_and_type_index =>
      write_u2 g_littleEndian class_index ++ write_u2 g_littleEndian name_and_type_index
    | .string string_index => write_u2 g_littleEndian string_index
    | .integer bytes => write_u4 g_littleEndian bytes
    | .float bytes => write_u4 g_littleEndian bytes
    | .long high_bytes low_bytes =>
      write_u4 g_littleEndian high_bytes ++ write_u4 g_littleEndian low_bytes
    | .double high_bytes low_bytes =>
      write_u4 g_littleEndian high_bytes ++ write_u4 g_littleEndian low_bytes
    | .nameAndType_info name_index descriptor_index =>
      write_u2 g_littleEndian name_index ++ write_u2 g_littleEndian descriptor_index
    | .utf8_info length bytes => write_u2 g_littleEndian length ++ write_u1_array length bytes

/-- The loop of `write_constant_pool`, `for (i = 1; i < count; ++i)`; the first
argument is `count - i`. -/
def write_constant_pool_loop (g_littleEndian : Bool) :
    Nat → Nat → List (Option cp_info) → Option (List Nat)
  | 0, _, _ => some []
  | r + 1, i, pool =>
    match pool.get? i with
    | some (some cp) =>
      if isLong cp then
        match r with
        | 0 => some (write_cp_info g_littleEndian cp)
        | r1 + 1 =>
          (write_constant_pool_loop g_littleEndian r1 (i + 2) pool).map
            (fun out => write_cp_info g_littleEndian cp ++ out)
      else
        (write_constant_pool_loop g_littleEndian r (i + 1) pool).map
          (fun out => write_cp_info g_littleEndian cp ++ out)
    | _ => none

/-- The function `write_constant_pool`. -/
def write_constant_pool (g_littleEndian : Bool) (count : Nat) (pool : List (Option cp_info)) :
    Option (List Nat) :=
  match pool with
  | [] => none
  | _ :: rest => write_constant_pool_loop g_littleEndian (count - 1) 1 (none :: rest)

mutual
/-- The function `emit_element_value`. -/
def emit_element_value (g_littleEndian : Bool) : element_value → List Nat
  | .const tag const_value_index =>
    emit_u1 tag ++ (if isConstTag tag then emit_u2 g_littleEndian const_value_index else [])
  | .enum_const type_name_index const_name_index =>
    emit_u1 101 ++ emit_u2 g_littleEndian type_name_index
      ++ emit_u2 g_littleEndian const_name_index
  | .class_info class_info_index => emit_u1 99 ++ emit_u2 g_littleEndian class_info_index
  | .annotation_value value => emit_u1 64 ++ emit_annotation g_littleEndian value
  | .array num_values values =>
    emit_u1 91 ++ emit_u2 g_littleEndian num_values
      ++ emit_element_values g_littleEndian values
/-- The loop of `emit_element_value` over the values of an array. -/
def emit_element_values (g_littleEndian : Bool) : List element_value → List Nat
  | [] => []
  | v :: rest => emit_element_value g_littleEndian v ++ emit_element_values g_littleEndian rest
/-- The function `emit_annotation`. -/
def emit_annotation (g_littleEndian : Bool) : annotation → List Nat
  | .mk type_index num_element_value_pairs element_value_pairs =>
    emit_u2 g_littleEndian type_index ++ emit_u2 g_littleEndian num_element_value_pairs
      ++ emit_element_value_pairs g_littleEndian element_value_pairs
/-- The loop of `emit_annotation` over the pairs. -/
def emit_element_value_pairs (g_littleEndian : Bool) : List element_value_pair → List Nat
  | [] => []
  | .mk element_name_index value :: rest =>
    emit_u2 g_littleEndian element_name_index ++ emit_element_value g_littleEndian value
      ++ emit_element_value_pairs g_littleEndian rest
end

/-- The function `emit_annotations`. -/
def emit_annotations (g_littleEndian : Bool) : List annotation → List Nat
  | [] => []
  | a :: rest => emit_annotation g_littleEndian a ++ emit_annotations g_littleEndian rest

/-- What `emit_attribute_info` puts into the buffer: name index, length and the
raw payload. -/
def emit_raw (g_littleEndian : Bool) (att : attribute_info) : List Nat :=
  emit_u2 g_littleEndian att.attribute_name_index
    ++ emit_u4 g_littleEndian att.attribute_length
    ++ emit_u1_array att.attribute_length att.info

mutual
/-- The function `encode_attribute_value`: the new payload, which becomes the
`info` of the attribute, its length the `attribute_length`.  The payload is
built in `u1 buf[65000]`. -/
def encode_attribute_value (g_littleEndian : Bool) : attribute_info → Option (List Nat)
  | .mk _ attribute_length info value =>
    match encode_switch g_littleEndian attribute_length info value with
    | none => none
    | some buf => if buf.length ≤ 65000 then some buf else none
/-- The `switch` of `encode_attribute_value`: the bytes emitted. -/
def encode_switch (g_littleEndian : Bool) (attribute_length : Nat) (info : List Nat) :
    attribute_value → Option (List Nat)
  | .ConstantValue constantvalue_index => some (emit_u2 g_littleEndian constantvalue_index)
  | .Code max_stack max_locals code_length code exception_table_length exception_table
      attributes_count attributes =>
    match emit_attributes g_littleEndian attributes with
    | none => none
    | some nested =>
      some (emit_u2 g_littleEndian max_stack ++ emit_u2 g_littleEndian max_locals
        ++ emit_u4 g_littleEndian code_length ++ emit_u1_array code_length code
        ++ emit_u2 g_littleEndian exception_table_length
        ++ (exception_table.take exception_table_length).flatMap (fun e =>
            emit_u2 g_littleEndian e.start_pc ++ emit_u2 g_littleEndian e.end_pc
              ++ emit_u2 g_littleEndian e.handler_pc ++ emit_u2 g_littleEndian e.catch_type)
        ++ emit_u2 g_littleEndian attributes_count ++ nested)
  | .Exceptions number_of_exceptions exception_index_table =>
    some (emit_u2 g_littleEndian number_of_exceptions
      ++ emit_u2_array g_littleEndian number_of_exceptions exception_index_table)
  | .InnerClasses number_of_classes classes =>
    some (emit_u2 g_littleEndian number_of_classes
      ++ classes.flatMap (fun e =>
          emit_u2 g_littleEndian e.inner_class_info_index
            ++ emit_u2 g_littleEndian e.outer_class_info_index
            ++ emit_u2 g_littleEndian e.inner_name_index
            ++ emit_u2 g_littleEndian e.inner_class_access_flags))
  | .Synthetic => some []
  | .SourceFile sourcefile_index => some (emit_u2 g_littleEndian sourcefile_index)
  | .LineNumberTable line_number_table_length line_number_table =>
    some (emit_u2 g_littleEndian line_number_table_length
      ++ line_number_table.flatMap (fun e =>
          emit_u2 g_littleEndian e.start_pc ++ emit_u2 g_littleEndian e.line_number))
  | .LocalVariableTable local_variable_table_length local_variable_table =>
    some (emit_u2 g_littleEndian local_variable_table_length
      ++ local_variable_table.flatMap (fun e =>
          emit_u2 g_littleEndian e.start_pc ++ emit_u2 g_littleEndian e.length
            ++ emit_u2 g_littleEndian e.name_index ++ emit_u2 g_littleEndian e.descriptor_index
            ++ emit_u2 g_littleEndian e.index))
  | .Deprecated => some []
  | .RuntimeVisibleAnnotations num_annotations annotations =>
    some (emit_u2 g_littleEndian num_annotations ++ emit_annotations g_littleEndian annotations)
  | .EnclosingMethod class_index method_index =>
    some (emit_u2 g_littleEndian class_index ++ emit_u2 g_littleEndian method_index)
  | .StackMapTable => some (emit_u1_array attribute_length info)
  | .Signature signature_index => some (emit_u2 g_littleEndian signature_index)
  | .LocalVariableTypeTable local_variable_type_table_length local_variable_type_table =>
    some (emit_u2 g_littleEndian local_variable_type_table_length
      ++ local_variable_type_table.flatMap (fun e =>
          emit_u2 g_littleEndian e.start_pc ++ emit_u2 g_littleEndian e.length
            ++ emit_u2 g_littleEndian e.name_index ++ emit_u2 g_littleEndian e.signature_index
            ++ emit_u2 g_littleEndian e.index))
  | .AnnotationDefault default_value => some (emit_element_value g_littleEndian default_value)
  | .Unknown => some (emit_u1_array attribute_length info)
/-- The function `emit_attributes`: for each attribute, what `emit_attribute_info`
emits; the call of `encode_attribute_value` that follows the emission changes
the attribute, not the buffer. -/
def emit_attributes (g_littleEndian : Bool) : List attribute_info → Option (List Nat)
  | [] => some []
  | att :: rest =>
    match encode_attribute_value g_littleEndian att with
    | none => none
    | some _ =>
      match emit_attributes g_littleEndian rest with
      | none => none
      | some out => some (emit_raw g_littleEndian att ++ out)
end

/-- The function `emit_attribute_info`: the bytes emitted. -/
def emit_attribute_info (g_littleEndian : Bool) (att : attribute_info) : Option (List Nat) :=
  match encode_attribute_value g_littleEndian att with
  | none => none
  | some _ => some (emit_raw g_littleEndian att)

/-- The function `write_attribute_info`: the bytes written. -/
def write_attribute_info (g_littleEndian : Bool) (ai : attribute_info) : Option (List Nat) :=
  match encode_attribute_value g_littleEndian ai with
  | none => none
  | some info =>
    some (write_u2 g_littleEndian ai.attribute_name_index
      ++ write_u4 g_littleEndian info.length ++ write_u1_array info.length info)

/-- A loop that writes every element of an array. -/
def write_each {α : Type} (write : α → Option (List Nat)) : List α → Option (List Nat)
  | [] => some []
  | a :: rest =>
    match write a with
    | none => none
    | some out =>
      match write_each write rest with
      | none => none
      | some out1 => some (out ++ out1)

/-- The function `write_attributes`. -/
def write_attributes (g_littleEndian : Bool) (atts : List attribute_info) : Option (List Nat) :=
  write_each (write_attribute_info g_littleEndian) atts

/-- The function `write_field_info`. -/
def write_field_info (g_littleEndian : Bool) (fi : field_info) : Option (List Nat) :=
  (write_attributes g_littleEndian fi.attributes).map (fun out =>
    write_u2 g_littleEndian fi.access_flags ++ write_u2 g_littleEndian fi.name_index
      ++ write_u2 g_littleEndian fi.descriptor_index
      ++ write_u2 g_littleEndian fi.attributes_count ++ out)

/-- The function `write_fields`. -/
def write_fields (g_littleEndian : Bool) (fields : List field_info) : Option (List Nat) :=
  write_each (write_field_info g_littleEndian) fields

/-- The function `write_method_info`. -/
def write_method_info (g_littleEndian : Bool) (mi : method_info) : Option (List Nat) :=
  (write_attributes g_littleEndian mi.attributes).map (fun out =>
    write_u2 g_littleEndian mi.access_flags ++ write_u2 g_littleEndian mi.name_index
      ++ write_u2 g_littleEndian mi.descriptor_index
      ++ write_u2 g_littleEndian mi.attributes_count ++ out)

/-- The function `write_methods`. -/
def write_methods (g_littleEndian : Bool) (methods : List method_info) : Option (List Nat) :=
  write_each (write_method_info g_littleEndian) methods

/-- The function `write_ClassFile`: the bytes written. -/
def write_ClassFile (g_littleEndian : Bool) (cf : ClassFile) : Option (List Nat) :=
  match write_constant_pool g_littleEndian cf.constant_pool_count cf.constant_pool with
  | none => none
  | some pool =>
  match write_fields g_littleEndian cf.fields with
  | none => none
  | some fields =>
  match write_methods g_littleEndian cf.methods with
  | none => none
  | some methods =>
  match write_attributes g_littleEndian cf.attributes with
  | none => none
  | some attributes =>
    some (write_u4 g_littleEndian cf.magic ++ write_u2 g_littleEndian cf.minor_version
      ++ write_u2 g_littleEndian cf.major_version
      ++ write_u2 g_littleEndian cf.constant_pool_count ++ pool
      ++ write_u2 g_littleEndian cf.access_flags ++ write_u2 g_littleEndian cf.this_class
      ++ write_u2 g_littleEndian cf.super_class
      ++ write_u2 g_littleEndian cf.interfaces_count
      ++ write_u2_array g_littleEndian cf.interfaces_count cf.interfaces
      ++ write_u2 g_littleEndian cf.fields_count ++ fields
      ++ write_u2 g_littleEndian cf.methods_count ++ methods
      ++ write_u2 g_littleEndian cf.attributes_count ++ attributes)

/-! ## prune.c -/

/-- The second loop of every pruning pass: move the entries that are not null
to the front, counting them in `newIdx`. -/
def repack_loop {α : Type} : List (Option α) → List α → Nat → List α × Nat
  | [], out, newIdx => (out, newIdx)
  | none :: rest, out, newIdx => repack_loop rest out newIdx
  | some a :: rest, out, newIdx => repack_loop rest (out ++ [a]) (newIdx + 1)

/-- The repacked array and the new count. -/
def repack {α : Type} (xs : List (Option α)) : List α × Nat :=
  repack_loop xs [] 0

/-- The function `prune_code`: the new `code` and `code_length`. -/
def prune_code (returnType : Nat) (code : List Nat) (code_length : Nat) : List Nat × Nat :=
  let r : List Nat × Nat :=
    match returnType with
    | 86 => ([0xb1], 1)
    | 66 => ([0x03, 0xac], 2)
    | 67 => ([0x03, 0xac], 2)
    | 73 => ([0x03, 0xac], 2)
    | 83 => ([0x03, 0xac], 2)
    | 90 => ([0x03, 0xac], 2)
    | 68 => ([0x0e, 0xaf], 2)
    | 70 => ([0x0b, 0xae], 2)
    | 74 => ([0x09, 0xad], 2)
    | 91 => ([0x01, 0xb0], 2)
    | 76 => ([0x01, 0xb0], 2)
    | _ => (code, code_length)
  (r.1.take r.2, r.2)

/-- The character that `index(descriptor, ')') + 1` points at; `none` when the
descriptor has no closing parenthesis (the pointer is then `NULL + 1`). -/
def returnTypeCode (descriptor : List Nat) : Option Nat :=
  match descriptor.dropWhile (fun b => b != 41) with
  | [] => none
  | _ :: rest => some (rest.headD 0)

mutual
/-- The function `prune_attribute_info`: whether the attribute is to be dropped,
and the attribute after the call. -/
def prune_attribute_info (constant_pool : List (Option cp_info)) :
    attribute_info → Option method_info → Option (Bool × attribute_info)
  | .mk n l i v, mi =>
    match v with
    | .Unknown => some (false, .mk n l i v)
    | .ConstantValue _ => some (false, .mk n l i v)
    | .Code max_stack max_locals code_length code _ exception_table _ attributes =>
      match mi with
      | none => none
      | some m =>
        match pUtf8 constant_pool m.descriptor_index with
        | none => none
        | some descriptor =>
          match returnTypeCode descriptor with
          | none => none
          | some c =>
            match prune_attributes constant_pool attributes none with
            | none => none
            | some marked =>
              some (false, .mk n l i
                (.Code max_stack max_locals (prune_code c code code_length).2
                  (prune_code c code code_length).1 0 exception_table
                  (repack marked).2 (repack marked).1))
    | .Exceptions _ _ => some (false, .mk n l i v)
    | .InnerClasses _ _ => some (false, .mk n l i v)
    | .Synthetic => some (false, .mk n l i v)
    | .SourceFile _ => some (true, .mk n l i v)
    | .LineNumberTable _ _ => some (true, .mk n l i v)
    | .LocalVariableTable _ _ => some (true, .mk n l i v)
    | .Deprecated => some (false, .mk n l i v)
    | .RuntimeVisibleAnnotations _ _ => some (false, .mk n l i v)
    | .EnclosingMethod _ _ => some (false, .mk n l i v)
    | .StackMapTable => some (true, .mk n l i v)
    | .Signature _ => some (false, .mk n l i v)
    | .LocalVariableTypeTable _ _ => some (true, .mk n l i v)
    | .AnnotationDefault _ => some (false, .mk n l i v)
/-- The first loop of a pruning pass over an attribute array: each attribute is
pruned and replaced by null when it is to be dropped. -/
def prune_attributes (constant_pool : List (Option cp_info)) :
    List attribute_info → Option method_info → Option (List (Option attribute_info))
  | [], _ => some []
  | a :: rest, mi =>
    match prune_attribute_info constant_pool a mi with
    | none => none
    | some (drop, a1) =>
      match prune_attributes constant_pool rest mi with
      | none => none
      | some marked => some ((if drop then none else some a1) :: marked)
end

/-- The function `prune_field_info`. -/
def prune_field_info (cf : ClassFile) (fi : field_info) : Option (Bool × field_info) :=
  if fi.access_flags &&& (ACC_PUBLIC ||| ACC_PROTECTED) ≠ 0 then
    match prune_attributes cf.constant_pool fi.attributes none with
    | none => none
    | some marked =>
      some (false, { fi with attributes := (repack marked).1,
                             attributes_count := (repack marked).2 })
  else
    some (true, fi)

/-- The function `prune_method_info`. -/
def prune_method_info (cf : ClassFile) (mi : method_info) : Option (Bool × method_info) :=
  if mi.access_flags &&& (ACC_PUBLIC ||| ACC_PROTECTED) ≠ 0 then
    match prune_attributes cf.constant_pool mi.attributes (some mi) with
    | none => none
    | some marked =>
      some (false, { mi with attributes := (repack marked).1,
                             attributes_count := (repack marked).2 })
  else
    some (true, mi)

/-- The first loop of `prune_ClassFile` over the fields. -/
def prune_fields (cf : ClassFile) : List field_info → Option (List (Option field_info))
  | [] => some []
  | fi :: rest =>
    match prune_field_info cf fi with
    | none => none
    | some (drop, fi1) =>
      match prune_fields cf rest with
      | none => none
      | some marked => some ((if drop then none else some fi1) :: marked)

/-- The first loop of `prune_ClassFile` over the methods. -/
def prune_methods (cf : ClassFile) : List method_info → Option (List (Option method_info))
  | [] => some []
  | mi :: rest =>
    match prune_method_info cf mi with
    | none => none
    | some (drop, mi1) =>
      match prune_methods cf rest with
      | none => none
      | some marked => some ((if drop then none else some mi1) :: marked)

/-- The function `prune_ClassFile`. -/
def prune_ClassFile (cf : ClassFile) : Option ClassFile :=
  match prune_fields cf cf.fields with
  | none => none
  | some fields =>
    match prune_methods cf cf.methods with
    | none => none
    | some methods =>
      match prune_attributes cf.constant_pool cf.attributes none with
      | none => none
      | some attributes =>
        some { cf with
          fields := (repack fields).1, fields_count := (repack fields).2,
          methods := (repack methods).1, methods_count := (repack methods).2,
          attributes := (repack attributes).1, attributes_count := (repack attributes).2 }

/-! ## code.c -/

/-- The function `argb`: the byte at `g_pc` and the cursor behind it. -/
def argb (g_code : List Nat) (g_pc : Nat) : Option (Nat × Nat) :=
  match g_code.get? g_pc with
  | some b => some (b, g_pc + 1)
  | none => none

/-- The function `argw`: `(hi << 8) | lo`. -/
def argw (g_code : List Nat) (g_pc : Nat) : Option (Nat × Nat) :=
  match argb g_code g_pc with
  | none => none
  | some (hi, pc1) =>
    match argb g_code pc1 with
    | none => none
    | some (lo, pc2) => some ((hi <<< 8) ||| lo, pc2)

/-- A 32-bit pattern read as the C `int` it is. -/
def toInt32 (v : Nat) : Int :=
  if v % 2 ^ 32 < 2 ^ 31 then (v % 2 ^ 32 : Nat) else (v % 2 ^ 32 : Nat) - 2 ^ 32

/-- The function `argl`: `(b4 << 24) | (b3 << 8) | (b2 << 8) | b1`. -/
def argl (g_code : List Nat) (g_pc : Nat) : Option (Int × Nat) :=
  match argb g_code g_pc with
  | none => none
  | some (b4, pc1) =>
    match argb g_code pc1 with
    | none => none
    | some (b3, pc2) =>
      match argb g_code pc2 with
      | none => none
      | some (b2, pc3) =>
        match argb g_code pc3 with
        | none => none
        | some (b1, pc4) =>
          some (toInt32 ((b4 <<< 24) ||| (b3 <<< 8) ||| (b2 <<< 8) ||| b1), pc4)

/-! ## refct.c -/

/-- The handlers that the `switch` of `refct_code` dispatches to; `no_case` is
a byte that has no `case`. -/
inductive rop where
  | rop_0 | rop_1b | rop_1bc | rop_1w | rop_1wc | rop_1l | rop_2bb | rop_2wcb
  | rop_3wcbx | rop_lookupswitch | rop_tableswitch | rop_wide | no_case
  deriving DecidableEq, Repr

/-- The handlers that the `switch` of `rop_wide` dispatches to; `illegal` is its
`default`. -/
inductive wide_rop where
  | rop_1w | rop_2ww | illegal
  deriving DecidableEq, Repr

/-- The two `switch` statements over opcodes, as tables from the opcode byte to
the handler.  The numbers of the `OP_*` names are in `code.h`, which is not
among the sources, so the tables are a parameter. -/
structure code_h where
  refct_code_switch : Nat → rop
  rop_wide_switch : Nat → wide_rop

/-- The numbers that the comments of `prune_code` give, for the opcodes of its
stubs; `refct_code` sends every one of them to `rop_0`. -/
def stub_opcodes : code_h :=
  { refct_code_switch := fun op =>
      if op = 0xb1 ∨ op = 0x03 ∨ op = 0xac ∨ op = 0x0e ∨ op = 0xaf ∨ op = 0x0b ∨ op = 0xae
          ∨ op = 0x09 ∨ op = 0xad ∨ op = 0x01 ∨ op = 0xb0 then rop.rop_0
      else rop.no_case,
    rop_wide_switch := fun _ => wide_rop.illegal }

/-- The function `ref`: one more reference to the entry at `idx`.  The count
is an `int`, and `refCount++` on the largest `int` overflows. -/
def ref (pool : List (Option cp_info)) (idx : Nat) : Option (List (Option cp_info)) :=
  match pool.get? idx with
  | some (some cp) =>
    if cp.refCount + 1 < 2147483648 then
      some (pool.set idx (some { cp with refCount := cp.refCount + 1 }))
    else none
  | _ => none

/-- A loop that calls a marking function on every element of an array. -/
def refct_each {α : Type} (f : α → List (Option cp_info) → Option (List (Option cp_info))) :
    List α → List (Option cp_info) → Option (List (Option cp_info))
  | [], pool => some pool
  | a :: rest, pool =>
    match f a pool with
    | none => none
    | some pool1 => refct_each f rest pool1

/-- One marking step after another. -/
def andThen (r : Option (List (Option cp_info)))
    (f : List (Option cp_info) → Option (List (Option cp_info))) :
    Option (List (Option cp_info)) :=
  match r with
  | none => none
  | some pool => f pool

/-- The function `refct_cp_info`. -/
def refct_cp_info (cp : Option cp_info) (pool : List (Option cp_info)) :
    Option (List (Option cp_info)) :=
  match cp with
  | none => some pool
  | some c =>
    match c.info with
    | .class_info name_index => ref pool name_index
    | .fieldref_info class_index name_and_type_index =>
      andThen (ref pool class_index) (fun p => ref p name_and_type_index)
    | .methodref_info class_index name_and_type_index =>
      andThen (ref pool class_index) (fun p => ref p name_and_type_index)
    | .interfaceMethodref_info class_index name_and_type_index =>
      andThen (ref pool class_index) (fun p => ref p name_and_type_index)
    | .string string_index => ref pool string_index
    | .integer _ => some pool
    | .float _ => some pool
    | .long _ _ => some pool
    | .double _ _ => some pool
    | .nameAndType_info name_index descriptor_index =>
      andThen (ref pool name_index) (fun p => ref p descriptor_index)
    | .utf8_info _ _ => some pool

/-- The padding loop `while (g_pc % 4) ++g_pc`. -/
def align4 (g_pc : Nat) : Nat :=
  g_pc + (4 - g_pc % 4) % 4

/-- A loop that calls `argl` `n` times. -/
def argl_times (g_code : List Nat) : Nat → Nat → Option Nat
  | 0, g_pc => some g_pc
  | n + 1, g_pc =>
    match argl g_code g_pc with
    | none => none
    | some (_, pc1) => argl_times g_code n pc1

/-- The function `rop_lookupswitch`. -/
def rop_lookupswitch (g_code : List Nat) (g_pc : Nat) : Option Nat :=
  match argl g_code (align4 g_pc) with
  | none => none
  | some (_, pc1) =>
    match argl g_code pc1 with
    | none => none
    | some (opndPairCt, pc2) => argl_times g_code (2 * opndPairCt.toNat) pc2

/-- The function `rop_tableswitch`. -/
def rop_tableswitch (g_code : List Nat) (g_pc : Nat) : Option Nat :=
  match argl g_code (align4 g_pc) with
  | none => none
  | some (_, pc1) =>
    match argl g_code pc1 with
    | none => none
    | some (opndRangeLo, pc2) =>
      match argl g_code pc2 with
      | none => none
      | some (opndRangeHi, pc3) => argl_times g_code (opndRangeHi - opndRangeLo).toNat pc3

/-- The function `rop_wide`. -/
def rop_wide (t : code_h) (g_code : List Nat) (g_pc : Nat) : Option Nat :=
  match argb g_code g_pc with
  | none => none
  | some (modifOp, pc1) =>
    match t.rop_wide_switch modifOp with
    | .rop_1w => (argw g_code pc1).map Prod.snd
    | .rop_2ww =>
      match argw g_code pc1 with
      | none => none
      | some (_, pc2) => (argw g_code pc2).map Prod.snd
    | .illegal => some pc1

/-- One `case` of the `switch` of `refct_code`: the cursor and the pool after the
handler has run. -/
def rop_run (t : code_h) (g_code : List Nat) (h : rop) (g_pc : Nat)
    (pool : List (Option cp_info)) : Option (Nat × List (Option cp_info)) :=
  match h with
  | .rop_0 => some (g_pc, pool)
  | .rop_1b => (argb g_code g_pc).map (fun r => (r.2, pool))
  | .rop_1bc =>
    match argb g_code g_pc with
    | none => none
    | some (idx, pc1) => (ref pool idx).map (fun p => (pc1, p))
  | .rop_1w => (argw g_code g_pc).map (fun r => (r.2, pool))
  | .rop_1wc =>
    match argw g_code g_pc with
    | none => none
    | some (idx, pc1) => (ref pool idx).map (fun p => (pc1, p))
  | .rop_1l => (argl g_code g_pc).map (fun r => (r.2, pool))
  | .rop_2bb =>
    match argb g_code g_pc with
    | none => none
    | some (_, pc1) => (argb g_code pc1).map (fun r => (r.2, pool))
  | .rop_2wcb =>
    match argw g_code g_pc with
    | none => none
    | some (idx, pc1) =>
      match ref pool idx with
      | none => none
      | some p => (argb g_code pc1).map (fun r => (r.2, p))
  | .rop_3wcbx =>
    match argw g_code g_pc with
    | none => none
    | some (idx, pc1) =>
      match ref pool idx with
      | none => none
      | some p =>
        match argb g_code pc1 with
        | none => none
        | some (_, pc2) => (argb g_code pc2).map (fun r => (r.2, p))
  | .rop_lookupswitch => (rop_lookupswitch g_code g_pc).map (fun pc => (pc, pool))
  | .rop_tableswitch => (rop_tableswitch g_code g_pc).map (fun pc => (pc, pool))
  | .rop_wide => (rop_wide t g_code g_pc).map (fun pc => (pc, pool))
  | .no_case => some (g_pc, pool)

/-- The loop of `refct_code`, `for (g_pc = 0; g_pc < length; )`.  Every turn
moves the cursor forward, so `length` turns are enough; the first argument
counts the turns that are left. -/
def refct_code_loop (t : code_h) (g_code : List Nat) (length : Nat) :
    Nat → Nat → List (Option cp_info) → Option (List (Option cp_info))
  | 0, g_pc, pool => if g_pc < length then none else some pool
  | turns + 1, g_pc, pool =>
    if g_pc < length then
      match argb g_code g_pc with
      | none => none
      | some (op, pc1) =>
        match rop_run t g_code (t.refct_code_switch op) pc1 pool with
        | none => none
        | some (pc2, pool1) => refct_code_loop t g_code length turns pc2 pool1
    else some pool

/-- The function `refct_code`. -/
def refct_code (t : code_h) (code : List Nat) (length : Nat) (pool : List (Option cp_info)) :
    Option (List (Option cp_info)) :=
  refct_code_loop t code length length 0 pool

mutual
/-- The function `refct_element_value`. -/
def refct_element_value : element_value → List (Option cp_info) →
    Option (List (Option cp_info))
  | .const _ const_value_index, pool => ref pool const_value_index
  | .enum_const type_name_index const_name_index, pool =>
    andThen (ref pool type_name_index) (fun p => ref p const_name_index)
  | .class_info class_info_index, pool => ref pool class_info_index
  | .annotation_value value, pool => refct_annotation value pool
  | .array _ values, pool => refct_element_values values pool
/-- The loop of `refct_element_value` over the values of an array. -/
def refct_element_values : List element_value → List (Option cp_info) →
    Option (List (Option cp_info))
  | [], pool => some pool
  | v :: rest, pool =>
    match refct_element_value v pool with
    | none => none
    | some p => refct_element_values rest p
/-- The function `refct_annotation`. -/
def refct_annotation : annotation → List (Option cp_info) → Option (List (Option cp_info))
  | .mk type_index _ element_value_pairs, pool =>
    match ref pool type_index with
    | none => none
    | some p => refct_element_value_pairs element_value_pairs p
/-- The loop of `refct_annotation` over the pairs. -/
def refct_element_value_pairs : List element_value_pair → List (Option cp_info) →
    Option (List (Option cp_info))
  | [], pool => some pool
  | .mk element_name_index value :: rest, pool =>
    match ref pool element_name_index with
    | none => none
    | some p =>
      match refct_element_value value p with
      | none => none
      | some p1 => refct_element_value_pairs rest p1
end

/-- The body of the loop over the exception table in `refct_attribute_info`. -/
def refct_exception_table_entry (entry : exception_table_entry)
    (pool : List (Option cp_info)) : Option (List (Option cp_info)) :=
  if entry.catch_type ≠ 0 then ref pool entry.catch_type else some pool

/-- The body of the loop over the classes of an InnerClasses attribute. -/
def refct_innerclasses_table_entry (entry : innerclasses_table_entry)
    (pool : List (Option cp_info)) : Option (List (Option cp_info)) :=
  andThen (ref pool entry.inner_class_info_index) (fun p =>
    andThen (if entry.outer_class_info_index ≠ 0 then ref p entry.outer_class_info_index
      else some p) (fun p1 =>
        if entry.inner_name_index ≠ 0 then ref p1 entry.inner_name_index else some p1))

mutual
/-- The function `refct_attribute_info`. -/
def refct_attribute_info (t : code_h) : attribute_info → List (Option cp_info) →
    Option (List (Option cp_info))
  | .mk attribute_name_index _ _ value, pool =>
    match ref pool attribute_name_index with
    | none => none
    | some p => refct_attribute_value t value p
/-- The `switch` of `refct_attribute_info` on the attribute type. -/
def refct_attribute_value (t : code_h) : attribute_value → List (Option cp_info) →
    Option (List (Option cp_info))
  | .Unknown, pool => some pool
  | .ConstantValue constantvalue_index, pool => ref pool constantvalue_index
  | .Code _ _ code_length code exception_table_length exception_table _ attributes, pool =>
    match refct_code t code code_length pool with
    | none => none
    | some p =>
      match refct_each refct_exception_table_entry
          (exception_table.take exception_table_length) p with
      | none => none
      | some p1 => refct_attributes t attributes p1
  | .Exceptions _ exception_index_table, pool =>
    refct_each (fun idx p => ref p idx) exception_index_table pool
  | .InnerClasses _ classes, pool => refct_each refct_innerclasses_table_entry classes pool
  | .Synthetic, pool => some pool
  | .SourceFile sourcefile_index, pool => ref pool sourcefile_index
  | .LineNumberTable _ _, pool => some pool
  | .LocalVariableTable _ t1, pool =>
    refct_each (fun (entry : local_variable_table_entry) p =>
      andThen (ref p entry.name_index) (fun p1 => ref p1 entry.descriptor_index)) t1 pool
  | .Deprecated, pool => some pool
  | .RuntimeVisibleAnnotations _ annotations, pool =>
    refct_each refct_annotation annotations pool
  | .EnclosingMethod class_index method_index, pool =>
    andThen (ref pool class_index) (fun p =>
      if method_index ≠ 0 then ref p method_index else some p)
  | .StackMapTable, pool => some pool
  | .Signature signature_index, pool => ref pool signature_index
  | .LocalVariableTypeTable _ t1, pool =>
    refct_each (fun (entry : local_variable_type_table_entry) p =>
      andThen (ref p entry.name_index) (fun p1 => ref p1 entry.signature_index)) t1 pool
  | .AnnotationDefault default_value, pool => refct_element_value default_value pool
/-- A loop `for (i = 0; i < attributes_count; ++i) refct_attribute_info(...)`. -/
def refct_attributes (t : code_h) : List attribute_info → List (Option cp_info) →
    Option (List (Option cp_info))
  | [], pool => some pool
  | a :: rest, pool =>
    match refct_attribute_info t a pool with
    | none => none
    | some p => refct_attributes t rest p
end

/-- The function `refct_field_info`. -/
def refct_field_info (t : code_h) (fi : field_info) (pool : List (Option cp_info)) :
    Option (List (Option cp_info)) :=
  andThen (ref pool fi.name_index) (fun p =>
    andThen (ref p fi.descriptor_index) (fun p1 => refct_attributes t fi.attributes p1))

/-- The function `refct_method_info`. -/
def refct_method_info (t : code_h) (mi : method_info) (pool : List (Option cp_info)) :
    Option (List (Option cp_info)) :=
  andThen (ref pool mi.name_index) (fun p =>
    andThen (ref p mi.descriptor_index) (fun p1 => refct_attributes t mi.attributes p1))

/-- The function `refct_ClassFile`: the class file with the reference counts of
its pool entries recomputed. -/
def refct_ClassFile (t : code_h) (cf : ClassFile) : Option ClassFile :=
  let pool0 := cf.constant_pool.map (Option.map (fun cp => { cp with refCount := 0 }))
  let r :=
    andThen (ref pool0 cf.this_class) (fun p1 =>
    andThen (ref p1 cf.super_class) (fun p2 =>
    andThen (refct_each refct_cp_info cf.constant_pool p2) (fun p3 =>
    andThen (refct_each (fun idx p => ref p idx) cf.interfaces p3) (fun p4 =>
    andThen (refct_each (refct_field_info t) cf.fields p4) (fun p5 =>
    andThen (refct_each (refct_method_info t) cf.methods p5) (fun p6 =>
      refct_attributes t cf.attributes p6))))))
  match r with
  | none => none
  | some pool => some { cf with constant_pool := pool }

/-! ## gc.c -/

/-- The function `map_cp`, as its one use `MAP(cf, idx)`, that is
`idx = map_cp(cf, idx)`, stores it: the entry of the old-to-new map at `idx`.
The map is an array of `int` from `malloc`; a slot that the sweep never wrote,
or one outside the array, holds the arbitrary `uninit idx`, of which the `u2`
index field keeps the low 16 bits.  The values that the sweep writes are new
indices, below the count. -/
def map_cp (uninit : Nat → Nat) (cf : ClassFile) (idx : Nat) : Nat :=
  cf.constant_pool_map.getD idx (uninit idx % 65536)

/-- The first loop of `gc_ClassFile`, `for (i = 1; i < oldCount; ++i)`, run on
the pool array in place.  The first argument is `oldCount - i`, the number of
slots still to visit; the result is the pool array, the map and `newCount`. -/
def gc_sweep : Nat → Nat → List (Option cp_info) → List Nat → Nat →
    Option (List (Option cp_info) × List Nat × Nat)
  | 0, _, pool, map, newCount => some (pool, map, newCount)
  | r + 1, i, pool, map, newCount =>
    match pool.get? i with
    | some (some cp) =>
      if cp.refCount ≠ 0 then
        if isLong cp then
          match r with
          | 0 => none
          | r1 + 1 =>
            match (pool.set newCount (some cp)).get? (i + 1) with
            | some p =>
              gc_sweep r1 (i + 2) ((pool.set newCount (some cp)).set (newCount + 1) p)
                ((map.set i newCount).set (i + 1) (newCount + 1)) (newCount + 2)
            | none => none
        else
          gc_sweep r (i + 1) (pool.set newCount (some cp)) (map.set i newCount) (newCount + 1)
      else
        if isLong cp then
          match r with
          | 0 => some (pool, map, newCount)
          | r1 + 1 => gc_sweep r1 (i + 2) pool map newCount
        else
          gc_sweep r (i + 1) pool map newCount
    | _ => none

/-- The function `gc_cp_info` on an entry that is not null. -/
def gc_cp_info (MAP : Nat → Nat) (cp : cp_info) : cp_info :=
  match cp.info with
  | .class_info name_index => { cp with info := .class_info (MAP name_index) }
  | .fieldref_info class_index name_and_type_index =>
    { cp with info := .fieldref_info (MAP class_index) (MAP name_and_type_index) }
  | .methodref_info class_index name_and_type_index =>
    { cp with info := .methodref_info (MAP class_index) (MAP name_and_type_index) }
  | .interfaceMethodref_info class_index name_and_type_index =>
    { cp with info := .interfaceMethodref_info (MAP class_index) (MAP name_and_type_index) }
  | .string string_index => { cp with info := .string (MAP string_index) }
  | .integer _ => cp
  | .float _ => cp
  | .long _ _ => cp
  | .double _ _ => cp
  | .nameAndType_info name_index descriptor_index =>
    { cp with info := .nameAndType_info (MAP name_index) (MAP descriptor_index) }
  | .utf8_info _ _ => cp

mutual
/-- The function `gc_element_value`. -/
def gc_element_value (MAP : Nat → Nat) : element_value → element_value
  | .const tag const_value_index => .const tag (MAP const_value_index)
  | .enum_const type_name_index const_name_index =>
    .enum_const (MAP type_name_index) (MAP const_name_index)
  | .class_info class_info_index => .class_info (MAP class_info_index)
  | .annotation_value value => .annotation_value ( gc_annotation MAP value)
  | .array num_values values => .array num_values (gc_element_values MAP values)
/-- The loop of `gc_element_value` over the values of an array. -/
def gc_element_values (MAP : Nat → Nat) : List element_value → List element_value
  | [] => []
  | v :: rest => gc_element_value MAP v :: gc_element_values MAP rest
/-- The function `gc_annotation`. -/
def gc_annotation (MAP : Nat → Nat) : annotation → annotation
  | .mk type_index num_element_value_pairs element_value_pairs =>
    .mk (MAP type_index) num_element_value_pairs (gc_element_value_pairs MAP element_value_pairs)
/-- The loop of `gc_annotation` over the pairs. -/
def gc_element_value_pairs (MAP : Nat → Nat) :
    List element_value_pair → List element_value_pair
  | [] => []
  | .mk element_name_index value :: rest =>
    .mk (MAP element_name_index) (gc_element_value MAP value)
      :: gc_element_value_pairs MAP rest
end

/-- The loop over the annotations of a RuntimeVisibleAnnotations attribute. -/
def gc_annotations (MAP : Nat → Nat) : List annotation → List annotation
  | [] => []
  | a :: rest => gc_annotation MAP a :: gc_annotations MAP rest

/-- One step of the loop over the classes of an InnerClasses attribute. -/
def gc_innerclasses_table_entry (MAP : Nat → Nat) (entry : innerclasses_table_entry) :
    innerclasses_table_entry :=
  { entry with
    inner_class_info_index := MAP entry.inner_class_info_index,
    outer_class_info_index :=
      if entry.outer_class_info_index ≠ 0 then MAP entry.outer_class_info_index
      else entry.outer_class_info_index,
    inner_name_index :=
      if entry.inner_name_index ≠ 0 then MAP entry.inner_name_index
      else entry.inner_name_index }

mutual
/-- The function `gc_attribute_info`. -/
def gc_attribute_info (MAP : Nat → Nat) : attribute_info → attribute_info
  | .mk attribute_name_index attribute_length info value =>
    .mk (MAP attribute_name_index) attribute_length info (gc_attribute_value MAP value)
/-- The `switch` of `gc_attribute_info` on the attribute type. -/
def gc_attribute_value (MAP : Nat → Nat) : attribute_value → attribute_value
  | .Unknown => .Unknown
  | .ConstantValue constantvalue_index => .ConstantValue (MAP constantvalue_index)
  | .Code max_stack max_locals code_length code exception_table_length exception_table
      attributes_count attributes =>
    .Code max_stack max_locals code_length code exception_table_length exception_table
      attributes_count (gc_attributes MAP attributes)
  | .Exceptions number_of_exceptions exception_index_table =>
    .Exceptions number_of_exceptions (exception_index_table.map MAP)
  | .InnerClasses number_of_classes classes =>
    .InnerClasses number_of_classes (classes.map (gc_innerclasses_table_entry MAP))
  | .Synthetic => .Synthetic
  | .SourceFile sourcefile_index => .SourceFile (MAP sourcefile_index)
  | .LineNumberTable n t => .LineNumberTable n t
  | .LocalVariableTable n t =>
    .LocalVariableTable n (t.map (fun entry =>
      { entry with name_index := MAP entry.name_index,
                   descriptor_index := MAP entry.descriptor_index }))
  | .Deprecated => .Deprecated
  | .RuntimeVisibleAnnotations num_annotations annotations =>
    .RuntimeVisibleAnnotations num_annotations (gc_annotations MAP annotations)
  | .EnclosingMethod class_index method_index =>
    .EnclosingMethod (MAP class_index) (if method_index ≠ 0 then MAP method_index else method_index)
  | .StackMapTable => .StackMapTable
  | .Signature signature_index => .Signature (MAP signature_index)
  | .LocalVariableTypeTable n t =>
    .LocalVariableTypeTable n (t.map (fun entry =>
      { entry with name_index := MAP entry.name_index,
                   signature_index := MAP entry.signature_index }))
  | .AnnotationDefault default_value => .AnnotationDefault (gc_element_value MAP default_value)
/-- A loop `for (i = 0; i < attributes_count; ++i) gc_attribute_info(...)`. -/
def gc_attributes (MAP : Nat → Nat) : List attribute_info → List attribute_info
  | [] => []
  | a :: rest => gc_attribute_info MAP a :: gc_attributes MAP rest
end

/-- The function `gc_field_info`. -/
def gc_field_info (MAP : Nat → Nat) (fi : field_info) : field_info :=
  { fi with name_index := MAP fi.name_index, descriptor_index := MAP fi.descriptor_index,
            attributes := gc_attributes MAP fi.attributes }

/-- The function `gc_method_info`. -/
def gc_method_info (MAP : Nat → Nat) (mi : method_info) : method_info :=
  { mi with name_index := MAP mi.name_index, descriptor_index := MAP mi.descriptor_index,
            attributes := gc_attributes MAP mi.attributes }

/-- The function `gc_ClassFile`: the returned flag and the class file after the
call.  The pool of the result is the part of the array below the new count.
In C the array keeps its length and the slots behind the new count keep their
pointers; a later pass that is handed an index behind the count, which
`gc_ClassFile` can leave in a Code body, reads them, and on this model such a
read has no result.  The array with its stale slots is followed by
`gc_ClassFile_array` further down, and a run of the loop that is left on this
model is a run on the array (`gc_loop_array_holds`).  The map starts as the
uninitialised memory that `map_cp` describes. -/
def gc_ClassFile (uninit : Nat → Nat) (cf : ClassFile) : Option (Bool × ClassFile) :=
  let oldCount := cf.constant_pool_count
  match gc_sweep (oldCount - 1) 1 cf.constant_pool
      ((List.range oldCount).map (fun i => uninit i % 65536)) 1 with
  | none => none
  | some (pool, map, newCount) =>
    if pool.length < newCount then none
    else
      let MAP := map_cp uninit { cf with constant_pool_map := map }
      some (oldCount == newCount,
        { cf with
          constant_pool_map := map,
          constant_pool_count := newCount,
          this_class := MAP cf.this_class,
          super_class := MAP cf.super_class,
          constant_pool := (pool.take newCount).map (Option.map (gc_cp_info MAP)),
          interfaces := cf.interfaces.map MAP,
          fields := cf.fields.map (gc_field_info MAP),
          methods := cf.methods.map (gc_method_info MAP),
          attributes := gc_attributes MAP cf.attributes })

/-! ## Specification-side notions for the sweep -/

/-- The pool slots from some index on are well formed: no entry is null, and
every Long or Double is followed, inside the pool, by its null placeholder. -/
def pool_wf_from : List (Option cp_info) → Bool
  | [] => true
  | none :: _ => false
  | [some cp] => !isLong cp
  | some cp :: none :: rest => if isLong cp then pool_wf_from rest else false
  | some cp :: some cp1 :: rest =>
    if isLong cp then false else pool_wf_from (some cp1 :: rest)

/-- A well-formed pool: the array has `constant_pool_count` slots, slot 0 is
there, and the slots from 1 on are well formed. -/
def pool_wf (cf : ClassFile) : Bool :=
  decide (cf.constant_pool.length = cf.constant_pool_count) &&
  decide (0 < cf.constant_pool_count) &&
  pool_wf_from (cf.constant_pool.drop 1)

/-- Spec: the slot `i` of the pool survives the sweep: its entry has a
reference count that is not zero, or it is the placeholder of a Long or Double
that does. -/
def survives (pool : List (Option cp_info)) (i : Nat) : Bool :=
  match pool.getD i none with
  | some cp => cp.refCount != 0
  | none =>
    match pool.getD (i - 1) none with
    | some cp => isLong cp && cp.refCount != 0
    | none => false

/-- Spec: the surviving slots of the pool of a class file, in increasing order. -/
def survivors (cf : ClassFile) : List Nat :=
  (List.range' 1 (cf.constant_pool_count - 1)).filter (survives cf.constant_pool)

/-- The slots that the sweep keeps, with their old index, walking the slots
from index `i` on. -/
def kept_slots : Nat → List (Option cp_info) → List (Nat × Option cp_info)
  | _, [] => []
  | i, none :: rest => kept_slots (i + 1) rest
  | i, [some cp] => if cp.refCount ≠ 0 then [(i, some cp)] else []
  | i, some cp :: p :: rest =>
    if isLong cp then
      if cp.refCount ≠ 0 then (i, some cp) :: (i + 1, p) :: kept_slots (i + 2) rest
      else kept_slots (i + 2) rest
    else
      if cp.refCount ≠ 0 then (i, some cp) :: kept_slots (i + 1) (p :: rest)
      else kept_slots (i + 1) (p :: rest)

/-- The map after the old indices `js` got the new indices `n`, `n + 1`, ... -/
def sweep_map : Nat → List Nat → List Nat → List Nat
  | _, [], map => map
  | n, j :: js, map => sweep_map (n + 1) js (map.set j n)

/-- The old-to-new map that `gc_ClassFile` builds: the surviving slots get the
new indices 1, 2, ... in increasing order, the other slots of the `malloc`ed
array keep what they held. -/
def gc_map (uninit : Nat → Nat) (cf : ClassFile) : List Nat :=
  sweep_map 1 (survivors cf)
    ((List.range cf.constant_pool_count).map (fun i => uninit i % 65536))

/-- The map of `gc_map` as the function that `MAP` applies. -/
def gc_MAP (uninit : Nat → Nat) (cf : ClassFile) (idx : Nat) : Nat :=
  (gc_map uninit cf).getD idx (uninit idx % 65536)

/-! ## Specification-side notions for the index fields -/

/-- Spec: an index field of the model that always denotes a pool entry. -/
def required (idx : Nat) : Bool × Nat := (false, idx)

/-- Spec: an index field of the model in which 0 means "not present". -/
def optional (idx : Nat) : Bool × Nat := (true, idx)

/-- Spec: the index fields of a constant-pool entry. -/
def idx_cp_info (cp : cp_info) : List (Bool × Nat) :=
  match cp.info with
  | .class_info name_index => [required name_index]
  | .fieldref_info class_index name_and_type_index =>
    [required class_index, required name_and_type_index]
  | .methodref_info class_index name_and_type_index =>
    [required class_index, required name_and_type_index]
  | .interfaceMethodref_info class_index name_and_type_index =>
    [required class_index, required name_and_type_index]
  | .string string_index => [required string_index]
  | .integer _ => []
  | .float _ => []
  | .long _ _ => []
  | .double _ _ => []
  | .nameAndType_info name_index descriptor_index =>
    [required name_index, required descriptor_index]
  | .utf8_info _ _ => []

mutual
/-- Spec: the index fields of an element value. -/
def idx_element_value : element_value → List (Bool × Nat)
  | .const _ const_value_index => [required const_value_index]
  | .enum_const type_name_index const_name_index =>
    [required type_name_index, required const_name_index]
  | .class_info class_info_index => [required class_info_index]
  | .annotation_value value => idx_annotation value
  | .array _ values => idx_element_values values
/-- Spec: the index fields of the values of an array element value. -/
def idx_element_values : List element_value → List (Bool × Nat)
  | [] => []
  | v :: rest => idx_element_value v ++ idx_element_values rest
/-- Spec: the index fields of an annotation. -/
def idx_annotation : annotation → List (Bool × Nat)
  | .mk type_index _ element_value_pairs =>
    required type_index :: idx_element_value_pairs element_value_pairs
/-- Spec: the index fields of the pairs of an annotation. -/
def idx_element_value_pairs : List element_value_pair → List (Bool × Nat)
  | [] => []
  | .mk element_name_index value :: rest =>
    required element_name_index :: (idx_element_value value ++ idx_element_value_pairs rest)
end

/-- Spec: the index fields of a list of annotations. -/
def idx_annotations : List annotation → List (Bool × Nat)
  | [] => []
  | a :: rest => idx_annotation a ++ idx_annotations rest

mutual
/-- Spec: the index fields of an attribute: its name index and the indices of
its decoded value.  The operands in the bytecode of a Code attribute and the
catch types of its exception table are not among them. -/
def idx_attribute_info : attribute_info → List (Bool × Nat)
  | .mk attribute_name_index _ _ value =>
    required attribute_name_index :: idx_attribute_value value
/-- Spec: the index fields of a decoded attribute value. -/
def idx_attribute_value : attribute_value → List (Bool × Nat)
  | .Unknown => []
  | .ConstantValue constantvalue_index => [required constantvalue_index]
  | .Code _ _ _ _ _ _ _ attributes => idx_attributes attributes
  | .Exceptions _ exception_index_table => exception_index_table.map required
  | .InnerClasses _ classes =>
    classes.flatMap (fun entry =>
      [required entry.inner_class_info_index, optional entry.outer_class_info_index,
        optional entry.inner_name_index])
  | .Synthetic => []
  | .SourceFile sourcefile_index => [required sourcefile_index]
  | .LineNumberTable _ _ => []
  | .LocalVariableTable _ t =>
    t.flatMap (fun entry => [required entry.name_index, required entry.descriptor_index])
  | .Deprecated => []
  | .RuntimeVisibleAnnotations _ annotations => idx_annotations annotations
  | .EnclosingMethod class_index method_index => [required class_index, optional method_index]
  | .StackMapTable => []
  | .Signature signature_index => [required signature_index]
  | .LocalVariableTypeTable _ t =>
    t.flatMap (fun entry => [required entry.name_index, required entry.signature_index])
  | .AnnotationDefault default_value => idx_element_value default_value
/-- Spec: the index fields of a list of attributes. -/
def idx_attributes : List attribute_info → List (Bool × Nat)
  | [] => []
  | a :: rest => idx_attribute_info a ++ idx_attributes rest
end

/-- Spec: the index fields of a field. -/
def idx_field_info (fi : field_info) : List (Bool × Nat) :=
  required fi.name_index :: required fi.descriptor_index :: idx_attributes fi.attributes

/-- Spec: the index fields of a method. -/
def idx_method_info (mi : method_info) : List (Bool × Nat) :=
  required mi.name_index :: required mi.descriptor_index :: idx_attributes mi.attributes

/-- Spec: the index fields of the model outside the constant pool: this class,
super class, interfaces, fields, methods and class attributes. -/
def idx_ClassFile (cf : ClassFile) : List (Bool × Nat) :=
  required cf.this_class :: required cf.super_class ::
    (cf.interfaces.map required ++ cf.fields.flatMap idx_field_info
      ++ cf.methods.flatMap idx_method_info ++ idx_attributes cf.attributes)

/-- Spec: the index fields of a pool slot; a null slot has none. -/
def idx_slot : Option cp_info → List (Bool × Nat)
  | none => []
  | some cp => idx_cp_info cp

/-- Spec: what a remapping pass makes of an index field: the map is applied,
except to a field in which 0 means "not present" and that holds 0. -/
def remap_field (m : Nat → Nat) (f : Bool × Nat) : Bool × Nat :=
  (f.1, if f.1 = true ∧ f.2 = 0 then 0 else m f.2)

mutual
/-- The bytecode, exception table length and exception table of every Code
attribute inside an attribute. -/
def code_bodies : attribute_info → List (List Nat × Nat × List exception_table_entry)
  | .mk _ _ _ (.Code _ _ _ code exception_table_length exception_table _ attributes) =>
    (code, exception_table_length, exception_table) :: code_bodies_list attributes
  | .mk _ _ _ _ => []
/-- The Code bodies inside a list of attributes. -/
def code_bodies_list : List attribute_info → List (List Nat × Nat × List exception_table_entry)
  | [] => []
  | a :: rest => code_bodies a ++ code_bodies_list rest
end

/-! ## Notions for the mark pass -/

/-- Spec: the pool indices that a list of index fields refers to: an optional
field that holds 0 refers to nothing. -/
def refs_of (fields : List (Bool × Nat)) : List Nat :=
  fields.filterMap (fun f => if f.1 = true ∧ f.2 = 0 then none else some f.2)

/-- Two pool slots hold the same entry up to its reference count. -/
def same_slot (a b : Option cp_info) : Prop :=
  a.map (fun cp => cp.info) = b.map (fun cp => cp.info)

/-- Two pools hold the same entries up to their reference counts. -/
def same_pool (p q : List (Option cp_info)) : Prop :=
  List.Forall₂ same_slot p q

/-- The second slot holds the entry of the first with a reference count that is
at least as large. -/
def slot_le (a b : Option cp_info) : Prop :=
  match a, b with
  | none, none => True
  | some x, some y => x.info = y.info ∧ x.refCount ≤ y.refCount
  | _, _ => False

/-- The second pool is the first with reference counts that are at least as
large. -/
def pool_le (p q : List (Option cp_info)) : Prop :=
  List.Forall₂ slot_le p q

/-- The entry at `i` exists and has a reference count that is not zero. -/
def marked (p : List (Option cp_info)) (i : Nat) : Prop :=
  ∃ cp, p[i]? = some (some cp) ∧ cp.refCount ≠ 0

/-- A marking step from pool `p` to pool `q` that marks the indices `l`. -/
def Marks (l : List Nat) (p q : List (Option cp_info)) : Prop :=
  pool_le p q ∧ ∀ i, i ∈ l → marked q i

/-- Spec: the index `j` of the new model denotes what the index `i` of the old
model denoted: it is below the new count and resolves to an entry of the new
pool, not to a null slot, of the same variant as the old entry. -/
def same_target (cf cf2 : ClassFile) (i j : Nat) : Prop :=
  j < cf2.constant_pool_count ∧
  ∃ cp cp2, cf.constant_pool[i]? = some (some cp) ∧
    cf2.constant_pool[j]? = some (some cp2) ∧ cp2.tag = cp.tag

/-! ## Specification-side notions for pruning -/

/-- Spec: a member is visible when its access flags have the public or the
protected bit set. -/
def visible (access_flags : Nat) : Bool :=
  access_flags.testBit 0 || access_flags.testBit 2

/-- Spec: the attribute kinds that pruning drops. -/
def droppable : attribute_value → Bool
  | .SourceFile _ => true
  | .LineNumberTable _ _ => true
  | .LocalVariableTable _ _ => true
  | .LocalVariableTypeTable _ _ => true
  | .StackMapTable => true
  | _ => false

/-- Spec: an attribute is kept when its kind is not one that pruning drops. -/
def kept (ai : attribute_info) : Bool :=
  !droppable ai.value

/-- Whether an attribute is a Code attribute. -/
def isCode : attribute_value → Bool
  | .Code _ _ _ _ _ _ _ _ => true
  | _ => false

/-- No attribute of the list is a Code attribute. -/
def noCode (as : List attribute_info) : Bool :=
  as.all (fun a => !isCode a.value)

/-- The Code attributes of a method can be pruned: the descriptor of the
method resolves to a text with a closing parenthesis, and no Code attribute is
nested inside another one. -/
def codePrunable (constant_pool : List (Option cp_info)) (mi : method_info) : Bool :=
  mi.attributes.all (fun a =>
    match a.value with
    | .Code _ _ _ _ _ _ _ attributes =>
      ((pUtf8 constant_pool mi.descriptor_index).bind returnTypeCode).isSome
        && noCode attributes
    | _ => true)

/-- The models on which `prune_ClassFile` runs to its end: Code attributes
occur only directly on methods, and every visible method that has one has a
descriptor with a closing parenthesis. -/
def prunable (cf : ClassFile) : Bool :=
  noCode cf.attributes
    && cf.fields.all (fun fi => !visible fi.access_flags || noCode fi.attributes)
    && cf.methods.all (fun mi => !visible mi.access_flags || codePrunable cf.constant_pool mi)

/-- Spec: what pruning makes of a kept attribute of a method: a Code attribute
keeps its name, length, raw payload, stack and local sizes and its exception
array, gets some new bytecode, an exception table length of zero, and the kept
ones of its nested attributes; any other attribute is unchanged. -/
def pruned_of (a a1 : attribute_info) : Prop :=
  match a with
  | .mk n l i (.Code max_stack max_locals _ _ _ exception_table _ attributes) =>
    ∃ code_length code,
      a1 = .mk n l i (.Code max_stack max_locals code_length code 0 exception_table
        (attributes.filter kept).length (attributes.filter kept))
  | _ => a1 = a

/-- Spec: the minimal return sequence for a return-type character. -/
def return_stub (c : Nat) : Option (List Nat) :=
  if c = 'V'.toNat then some [0xb1]
  else if c = 'B'.toNat ∨ c = 'C'.toNat ∨ c = 'I'.toNat ∨ c = 'S'.toNat ∨ c = 'Z'.toNat then
    some [0x03, 0xac]
  else if c = 'D'.toNat then some [0x0e, 0xaf]
  else if c = 'F'.toNat then some [0x0b, 0xae]
  else if c = 'J'.toNat then some [0x09, 0xad]
  else if c = 'L'.toNat ∨ c = '['.toNat then some [0x01, 0xb0]
  else none

/-- Spec: a field after pruning is the same field (flags, name, descriptor)
with the kept ones of its attributes. -/
def pruned_field (fi fi1 : field_info) : Prop :=
  fi1.access_flags = fi.access_flags ∧ fi1.name_index = fi.name_index ∧
  fi1.descriptor_index = fi.descriptor_index ∧
  fi1.attributes = fi.attributes.filter kept ∧
  fi1.attributes_count = fi1.attributes.length

/-- Spec: a method after pruning is the same method (flags, name, descriptor)
with the kept ones of its attributes, pruned. -/
def pruned_method (mi mi1 : method_info) : Prop :=
  mi1.access_flags = mi.access_flags ∧ mi1.name_index = mi.name_index ∧
  mi1.descriptor_index = mi.descriptor_index ∧
  List.Forall₂ pruned_of (mi.attributes.filter kept) mi1.attributes ∧
  mi1.attributes_count = mi1.attributes.length

/-- What `prune_attribute_info` makes of an attribute of method `mi`, in full:
as `pruned_of`, with the bytecode that `prune_code` installs. -/
def pruned_with (constant_pool : List (Option cp_info)) (mi : method_info)
    (a a1 : attribute_info) : Prop :=
  match a with
  | .mk n l i (.Code max_stack max_locals code_length code _ exception_table _ attributes) =>
    ∃ descriptor c, pUtf8 constant_pool mi.descriptor_index = some descriptor ∧
      returnTypeCode descriptor = some c ∧
      a1 = .mk n l i (.Code max_stack max_locals (prune_code c code code_length).2
        (prune_code c code code_length).1 0 exception_table
        (attributes.filter kept).length (attributes.filter kept))
  | _ => a1 = a

/-! ## A small class used as a concrete input -/

/-- The text `s` as a Utf8 pool entry. -/
def utf8 (refCount : Nat) (s : String) : Option cp_info :=
  some ⟨refCount, .utf8_info (cbytes s).length (cbytes s)⟩

/-- A constant pool: `Code`, `()I`, `I`, `a`, `b`, two classes, `SourceFile`,
`Deprecated`, `LineNumberTable`, `x.java`, and a long constant. -/
def examplePool : List (Option cp_info) :=
  [ none,
    utf8 0 "Code", utf8 0 "()I", utf8 0 "I", utf8 0 "a", utf8 0 "b",
    some ⟨0, .class_info 4⟩, some ⟨0, .class_info 5⟩,
    utf8 0 "SourceFile", utf8 0 "Deprecated", utf8 0 "LineNumberTable", utf8 0 "x.java",
    some ⟨0, .long 1 2⟩, none ]

/-- A Code attribute: `bipush 7; ireturn`, one exception handler, and a nested
line number table. -/
def exampleCode : attribute_info :=
  .mk 1 31 [0, 1, 0, 1, 0, 0, 0, 3, 16, 7, 172, 0, 1, 0, 0, 0, 3, 0, 3, 0, 7,
      0, 1, 0, 10, 0, 0, 0, 2, 0, 0]
    (.Code 1 1 3 [16, 7, 172] 1 [⟨0, 3, 3, 7⟩] 1
      [.mk 10 2 [0, 0] (.LineNumberTable 0 [])])

/-- A class with a public and a private field, a protected and a
package-private method, and a SourceFile and a Deprecated attribute. -/
def exampleClass : ClassFile :=
  { magic := 0xCAFEBABE, minor_version := 0, major_version := 49,
    constant_pool_count := 14, constant_pool := examplePool,
    access_flags := 0x21, this_class := 6, super_class := 7,
    interfaces_count := 0, interfaces := [],
    fields_count := 2,
    fields := [⟨ACC_PUBLIC, 4, 3, 0, []⟩, ⟨ACC_PRIVATE, 5, 3, 0, []⟩],
    methods_count := 2,
    methods := [⟨ACC_PROTECTED, 4, 2, 1, [exampleCode]⟩, ⟨0, 5, 2, 1, [exampleCode]⟩],
    attributes_count := 2,
    attributes := [.mk 8 2 [0, 11] (.SourceFile 11), .mk 9 0 [] .Deprecated],
    constant_pool_map := [] }

/-- A class as the mark pass leaves it: the Utf8 entry 1 and the Double at 6
are not referenced; everything else is.  Its one method has a Code attribute
whose bytecode is `ldc2_w #4; pop2; return` and whose exception table has one
handler with catch type 3. -/
def gcExample : ClassFile :=
  { magic := 0xCAFEBABE, minor_version := 0, major_version := 49,
    constant_pool_count := 13,
    constant_pool :=
      [ none,
        utf8 0 "dead", utf8 1 "A", some ⟨2, .class_info 2⟩,
        some ⟨1, .long 0 7⟩, none, some ⟨0, .double 0 0⟩, none,
        utf8 1 "java/lang/Object", some ⟨1, .class_info 8⟩,
        utf8 1 "Code", utf8 1 "m", utf8 1 "()V" ],
    access_flags := 0x21, this_class := 3, super_class := 9,
    interfaces_count := 0, interfaces := [],
    fields_count := 0, fields := [],
    methods_count := 1,
    methods := [⟨ACC_PUBLIC, 11, 12, 1,
      [.mk 10 25 [0, 2, 0, 1, 0, 0, 0, 5, 20, 0, 4, 88, 177, 0, 1, 0, 0, 0, 4, 0, 4, 0, 3, 0, 0]
        (.Code 2 1 5 [20, 0, 4, 88, 177] 1 [⟨0, 4, 4, 3⟩] 0 [])]⟩],
    attributes_count := 0, attributes := [],
    constant_pool_map := [] }

/-- A root class, as the mark pass would leave it: it has no super class, so
its `super_class` is 0. -/
def rootExample : ClassFile :=
  { magic := 0xCAFEBABE, minor_version := 0, major_version := 49,
    constant_pool_count := 3,
    constant_pool := [none, utf8 1 "java/lang/Object", some ⟨1, .class_info 1⟩],
    access_flags := 0x21, this_class := 2, super_class := 0,
    interfaces_count := 0, interfaces := [],
    fields_count := 0, fields := [],
    methods_count := 0, methods := [],
    attributes_count := 0, attributes := [],
    constant_pool_map := [] }

/-- A class before the mark pass: the Utf8 entry 1 is referenced by nothing;
the one method returns at once and has a handler with catch type 3, the class
itself. -/
def markExample : ClassFile :=
  { magic := 0xCAFEBABE, minor_version := 0, major_version := 49,
    constant_pool_count := 9,
    constant_pool :=
      [ none,
        utf8 0 "dead", utf8 0 "A", some ⟨0, .class_info 2⟩,
        utf8 0 "java/lang/Object", some ⟨0, .class_info 4⟩,
        utf8 0 "Code", utf8 0 "m", utf8 0 "()V" ],
    access_flags := 0x21, this_class := 3, super_class := 5,
    interfaces_count := 0, interfaces := [],
    fields_count := 0, fields := [],
    methods_count := 1,
    methods := [⟨ACC_PUBLIC, 7, 8, 1,
      [.mk 6 21 [0, 0, 0, 1, 0, 0, 0, 1, 177, 0, 1, 0, 0, 0, 1, 0, 1, 0, 3, 0, 0]
        (.Code 0 1 1 [177] 1 [⟨0, 1, 1, 3⟩] 0 [])]⟩],
    attributes_count := 0, attributes := [],
    constant_pool_map := [] }

/-! ## Specification-side notions for the codec -/

/-- All the elements of a stream are bytes. -/
def okBytes (s : List Nat) : Prop :=
  ∀ b ∈ s, b < 256

/-- A scanner leaves a part of what it was given. -/
def shrinks {α : Type} (scan : List Nat → Option (α × List Nat)) : Prop :=
  ∀ s a r, scan s = some (a, r) → r.length ≤ s.length

/-- What the loop of `emit_annotation` emits for one pair. -/
def emit_element_value_pair (g_littleEndian : Bool) : element_value_pair → List Nat
  | .mk element_name_index value =>
    emit_u2 g_littleEndian element_name_index ++ emit_element_value g_littleEndian value

/-- The variants whose payload `encode_attribute_value` copies from the payload
that was read: `ATT_UNKNOWN` and `ATT_STACK_MAP_TABLE`. -/
def isRaw : attribute_value → Bool
  | .Unknown => true
  | .StackMapTable => true
  | _ => false

/-- The attributes nested in a decoded value: those of a Code attribute. -/
def nestedOf : attribute_value → List attribute_info
  | .Code _ _ _ _ _ _ _ attributes => attributes
  | _ => []

/-- The payload of an attribute is decoded to its last byte, or is one that is
kept as it was read. -/
def payload_decoded (g_littleEndian : Bool) (constant_pool : List (Option cp_info))
    (att : attribute_info) : Bool :=
  match decode_attribute_scan g_littleEndian constant_pool att.info.length
      att.attribute_name_index att.info with
  | some (value, rest) => isRaw value || rest.isEmpty
  | none => false

/-- The payload of an attribute fits the buffer `u1 buf[65000]` of
`encode_attribute_value`. -/
def payload_fits (att : attribute_info) : Bool :=
  decide (att.info.length ≤ 65000)

/-- Every attribute of the class, of its fields and of its methods satisfies `p`. -/
def all_attributes (p : attribute_info → Bool) (cf : ClassFile) : Bool :=
  cf.attributes.all p && cf.fields.all (fun fi => fi.attributes.all p) &&
    cf.methods.all (fun mi => mi.attributes.all p)

/-! ## Class files used as concrete inputs -/

/-- The bytes of the class file of `exampleClass`. -/
def exampleFile : List Nat :=
  [ 202, 254, 186, 190, 0, 0, 0, 49, 0, 14, 1, 0, 4, 67, 111, 100, 101, 1, 0, 3, 40, 41, 73, 1,
    0, 1, 73, 1, 0, 1, 97, 1, 0, 1, 98, 7, 0, 4, 7, 0, 5, 1, 0, 10, 83, 111, 117, 114, 99, 101,
    70, 105, 108, 101, 1, 0, 10, 68, 101, 112, 114, 101, 99, 97, 116, 101, 100, 1, 0, 15, 76,
    105, 110, 101, 78, 117, 109, 98, 101, 114, 84, 97, 98, 108, 101, 1, 0, 6, 120, 46, 106, 97,
    118, 97, 5, 0, 0, 0, 1, 0, 0, 0, 2, 0, 33, 0, 6, 0, 7, 0, 0, 0, 2, 0, 1, 0, 4, 0, 3, 0, 0,
    0, 2, 0, 5, 0, 3, 0, 0, 0, 2, 0, 4, 0, 4, 0, 2, 0, 1, 0, 1, 0, 0, 0, 31, 0, 1, 0, 1, 0, 0,
    0, 3, 16, 7, 172, 0, 1, 0, 0, 0, 3, 0, 3, 0, 7, 0, 1, 0, 10, 0, 0, 0, 2, 0, 0, 0, 0, 0, 5,
    0, 2, 0, 1, 0, 1, 0, 0, 0, 31, 0, 1, 0, 1, 0, 0, 0, 3, 16, 7, 172, 0, 1, 0, 0, 0, 3, 0, 3,
    0, 7, 0, 1, 0, 10, 0, 0, 0, 2, 0, 0, 0, 2, 0, 8, 0, 0, 0, 2, 0, 11, 0, 9, 0, 0, 0, 0 ]

/-- A class with no interface, field, method or attribute. -/
def emptyClass : ClassFile :=
  { magic := 0xCAFEBABE, minor_version := 0, major_version := 49,
    constant_pool_count := 5,
    constant_pool :=
      [ none, utf8 0 "A", some ⟨0, .class_info 1⟩,
        utf8 0 "java/lang/Object", some ⟨0, .class_info 3⟩ ],
    access_flags := 0x21, this_class := 2, super_class := 4,
    interfaces_count := 0, interfaces := [],
    fields_count := 0, fields := [],
    methods_count := 0, methods := [],
    attributes_count := 0, attributes := [],
    constant_pool_map := [] }

/-- The bytes of the class file of `emptyClass`. -/
def emptyFile : List Nat :=
  [ 202, 254, 186, 190, 0, 0, 0, 49, 0, 5, 1, 0, 1, 65, 7, 0, 1, 1, 0, 16, 106, 97, 118, 97,
    47, 108, 97, 110, 103, 47, 79, 98, 106, 101, 99, 116, 7, 0, 3, 0, 33, 0, 2, 0, 4, 0, 0, 0,
    0, 0, 0, 0, 0 ]

/-- A payload of 65001 bytes. -/
def bigPayload : List Nat :=
  List.replicate 65001 32

/-- The pool of `bigClass`. -/
def bigPool : List (Option cp_info) :=
  [ none, utf8 0 "A", some ⟨0, .class_info 1⟩,
    utf8 0 "java/lang/Object", some ⟨0, .class_info 3⟩, utf8 0 "SourceDebugExtension" ]

/-- A class whose one attribute, a `SourceDebugExtension`, has a payload of
65001 bytes. -/
def bigClass : ClassFile :=
  { magic := 0xCAFEBABE, minor_version := 0, major_version := 49,
    constant_pool_count := 6, constant_pool := bigPool,
    access_flags := 0x21, this_class := 2, super_class := 4,
    interfaces_count := 0, interfaces := [],
    fields_count := 0, fields := [],
    methods_count := 0, methods := [],
    attributes_count := 1, attributes := [.mk 5 65001 bigPayload .Unknown],
    constant_pool_map := [] }

/-- The bytes of the class file of `bigClass` before its attribute. -/
def bigHeader : List Nat :=
  [ 202, 254, 186, 190, 0, 0, 0, 49, 0, 6, 1, 0, 1, 65, 7, 0, 1, 1, 0, 16, 106, 97, 118, 97,
    47, 108, 97, 110, 103, 47, 79, 98, 106, 101, 99, 116, 7, 0, 3, 1, 0, 20, 83, 111, 117, 114,
    99, 101, 68, 101, 98, 117, 103, 69, 120, 116, 101, 110, 115, 105, 111, 110, 0, 33, 0, 2, 0,
    4, 0, 0, 0, 0, 0, 0, 0, 1 ]

/-- The bytes of the class file of `bigClass`. -/
def bigFile : List Nat :=
  bigHeader ++ [0, 5, 0, 0, 253, 233] ++ bigPayload

/-! ## The references that the mark pass meets

The lists of this section are read off `refct.c`: they hold the indices that
`refct_ClassFile` passes to `ref`, in the order of the calls, the operands of
the bytecode being those that the walk of `refct_code` finds.  The list that
follows the instructions of the class-file format instead, and does not go
through the walk, is `model_refs` further down. -/

/-- Spec: `ref` applied to every index of a list, one after the other. -/
def mark_all (l : List Nat) (pool : List (Option cp_info)) : Option (List (Option cp_info)) :=
  refct_each (fun idx p => ref p idx) l pool

/-- The indices that one handler of the walk of `refct_code` passes to `ref`,
and the cursor behind its operands. -/
def rop_refs (t : code_h) (g_code : List Nat) (h : rop) (g_pc : Nat) :
    Option (Nat × List Nat) :=
  match h with
  | .rop_0 => some (g_pc, [])
  | .rop_1b => (argb g_code g_pc).map (fun r => (r.2, []))
  | .rop_1bc => (argb g_code g_pc).map (fun r => (r.2, [r.1]))
  | .rop_1w => (argw g_code g_pc).map (fun r => (r.2, []))
  | .rop_1wc => (argw g_code g_pc).map (fun r => (r.2, [r.1]))
  | .rop_1l => (argl g_code g_pc).map (fun r => (r.2, []))
  | .rop_2bb =>
    match argb g_code g_pc with
    | none => none
    | some (_, pc1) => (argb g_code pc1).map (fun r => (r.2, []))
  | .rop_2wcb =>
    match argw g_code g_pc with
    | none => none
    | some (idx, pc1) => (argb g_code pc1).map (fun r => (r.2, [idx]))
  | .rop_3wcbx =>
    match argw g_code g_pc with
    | none => none
    | some (idx, pc1) =>
      match argb g_code pc1 with
      | none => none
      | some (_, pc2) => (argb g_code pc2).map (fun r => (r.2, [idx]))
  | .rop_lookupswitch => (rop_lookupswitch g_code g_pc).map (fun pc => (pc, []))
  | .rop_tableswitch => (rop_tableswitch g_code g_pc).map (fun pc => (pc, []))
  | .rop_wide => (rop_wide t g_code g_pc).map (fun pc => (pc, []))
  | .no_case => some (g_pc, [])

/-- The pool operands that the walk of `refct_code` finds in a piece of
bytecode, in the order of the walk; `none` when the walk leaves the array. -/
def code_refs_loop (t : code_h) (g_code : List Nat) (length : Nat) :
    Nat → Nat → Option (List Nat)
  | 0, g_pc => if g_pc < length then none else some []
  | turns + 1, g_pc =>
    if g_pc < length then
      match argb g_code g_pc with
      | none => none
      | some (op, pc1) =>
        match rop_refs t g_code (t.refct_code_switch op) pc1 with
        | none => none
        | some (pc2, l) => (code_refs_loop t g_code length turns pc2).map (fun l1 => l ++ l1)
    else some []

/-- The pool operands that the walk of `refct_code` finds in the bytecode of a
Code attribute: the walk from the address 0, with as many turns as the body has
bytes at most.  Where the walk loses the instruction boundaries, behind a
`tableswitch` or `lookupswitch`, these are not the operands of the
instructions; those are `bytecode_operands`. -/
def code_refs (t : code_h) (code : List Nat) (length : Nat) : Option (List Nat) :=
  code_refs_loop t code length length 0

/-- Spec: the catch types of an exception table that are not 0. -/
def catch_refs (exception_table_length : Nat) (exception_table : List exception_table_entry) :
    List Nat :=
  ((exception_table.take exception_table_length).map (fun e => e.catch_type)).filter
    (fun c => c != 0)

mutual
/-- The pool indices that `refct_attribute_info` passes to `ref`: the name
index, the indices of the decoded value, and for a Code attribute the operands
that the walk of `refct_code` finds (`code_refs`), the catch types that are not
0 and the references of its nested attributes. -/
def refs_attribute_info (t : code_h) : attribute_info → Option (List Nat)
  | .mk attribute_name_index _ _ value =>
    (refs_attribute_value t value).map (fun l => attribute_name_index :: l)
/-- The pool indices that the mark pass meets in a decoded attribute value. -/
def refs_attribute_value (t : code_h) : attribute_value → Option (List Nat)
  | .Code _ _ code_length code exception_table_length exception_table _ attributes =>
    match code_refs t code code_length with
    | none => none
    | some l1 =>
      (refs_attributes t attributes).map (fun l2 =>
        l1 ++ catch_refs exception_table_length exception_table ++ l2)
  | .Unknown => some []
  | .ConstantValue constantvalue_index => some [constantvalue_index]
  | .Exceptions n table => some (refs_of (idx_attribute_value (.Exceptions n table)))
  | .InnerClasses n classes => some (refs_of (idx_attribute_value (.InnerClasses n classes)))
  | .Synthetic => some []
  | .SourceFile sourcefile_index => some [sourcefile_index]
  | .LineNumberTable _ _ => some []
  | .LocalVariableTable n table =>
    some (refs_of (idx_attribute_value (.LocalVariableTable n table)))
  | .Deprecated => some []
  | .RuntimeVisibleAnnotations n annotations =>
    some (refs_of (idx_attribute_value (.RuntimeVisibleAnnotations n annotations)))
  | .EnclosingMethod class_index method_index =>
    some (refs_of (idx_attribute_value (.EnclosingMethod class_index method_index)))
  | .StackMapTable => some []
  | .Signature signature_index => some [signature_index]
  | .LocalVariableTypeTable n table =>
    some (refs_of (idx_attribute_value (.LocalVariableTypeTable n table)))
  | .AnnotationDefault default_value =>
    some (refs_of (idx_attribute_value (.AnnotationDefault default_value)))
/-- The pool indices that the mark pass meets in a list of attributes. -/
def refs_attributes (t : code_h) : List attribute_info → Option (List Nat)
  | [] => some []
  | a :: rest =>
    match refs_attribute_info t a with
    | none => none
    | some l => (refs_attributes t rest).map (fun l1 => l ++ l1)
end

/-- The references of the elements of an array, one after the other. -/
def refs_each {α : Type} (f : α → Option (List Nat)) : List α → Option (List Nat)
  | [] => some []
  | a :: rest =>
    match f a with
    | none => none
    | some l => (refs_each f rest).map (fun l1 => l ++ l1)

/-- The pool indices that the mark pass meets in a field. -/
def refs_field_info (t : code_h) (fi : field_info) : Option (List Nat) :=
  (refs_attributes t fi.attributes).map (fun l => fi.name_index :: fi.descriptor_index :: l)

/-- The pool indices that the mark pass meets in a method. -/
def refs_method_info (t : code_h) (mi : method_info) : Option (List Nat) :=
  (refs_attributes t mi.attributes).map (fun l => mi.name_index :: mi.descriptor_index :: l)

/-- Spec: the pool indices that the entries of the pool refer to. -/
def refs_pool (pool : List (Option cp_info)) : List Nat :=
  pool.flatMap (fun e => refs_of (idx_slot e))

/-- The pool indices that `refct_ClassFile` passes to `ref`: this class, super
class, the indices inside the pool entries, the interfaces, the fields, the
methods and the class attributes, the bytecode of the Code attributes being
read by the walk of `refct_code`. -/
def refs_ClassFile (t : code_h) (cf : ClassFile) : Option (List Nat) :=
  match refs_each (refs_field_info t) cf.fields with
  | none => none
  | some fl =>
    match refs_each (refs_method_info t) cf.methods with
    | none => none
    | some ml =>
      (refs_attributes t cf.attributes).map (fun al =>
        cf.this_class :: cf.super_class ::
          (refs_pool cf.constant_pool ++ cf.interfaces ++ fl ++ ml ++ al))

/-- Spec: `mark_all` on a list of references that may not exist. -/
def mark_refs (r : Option (List Nat)) (pool : List (Option cp_info)) :
    Option (List (Option cp_info)) :=
  match r with
  | none => none
  | some l => mark_all l pool

/-- The pool with every reference count set to zero: the first loop of
`refct_ClassFile`. -/
def reset_counts (pool : List (Option cp_info)) : List (Option cp_info) :=
  pool.map (Option.map (fun cp => { cp with refCount := 0 }))

/-- Spec: the pool with the reference count of every entry set to the number
of occurrences of its index in `l`. -/
def counted (l : List Nat) (pool : List (Option cp_info)) (i : Nat) : Option (Option cp_info) :=
  (pool[i]?).map (Option.map (fun cp => { cp with refCount := l.count i }))

/-- The index `i` denotes an entry of the pool, not a null slot. -/
def present (pool : List (Option cp_info)) (i : Nat) : Bool :=
  match pool[i]? with
  | some (some _) => true
  | _ => false

/-- The numbers that the comments of `prune_code` give, and 0x12 for `OP_LDC`,
which `refct_code` sends to `rop_1bc`. -/
def ldc_opcodes : code_h :=
  { refct_code_switch := fun op =>
      if op = 0x12 then rop.rop_1bc else stub_opcodes.refct_code_switch op,
    rop_wide_switch := fun _ => wide_rop.illegal }

/-- A class before the mark pass, with counts left over from an earlier pass:
the Utf8 entry 1 is referenced by nothing; the one method is `ldc #9; return`
and has a handler with catch type 3, the class itself. -/
def countExample : ClassFile :=
  { magic := 0xCAFEBABE, minor_version := 0, major_version := 49,
    constant_pool_count := 10,
    constant_pool :=
      [ none,
        utf8 7 "dead", utf8 1 "A", some ⟨0, .class_info 2⟩,
        utf8 5 "java/lang/Object", some ⟨1, .class_info 4⟩,
        utf8 1 "Code", utf8 1 "m", utf8 1 "()V", some ⟨3, .string 2⟩ ],
    access_flags := 0x21, this_class := 3, super_class := 5,
    interfaces_count := 0, interfaces := [],
    fields_count := 0, fields := [],
    methods_count := 1,
    methods := [⟨ACC_PUBLIC, 7, 8, 1,
      [.mk 6 23 [0, 1, 0, 1, 0, 0, 0, 3, 18, 9, 177, 0, 1, 0, 0, 0, 3, 0, 3, 0, 3, 0, 0]
        (.Code 1 1 3 [18, 9, 177] 1 [⟨0, 3, 3, 3⟩] 0 [])]⟩],
    attributes_count := 0, attributes := [],
    constant_pool_map := [] }

/-! ## Specification-side notions for the frame of pruning -/

/-- Spec: the declared stack and local sizes of a Code attribute; nothing for
any other attribute. -/
def stack_and_locals (a : attribute_info) : Option (Nat × Nat) :=
  match a.value with
  | .Code max_stack max_locals _ _ _ _ _ _ => some (max_stack, max_locals)
  | _ => none

/-! ## Notions and inputs for the failures of the reader -/

/-- Spec: the tags of the eleven kinds of pool entry. -/
def known_tags : List Nat :=
  [1, 3, 4, 5, 6, 7, 8, 9, 10, 11, 12]

/-- A class file whose second pool entry has the tag 15: a header with a pool
count of 4, the Utf8 entry `A`, the byte 15, and what would be the rest of a
file. -/
def badTagFile : List Nat :=
  [ 202, 254, 186, 190, 0, 0, 0, 51, 0, 4, 1, 0, 1, 65, 15, 1, 0, 2, 7, 0, 1,
    0, 33, 0, 3, 0, 0, 0, 0, 0, 0, 0, 0, 0, 0 ]

/-! ## Notions and inputs for attributes of an unknown name -/

/-- Spec: the fifteen attribute names that `decode_attribute_value` compares
the name of an attribute with. -/
def recognized_names : List (List Nat) :=
  [ cbytes "ConstantValue", cbytes "Code", cbytes "Exceptions", cbytes "InnerClasses",
    cbytes "Synthetic", cbytes "SourceFile", cbytes "LineNumberTable",
    cbytes "LocalVariableTable", cbytes "Deprecated", cbytes "RuntimeVisibleAnnotations",
    cbytes "EnclosingMethod", cbytes "StackMapTable", cbytes "Signature",
    cbytes "LocalVariableTypeTable", cbytes "AnnotationDefault" ]

/-- A class file with one class attribute, of length 0, whose name index 2
denotes the Class entry of the pool: the pool is the Utf8 entry `A` and the
class `#1`. -/
def badNameFile : List Nat :=
  [ 202, 254, 186, 190, 0, 0, 0, 49, 0, 3, 1, 0, 1, 65, 7, 0, 1,
    0, 33, 0, 2, 0, 2, 0, 0, 0, 0, 0, 0, 0, 1, 0, 2, 0, 0, 0, 0 ]

/-! ## main.c -/

/-- How a run of the driver loop ends: the loop is left after a number of
rounds with a class file; or a pass has no result on the model; or the bound on
the number of rounds is used up. -/
inductive loop_result where
  | finished (rounds : Nat) (cf : ClassFile)
  | aborted
  | unfinished

/-- The loop of `main`,
`do { refct_ClassFile(classfile); done = gc_ClassFile(classfile); } while (!done);`.
The first argument bounds the number of rounds, the second counts the rounds
that were made; `constant_pool_count` rounds are enough.  The map that
`gc_ClassFile` allocates in round `n` has the contents `uninit n`.  A pass that
reads a slot behind the count has no result here; `gc_loop_array` follows such
a run on the array. -/
def gc_loop (t : code_h) (uninit : Nat → Nat → Nat) : Nat → Nat → ClassFile → loop_result
  | 0, _, _ => .unfinished
  | fuel + 1, n, cf =>
    match refct_ClassFile t cf with
    | none => .aborted
    | some cf1 =>
      match gc_ClassFile (uninit n) cf1 with
      | none => .aborted
      | some (done, cf2) =>
        if done then .finished (n + 1) cf2 else gc_loop t uninit fuel (n + 1) cf2

/-- The action `ACT_PRUNE` of `main` on the class file that was read:
`prune_ClassFile`, then the loop. -/
def prune_action (t : code_h) (uninit : Nat → Nat → Nat) (cf : ClassFile) : loop_result :=
  match prune_ClassFile cf with
  | none => .aborted
  | some cf0 => gc_loop t uninit cf0.constant_pool_count 0 cf0

/-- The number of rounds of a run that left the loop. -/
def loop_result.rounds : loop_result → Option Nat
  | .finished rounds _ => some rounds
  | _ => none

/-- The class file of a run that left the loop. -/
def loop_result.classfile : loop_result → Option ClassFile
  | .finished _ cf => some cf
  | _ => none

/-! ## Specification-side notions for the rounds of the driver loop -/

mutual
/-- The Code attributes inside an attribute give the mark pass no pool index:
the walk of their bytecode finds no pool operand and their exception table has
no catch type that is not 0.  This is how `prune_ClassFile` leaves them. -/
def quiet_attribute_info (t : code_h) : attribute_info → Bool
  | .mk _ _ _ value => quiet_attribute_value t value
/-- The function `quiet_attribute_info` on a decoded value. -/
def quiet_attribute_value (t : code_h) : attribute_value → Bool
  | .Code _ _ code_length code exception_table_length exception_table _ attributes =>
    (code_refs t code code_length == some [])
      && (catch_refs exception_table_length exception_table == [])
      && quiet_attributes t attributes
  | _ => true
/-- The function `quiet_attribute_info` on a list of attributes. -/
def quiet_attributes (t : code_h) : List attribute_info → Bool
  | [] => true
  | a :: rest => quiet_attribute_info t a && quiet_attributes t rest
end

/-- No Code attribute of the model gives the mark pass a pool index. -/
def quiet (t : code_h) (cf : ClassFile) : Bool :=
  cf.fields.all (fun fi => quiet_attributes t fi.attributes)
    && cf.methods.all (fun mi => quiet_attributes t mi.attributes)
    && quiet_attributes t cf.attributes

/-- Spec: the pool indices that the model refers to outside the pool and
outside its Code bodies. -/
def roots (cf : ClassFile) : List Nat :=
  refs_of (idx_ClassFile cf)

/-- Spec: the pool indices that the entry at `j` refers to. -/
def entry_refs (pool : List (Option cp_info)) (j : Nat) : List Nat :=
  refs_of (idx_slot (pool.getD j none))

/-- The entry at `j` is a Long or a Double. -/
def long_at (pool : List (Option cp_info)) (j : Nat) : Bool :=
  match pool.getD j none with
  | some cp => isLong cp
  | none => false

/-- The next slot of a Long or Double holds no entry. -/
def paired (pool : List (Option cp_info)) : Prop :=
  ∀ j, long_at pool j = true → present pool (j + 1) = false

/-- Spec: the entries of the pool: the indices from 1 on that denote an entry. -/
def entries (cf : ClassFile) : List Nat :=
  (List.range' 1 (cf.constant_pool_count - 1)).filter (present cf.constant_pool)

/-- Spec: the slots that a list of entries takes: a Long or Double takes its
own slot and the next one. -/
def slots (pool : List (Option cp_info)) (alive : List Nat) : List Nat :=
  alive.flatMap (fun j => if long_at pool j then [j, j + 1] else [j])

/-- Spec: the index that the slot `s` has when the slots `sl` are packed into
a pool from index 1 on. -/
def posn (sl : List Nat) (s : Nat) : Nat :=
  sl.indexOf s + 1

/-- Spec: the entry `j` is referenced by the model or by one of the entries
`alive`. -/
def referenced (cf0 : ClassFile) (alive : List Nat) (j : Nat) : Bool :=
  decide (j ∈ roots cf0)
    || alive.any (fun j1 => decide (j ∈ entry_refs cf0.constant_pool j1))

/-- Spec: the test that keeps a slot in a round: its entry is referenced, or
it is the second slot of a Long or Double that is. -/
def keep_slot (cf0 : ClassFile) (alive : List Nat) (s : Nat) : Bool :=
  referenced cf0 alive (if present cf0.constant_pool s = true then s else s - 1)

/-- Spec: one round of marking and sweeping, on the entries of the pool that
are still there: those that the model or one of them references stay. -/
def step (cf0 : ClassFile) (alive : List Nat) : List Nat :=
  alive.filter (referenced cf0 alive)

/-- Spec: the entries that are there after `r` rounds. -/
def alive_after (cf0 : ClassFile) : Nat → List Nat
  | 0 => entries cf0
  | r + 1 => step cf0 (alive_after cf0 r)

/-- Spec: every index that the model or an entry of its pool refers to,
outside the Code bodies, denotes an entry. -/
def valid_refs (cf : ClassFile) : Prop :=
  (∀ v ∈ roots cf, present cf.constant_pool v = true) ∧
  ∀ v ∈ refs_pool cf.constant_pool, present cf.constant_pool v = true

/-- The first `i` rounds of the loop of `main`, whatever `gc_ClassFile` returns;
the second argument counts the rounds that were made before. -/
def after_rounds (t : code_h) (uninit : Nat → Nat → Nat) : Nat → Nat → ClassFile →
    Option ClassFile
  | 0, _, cf => some cf
  | i + 1, n, cf =>
    match refct_ClassFile t cf with
    | none => none
    | some cf1 =>
      match gc_ClassFile (uninit n) cf1 with
      | none => none
      | some (_, cf2) => after_rounds t uninit i (n + 1) cf2

/-- Spec: the entry at the new index `M v` is the entry that was at `v`: the
same variant with the same contents, its own indices sent through `M`. -/
def same_entry (M : Nat → Nat) (cf0 cf : ClassFile) (v : Nat) : Prop :=
  M v < cf.constant_pool_count ∧
  ∃ cp cp1, cf0.constant_pool[v]? = some (some cp) ∧
    cf.constant_pool[M v]? = some (some cp1) ∧ cp1.info = (gc_cp_info M cp).info

/-- The model `cf` is the model `cf0` after some rounds that left the entries
`alive`: its pool holds the slots of these entries, in order, from index 1 on,
and every index field holds the new index of what it denoted in `cf0`. -/
def Sim (t : code_h) (cf0 cf : ClassFile) (alive : List Nat) : Prop :=
  pool_wf cf = true ∧ cf.constant_pool[0]? = some none ∧ quiet t cf = true ∧
  cf.constant_pool_count = 1 + (slots cf0.constant_pool alive).length ∧
  idx_ClassFile cf
    = (idx_ClassFile cf0).map (remap_field (posn (slots cf0.constant_pool alive))) ∧
  ∀ k, k < (slots cf0.constant_pool alive).length →
    same_slot (cf.constant_pool.getD (k + 1) none)
      ((cf0.constant_pool.getD ((slots cf0.constant_pool alive).getD k 0) none).map
        (gc_cp_info (posn (slots cf0.constant_pool alive))))

/-- The entries `alive` of `cf0` are in increasing order, and what the model
and they refer to is among them. -/
def Closed (cf0 : ClassFile) (alive : List Nat) : Prop :=
  alive.Pairwise (fun a b => a < b) ∧
  (∀ j ∈ alive, present cf0.constant_pool j = true) ∧
  (∀ v ∈ roots cf0, v ∈ alive) ∧
  (∀ j ∈ alive, ∀ v ∈ entry_refs cf0.constant_pool j, v ∈ alive)

/-- The table sends the opcodes of the stubs of `prune_code` to `rop_0`, as the
`switch` of `refct_code` does with the names of these opcodes: `return`,
`iconst_0`, `ireturn`, `dconst_0`, `dreturn`, `fconst_0`, `freturn`,
`lconst_0`, `lreturn`, `aconst_null` and `areturn`. -/
def stub_table (t : code_h) : Prop :=
  ∀ op ∈ [0xb1, 0x03, 0xac, 0x0e, 0xaf, 0x0b, 0xae, 0x09, 0xad, 0x01, 0xb0],
    t.refct_code_switch op = rop.rop_0

/-- Spec: the descriptor of a method is well formed as far as pruning reads
it: it resolves to a text with a closing parenthesis, and the character behind
the parenthesis is a return type. -/
def descriptor_ok (constant_pool : List (Option cp_info)) (mi : method_info) : Bool :=
  (((pUtf8 constant_pool mi.descriptor_index).bind returnTypeCode).bind return_stub).isSome

/-- Spec: every visible method that has a Code attribute has a descriptor that
is well formed. -/
def descriptors_ok (cf : ClassFile) : Bool :=
  cf.methods.all (fun mi =>
    !visible mi.access_flags || noCode mi.attributes || descriptor_ok cf.constant_pool mi)

/-! ## util.c: the byte order of the host -/

/-- The function `testEndianism` on a host that is little-endian or not: the
new value of `g_littleEndian`, the test whether the first byte in memory of the
`u2` value 1 is 1. -/
def testEndianism (hostLittleEndian : Bool) : Bool :=
  (to_host hostLittleEndian 2 1).head? == some 1

/-! ## code.h: the names of the opcodes -/

/-- The names `OP_*` of the opcodes, in the order of the `case` labels of
`refct_code` and of `dump_code`.  Their numbers are in `code.h`. -/
inductive opcode where
  | AALOAD | AASTORE | ACONST_NULL | ALOAD | ALOAD_0 | ALOAD_1 | ALOAD_2 | ALOAD_3 | ANEWARRAY
  | ARETURN | ARRAYLENGTH | ASTORE | ASTORE_0 | ASTORE_1 | ASTORE_2 | ASTORE_3 | ATHROW | BALOAD
  | BASTORE | BIPUSH | CALOAD | CASTORE | CHECKCAST | D2F | D2I | D2L | DADD | DALOAD | DASTORE
  | DCMPG | DCMPL | DCONST_0 | DCONST_1 | DDIV | DLOAD | DLOAD_0 | DLOAD_1 | DLOAD_2 | DLOAD_3
  | DMUL | DNEG | DREM | DRETURN | DSTORE | DSTORE_0 | DSTORE_1 | DSTORE_2 | DSTORE_3 | DSUB
  | DUP | DUP_X1 | DUP_X2 | DUP2 | DUP2_X1 | DUP2_X2 | F2D | F2I | F2L | FADD | FALOAD | FASTORE
  | FCMPG | FCMPL | FCONST_0 | FCONST_1 | FCONST_2 | FDIV | FLOAD | FLOAD_0 | FLOAD_1 | FLOAD_2
  | FLOAD_3 | FMUL | FNEG | FREM | FRETURN | FSTORE | FSTORE_0 | FSTORE_1 | FSTORE_2 | FSTORE_3
  | FSUB | GETFIELD | GETSTATIC | GOTO | GOTO_W | I2B | I2C | I2D | I2F | I2L | I2S | IADD
  | IALOAD | IAND | IASTORE | ICONST_M1 | ICONST_0 | ICONST_1 | ICONST_2 | ICONST_3 | ICONST_4
  | ICONST_5 | IDIV | IF_ACMPEQ | IF_ACMPNE | IF_ICMPEQ | IF_ICMPGE | IF_ICMPGT | IF_ICMPLE
  | IF_ICMPLT | IF_ICMPNE | IFEQ | IFGE | IFGT | IFLE | IFLT | IFNE | IFNONNULL | IFNULL | IINC
  | ILOAD | ILOAD_0 | ILOAD_1 | ILOAD_2 | ILOAD_3 | IMUL | INEG | INSTANCEOF | INVOKEINTERFACE
  | INVOKESPECIAL | INVOKESTATIC | INVOKEVIRTUAL | IOR | IREM | IRETURN | ISHL | ISHR | ISTORE
  | ISTORE_0 | ISTORE_1 | ISTORE_2 | ISTORE_3 | ISUB | IUSHR | IXOR | JSR | JSR_W | L2D | L2F
  | L2I | LADD | LALOAD | LAND | LASTORE | LCMP | LCONST_0 | LCONST_1 | LDC | LDC_W | LDC2_W
  | LDIV | LLOAD | LLOAD_0 | LLOAD_1 | LLOAD_2 | LLOAD_3 | LMUL | LNEG | LOOKUPSWITCH | LOR
  | LREM | LRETURN | LSHL | LSHR | LSTORE | LSTORE_0 | LSTORE_1 | LSTORE_2 | LSTORE_3 | LSUB
  | LUSHR | LXOR | MONITORENTER | MONITOREXIT | MULTINEWARRAY | NEW | NEWARRAY | NOP | POP
  | POP2 | PUTFIELD | PUTSTATIC | RET | RETURN | SALOAD | SASTORE | SIPUSH | SWAP | TABLESWITCH
  | WIDE
  deriving DecidableEq

/-- The `switch` of `refct_code`: the handler that each `case` calls. -/
def refct_code_case : opcode → rop
  | .AALOAD => .rop_0
  | .AASTORE => .rop_0
  | .ACONST_NULL => .rop_0
  | .ALOAD => .rop_1b
  | .ALOAD_0 => .rop_0
  | .ALOAD_1 => .rop_0
  | .ALOAD_2 => .rop_0
  | .ALOAD_3 => .rop_0
  | .ANEWARRAY => .rop_1wc
  | .ARETURN => .rop_0
  | .ARRAYLENGTH => .rop_0
  | .ASTORE => .rop_1b
  | .ASTORE_0 => .rop_0
  | .ASTORE_1 => .rop_0
  | .ASTORE_2 => .rop_0
  | .ASTORE_3 => .rop_0
  | .ATHROW => .rop_0
  | .BALOAD => .rop_0
  | .BASTORE => .rop_0
  | .BIPUSH => .rop_1b
  | .CALOAD => .rop_0
  | .CASTORE => .rop_0
  | .CHECKCAST => .rop_1wc
  | .D2F => .rop_0
  | .D2I => .rop_0
  | .D2L => .rop_0
  | .DADD => .rop_0
  | .DALOAD => .rop_0
  | .DASTORE => .rop_0
  | .DCMPG => .rop_0
  | .DCMPL => .rop_0
  | .DCONST_0 => .rop_0
  | .DCONST_1 => .rop_0
  | .DDIV => .rop_0
  | .DLOAD => .rop_1b
  | .DLOAD_0 => .rop_0
  | .DLOAD_1 => .rop_0
  | .DLOAD_2 => .rop_0
  | .DLOAD_3 => .rop_0
  | .DMUL => .rop_0
  | .DNEG => .rop_0
  | .DREM => .rop_0
  | .DRETURN => .rop_0
  | .DSTORE => .rop_1b
  | .DSTORE_0 => .rop_0
  | .DSTORE_1 => .rop_0
  | .DSTORE_2 => .rop_0
  | .DSTORE_3 => .rop_0
  | .DSUB => .rop_0
  | .DUP => .rop_0
  | .DUP_X1 => .rop_0
  | .DUP_X2 => .rop_0
  | .DUP2 => .rop_0
  | .DUP2_X1 => .rop_0
  | .DUP2_X2 => .rop_0
  | .F2D => .rop_0
  | .F2I => .rop_0
  | .F2L => .rop_0
  | .FADD => .rop_0
  | .FALOAD => .rop_0
  | .FASTORE => .rop_0
  | .FCMPG => .rop_0
  | .FCMPL => .rop_0
  | .FCONST_0 => .rop_0
  | .FCONST_1 => .rop_0
  | .FCONST_2 => .rop_0
  | .FDIV => .rop_0
  | .FLOAD => .rop_1b
  | .FLOAD_0 => .rop_0
  | .FLOAD_1 => .rop_0
  | .FLOAD_2 => .rop_0
  | .FLOAD_3 => .rop_0
  | .FMUL => .rop_0
  | .FNEG => .rop_0
  | .FREM => .rop_0
  | .FRETURN => .rop_0
  | .FSTORE => .rop_1b
  | .FSTORE_0 => .rop_0
  | .FSTORE_1 => .rop_0
  | .FSTORE_2 => .rop_0
  | .FSTORE_3 => .rop_0
  | .FSUB => .rop_0
  | .GETFIELD => .rop_1wc
  | .GETSTATIC => .rop_1wc
  | .GOTO => .rop_1w
  | .GOTO_W => .rop_1l
  | .I2B => .rop_0
  | .I2C => .rop_0
  | .I2D => .rop_0
  | .I2F => .rop_0
  | .I2L => .rop_0
  | .I2S => .rop_0
  | .IADD => .rop_0
  | .IALOAD => .rop_0
  | .IAND => .rop_0
  | .IASTORE => .rop_0
  | .ICONST_M1 => .rop_0
  | .ICONST_0 => .rop_0
  | .ICONST_1 => .rop_0
  | .ICONST_2 => .rop_0
  | .ICONST_3 => .rop_0
  | .ICONST_4 => .rop_0
  | .ICONST_5 => .rop_0
  | .IDIV => .rop_0
  | .IF_ACMPEQ => .rop_1w
  | .IF_ACMPNE => .rop_1w
  | .IF_ICMPEQ => .rop_1w
  | .IF_ICMPGE => .rop_1w
  | .IF_ICMPGT => .rop_1w
  | .IF_ICMPLE => .rop_1w
  | .IF_ICMPLT => .rop_1w
  | .IF_ICMPNE => .rop_1w
  | .IFEQ => .rop_1w
  | .IFGE => .rop_1w
  | .IFGT => .rop_1w
  | .IFLE => .rop_1w
  | .IFLT => .rop_1w
  | .IFNE => .rop_1w
  | .IFNONNULL => .rop_1w
  | .IFNULL => .rop_1w
  | .IINC => .rop_2bb
  | .ILOAD => .rop_1b
  | .ILOAD_0 => .rop_0
  | .ILOAD_1 => .rop_0
  | .ILOAD_2 => .rop_0
  | .ILOAD_3 => .rop_0
  | .IMUL => .rop_0
  | .INEG => .rop_0
  | .INSTANCEOF => .rop_1wc
  | .INVOKEINTERFACE => .rop_3wcbx
  | .INVOKESPECIAL => .rop_1wc
  | .INVOKESTATIC => .rop_1wc
  | .INVOKEVIRTUAL => .rop_1wc
  | .IOR => .rop_0
  | .IREM => .rop_0
  | .IRETURN => .rop_0
  | .ISHL => .rop_0
  | .ISHR => .rop_0
  | .ISTORE => .rop_1b
  | .ISTORE_0 => .rop_0
  | .ISTORE_1 => .rop_0
  | .ISTORE_2 => .rop_0
  | .ISTORE_3 => .rop_0
  | .ISUB => .rop_0
  | .IUSHR => .rop_0
  | .IXOR => .rop_0
  | .JSR => .rop_1w
  | .JSR_W => .rop_1l
  | .L2D => .rop_0
  | .L2F => .rop_0
  | .L2I => .rop_0
  | .LADD => .rop_0
  | .LALOAD => .rop_0
  | .LAND => .rop_0
  | .LASTORE => .rop_0
  | .LCMP => .rop_0
  | .LCONST_0 => .rop_0
  | .LCONST_1 => .rop_0
  | .LDC => .rop_1bc
  | .LDC_W => .rop_1wc
  | .LDC2_W => .rop_1wc
  | .LDIV => .rop_0
  | .LLOAD => .rop_1b
  | .LLOAD_0 => .rop_0
  | .LLOAD_1 => .rop_0
  | .LLOAD_2 => .rop_0
  | .LLOAD_3 => .rop_0
  | .LMUL => .rop_0
  | .LNEG => .rop_0
  | .LOOKUPSWITCH => .rop_lookupswitch
  | .LOR => .rop_0
  | .LREM => .rop_0
  | .LRETURN => .rop_0
  | .LSHL => .rop_0
  | .LSHR => .rop_0
  | .LSTORE => .rop_1b
  | .LSTORE_0 => .rop_0
  | .LSTORE_1 => .rop_0
  | .LSTORE_2 => .rop_0
  | .LSTORE_3 => .rop_0
  | .LSUB => .rop_0
  | .LUSHR => .rop_0
  | .LXOR => .rop_0
  | .MONITORENTER => .rop_0
  | .MONITOREXIT => .rop_0
  | .MULTINEWARRAY => .rop_2wcb
  | .NEW => .rop_1wc
  | .NEWARRAY => .rop_1b
  | .NOP => .rop_0
  | .POP => .rop_0
  | .POP2 => .rop_0
  | .PUTFIELD => .rop_1wc
  | .PUTSTATIC => .rop_1wc
  | .RET => .rop_1b
  | .RETURN => .rop_0
  | .SALOAD => .rop_0
  | .SASTORE => .rop_0
  | .SIPUSH => .rop_1w
  | .SWAP => .rop_0
  | .TABLESWITCH => .rop_tableswitch
  | .WIDE => .rop_wide

/-- The `switch` of `rop_wide`: the handler that each `case` calls; every other
byte goes to the `default`. -/
def rop_wide_case : opcode → wide_rop
  | .ALOAD => .rop_1w
  | .ASTORE => .rop_1w
  | .DLOAD => .rop_1w
  | .DSTORE => .rop_1w
  | .FLOAD => .rop_1w
  | .FSTORE => .rop_1w
  | .IINC => .rop_2ww
  | .ILOAD => .rop_1w
  | .ISTORE => .rop_1w
  | .LLOAD => .rop_1w
  | .LSTORE => .rop_1w
  | .RET => .rop_1w
  | _ => .illegal

/-- The two `switch` statements of refct.c for the numbers that `code.h` gives
to the names: `names b` is the name whose number is the byte `b`, if there is
one.  A byte without a name has no `case` in `refct_code` and goes to the
`default` in `rop_wide`. -/
def refct_switches (names : Nat → Option opcode) : code_h :=
  { refct_code_switch := fun b =>
      match names b with
      | some n => refct_code_case n
      | none => rop.no_case,
    rop_wide_switch := fun b =>
      match names b with
      | some n => rop_wide_case n
      | none => wide_rop.illegal }

/-- The loop of `refct_code` with the values that it gives to `g_addr`: for
every turn the value of `g_addr` and the cursor after the handler.  The first
argument counts the turns that are left. -/
def refct_code_addr_loop (t : code_h) (g_code : List Nat) (length : Nat) :
    Nat → Nat → Option (List (Nat × Nat))
  | 0, g_pc => if g_pc < length then none else some []
  | turns + 1, g_pc =>
    if g_pc < length then
      match argb g_code g_pc with
      | none => none
      | some (op, pc1) =>
        match rop_refs t g_code (t.refct_code_switch op) pc1 with
        | none => none
        | some (pc2, _) =>
          (refct_code_addr_loop t g_code length turns pc2).map (fun l => (g_pc, pc2) :: l)
    else some []

/-- The instructions that `refct_code` walks over: where each one starts and
where it ends. -/
def refct_code_addrs (t : code_h) (code : List Nat) (length : Nat) : Option (List (Nat × Nat)) :=
  refct_code_addr_loop t code length length 0

/-! ## dump.c: the walk over the bytecode -/

/-- The handlers that the `switch` of `dump_code` dispatches to; `no_case` is a
byte that has no `case`. -/
inductive op where
  | op_0 | op_1b | op_1bc | op_1bv | op_1ws | op_1wc | op_1l | op_2bb | op_2wcb
  | op_3wcbx | op_lookupswitch | op_tableswitch | op_wide | no_case
  deriving DecidableEq, Repr

/-- The handlers that the `switch` of `op_wide` dispatches to; `illegal` is its
`default`. -/
inductive wide_op where
  | opw_1 | opw_2 | illegal
  deriving DecidableEq, Repr

/-- The `switch` of `dump_code`: the handler that each `case` calls. -/
def dump_code_case : opcode → op
  | .AALOAD => .op_0
  | .AASTORE => .op_0
  | .ACONST_NULL => .op_0
  | .ALOAD => .op_1bv
  | .ALOAD_0 => .op_0
  | .ALOAD_1 => .op_0
  | .ALOAD_2 => .op_0
  | .ALOAD_3 => .op_0
  | .ANEWARRAY => .op_1wc
  | .ARETURN => .op_0
  | .ARRAYLENGTH => .op_0
  | .ASTORE => .op_1bv
  | .ASTORE_0 => .op_0
  | .ASTORE_1 => .op_0
  | .ASTORE_2 => .op_0
  | .ASTORE_3 => .op_0
  | .ATHROW => .op_0
  | .BALOAD => .op_0
  | .BASTORE => .op_0
  | .BIPUSH => .op_1b
  | .CALOAD => .op_0
  | .CASTORE => .op_0
  | .CHECKCAST => .op_1wc
  | .D2F => .op_0
  | .D2I => .op_0
  | .D2L => .op_0
  | .DADD => .op_0
  | .DALOAD => .op_0
  | .DASTORE => .op_0
  | .DCMPG => .op_0
  | .DCMPL => .op_0
  | .DCONST_0 => .op_0
  | .DCONST_1 => .op_0
  | .DDIV => .op_0
  | .DLOAD => .op_1bv
  | .DLOAD_0 => .op_0
  | .DLOAD_1 => .op_0
  | .DLOAD_2 => .op_0
  | .DLOAD_3 => .op_0
  | .DMUL => .op_0
  | .DNEG => .op_0
  | .DREM => .op_0
  | .DRETURN => .op_0
  | .DSTORE => .op_1bv
  | .DSTORE_0 => .op_0
  | .DSTORE_1 => .op_0
  | .DSTORE_2 => .op_0
  | .DSTORE_3 => .op_0
  | .DSUB => .op_0
  | .DUP => .op_0
  | .DUP_X1 => .op_0
  | .DUP_X2 => .op_0
  | .DUP2 => .op_0
  | .DUP2_X1 => .op_0
  | .DUP2_X2 => .op_0
  | .F2D => .op_0
  | .F2I => .op_0
  | .F2L => .op_0
  | .FADD => .op_0
  | .FALOAD => .op_0
  | .FASTORE => .op_0
  | .FCMPG => .op_0
  | .FCMPL => .op_0
  | .FCONST_0 => .op_0
  | .FCONST_1 => .op_0
  | .FCONST_2 => .op_0
  | .FDIV => .op_0
  | .FLOAD => .op_1bv
  | .FLOAD_0 => .op_0
  | .FLOAD_1 => .op_0
  | .FLOAD_2 => .op_0
  | .FLOAD_3 => .op_0
  | .FMUL => .op_0
  | .FNEG => .op_0
  | .FREM => .op_0
  | .FRETURN => .op_0
  | .FSTORE => .op_1bv
  | .FSTORE_0 => .op_0
  | .FSTORE_1 => .op_0
  | .FSTORE_2 => .op_0
  | .FSTORE_3 => .op_0
  | .FSUB => .op_0
  | .GETFIELD => .op_1wc
  | .GETSTATIC => .op_1wc
  | .GOTO => .op_1ws
  | .GOTO_W => .op_1l
  | .I2B => .op_0
  | .I2C => .op_0
  | .I2D => .op_0
  | .I2F => .op_0
  | .I2L => .op_0
  | .I2S => .op_0
  | .IADD => .op_0
  | .IALOAD => .op_0
  | .IAND => .op_0
  | .IASTORE => .op_0
  | .ICONST_M1 => .op_0
  | .ICONST_0 => .op_0
  | .ICONST_1 => .op_0
  | .ICONST_2 => .op_0
  | .ICONST_3 => .op_0
  | .ICONST_4 => .op_0
  | .ICONST_5 => .op_0
  | .IDIV => .op_0
  | .IF_ACMPEQ => .op_1ws
  | .IF_ACMPNE => .op_1ws
  | .IF_ICMPEQ => .op_1ws
  | .IF_ICMPGE => .op_1ws
  | .IF_ICMPGT => .op_1ws
  | .IF_ICMPLE => .op_1ws
  | .IF_ICMPLT => .op_1ws
  | .IF_ICMPNE => .op_1ws
  | .IFEQ => .op_1ws
  | .IFGE => .op_1ws
  | .IFGT => .op_1ws
  | .IFLE => .op_1ws
  | .IFLT => .op_1ws
  | .IFNE => .op_1ws
  | .IFNONNULL => .op_1ws
  | .IFNULL => .op_1ws
  | .IINC => .op_2bb
  | .ILOAD => .op_1bv
  | .ILOAD_0 => .op_0
  | .ILOAD_1 => .op_0
  | .ILOAD_2 => .op_0
  | .ILOAD_3 => .op_0
  | .IMUL => .op_0
  | .INEG => .op_0
  | .INSTANCEOF => .op_1wc
  | .INVOKEINTERFACE => .op_3wcbx
  | .INVOKESPECIAL => .op_1wc
  | .INVOKESTATIC => .op_1wc
  | .INVOKEVIRTUAL => .op_1wc
  | .IOR => .op_0
  | .IREM => .op_0
  | .IRETURN => .op_0
  | .ISHL => .op_0
  | .ISHR => .op_0
  | .ISTORE => .op_1bv
  | .ISTORE_0 => .op_0
  | .ISTORE_1 => .op_0
  | .ISTORE_2 => .op_0
  | .ISTORE_3 => .op_0
  | .ISUB => .op_0
  | .IUSHR => .op_0
  | .IXOR => .op_0
  | .JSR => .op_1ws
  | .JSR_W => .op_1l
  | .L2D => .op_0
  | .L2F => .op_0
  | .L2I => .op_0
  | .LADD => .op_0
  | .LALOAD => .op_0
  | .LAND => .op_0
  | .LASTORE => .op_0
  | .LCMP => .op_0
  | .LCONST_0 => .op_0
  | .LCONST_1 => .op_0
  | .LDC => .op_1bc
  | .LDC_W => .op_1wc
  | .LDC2_W => .op_1wc
  | .LDIV => .op_0
  | .LLOAD => .op_1bv
  | .LLOAD_0 => .op_0
  | .LLOAD_1 => .op_0
  | .LLOAD_2 => .op_0
  | .LLOAD_3 => .op_0
  | .LMUL => .op_0
  | .LNEG => .op_0
  | .LOOKUPSWITCH => .op_lookupswitch
  | .LOR => .op_0
  | .LREM => .op_0
  | .LRETURN => .op_0
  | .LSHL => .op_0
  | .LSHR => .op_0
  | .LSTORE => .op_1bv
  | .LSTORE_0 => .op_0
  | .LSTORE_1 => .op_0
  | .LSTORE_2 => .op_0
  | .LSTORE_3 => .op_0
  | .LSUB => .op_0
  | .LUSHR => .op_0
  | .LXOR => .op_0
  | .MONITORENTER => .op_0
  | .MONITOREXIT => .op_0
  | .MULTINEWARRAY => .op_2wcb
  | .NEW => .op_1wc
  | .NEWARRAY => .op_1b
  | .NOP => .op_0
  | .POP => .op_0
  | .POP2 => .op_0
  | .PUTFIELD => .op_1wc
  | .PUTSTATIC => .op_1wc
  | .RET => .op_1bv
  | .RETURN => .op_0
  | .SALOAD => .op_0
  | .SASTORE => .op_0
  | .SIPUSH => .op_1ws
  | .SWAP => .op_0
  | .TABLESWITCH => .op_tableswitch
  | .WIDE => .op_wide

/-- The `switch` of `op_wide`: the handler that each `case` calls; every other
byte goes to the `default`. -/
def op_wide_case : opcode → wide_op
  | .ALOAD => .opw_1
  | .ASTORE => .opw_1
  | .DLOAD => .opw_1
  | .DSTORE => .opw_1
  | .FLOAD => .opw_1
  | .FSTORE => .opw_1
  | .IINC => .opw_2
  | .ILOAD => .opw_1
  | .ISTORE => .opw_1
  | .LLOAD => .opw_1
  | .LSTORE => .opw_1
  | .RET => .opw_1
  | _ => .illegal
/-- The `switch` of `dump_code` for the numbers that `code.h` gives to the names. -/
def dump_code_switch (names : Nat → Option opcode) (b : Nat) : op :=
  match names b with
  | some n => dump_code_case n
  | none => op.no_case

/-- The `switch` of `op_wide` for the numbers that `code.h` gives to the names. -/
def op_wide_switch (names : Nat → Option opcode) (b : Nat) : wide_op :=
  match names b with
  | some n => op_wide_case n
  | none => wide_op.illegal

/-- The function `op_lookupswitch`: the cursor behind the instruction.  What
the handlers of `dump_code` print is not part of the embedding. -/
def op_lookupswitch (g_code : List Nat) (g_pc : Nat) : Option Nat :=
  match argl g_code (align4 g_pc) with
  | none => none
  | some (_, pc1) =>
    match argl g_code pc1 with
    | none => none
    | some (opndPairCt, pc2) => argl_times g_code (2 * opndPairCt.toNat) pc2

/-- The function `op_tableswitch`: the loop `while (opndRangeLo < opndRangeHi)`
calls `argl` once a turn and adds one to `opndRangeLo`. -/
def op_tableswitch (g_code : List Nat) (g_pc : Nat) : Option Nat :=
  match argl g_code (align4 g_pc) with
  | none => none
  | some (_, pc1) =>
    match argl g_code pc1 with
    | none => none
    | some (opndRangeLo, pc2) =>
      match argl g_code pc2 with
      | none => none
      | some (opndRangeHi, pc3) => argl_times g_code (opndRangeHi - opndRangeLo).toNat pc3

/-- The function `op_wide`. -/
def op_wide (names : Nat → Option opcode) (g_code : List Nat) (g_pc : Nat) : Option Nat :=
  match argb g_code g_pc with
  | none => none
  | some (modifOp, pc1) =>
    match op_wide_switch names modifOp with
    | .opw_1 => (argw g_code pc1).map Prod.snd
    | .opw_2 =>
      match argw g_code pc1 with
      | none => none
      | some (_, pc2) => (argw g_code pc2).map Prod.snd
    | .illegal => some pc1

/-- One `case` of the `switch` of `dump_code`: the cursor after the handler has
run. -/
def op_run (names : Nat → Option opcode) (g_code : List Nat) (h : op) (g_pc : Nat) :
    Option Nat :=
  match h with
  | .op_0 => some g_pc
  | .op_1b => (argb g_code g_pc).map Prod.snd
  | .op_1bc => (argb g_code g_pc).map Prod.snd
  | .op_1bv => (argb g_code g_pc).map Prod.snd
  | .op_1ws => (argw g_code g_pc).map Prod.snd
  | .op_1wc => (argw g_code g_pc).map Prod.snd
  | .op_1l => (argl g_code g_pc).map Prod.snd
  | .op_2bb =>
    match argb g_code g_pc with
    | none => none
    | some (_, pc1) => (argb g_code pc1).map Prod.snd
  | .op_2wcb =>
    match argw g_code g_pc with
    | none => none
    | some (_, pc1) => (argb g_code pc1).map Prod.snd
  | .op_3wcbx =>
    match argw g_code g_pc with
    | none => none
    | some (_, pc1) =>
      match argb g_code pc1 with
      | none => none
      | some (_, pc2) => (argb g_code pc2).map Prod.snd
  | .op_lookupswitch => op_lookupswitch g_code g_pc
  | .op_tableswitch => op_tableswitch g_code g_pc
  | .op_wide => op_wide names g_code g_pc
  | .no_case => some g_pc

/-- The loop of `dump_code`, `for (g_pc = 0; g_pc < length; )`: for every turn
the value of `g_addr`, which the handler prints, and the cursor after the
handler.  The first argument counts the turns that are left. -/
def dump_code_loop (names : Nat → Option opcode) (g_code : List Nat) (length : Nat) :
    Nat → Nat → Option (List (Nat × Nat))
  | 0, g_pc => if g_pc < length then none else some []
  | turns + 1, g_pc =>
    if g_pc < length then
      match argb g_code g_pc with
      | none => none
      | some (op, pc1) =>
        match op_run names g_code (dump_code_switch names op) pc1 with
        | none => none
        | some pc2 =>
          (dump_code_loop names g_code length turns pc2).map (fun l => (g_pc, pc2) :: l)
    else some []

/-- The function `dump_code`: the instructions that it walks over. -/
def dump_code (names : Nat → Option opcode) (code : List Nat) (length : Nat) :
    Option (List (Nat × Nat)) :=
  dump_code_loop names code length length 0

/-- The handler of `dump_code` and the handler of `refct_code` that have the
same operands. -/
def op.shape : op → rop
  | .op_0 => .rop_0
  | .op_1b => .rop_1b
  | .op_1bc => .rop_1bc
  | .op_1bv => .rop_1b
  | .op_1ws => .rop_1w
  | .op_1wc => .rop_1wc
  | .op_1l => .rop_1l
  | .op_2bb => .rop_2bb
  | .op_2wcb => .rop_2wcb
  | .op_3wcbx => .rop_3wcbx
  | .op_lookupswitch => .rop_lookupswitch
  | .op_tableswitch => .rop_tableswitch
  | .op_wide => .rop_wide
  | .no_case => .no_case

/-- Some of the numbers of the Java virtual machine, as an example of a `code.h`. -/
def exampleNames (b : Nat) : Option opcode :=
  if b = 0x00 then some .NOP
  else if b = 0x10 then some .BIPUSH
  else if b = 0x12 then some .LDC
  else if b = 0x15 then some .ILOAD
  else if b = 0x84 then some .IINC
  else if b = 0xaa then some .TABLESWITCH
  else if b = 0xab then some .LOOKUPSWITCH
  else if b = 0xb1 then some .RETURN
  else if b = 0xc4 then some .WIDE
  else none

/-! ## Method bodies used as concrete inputs -/

/-- A method body with a `tableswitch` whose lowest case is -1 and whose
highest case is 1, as for `switch (x) { case -1: ... case 0: ... case 1: ... }`:
the opcode, three bytes of padding, the default offset, the bounds `ff ff ff ff`
and `00 00 00 01`, three jump offsets, and a `return`. -/
def negativeSwitch : List Nat :=
  [ 0xaa, 0, 0, 0,
    0, 0, 0, 28,
    0xff, 0xff, 0xff, 0xff,
    0, 0, 0, 1,
    0, 0, 0, 28, 0, 0, 0, 28, 0, 0, 0, 28,
    0xb1 ]

/-- A method body with a `tableswitch` whose one case is 0: the opcode, three
bytes of padding, the default offset, the bounds 0 and 0, the one jump offset,
which is 18, and a `return`.  In the format the `tableswitch` is 20 bytes long
and the `return` is at 20. -/
def oneCaseSwitch : List Nat :=
  [ 0xaa, 0, 0, 0,
    0, 0, 0, 20,
    0, 0, 0, 0,
    0, 0, 0, 0,
    0, 0, 0, 18,
    0xb1 ]

/-- A method body with a widened `iload 256`, an `iload 5` and a `return`. -/
def wideCode : List Nat :=
  [0xc4, 0x15, 1, 0, 0x15, 5, 0xb1]

/-- A method body with a widened `iinc 256 -1` and a `return`. -/
def wideIinc : List Nat :=
  [0xc4, 0x84, 1, 0, 0xff, 0xff, 0xb1]

/-- A method body with a `nop`, a `lookupswitch` with no pair, and a `return`:
the opcode is at 1, two bytes of padding follow, the default offset is at 4. -/
def lookupCode : List Nat :=
  [0x00, 0xab, 0, 0, 0, 0, 0, 11, 0, 0, 0, 0, 0xb1]

/-! ## Inputs for the encoding of Code attributes -/

/-- A body of 64990 `nop` instructions. -/
def bigCode : List Nat :=
  List.replicate 64990 0

/-- The payload of a Code attribute with the body `bigCode`, no exception
handler and no nested attribute: 65002 bytes. -/
def bigCodePayload : List Nat :=
  [0, 0, 0, 0, 0, 0, 253, 222] ++ bigCode ++ [0, 0, 0, 0]

/-- The name index, the length and the raw payload of an attribute: what
`emit_attribute_info` emits for it. -/
def rawOf (att : attribute_info) : Nat × Nat × List Nat :=
  (att.attribute_name_index, att.attribute_length, att.info)

/-- The pool indices in the decoded values of the attributes nested in the
Code attributes of the methods, with the name indices of these attributes. -/
def nested_indices (cf : ClassFile) : List Nat :=
  cf.methods.flatMap (fun mi =>
    mi.attributes.flatMap (fun a => refs_of (idx_attributes (nestedOf a.value))))

/-- A class whose one method, `public void m()`, has a Code attribute with the
body `return` and a nested Signature attribute for the text `TT;`, the pool
entry 6.  The Utf8 entry 1 is referenced by nothing. -/
def nestedExample : ClassFile :=
  { magic := 0xCAFEBABE, minor_version := 0, major_version := 49,
    constant_pool_count := 11,
    constant_pool :=
      [ none,
        utf8 0 "dead", utf8 0 "Code", utf8 0 "m", utf8 0 "()V", utf8 0 "Signature",
        utf8 0 "TT;", utf8 0 "T", some ⟨0, .class_info 7⟩,
        utf8 0 "java/lang/Object", some ⟨0, .class_info 9⟩ ],
    access_flags := 0x21, this_class := 8, super_class := 10,
    interfaces_count := 0, interfaces := [],
    fields_count := 0, fields := [],
    methods_count := 1,
    methods := [⟨ACC_PUBLIC, 3, 4, 1,
      [.mk 2 21 [0, 0, 0, 1, 0, 0, 0, 1, 177, 0, 0, 0, 1, 0, 5, 0, 0, 0, 2, 0, 6]
        (.Code 0 1 1 [177] 0 [] 1 [.mk 5 2 [0, 6] (.Signature 6)])]⟩],
    attributes_count := 0, attributes := [],
    constant_pool_map := [] }

/-- The bytes of the class file of `nestedExample`. -/
def nestedFile : List Nat :=
  [ 202, 254, 186, 190, 0, 0, 0, 49, 0, 11,
    1, 0, 4, 100, 101, 97, 100,
    1, 0, 4, 67, 111, 100, 101,
    1, 0, 1, 109,
    1, 0, 3, 40, 41, 86,
    1, 0, 9, 83, 105, 103, 110, 97, 116, 117, 114, 101,
    1, 0, 3, 84, 84, 59,
    1, 0, 1, 84,
    7, 0, 7,
    1, 0, 16, 106, 97, 118, 97, 47, 108, 97, 110, 103, 47, 79, 98, 106, 101, 99, 116,
    7, 0, 9,
    0, 33, 0, 8, 0, 10, 0, 0, 0, 0, 0, 1,
    0, 1, 0, 3, 0, 4, 0, 1,
    0, 2, 0, 0, 0, 21, 0, 0, 0, 1, 0, 0, 0, 1, 177, 0, 0, 0, 1, 0, 5, 0, 0, 0, 2, 0, 6,
    0, 0 ]

/-! ## main.c -/

/-- The actions of `main`: `ACT_PRUNE`, `ACT_DUMP` and `ACT_WRITE`. -/
inductive action where
  | ACT_PRUNE | ACT_DUMP | ACT_WRITE
  deriving DecidableEq, Repr

/-- What `main` does with the class file that it has read, before it tests the
access flags: the class file after it, `none` when a pass has no result.
`dump_ClassFile` prints the class file and changes nothing in it; the argument
`dump_returns` says whether it returns. -/
def main_process (t : code_h) (uninit : Nat → Nat → Nat) (dump_returns : ClassFile → Bool)
    (act : action) (classfile : ClassFile) : Option ClassFile :=
  match act with
  | .ACT_DUMP =>
    match refct_ClassFile t classfile with
    | none => none
    | some cf1 => if dump_returns cf1 then some cf1 else none
  | .ACT_PRUNE => (prune_action t uninit classfile).classfile
  | .ACT_WRITE => some classfile

/-- The function `main` from the `fopen` of the class file on: the file that it
writes, with its name and its bytes, or `none` when it writes no file; the
outer `none` is a run that is not followed to its end.  `fyle` is what the
class file holds, `none` when it cannot be opened; `filename` is the text of
the argument; the name of the output is built in `char nameBuf[1000]`, and
the `fopen` of the output is taken to succeed. -/
def main (t : code_h) (uninit : Nat → Nat → Nat) (hostLittleEndian : Bool)
    (dump_returns : ClassFile → Bool) (act : action) (filename : List Nat)
    (fyle : Option (List Nat)) : Option (Option (List Nat × List Nat)) :=
  match fyle with
  | none => some none
  | some bytes =>
    let g_littleEndian := testEndianism hostLittleEndian
    match read_ClassFile g_littleEndian bytes with
    | none => none
    | some (classfile, _) =>
      match main_process t uninit dump_returns act classfile with
      | none => none
      | some cf =>
        if cf.access_flags &&& (ACC_PUBLIC ||| ACC_ABSTRACT) ≠ 0 then
          if act = .ACT_WRITE ∨ act = .ACT_PRUNE then
            if filename.length + 4 < 1000 then
              (write_ClassFile g_littleEndian cf).map (fun out =>
                some (filename ++ cbytes ".alt", out))
            else none
          else some none
        else some none

/-- The class file of `emptyClass` without the public flag: the access flags
are `0x20`. -/
def packageFile : List Nat :=
  [ 202, 254, 186, 190, 0, 0, 0, 49, 0, 5, 1, 0, 1, 65, 7, 0, 1, 1, 0, 16, 106, 97, 118, 97,
    47, 108, 97, 110, 103, 47, 79, 98, 106, 101, 99, 116, 7, 0, 3, 0, 32, 0, 2, 0, 4, 0, 0, 0,
    0, 0, 0, 0, 0 ]

/-! ## Specification-side notions for the pool operands of the bytecode -/

/-- Spec: the instructions that carry a constant-pool operand, by the name of
their opcode: the width of the operand in bytes and the length of the whole
instruction. -/
def pool_operand : opcode → Option (Nat × Nat)
  | .LDC => some (1, 2)
  | .LDC_W => some (2, 3)
  | .LDC2_W => some (2, 3)
  | .NEW => some (2, 3)
  | .ANEWARRAY => some (2, 3)
  | .CHECKCAST => some (2, 3)
  | .INSTANCEOF => some (2, 3)
  | .GETFIELD => some (2, 3)
  | .PUTFIELD => some (2, 3)
  | .GETSTATIC => some (2, 3)
  | .PUTSTATIC => some (2, 3)
  | .INVOKEVIRTUAL => some (2, 3)
  | .INVOKESPECIAL => some (2, 3)
  | .INVOKESTATIC => some (2, 3)
  | .MULTINEWARRAY => some (2, 4)
  | .INVOKEINTERFACE => some (2, 5)
  | _ => none

/-- Spec: the pool operand of the instruction whose opcode is at the address
`a`: the byte behind the opcode, or the two bytes behind it, big-endian; no
operand for the other opcodes and for a byte that has no name. -/
def insn_refs (names : Nat → Option opcode) (code : List Nat) (a : Nat) : List Nat :=
  match (code.get? a).bind names with
  | none => []
  | some n =>
    match pool_operand n with
    | none => []
    | some (w, _) =>
      if w = 1 then [code.getD (a + 1) 0]
      else [code.getD (a + 1) 0 * 256 + code.getD (a + 2) 0]

/-- Spec: the handlers of `refct_code` that pass an operand to `ref`, with the
width of that operand and the number of bytes that the instruction takes. -/
def rop.operand : rop → Option (Nat × Nat)
  | .rop_1bc => some (1, 2)
  | .rop_1wc => some (2, 3)
  | .rop_2wcb => some (2, 4)
  | .rop_3wcbx => some (2, 5)
  | _ => none

/-- A numbering of some opcode names, that of the class-file format. -/
def poolNames (b : Nat) : Option opcode :=
  if b = 0x00 then some .NOP
  else if b = 0x05 then some .ICONST_2
  else if b = 0x12 then some .LDC
  else if b = 0x13 then some .LDC_W
  else if b = 0xaa then some .TABLESWITCH
  else if b = 0xb1 then some .RETURN
  else if b = 0xb4 then some .GETFIELD
  else if b = 0xb9 then some .INVOKEINTERFACE
  else if b = 0xbb then some .NEW
  else if b = 0xc5 then some .MULTINEWARRAY
  else none

/-- A method body: `ldc #7; ldc_w #258; getfield #3; multianewarray #4 2;
invokeinterface #5 1 0; new #6; return`. -/
def poolCode : List Nat :=
  [ 0x12, 7, 0x13, 1, 2, 0xb4, 0, 3, 0xc5, 0, 4, 2, 0xb9, 0, 5, 1, 0, 0xbb, 0, 6, 0xb1 ]

/-- A method body: a `tableswitch` with the one case 0, which takes the bytes
0 to 19, then `ldc #5` at 20 and `return` at 22. -/
def switchThenLdc : List Nat :=
  [ 0xaa, 0, 0, 0,
    0, 0, 0, 22,
    0, 0, 0, 0,
    0, 0, 0, 0,
    0, 0, 0, 0x12,
    0x12, 5,
    0xb1 ]

/-! ## Specification-side notions for the annotation codec -/

mutual
/-- Spec: a well-formed element value: a constant carries one of the nine
constant tags, every index and count is a `u2`, and the count of an array is
the number of its values. -/
def wf_element_value : element_value → Bool
  | .const tag const_value_index => isConstTag tag && decide (const_value_index < 65536)
  | .enum_const type_name_index const_name_index =>
    decide (type_name_index < 65536) && decide (const_name_index < 65536)
  | .class_info class_info_index => decide (class_info_index < 65536)
  | .annotation_value value => wf_annotation value
  | .array num_values values =>
    decide (num_values = values.length) && decide (num_values < 65536)
      && wf_element_values values
/-- Spec: the values of an array are well formed. -/
def wf_element_values : List element_value → Bool
  | [] => true
  | v :: rest => wf_element_value v && wf_element_values rest
/-- Spec: a well-formed annotation. -/
def wf_annotation : annotation → Bool
  | .mk type_index num_element_value_pairs element_value_pairs =>
    decide (type_index < 65536)
      && decide (num_element_value_pairs = element_value_pairs.length)
      && decide (num_element_value_pairs < 65536)
      && wf_element_value_pairs element_value_pairs
/-- Spec: the pairs of an annotation are well formed. -/
def wf_element_value_pairs : List element_value_pair → Bool
  | [] => true
  | .mk element_name_index value :: rest =>
    decide (element_name_index < 65536) && wf_element_value value
      && wf_element_value_pairs rest
end

mutual
/-- The nesting depth of an element value: how many calls of
`scan_element_value` are inside one another when it is scanned. -/
def depth_element_value : element_value → Nat
  | .const _ _ => 1
  | .enum_const _ _ => 1
  | .class_info _ => 1
  | .annotation_value value => depth_annotation value + 1
  | .array _ values => depth_element_values values + 1
/-- The largest nesting depth of the values of an array. -/
def depth_element_values : List element_value → Nat
  | [] => 0
  | v :: rest => max (depth_element_value v) (depth_element_values rest)
/-- The largest nesting depth of the values of an annotation. -/
def depth_annotation : annotation → Nat
  | .mk _ _ element_value_pairs => depth_element_value_pairs element_value_pairs
/-- The largest nesting depth of the values of a list of pairs. -/
def depth_element_value_pairs : List element_value_pair → Nat
  | [] => 0
  | .mk _ value :: rest => max (depth_element_value value) (depth_element_value_pairs rest)
end

/-- An annotation of type 3 with three pairs: an `int` constant, an array of
an enum constant and a class literal, and a nested annotation that holds a
string constant. -/
def exampleAnnotation : annotation :=
  .mk 3 3
    [ .mk 4 (.const 73 5),
      .mk 6 (.array 2 [.enum_const 7 8, .class_info 9]),
      .mk 10 (.annotation_value (.mk 11 1 [.mk 12 (.const 115 300)])) ]

/-! ## Models used as concrete inputs for the passes -/

/-- The class `emptyClass` as the mark pass leaves it: every entry of the pool
is referenced once. -/
def emptyMarked : ClassFile :=
  { emptyClass with
    constant_pool :=
      [ none, utf8 1 "A", some ⟨1, .class_info 1⟩,
        utf8 1 "java/lang/Object", some ⟨1, .class_info 3⟩ ] }

/-- A class whose one method, `public m` with the descriptor `()Q`, has a
return type that `prune_code` has no `case` for; its body is
`bipush 7; ireturn` and it has one exception handler. -/
def oddReturnClass : ClassFile :=
  { magic := 0xCAFEBABE, minor_version := 0, major_version := 49,
    constant_pool_count := 8,
    constant_pool :=
      [ none, utf8 0 "A", some ⟨0, .class_info 1⟩,
        utf8 0 "java/lang/Object", some ⟨0, .class_info 3⟩,
        utf8 0 "Code", utf8 0 "m", utf8 0 "()Q" ],
    access_flags := 0x21, this_class := 2, super_class := 4,
    interfaces_count := 0, interfaces := [],
    fields_count := 0, fields := [],
    methods_count := 1,
    methods := [⟨ACC_PUBLIC, 6, 7, 1,
      [.mk 5 23 [0, 1, 0, 1, 0, 0, 0, 3, 16, 7, 172, 0, 1, 0, 0, 0, 3, 0, 3, 0, 2, 0, 0]
        (.Code 1 1 3 [16, 7, 172] 1 [⟨0, 3, 3, 2⟩] 0 [])]⟩],
    attributes_count := 0, attributes := [],
    constant_pool_map := [] }

/-! ## write.c: the model after the writing -/

/-- The value of a `u2` after `reverseBytes` has exchanged its two bytes in
memory. -/
def reversed_u2 (g_littleEndian : Bool) (val : Nat) : Nat :=
  from_host g_littleEndian (reverseBytes (to_host g_littleEndian 2 val))

/-- The function `write_u2_array`: the array after the call.  On a
little-endian host the loop calls `reverseBytes` on the elements of the array
itself, not on a copy. -/
def write_u2_array_after (g_littleEndian : Bool) (length : Nat) (array : List Nat) : List Nat :=
  if g_littleEndian then
    (array.take length).map (reversed_u2 g_littleEndian) ++ array.drop length
  else array

/-- The function `emit_u2_array`: the array after the call. -/
def emit_u2_array_after (g_littleEndian : Bool) (length : Nat) (val : List Nat) : List Nat :=
  if g_littleEndian then
    (val.take length).map (reversed_u2 g_littleEndian) ++ val.drop length
  else val

mutual
/-- The function `encode_attribute_value`: the attribute after the call.  Its
`info` is the payload that was built and its `attribute_length` the length of
that payload; the decoded value is the one that the `switch` leaves. -/
def encode_attribute_value_after (g_littleEndian : Bool) : attribute_info → Option attribute_info
  | .mk attribute_name_index attribute_length info value =>
    match encode_attribute_value g_littleEndian
        (.mk attribute_name_index attribute_length info value) with
    | none => none
    | some buf =>
      match encode_switch_after g_littleEndian value with
      | none => none
      | some value1 => some (.mk attribute_name_index buf.length buf value1)
/-- The `switch` of `encode_attribute_value`: the decoded value after it.  The
attributes nested in a Code attribute have been passed to
`emit_attribute_info`, which calls `encode_attribute_value` on them, and the
index table of an Exceptions attribute has been passed to `emit_u2_array`. -/
def encode_switch_after (g_littleEndian : Bool) : attribute_value → Option attribute_value
  | .Code max_stack max_locals code_length code exception_table_length exception_table
      attributes_count attributes =>
    match emit_attributes_after g_littleEndian attributes with
    | none => none
    | some attributes1 =>
      some (.Code max_stack max_locals code_length code exception_table_length exception_table
        attributes_count attributes1)
  | .Exceptions number_of_exceptions exception_index_table =>
    some (.Exceptions number_of_exceptions
      (emit_u2_array_after g_littleEndian number_of_exceptions exception_index_table))
  | .Unknown => some .Unknown
  | .ConstantValue constantvalue_index => some (.ConstantValue constantvalue_index)
  | .InnerClasses number_of_classes classes => some (.InnerClasses number_of_classes classes)
  | .Synthetic => some .Synthetic
  | .SourceFile sourcefile_index => some (.SourceFile sourcefile_index)
  | .LineNumberTable n t => some (.LineNumberTable n t)
  | .LocalVariableTable n t => some (.LocalVariableTable n t)
  | .Deprecated => some .Deprecated
  | .RuntimeVisibleAnnotations n t => some (.RuntimeVisibleAnnotations n t)
  | .EnclosingMethod class_index method_index => some (.EnclosingMethod class_index method_index)
  | .StackMapTable => some .StackMapTable
  | .Signature signature_index => some (.Signature signature_index)
  | .LocalVariableTypeTable n t => some (.LocalVariableTypeTable n t)
  | .AnnotationDefault default_value => some (.AnnotationDefault default_value)
/-- The function `emit_attributes`: the attributes after the call. -/
def emit_attributes_after (g_littleEndian : Bool) :
    List attribute_info → Option (List attribute_info)
  | [] => some []
  | att :: rest =>
    match encode_attribute_value_after g_littleEndian att with
    | none => none
    | some att1 =>
      match emit_attributes_after g_littleEndian rest with
      | none => none
      | some rest1 => some (att1 :: rest1)
end

/-- The function `write_attribute_info`: the attribute after the call. -/
def write_attribute_info_after (g_littleEndian : Bool) (ai : attribute_info) :
    Option attribute_info :=
  encode_attribute_value_after g_littleEndian ai

/-- A loop that writes every element of an array: the elements after it. -/
def after_each {α : Type} (after : α → Option α) : List α → Option (List α)
  | [] => some []
  | a :: rest =>
    match after a with
    | none => none
    | some a1 =>
      match after_each after rest with
      | none => none
      | some rest1 => some (a1 :: rest1)

/-- The function `write_attributes`: the attributes after the call. -/
def write_attributes_after (g_littleEndian : Bool) (atts : List attribute_info) :
    Option (List attribute_info) :=
  after_each (write_attribute_info_after g_littleEndian) atts

/-- The function `write_field_info`: the field after the call. -/
def write_field_info_after (g_littleEndian : Bool) (fi : field_info) : Option field_info :=
  (write_attributes_after g_littleEndian fi.attributes).map (fun atts =>
    { fi with attributes := atts })

/-- The function `write_method_info`: the method after the call. -/
def write_method_info_after (g_littleEndian : Bool) (mi : method_info) : Option method_info :=
  (write_attributes_after g_littleEndian mi.attributes).map (fun atts =>
    { mi with attributes := atts })

/-- The function `write_ClassFile`: the class file after the call.
`write_constant_pool` sets slot 0 of the pool to null, `write_u2_array` is
given the array of the interfaces, and every attribute is passed to
`encode_attribute_value`. -/
def write_ClassFile_after (g_littleEndian : Bool) (cf : ClassFile) : Option ClassFile :=
  match write_constant_pool g_littleEndian cf.constant_pool_count cf.constant_pool with
  | none => none
  | some _ =>
  match after_each (write_field_info_after g_littleEndian) cf.fields with
  | none => none
  | some fields =>
  match after_each (write_method_info_after g_littleEndian) cf.methods with
  | none => none
  | some methods =>
  match write_attributes_after g_littleEndian cf.attributes with
  | none => none
  | some attributes =>
    some { cf with
      constant_pool := none :: cf.constant_pool.tail,
      interfaces := write_u2_array_after g_littleEndian cf.interfaces_count cf.interfaces,
      fields := fields, methods := methods, attributes := attributes }

mutual
/-- The index tables of the Exceptions attributes inside an attribute, with
their counts. -/
def exception_index_tables : attribute_info → List (Nat × List Nat)
  | .mk _ _ _ (.Exceptions number_of_exceptions exception_index_table) =>
    [(number_of_exceptions, exception_index_table)]
  | .mk _ _ _ (.Code _ _ _ _ _ _ _ attributes) => exception_index_tables_list attributes
  | .mk _ _ _ _ => []
/-- The index tables of the Exceptions attributes inside a list of attributes. -/
def exception_index_tables_list : List attribute_info → List (Nat × List Nat)
  | [] => []
  | a :: rest => exception_index_tables a ++ exception_index_tables_list rest
end

/-- The index tables of all the Exceptions attributes of a class file: those of
the class, of its fields and of its methods. -/
def exception_index_tables_ClassFile (cf : ClassFile) : List (Nat × List Nat) :=
  exception_index_tables_list cf.attributes
    ++ cf.fields.flatMap (fun fi => exception_index_tables_list fi.attributes)
    ++ cf.methods.flatMap (fun mi => exception_index_tables_list mi.attributes)

/-- A class that implements the interface of the class entry 6 and whose one
method, `public m()V`, declares the exception of the class entry 6. -/
def throwsClass : ClassFile :=
  { magic := 0xCAFEBABE, minor_version := 0, major_version := 49,
    constant_pool_count := 10,
    constant_pool :=
      [ none, utf8 0 "A", some ⟨0, .class_info 1⟩,
        utf8 0 "java/lang/Object", some ⟨0, .class_info 3⟩,
        utf8 0 "E", some ⟨0, .class_info 5⟩,
        utf8 0 "m", utf8 0 "()V", utf8 0 "Exceptions" ],
    access_flags := 0x21, this_class := 2, super_class := 4,
    interfaces_count := 1, interfaces := [6],
    fields_count := 0, fields := [],
    methods_count := 1,
    methods := [⟨0x0401, 7, 8, 1, [.mk 9 4 [0, 1, 0, 6] (.Exceptions 1 [6])]⟩],
    attributes_count := 0, attributes := [],
    constant_pool_map := [] }

/-! ## Specification-side notion for the compaction: an entry with its indices remapped -/

/-- Spec: the entry `new` is the entry `old` with only its own indices sent
through the map `m`: the same variant with the same reference count; an
Integer, Float, Long, Double or Utf8 entry has the same literal data; a Class,
String, Fieldref, Methodref, InterfaceMethodref or NameAndType entry has, in
the place of every index `i`, the index `m i`. -/
def remapped_entry (m : Nat → Nat) (old new : cp_info) : Prop :=
  new.refCount = old.refCount ∧
  match old.info, new.info with
  | .class_info name_index, .class_info n1 => n1 = m name_index
  | .fieldref_info class_index name_and_type_index, .fieldref_info c1 n1 =>
    c1 = m class_index ∧ n1 = m name_and_type_index
  | .methodref_info class_index name_and_type_index, .methodref_info c1 n1 =>
    c1 = m class_index ∧ n1 = m name_and_type_index
  | .interfaceMethodref_info class_index name_and_type_index,
      .interfaceMethodref_info c1 n1 =>
    c1 = m class_index ∧ n1 = m name_and_type_index
  | .string string_index, .string s1 => s1 = m string_index
  | .integer bytes, .integer b1 => b1 = bytes
  | .float bytes, .float b1 => b1 = bytes
  | .long high_bytes low_bytes, .long h1 l1 => h1 = high_bytes ∧ l1 = low_bytes
  | .double high_bytes low_bytes, .double h1 l1 => h1 = high_bytes ∧ l1 = low_bytes
  | .nameAndType_info name_index descriptor_index, .nameAndType_info n1 d1 =>
    n1 = m name_index ∧ d1 = m descriptor_index
  | .utf8_info length bytes, .utf8_info l1 b1 => l1 = length ∧ b1 = bytes
  | _, _ => False

/-! ## Example with index fields that are zero -/

/-- Spec: the number of operand bytes of an instruction of fixed length, by
the name of its opcode, as the class-file format gives it.  The instructions
`tableswitch`, `lookupswitch` and `wide` have no fixed length and are not in
this table. -/
def operand_bytes : opcode → Nat
  | .BIPUSH | .LDC | .NEWARRAY | .RET
  | .ILOAD | .LLOAD | .FLOAD | .DLOAD | .ALOAD
  | .ISTORE | .LSTORE | .FSTORE | .DSTORE | .ASTORE => 1
  | .SIPUSH | .LDC_W | .LDC2_W | .IINC
  | .IFEQ | .IFNE | .IFLT | .IFGE | .IFGT | .IFLE
  | .IF_ICMPEQ | .IF_ICMPNE | .IF_ICMPLT | .IF_ICMPGE | .IF_ICMPGT | .IF_ICMPLE
  | .IF_ACMPEQ | .IF_ACMPNE | .IFNULL | .IFNONNULL | .GOTO | .JSR
  | .GETSTATIC | .PUTSTATIC | .GETFIELD | .PUTFIELD
  | .INVOKEVIRTUAL | .INVOKESPECIAL | .INVOKESTATIC
  | .NEW | .ANEWARRAY | .CHECKCAST | .INSTANCEOF => 2
  | .MULTINEWARRAY => 3
  | .INVOKEINTERFACE | .GOTO_W | .JSR_W => 4
  | _ => 0

/-- Spec: the instructions that `wide` can modify with a two-byte local
variable index: the loads, the stores and `ret`. -/
def wide_operand : opcode → Bool
  | .ILOAD | .LLOAD | .FLOAD | .DLOAD | .ALOAD
  | .ISTORE | .LSTORE | .FSTORE | .DSTORE | .ASTORE | .RET => true
  | _ => false

/-- Spec: the four bytes of the code array from `a` on, as a signed 32-bit
number, big-endian. -/
def s4_at (code : List Nat) (a : Nat) : Int :=
  toInt32 (code.getD a 0 * 2 ^ 24 + code.getD (a + 1) 0 * 2 ^ 16 + code.getD (a + 2) 0 * 2 ^ 8
    + code.getD (a + 3) 0)

/-- Spec: the number of padding bytes between the opcode of a switch at `a`
and its operands, which start at the next multiple of 4. -/
def switch_pad (a : Nat) : Nat :=
  3 - a % 4

/-- Spec: the length in bytes of the instruction whose opcode is at `a`, as the
class-file format gives it.  A `tableswitch` has its padding, the default, the
bounds `lo` and `hi`, and `hi - lo + 1` jump offsets; a `lookupswitch` has its
padding, the default, the number of pairs and that many pairs; `wide` is
followed by a load, a store or `ret` with a two-byte index, or by `iinc` with a
two-byte index and a two-byte constant.  There is no instruction at a byte
that is no opcode. -/
def insn_length (names : Nat → Option opcode) (code : List Nat) (a : Nat) : Option Nat :=
  match (code.get? a).bind names with
  | none => none
  | some .TABLESWITCH =>
    let lo := s4_at code (a + 1 + switch_pad a + 4)
    let hi := s4_at code (a + 1 + switch_pad a + 8)
    if lo ≤ hi then some (1 + switch_pad a + 12 + 4 * (hi - lo + 1).toNat) else none
  | some .LOOKUPSWITCH =>
    let npairs := s4_at code (a + 1 + switch_pad a + 4)
    if 0 ≤ npairs then some (1 + switch_pad a + 8 + 8 * npairs.toNat) else none
  | some .WIDE =>
    match (code.get? (a + 1)).bind names with
    | none => none
    | some .IINC => some 6
    | some n => if wide_operand n then some 4 else none
  | some n => some (1 + operand_bytes n)

/-- Spec: the addresses of the instructions in a code array of `length` bytes,
from the address `a` on: each instruction starts where the one before it ends,
and the last one ends at `length`.  The first argument bounds the number of
instructions. -/
def insn_addrs_from (names : Nat → Option opcode) (code : List Nat) (length : Nat) :
    Nat → Nat → Option (List Nat)
  | 0, a => if a = length then some [] else none
  | fuel + 1, a =>
    if a = length then some []
    else
      match insn_length names code a with
      | none => none
      | some n =>
        if a + n ≤ length then
          (insn_addrs_from names code length fuel (a + n)).map (fun l => a :: l)
        else none

/-- Spec: the addresses of the instructions of the bytecode of a Code
attribute; `none` when the `code_length` bytes are not a sequence of
instructions. -/
def insn_addrs (names : Nat → Option opcode) (code : List Nat) (length : Nat) :
    Option (List Nat) :=
  if length ≤ code.length then insn_addrs_from names code length length 0 else none

/-- Spec: the constant-pool operands in the bytecode of a Code attribute: the
pool operand of every instruction that has one, in the order of the
instructions. -/
def bytecode_operands (names : Nat → Option opcode) (code : List Nat) (length : Nat) :
    Option (List Nat) :=
  (insn_addrs names code length).map (fun l => l.flatMap (insn_refs names code))

/-- Spec: the bytecode is a sequence of instructions none of which is a
`tableswitch` or a `lookupswitch`, and its bytes are bytes. -/
def plain_code (names : Nat → Option opcode) (code : List Nat) (length : Nat) : Bool :=
  code.all (fun b => decide (b < 256)) &&
  match insn_addrs names code length with
  | none => false
  | some l =>
    l.all (fun a =>
      (code.get? a).bind names != some opcode.TABLESWITCH &&
      (code.get? a).bind names != some opcode.LOOKUPSWITCH)

mutual
/-- The `code_length`, the bytecode, the exception table length and the
exception table of every Code attribute inside an attribute. -/
def code_sections :
    attribute_info → List (Nat × List Nat × Nat × List exception_table_entry)
  | .mk _ _ _ (.Code _ _ code_length code exception_table_length exception_table _
      attributes) =>
    (code_length, code, exception_table_length, exception_table)
      :: code_sections_list attributes
  | .mk _ _ _ _ => []
/-- The Code attributes inside a list of attributes. -/
def code_sections_list :
    List attribute_info → List (Nat × List Nat × Nat × List exception_table_entry)
  | [] => []
  | a :: rest => code_sections a ++ code_sections_list rest
end

/-- The Code attributes of the model: those of its fields, of its methods and
of the class. -/
def code_sections_ClassFile (cf : ClassFile) :
    List (Nat × List Nat × Nat × List exception_table_entry) :=
  cf.fields.flatMap (fun fi => code_sections_list fi.attributes)
    ++ cf.methods.flatMap (fun mi => code_sections_list mi.attributes)
    ++ code_sections_list cf.attributes

/-- Spec: the constant-pool operands in the bytecode of a list of Code
attributes. -/
def operands_of (names : Nat → Option opcode) :
    List (Nat × List Nat × Nat × List exception_table_entry) → Option (List Nat)
  | [] => some []
  | s :: rest =>
    match bytecode_operands names s.2.1 s.1 with
    | none => none
    | some l => (operands_of names rest).map (fun l1 => l ++ l1)

/-- Spec: the catch types that are not 0 in the exception tables of a list of
Code attributes. -/
def catches_of (l : List (Nat × List Nat × Nat × List exception_table_entry)) : List Nat :=
  l.flatMap (fun s => catch_refs s.2.2.1 s.2.2.2)

/-- Spec: every reference to the pool in the model: the index fields of the
model outside its pool and its Code bodies (this class, super class, the
interfaces, the name and descriptor indices of the fields and methods, the
attribute name indices, the indices of the decoded attributes, annotations and
element values, an optional one only when it is not 0); the indices inside the
entries of the pool; the catch types that are not 0; and the constant-pool
operands in the bytecode of every Code attribute.  There is none when the
bytecode of a Code attribute is not a sequence of instructions. -/
def model_refs (names : Nat → Option opcode) (cf : ClassFile) : Option (List Nat) :=
  (operands_of names (code_sections_ClassFile cf)).map (fun ops =>
    roots cf ++ refs_pool cf.constant_pool ++ catches_of (code_sections_ClassFile cf) ++ ops)

/-- Spec: the bytecode of every Code attribute of the model is a sequence of
instructions without a `tableswitch` or a `lookupswitch`. -/
def plain (names : Nat → Option opcode) (cf : ClassFile) : Bool :=
  (code_sections_ClassFile cf).all (fun s => plain_code names s.2.1 s.1)

/-- The list `r` holds every index as often as the index fields `fields`, the
catch types of the Code attributes `secs` and the operands of their bytecode
hold it. -/
def Counts (names : Nat → Option opcode) (r : Option (List Nat)) (fields : List (Bool × Nat))
    (secs : List (Nat × List Nat × Nat × List exception_table_entry)) : Prop :=
  ∃ l ops, r = some l ∧ operands_of names secs = some ops ∧
    ∀ i, l.count i = (refs_of fields).count i + (catches_of secs).count i + ops.count i

/-- The number of operand bytes that a handler of `refct_code` reads, for the
handlers that read a fixed number. -/
def rop.bytes : rop → Option Nat
  | .rop_0 => some 0
  | .rop_1b => some 1
  | .rop_1bc => some 1
  | .rop_1w => some 2
  | .rop_1wc => some 2
  | .rop_1l => some 4
  | .rop_2bb => some 2
  | .rop_2wcb => some 3
  | .rop_3wcbx => some 4
  | _ => none

/-- A class whose one method has the body `switchThenLdc`: a `tableswitch`
with one case, then `ldc #5` and `return`.  The pool has the Integer 42 at 5,
which the `ldc` loads, and fills the slots up to 18 with Integer entries that
nothing refers to. -/
def switchClass : ClassFile :=
  { magic := 0xCAFEBABE, minor_version := 0, major_version := 49,
    constant_pool_count := 19,
    constant_pool :=
      [ none,
        utf8 0 "A", some ⟨0, .class_info 1⟩,
        utf8 0 "java/lang/Object", some ⟨0, .class_info 3⟩,
        some ⟨0, .integer 42⟩,
        utf8 0 "Code", utf8 0 "m", utf8 0 "()V",
        some ⟨0, .integer 9⟩, some ⟨0, .integer 10⟩, some ⟨0, .integer 11⟩,
        some ⟨0, .integer 12⟩, some ⟨0, .integer 13⟩, some ⟨0, .integer 14⟩,
        some ⟨0, .integer 15⟩, some ⟨0, .integer 16⟩, some ⟨0, .integer 17⟩,
        some ⟨0, .integer 18⟩ ],
    access_flags := 0x21, this_class := 2, super_class := 4,
    interfaces_count := 0, interfaces := [],
    fields_count := 0, fields := [],
    methods_count := 1,
    methods := [⟨ACC_PUBLIC, 7, 8, 1,
      [.mk 6 35 ([0, 1, 0, 1, 0, 0, 0, 23] ++ switchThenLdc ++ [0, 0, 0, 0])
        (.Code 1 1 23 switchThenLdc 0 [] 0 [])]⟩],
    attributes_count := 0, attributes := [],
    constant_pool_map := [] }

/-- A class whose one method has the body `poolCode`, with the six pool
operands 7, 258, 3, 4, 5 and 6; the pool has 259 slots, Integer entries from
9 on. -/
def operandClass : ClassFile :=
  { magic := 0xCAFEBABE, minor_version := 0, major_version := 49,
    constant_pool_count := 259,
    constant_pool :=
      [ none,
        utf8 0 "A", some ⟨0, .class_info 1⟩,
        utf8 0 "java/lang/Object", some ⟨0, .class_info 3⟩,
        some ⟨0, .integer 42⟩,
        utf8 0 "Code", utf8 0 "m", utf8 0 "()V" ]
        ++ (List.range 250).map (fun i => some ⟨0, .integer i⟩),
    access_flags := 0x21, this_class := 2, super_class := 4,
    interfaces_count := 0, interfaces := [],
    fields_count := 0, fields := [],
    methods_count := 1,
    methods := [⟨ACC_PUBLIC, 7, 8, 1,
      [.mk 6 33 ([0, 1, 0, 1, 0, 0, 0, 21] ++ poolCode ++ [0, 0, 0, 0])
        (.Code 1 1 21 poolCode 0 [] 0 [])]⟩],
    attributes_count := 0, attributes := [],
    constant_pool_map := [] }

/-! ## The pool array in place

`gc_ClassFile` moves the pointers of the surviving entries to the front of the
array `cf->constant_pool` and lowers `constant_pool_count`; the array keeps its
length, and the slots behind the new count keep the pointers they held.  The
model `gc_ClassFile` above follows the slots below the count only, which is all
that a pass reads when every index it meets is below the count.  An index that
`gc_ClassFile` does not rewrite, an operand in the bytecode or a catch type, can
lie behind the new count; `ref` has no bound check and then reads the pointer
that the slot still holds.  The definitions of this section follow the array
and the entries it points to. -/

/-- The memory of the constant pool: the entries that `read_constant_pool`
allocated, the entry number `p` being the one it stored in slot `p`, and the
array `cf->constant_pool`, whose slots hold a null pointer (`none`) or the
number of an entry. -/
structure pool_memory where
  objects : List (Option cp_info)
  slots : List (Option Nat)

/-- The entry that a slot of the array points to. -/
def deref (objects : List (Option cp_info)) : Option Nat → Option cp_info
  | none => none
  | some p => objects.getD p none

/-- The constant pool that the model sees: the entries that the first `count`
slots of the array point to. -/
def pool_of (m : pool_memory) (count : Nat) : List (Option cp_info) :=
  (m.slots.take count).map (deref m.objects)

/-- The memory `m` holds the pool of the model `cf`: the first
`constant_pool_count` slots of the array point to the entries of the pool of
`cf`, to a different entry each. -/
def holds (cf : ClassFile) (m : pool_memory) : Prop :=
  cf.constant_pool = pool_of m cf.constant_pool_count ∧
  cf.constant_pool_count ≤ m.slots.length ∧
  ((m.slots.take cf.constant_pool_count).filterMap id).Nodup ∧
  ∀ p, some p ∈ m.slots.take cf.constant_pool_count → ∃ cp, m.objects[p]? = some (some cp)

end StripClass

/-! ## Run/common: the directory listings of `kqwait.c` and `portwait.c`

The two programs hold the same `addEntry`, `contains` and `diffs`. -/

namespace Watch

/-- The struct `t_dirContents`: the `int count` and the array `entries`.  An
entry is a C string, kept as the list of its bytes before the NUL. -/
structure t_dirContents where
  count : Nat
  entries : List (List Nat)
  deriving DecidableEq, Repr

/-- The function `addEntry`: a new listing with the first `count` entries of
`dir` (none when `dir` is null) followed by `entry`. -/
def addEntry (dir : Option t_dirContents) (entry : List Nat) : Option t_dirContents :=
  let newCount := (match dir with
    | some d => d.count
    | none => 0) + 1
  if newCount < 2147483648 then
    match dir with
    | none => some ⟨newCount, [entry]⟩
    | some d =>
      if d.count ≤ d.entries.length then some ⟨newCount, d.entries.take d.count ++ [entry]⟩
      else none
  else none

/-- The loop of `contains` from the index `i` on, with `fuel` entries left:
`strcmp` returns 0 on the first entry with the text of `entry`. -/
def contains_loop (d : t_dirContents) (entry : List Nat) : Nat → Nat → Option Bool
  | 0, _ => some false
  | fuel + 1, i =>
    match d.entries.get? i with
    | none => none
    | some e => if e = entry then some true else contains_loop d entry fuel (i + 1)

/-- The function `contains`. -/
def contains (dir : Option t_dirContents) (entry : List Nat) : Option Bool :=
  match dir with
  | some d => contains_loop d entry d.count 0
  | none => some false

/-- The loop of `diffs` from the index `i` on, with `fuel` entries left. -/
def diffs_loop (iter other : t_dirContents) :
    Nat → Nat → Option t_dirContents → Option (Option t_dirContents)
  | 0, _, result => some result
  | fuel + 1, i, result =>
    match iter.entries.get? i with
    | none => none
    | some e =>
      match contains (some other) e with
      | none => none
      | some true => diffs_loop iter other fuel (i + 1) result
      | some false =>
        match addEntry result e with
        | none => none
        | some r => diffs_loop iter other fuel (i + 1) (some r)

/-- The function `diffs`: the listing that it returns, `some none` for a null
pointer. -/
def diffs (di1 di2 : Option t_dirContents) : Option (Option t_dirContents) :=
  match di1 with
  | none => some di2
  | some d1 =>
    match di2 with
    | none => some di1
    | some d2 =>
      if d2.count > d1.count then diffs_loop d2 d1 d2.count 0 none
      else diffs_loop d1 d2 d1.count 0 none

/-- A listing is well formed when `count` is the number of its entries and
fits an `int`. -/
def listing_ok (d : t_dirContents) : Prop :=
  d.count = d.entries.length ∧ d.count < 2147483648

/-- The listing of the texts `l`. -/
def listing (l : List String) : t_dirContents :=
  ⟨l.length, l.map (fun s => s.toList.map Char.toNat)⟩

/-- The listing with the entries `l` that `diffs` builds with `addEntry`: a null
pointer when there is none. -/
def collected (l : List (List Nat)) : Option t_dirContents :=
  if l = [] then none else some ⟨l.length, l⟩

/-- The entries of `iter` that are the text of no entry of `other`, in their
order. -/
def missing (iter other : t_dirContents) : List (List Nat) :=
  iter.entries.filter (fun e => decide (e ∉ other.entries))

end Watch

namespace StripClass

/-! ## Pruning: lemmas -/

theorem land_five_ne_zero (x : Nat) :
    (x &&& (ACC_PUBLIC ||| ACC_PROTECTED) ≠ 0) ↔ visible x = true := by
  have h5 : ACC_PUBLIC ||| ACC_PROTECTED = 5 := by decide
  rw [h5]
  unfold visible
  constructor
  · intro h
    by_contra hc
    simp only [Bool.or_eq_true, not_or, Bool.not_eq_true] at hc
    apply h
    apply Nat.eq_of_testBit_eq
    intro i
    rw [Nat.testBit_land, Nat.zero_testBit]
    match i with
    | 0 => simp [hc.1]
    | 1 =>
      have : Nat.testBit 5 1 = false := by decide
      simp [this]
    | 2 => simp [hc.2]
    | (k + 3) =>
      have : Nat.testBit 5 (k + 3) = false := by
        apply Nat.testBit_lt_two_pow
        calc 5 < 2 ^ 3 := by norm_num
          _ ≤ 2 ^ (k + 3) := Nat.pow_le_pow_right (by norm_num) (by omega)
      simp [this]
  · intro h hz
    have h0 : (x &&& 5).testBit 0 = false := by rw [hz]; simp
    have h2 : (x &&& 5).testBit 2 = false := by rw [hz]; simp
    rw [Nat.testBit_land] at h0 h2
    have e0 : Nat.testBit 5 0 = true := by decide
    have e2 : Nat.testBit 5 2 = true := by decide
    rw [e0] at h0
    rw [e2] at h2
    simp at h0 h2
    simp [h0, h2] at h

theorem repack_loop_eq {α : Type} (xs : List (Option α)) (out : List α) (n : Nat) :
    repack_loop xs out n = (out ++ xs.filterMap id, n + (xs.filterMap id).length) := by
  induction xs generalizing out n with
  | nil => simp [repack_loop]
  | cons x xs ih =>
    cases x with
    | none => simp [repack_loop, ih]
    | some a => simp [repack_loop, ih]; omega

theorem repack_eq {α : Type} (xs : List (Option α)) :
    repack xs = (xs.filterMap id, (xs.filterMap id).length) := by
  simp [repack, repack_loop_eq]

theorem prune_attribute_info_null (pool : List (Option cp_info)) (a a1 : attribute_info)
    (drop : Bool) (h : prune_attribute_info pool a none = some (drop, a1)) :
    drop = !kept a ∧ a1 = a ∧ isCode a.value = false := by
  cases a with
  | mk n l i v =>
    cases v <;>
      simp [prune_attribute_info, kept, droppable, isCode, attribute_info.value] at h ⊢ <;>
      simp [h]

theorem prune_attributes_null (pool : List (Option cp_info)) (as : List attribute_info)
    (marked : List (Option attribute_info))
    (h : prune_attributes pool as none = some marked) :
    marked.filterMap id = as.filter kept ∧ noCode as = true := by
  induction as generalizing marked with
  | nil =>
    simp [prune_attributes] at h
    simp [h, noCode]
  | cons a as ih =>
    simp only [prune_attributes] at h
    split at h
    · simp at h
    · rename_i drop a1 ha
      split at h
      · simp at h
      · rename_i marked1 hrest
        obtain ⟨hd, ha1, hc⟩ := prune_attribute_info_null pool a a1 drop ha
        obtain ⟨ih1, ih2⟩ := ih marked1 hrest
        simp only [Option.some.injEq] at h
        subst h
        simp only [noCode, List.all_cons, Bool.and_eq_true] at ih2 ⊢
        refine ⟨?_, ?_, ih2⟩
        · cases hk : kept a <;> simp [hd, hk, ih1, ha1]
        · simp [hc]

theorem prune_attribute_info_method (pool : List (Option cp_info)) (m : method_info)
    (a a1 : attribute_info) (drop : Bool)
    (h : prune_attribute_info pool a (some m) = some (drop, a1)) :
    drop = !kept a ∧ pruned_with pool m a a1 := by
  cases a with
  | mk n l i v =>
    cases v
    case Code ms ml cl code etl et ac as =>
      simp only [prune_attribute_info] at h
      split at h
      · simp at h
      · rename_i descriptor hd
        split at h
        · simp at h
        · rename_i c hc
          split at h
          · simp at h
          · rename_i marked hm
            simp only [Option.some.injEq, Prod.mk.injEq] at h
            obtain ⟨h1, h2⟩ := h
            refine ⟨by simp [← h1, kept, droppable, attribute_info.value], ?_⟩
            have hf := (prune_attributes_null pool as marked hm).1
            simp only [pruned_with]
            refine ⟨descriptor, c, hd, hc, ?_⟩
            rw [← h2, repack_eq, hf]
    all_goals
      simp [prune_attribute_info, kept, droppable, pruned_with, attribute_info.value] at h ⊢
      simp [h]

theorem pruned_with_weaken (pool : List (Option cp_info)) (m : method_info)
    (a a1 : attribute_info) (h : pruned_with pool m a a1) : pruned_of a a1 := by
  cases a with
  | mk n l i v =>
    cases v
    case Code ms ml cl code etl et ac as =>
      simp only [pruned_with] at h
      obtain ⟨d, c, _, _, h⟩ := h
      exact ⟨_, _, h⟩
    all_goals
      simpa [pruned_with, pruned_of] using h

theorem prune_attributes_method (pool : List (Option cp_info)) (m : method_info)
    (as : List attribute_info) (marked : List (Option attribute_info))
    (h : prune_attributes pool as (some m) = some marked) :
    List.Forall₂ (pruned_with pool m) (as.filter kept) (marked.filterMap id) := by
  induction as generalizing marked with
  | nil =>
    simp [prune_attributes] at h
    simp [h]
  | cons a as ih =>
    simp only [prune_attributes] at h
    split at h
    · simp at h
    · rename_i drop a1 ha
      split at h
      · simp at h
      · rename_i marked1 hrest
        obtain ⟨hd, hp⟩ := prune_attribute_info_method pool m a a1 drop ha
        have ih1 := ih marked1 hrest
        simp only [Option.some.injEq] at h
        subst h
        cases hk : kept a
        · simp [hd, hk, ih1]
        · simp [hd, hk, ih1, hp]

theorem prune_field_info_spec (cf : ClassFile) (fi fi1 : field_info) (drop : Bool)
    (h : prune_field_info cf fi = some (drop, fi1)) :
    drop = !visible fi.access_flags ∧ (drop = false → pruned_field fi fi1) := by
  unfold prune_field_info at h
  by_cases hv : fi.access_flags &&& (ACC_PUBLIC ||| ACC_PROTECTED) ≠ 0
  · rw [if_pos hv] at h
    have hvis := (land_five_ne_zero _).1 hv
    split at h
    · simp at h
    · rename_i marked hm
      simp only [Option.some.injEq, Prod.mk.injEq] at h
      obtain ⟨h1, h2⟩ := h
      refine ⟨by simp [← h1, hvis], fun _ => ?_⟩
      have hf := (prune_attributes_null _ _ _ hm).1
      subst h2
      simp [pruned_field, repack_eq, hf]
  · rw [if_neg hv] at h
    have hvis : visible fi.access_flags = false := by
      cases hh : visible fi.access_flags
      · rfl
      · exact absurd ((land_five_ne_zero _).2 hh) hv
    simp only [Option.some.injEq, Prod.mk.injEq] at h
    refine ⟨by simp [← h.1, hvis], fun hd => ?_⟩
    simp [← h.1] at hd

theorem prune_method_info_spec (cf : ClassFile) (mi mi1 : method_info) (drop : Bool)
    (h : prune_method_info cf mi = some (drop, mi1)) :
    drop = !visible mi.access_flags ∧
    (drop = false → mi1.access_flags = mi.access_flags ∧ mi1.name_index = mi.name_index ∧
      mi1.descriptor_index = mi.descriptor_index ∧
      List.Forall₂ (pruned_with cf.constant_pool mi) (mi.attributes.filter kept) mi1.attributes ∧
      mi1.attributes_count = mi1.attributes.length) := by
  unfold prune_method_info at h
  by_cases hv : mi.access_flags &&& (ACC_PUBLIC ||| ACC_PROTECTED) ≠ 0
  · rw [if_pos hv] at h
    have hvis := (land_five_ne_zero _).1 hv
    split at h
    · simp at h
    · rename_i marked hm
      simp only [Option.some.injEq, Prod.mk.injEq] at h
      obtain ⟨h1, h2⟩ := h
      refine ⟨by simp [← h1, hvis], fun _ => ?_⟩
      have hf := prune_attributes_method _ _ _ _ hm
      subst h2
      simp [repack_eq, hf]
  · rw [if_neg hv] at h
    have hvis : visible mi.access_flags = false := by
      cases hh : visible mi.access_flags
      · rfl
      · exact absurd ((land_five_ne_zero _).2 hh) hv
    simp only [Option.some.injEq, Prod.mk.injEq] at h
    refine ⟨by simp [← h.1, hvis], fun hd => ?_⟩
    simp [← h.1] at hd

theorem prune_fields_spec (cf : ClassFile) (fs : List field_info)
    (marked : List (Option field_info)) (h : prune_fields cf fs = some marked) :
    List.Forall₂ pruned_field (fs.filter (fun fi => visible fi.access_flags))
      (marked.filterMap id) := by
  induction fs generalizing marked with
  | nil =>
    simp [prune_fields] at h
    simp [h]
  | cons fi fs ih =>
    simp only [prune_fields] at h
    split at h
    · simp at h
    · rename_i drop fi1 hfi
      split at h
      · simp at h
      · rename_i marked1 hrest
        obtain ⟨hd, hp⟩ := prune_field_info_spec cf fi fi1 drop hfi
        have ih1 := ih marked1 hrest
        simp only [Option.some.injEq] at h
        subst h
        cases hk : visible fi.access_flags
        · simp [hd, hk, ih1]
        · have hp1 := hp (by simp [hd, hk])
          simp [hd, hk, ih1, hp1]

theorem prune_methods_spec (cf : ClassFile) (ms : List method_info)
    (marked : List (Option method_info)) (h : prune_methods cf ms = some marked) :
    List.Forall₂ (fun mi mi1 => mi1.access_flags = mi.access_flags ∧
        mi1.name_index = mi.name_index ∧ mi1.descriptor_index = mi.descriptor_index ∧
        List.Forall₂ (pruned_with cf.constant_pool mi) (mi.attributes.filter kept)
          mi1.attributes ∧
        mi1.attributes_count = mi1.attributes.length)
      (ms.filter (fun mi => visible mi.access_flags)) (marked.filterMap id) := by
  induction ms generalizing marked with
  | nil =>
    simp [prune_methods] at h
    simp [h]
  | cons mi ms ih =>
    simp only [prune_methods] at h
    split at h
    · simp at h
    · rename_i drop mi1 hmi
      split at h
      · simp at h
      · rename_i marked1 hrest
        obtain ⟨hd, hp⟩ := prune_method_info_spec cf mi mi1 drop hmi
        have ih1 := ih marked1 hrest
        simp only [Option.some.injEq] at h
        subst h
        cases hk : visible mi.access_flags
        · simp [hd, hk, ih1]
        · have hp1 := hp (by simp [hd, hk])
          simp [hd, hk, ih1, hp1]

/-- Everything `prune_ClassFile` does, when it runs to its end. -/
theorem prune_ClassFile_spec (cf cf1 : ClassFile) (h : prune_ClassFile cf = some cf1) :
    List.Forall₂ pruned_field (cf.fields.filter (fun fi => visible fi.access_flags)) cf1.fields ∧
    cf1.fields_count = cf1.fields.length ∧
    List.Forall₂ (fun mi mi1 => mi1.access_flags = mi.access_flags ∧
        mi1.name_index = mi.name_index ∧ mi1.descriptor_index = mi.descriptor_index ∧
        List.Forall₂ (pruned_with cf.constant_pool mi) (mi.attributes.filter kept)
          mi1.attributes ∧
        mi1.attributes_count = mi1.attributes.length)
      (cf.methods.filter (fun mi => visible mi.access_flags)) cf1.methods ∧
    cf1.methods_count = cf1.methods.length ∧
    cf1.attributes = cf.attributes.filter kept ∧
    cf1.attributes_count = cf1.attributes.length := by
  unfold prune_ClassFile at h
  split at h
  · simp at h
  · rename_i fields hf
    split at h
    · simp at h
    · rename_i methods hm
      split at h
      · simp at h
      · rename_i attributes ha
        simp only [Option.some.injEq] at h
        subst h
        have h1 := prune_fields_spec cf _ _ hf
        have h2 := prune_methods_spec cf _ _ hm
        have h3 := (prune_attributes_null _ _ _ ha).1
        simp only [repack_eq]
        exact ⟨h1, trivial, h2, trivial, h3, trivial⟩

theorem prune_attribute_info_total (pool : List (Option cp_info)) (a : attribute_info)
    (mi : Option method_info) (h : isCode a.value = false) :
    ∃ r, prune_attribute_info pool a mi = some r := by
  cases a with
  | mk n l i v =>
    cases v <;> simp [isCode, attribute_info.value] at h <;>
      simp [prune_attribute_info]

theorem prune_attributes_total_null (pool : List (Option cp_info)) (as : List attribute_info)
    (h : noCode as = true) : ∃ marked, prune_attributes pool as none = some marked := by
  induction as with
  | nil => exact ⟨[], by simp [prune_attributes]⟩
  | cons a as ih =>
    simp only [noCode, List.all_cons, Bool.and_eq_true, Bool.not_eq_true'] at h
    obtain ⟨⟨drop, a1⟩, h1⟩ := prune_attribute_info_total pool a none h.1
    obtain ⟨marked, h2⟩ := ih (by simpa [noCode] using h.2)
    simp only [prune_attributes, h1, h2]
    exact ⟨_, rfl⟩

theorem prune_attributes_total_method (pool : List (Option cp_info)) (m : method_info)
    (as : List attribute_info)
    (h : as.all (fun a =>
      match a.value with
      | .Code _ _ _ _ _ _ _ attributes =>
        ((pUtf8 pool m.descriptor_index).bind returnTypeCode).isSome && noCode attributes
      | _ => true) = true) :
    ∃ marked, prune_attributes pool as (some m) = some marked := by
  induction as with
  | nil => exact ⟨[], by simp [prune_attributes]⟩
  | cons a as ih =>
    rw [List.all_cons, Bool.and_eq_true] at h
    obtain ⟨marked, h2⟩ := ih h.2
    have h1 : ∃ r, prune_attribute_info pool a (some m) = some r := by
      cases a with
      | mk n l i v =>
        cases v
        case Code ms ml cl code etl et ac nested =>
          have ha := h.1
          simp only [attribute_info.value, Bool.and_eq_true] at ha
          obtain ⟨hd, hn⟩ := ha
          obtain ⟨nm, hnm⟩ := prune_attributes_total_null pool nested hn
          cases hp : pUtf8 pool m.descriptor_index with
          | none => simp [hp] at hd
          | some d =>
            cases hr : returnTypeCode d with
            | none => simp [hp, hr] at hd
            | some c =>
              simp only [prune_attribute_info, hp, hr, hnm]
              exact ⟨_, rfl⟩
        all_goals exact prune_attribute_info_total pool _ _ (by simp [isCode, attribute_info.value])
    obtain ⟨⟨drop, a1⟩, h1⟩ := h1
    simp only [prune_attributes, h1, h2]
    exact ⟨_, rfl⟩

theorem prune_fields_total (cf : ClassFile) (fs : List field_info)
    (h : fs.all (fun fi => !visible fi.access_flags || noCode fi.attributes) = true) :
    ∃ marked, prune_fields cf fs = some marked := by
  induction fs with
  | nil => exact ⟨[], by simp [prune_fields]⟩
  | cons fi fs ih =>
    rw [List.all_cons, Bool.and_eq_true] at h
    obtain ⟨marked, h2⟩ := ih h.2
    have h1 : ∃ r, prune_field_info cf fi = some r := by
      unfold prune_field_info
      by_cases hv : fi.access_flags &&& (ACC_PUBLIC ||| ACC_PROTECTED) ≠ 0
      · rw [if_pos hv]
        have hvis := (land_five_ne_zero _).1 hv
        have hn : noCode fi.attributes = true := by simpa [hvis] using h.1
        obtain ⟨m, hm⟩ := prune_attributes_total_null cf.constant_pool _ hn
        simp only [hm]
        exact ⟨_, rfl⟩
      · rw [if_neg hv]
        exact ⟨_, rfl⟩
    obtain ⟨⟨drop, fi1⟩, h1⟩ := h1
    simp only [prune_fields, h1, h2]
    exact ⟨_, rfl⟩

theorem prune_methods_total (cf : ClassFile) (ms : List method_info)
    (h : ms.all (fun mi => !visible mi.access_flags || codePrunable cf.constant_pool mi) = true) :
    ∃ marked, prune_methods cf ms = some marked := by
  induction ms with
  | nil => exact ⟨[], by simp [prune_methods]⟩
  | cons mi ms ih =>
    rw [List.all_cons, Bool.and_eq_true] at h
    obtain ⟨marked, h2⟩ := ih h.2
    have h1 : ∃ r, prune_method_info cf mi = some r := by
      unfold prune_method_info
      by_cases hv : mi.access_flags &&& (ACC_PUBLIC ||| ACC_PROTECTED) ≠ 0
      · rw [if_pos hv]
        have hvis := (land_five_ne_zero _).1 hv
        have hn : codePrunable cf.constant_pool mi = true := by simpa [hvis] using h.1
        obtain ⟨m, hm⟩ := prune_attributes_total_method cf.constant_pool mi _ hn
        simp only [hm]
        exact ⟨_, rfl⟩
      · rw [if_neg hv]
        exact ⟨_, rfl⟩
    obtain ⟨⟨drop, mi1⟩, h1⟩ := h1
    simp only [prune_methods, h1, h2]
    exact ⟨_, rfl⟩

/-- On a prunable model `prune_ClassFile` runs to its end. -/
theorem prune_ClassFile_total (cf : ClassFile) (h : prunable cf = true) :
    ∃ cf1, prune_ClassFile cf = some cf1 := by
  simp only [prunable, Bool.and_eq_true] at h
  obtain ⟨⟨ha, hf⟩, hm⟩ := h
  obtain ⟨fields, h1⟩ := prune_fields_total cf _ hf
  obtain ⟨methods, h2⟩ := prune_methods_total cf _ hm
  obtain ⟨attributes, h3⟩ := prune_attributes_total_null cf.constant_pool _ ha
  simp only [prune_ClassFile, h1, h2, h3]
  exact ⟨_, rfl⟩

theorem prune_code_stub (c : Nat) (stub code : List Nat) (code_length : Nat)
    (h : return_stub c = some stub) :
    prune_code c code code_length = (stub, stub.length) := by
  have hV : 'V'.toNat = 86 := by decide
  have hB : 'B'.toNat = 66 := by decide
  have hC : 'C'.toNat = 67 := by decide
  have hI : 'I'.toNat = 73 := by decide
  have hS : 'S'.toNat = 83 := by decide
  have hZ : 'Z'.toNat = 90 := by decide
  have hD : 'D'.toNat = 68 := by decide
  have hF : 'F'.toNat = 70 := by decide
  have hJ : 'J'.toNat = 74 := by decide
  have hL : 'L'.toNat = 76 := by decide
  have hA : '['.toNat = 91 := by decide
  unfold return_stub at h
  rw [hV, hB, hC, hI, hS, hZ, hD, hF, hJ, hL, hA] at h
  split_ifs at h with h1 h2 h3 h4 h5 h6
  · subst h1; simp at h; subst h; rfl
  · simp at h; subst h
    rcases h2 with h2 | h2 | h2 | h2 | h2 <;> subst h2 <;> rfl
  · subst h3; simp at h; subst h; rfl
  · subst h4; simp at h; subst h; rfl
  · subst h5; simp at h; subst h; rfl
  · simp at h; subst h
    rcases h6 with h6 | h6 <;> subst h6 <;> rfl

theorem forall₂_mem_right {α β : Type} {R : α → β → Prop} {l1 : List α} {l2 : List β}
    (h : List.Forall₂ R l1 l2) {b : β} (hb : b ∈ l2) : ∃ a, a ∈ l1 ∧ R a b := by
  induction h with
  | nil => simp at hb
  | cons hr _ ih =>
    rcases List.mem_cons.1 hb with hb | hb
    · subst hb
      exact ⟨_, List.mem_cons_self _ _, hr⟩
    · obtain ⟨a, ha, hab⟩ := ih hb
      exact ⟨a, List.mem_cons_of_mem _ ha, hab⟩

/-! ## Pruning: the claims -/

/-- C2 (visibility filter).  On every model that `prune_ClassFile` can process,
it returns a model whose field list is, in the original order, the list of the
original fields with the public or the protected flag set (same flags, name and
descriptor), whose `fields_count` is the length of that list, and likewise for
the methods and `methods_count`. -/
theorem prune_visibility_filter (cf : ClassFile) (hp : prunable cf = true) :
    ∃ cf1, prune_ClassFile cf = some cf1 ∧
      List.Forall₂ (fun fi fi1 => fi1.access_flags = fi.access_flags ∧
          fi1.name_index = fi.name_index ∧ fi1.descriptor_index = fi.descriptor_index)
        (cf.fields.filter (fun fi => visible fi.access_flags)) cf1.fields ∧
      cf1.fields_count = cf1.fields.length ∧
      List.Forall₂ (fun mi mi1 => mi1.access_flags = mi.access_flags ∧
          mi1.name_index = mi.name_index ∧ mi1.descriptor_index = mi.descriptor_index)
        (cf.methods.filter (fun mi => visible mi.access_flags)) cf1.methods ∧
      cf1.methods_count = cf1.methods.length := by
  obtain ⟨cf1, h⟩ := prune_ClassFile_total cf hp
  obtain ⟨h1, h2, h3, h4, _, _⟩ := prune_ClassFile_spec cf cf1 h
  refine ⟨cf1, h, ?_, h2, ?_, h4⟩
  · exact List.Forall₂.imp (fun _ _ hh => ⟨hh.1, hh.2.1, hh.2.2.1⟩) h1
  · exact List.Forall₂.imp (fun _ _ hh => ⟨hh.1, hh.2.1, hh.2.2.1⟩) h3

/-- Witness for C2: the example class keeps its public field and its protected
method, and nothing else. -/
theorem prune_visibility_filter_witness :
    prunable exampleClass = true ∧
    ∃ cf1, prune_ClassFile exampleClass = some cf1 ∧
      cf1.fields.map (fun fi => fi.access_flags) = [ACC_PUBLIC] ∧ cf1.fields_count = 1 ∧
      cf1.methods.map (fun mi => mi.access_flags) = [ACC_PROTECTED] ∧
      cf1.methods_count = 1 := by
  refine ⟨by decide, ?_⟩
  obtain ⟨cf1, h, _⟩ := prune_visibility_filter exampleClass (by decide)
  have hx : (prune_ClassFile exampleClass).map (fun c =>
      (c.fields.map (fun fi => fi.access_flags), c.fields_count,
        c.methods.map (fun mi => mi.access_flags), c.methods_count))
      = some ([ACC_PUBLIC], 1, [ACC_PROTECTED], 1) := by rfl
  rw [h] at hx
  simp only [Option.map_some', Option.some.injEq, Prod.mk.injEq] at hx
  exact ⟨cf1, h, hx.1, hx.2.1, hx.2.2.1, hx.2.2.2⟩

/-- C3 (return stub).  On every model that `prune_ClassFile` can process, every
Code attribute of every kept method has an exception table length of 0 after
pruning, and for the character `c` that follows the closing parenthesis of the
method's descriptor its bytecode is the stub of `c` (`return_stub`: `b1` for V;
`03 ac` for B, C, I, S, Z; `0e af` for D; `0b ae` for F; `09 ad` for J; `01 b0`
for L and `[`), with `code_length` the length of the stub. -/
theorem prune_return_stub (cf : ClassFile) (hp : prunable cf = true) :
    ∃ cf1, prune_ClassFile cf = some cf1 ∧
      ∀ mi1, mi1 ∈ cf1.methods →
        ∀ n l i max_stack max_locals code_length code etl et ac nested,
          attribute_info.mk n l i
              (.Code max_stack max_locals code_length code etl et ac nested) ∈ mi1.attributes →
          etl = 0 ∧
          ∃ descriptor c, pUtf8 cf.constant_pool mi1.descriptor_index = some descriptor ∧
            returnTypeCode descriptor = some c ∧
            ∀ stub, return_stub c = some stub → code = stub ∧ code_length = stub.length := by
  obtain ⟨cf1, h⟩ := prune_ClassFile_total cf hp
  obtain ⟨_, _, h3, _, _, _⟩ := prune_ClassFile_spec cf cf1 h
  refine ⟨cf1, h, ?_⟩
  intro mi1 hmi1 n l i max_stack max_locals code_length code etl et ac nested hmem
  obtain ⟨mi, _, _, _, hdesc, hattrs, _⟩ := forall₂_mem_right h3 hmi1
  obtain ⟨a, _, ha⟩ := forall₂_mem_right hattrs hmem
  cases a with
  | mk n0 l0 i0 v0 =>
    cases v0 with
    | Code ms ml cl0 code0 etl0 et0 ac0 as0 =>
      simp only [pruned_with] at ha
      obtain ⟨descriptor, c, hd, hc, ha⟩ := ha
      simp only [attribute_info.mk.injEq, attribute_value.Code.injEq] at ha
      obtain ⟨_, _, _, _, _, hcl, hcode, hetl, _⟩ := ha
      refine ⟨hetl, descriptor, c, by rw [hdesc]; exact hd, hc, ?_⟩
      intro stub hstub
      rw [prune_code_stub c stub code0 cl0 hstub] at hcl hcode
      exact ⟨hcode, hcl⟩
    | _ => simp [pruned_with] at ha

/-- Witness for C3: the protected method of the example class returns `int`;
its Code attribute becomes `iconst_0; ireturn` with an empty exception table. -/
theorem prune_return_stub_witness :
    prunable exampleClass = true ∧
    ∃ cf1, prune_ClassFile exampleClass = some cf1 ∧
      cf1.methods.map (fun mi => mi.attributes.map (fun a => a.value))
        = [[.Code 1 1 2 [0x03, 0xac] 0 [⟨0, 3, 3, 7⟩] 0 []]] := by
  refine ⟨by decide, ?_⟩
  obtain ⟨cf1, h, _⟩ := prune_return_stub exampleClass (by decide)
  have hx : (prune_ClassFile exampleClass).map (fun c =>
      c.methods.map (fun mi => mi.attributes.map (fun a => a.value)))
      = some [[.Code 1 1 2 [0x03, 0xac] 0 [⟨0, 3, 3, 7⟩] 0 []]] := by rfl
  rw [h] at hx
  simp only [Option.map_some', Option.some.injEq] at hx
  exact ⟨cf1, h, hx⟩

/-- C4 (attribute drop rule).  On every model that `prune_ClassFile` can
process, the class attributes after pruning are the original ones without those
of kind SourceFile, LineNumberTable, LocalVariableTable, LocalVariableTypeTable
and StackMapTable, in the original order; so are the attributes of every kept
field; the attributes of every kept method are the kept original ones, each
unchanged unless it is a Code attribute, whose nested attributes are filtered by
the same rule; a Code attribute is never removed; and every attributes count is
the length of its list. -/
theorem prune_attribute_drop_rule (cf : ClassFile) (hp : prunable cf = true) :
    ∃ cf1, prune_ClassFile cf = some cf1 ∧
      cf1.attributes = cf.attributes.filter kept ∧
      cf1.attributes_count = cf1.attributes.length ∧
      List.Forall₂ pruned_field
        (cf.fields.filter (fun fi => visible fi.access_flags)) cf1.fields ∧
      List.Forall₂ pruned_method
        (cf.methods.filter (fun mi => visible mi.access_flags)) cf1.methods ∧
      ∀ a, isCode a.value = true → kept a = true := by
  obtain ⟨cf1, h⟩ := prune_ClassFile_total cf hp
  obtain ⟨h1, _, h3, _, h5, h6⟩ := prune_ClassFile_spec cf cf1 h
  refine ⟨cf1, h, h5, h6, h1, ?_, ?_⟩
  · refine List.Forall₂.imp (fun mi mi1 hh => ?_) h3
    exact ⟨hh.1, hh.2.1, hh.2.2.1,
      List.Forall₂.imp (fun a a1 ha => pruned_with_weaken _ mi a a1 ha) hh.2.2.2.1, hh.2.2.2.2⟩
  · intro a ha
    cases a with
    | mk n l i v => cases v <;> simp_all [isCode, kept, droppable, attribute_info.value]

/-- Witness for C4: in the example class the SourceFile attribute goes and the
Deprecated one stays; the Code attribute of the kept method stays and loses its
nested line number table. -/
theorem prune_attribute_drop_rule_witness :
    prunable exampleClass = true ∧
    ∃ cf1, prune_ClassFile exampleClass = some cf1 ∧
      cf1.attributes.map (fun a => a.value) = [.Deprecated] ∧ cf1.attributes_count = 1 ∧
      cf1.methods.map (fun mi => mi.attributes.map (fun a => a.value))
        = [[.Code 1 1 2 [0x03, 0xac] 0 [⟨0, 3, 3, 7⟩] 0 []]] := by
  refine ⟨by decide, ?_⟩
  obtain ⟨cf1, h, _⟩ := prune_attribute_drop_rule exampleClass (by decide)
  have hx : (prune_ClassFile exampleClass).map (fun c =>
      (c.attributes.map (fun a => a.value), c.attributes_count,
        c.methods.map (fun mi => mi.attributes.map (fun a => a.value))))
      = some ([.Deprecated], 1, [[.Code 1 1 2 [0x03, 0xac] 0 [⟨0, 3, 3, 7⟩] 0 []]]) := by rfl
  rw [h] at hx
  simp only [Option.map_some', Option.some.injEq, Prod.mk.injEq] at hx
  exact ⟨cf1, h, hx.1, hx.2.1, hx.2.2⟩

/-! ## The sweep: lemmas -/

theorem drop_cons_info {α : Type} (l : List α) (i : Nat) (a : α) (rest : List α)
    (h : l.drop i = a :: rest) : l[i]? = some a ∧ l.drop (i + 1) = rest ∧ i < l.length := by
  have hlt : i < l.length := by
    by_contra hc
    rw [List.drop_eq_nil_of_le (by omega)] at h
    simp at h
  rw [List.drop_eq_getElem_cons hlt] at h
  simp only [List.cons.injEq] at h
  exact ⟨by rw [List.getElem?_eq_getElem hlt, h.1], h.2, hlt⟩

theorem take_succ_set {α : Type} (l : List α) (n : Nat) (a : α) (h : n < l.length) :
    (l.set n a).take (n + 1) = l.take n ++ [a] := by
  rw [List.take_succ, List.getElem?_set, if_pos rfl, if_pos h, List.set_take,
    List.set_eq_of_length_le (by simp)]
  simp

/-- The in-place sweep over well-formed slots: it succeeds, and keeps exactly
the slots of `kept_slots`, in order, behind the slots already kept. -/
theorem gc_sweep_spec : ∀ (suffix : List (Option cp_info)) (i : Nat)
    (pool : List (Option cp_info)) (map : List Nat) (n : Nat),
    pool.drop i = suffix → n ≤ i → pool_wf_from suffix = true →
    ∃ pool1, gc_sweep suffix.length i pool map n
        = some (pool1, sweep_map n ((kept_slots i suffix).map Prod.fst) map,
            n + (kept_slots i suffix).length) ∧
      pool1.length = pool.length ∧
      pool1.take (n + (kept_slots i suffix).length)
        = pool.take n ++ (kept_slots i suffix).map Prod.snd
  | [], i, pool, map, n, _, _, _ => by
    exact ⟨pool, by simp [gc_sweep, kept_slots, sweep_map], rfl, by simp [kept_slots]⟩
  | none :: rest, i, pool, map, n, _, _, hwf => by
    simp [pool_wf_from] at hwf
  | [some cp], i, pool, map, n, hd, hn, hwf => by
    obtain ⟨hget, hdrop, hlt⟩ := drop_cons_info pool i _ _ hd
    have hnl : isLong cp = false := by simpa [pool_wf_from] using hwf
    by_cases hm : cp.refCount ≠ 0
    · refine ⟨pool.set n (some cp), ?_, by simp, ?_⟩
      · simp [gc_sweep, hget, hm, hnl, kept_slots, sweep_map]
      · simp only [kept_slots, if_pos hm, List.length_singleton, List.map_cons, List.map_nil]
        exact take_succ_set pool n _ (by omega)
    · refine ⟨pool, ?_, rfl, ?_⟩
      · simp [gc_sweep, hget, hm, hnl, kept_slots, sweep_map]
      · simp [kept_slots, hm]
  | some cp :: p :: rest, i, pool, map, n, hd, hn, hwf => by
    obtain ⟨hget, hdrop, hlt⟩ := drop_cons_info pool i _ _ hd
    obtain ⟨hget1, hdrop1, hlt1⟩ := drop_cons_info pool (i + 1) _ _ hdrop
    by_cases hl : isLong cp = true
    · have hp : p = none ∧ pool_wf_from rest = true := by
        cases p with
        | none => simpa [pool_wf_from, hl] using hwf
        | some cp1 => simp [pool_wf_from, hl] at hwf
      obtain ⟨hp, hwf1⟩ := hp
      subst hp
      by_cases hm : cp.refCount ≠ 0
      · have hd2 : ((pool.set n (some cp)).set (n + 1) none).drop (i + 2) = rest := by
          rw [List.drop_set_of_lt _ _ (by omega), List.drop_set_of_lt _ _ (by omega)]
          exact hdrop1
        obtain ⟨pool1, h1, h2, h3⟩ := gc_sweep_spec rest (i + 2)
          ((pool.set n (some cp)).set (n + 1) none)
          ((map.set i n).set (i + 1) (n + 1)) (n + 2) hd2 (by omega) hwf1
        have hget2 : (pool.set n (some cp))[i + 1]? = some none := by
          rw [List.getElem?_set_ne (by omega)]
          exact hget1
        refine ⟨pool1, ?_, by simpa using h2, ?_⟩
        · simp only [List.length_cons, gc_sweep, List.get?_eq_getElem?, hget, hm, hl,
            if_true, hget2, ne_eq, not_false_eq_true]
          rw [h1]
          simp only [kept_slots, hl, if_true, hm, ne_eq, not_false_eq_true, List.map_cons,
            sweep_map, List.length_cons]
          congr 3
          omega
        · simp only [kept_slots, hl, if_true, hm, ne_eq, not_false_eq_true, List.map_cons,
            List.length_cons]
          have e : n + ((kept_slots (i + 2) rest).length + 1 + 1)
              = n + 2 + (kept_slots (i + 2) rest).length := by omega
          rw [e, h3]
          have t1 : ((pool.set n (some cp)).set (n + 1) none).take (n + 2)
              = pool.take n ++ [some cp, none] := by
            rw [take_succ_set _ (n + 1) _ (by simp; omega),
              List.take_succ, List.getElem?_set, if_pos rfl, if_pos (by omega),
              List.set_take, List.set_eq_of_length_le (by simp)]
            simp
          rw [t1]
          simp
      · push_neg at hm
        obtain ⟨pool1, h1, h2, h3⟩ := gc_sweep_spec rest (i + 2) pool map n hdrop1 (by omega) hwf1
        refine ⟨pool1, ?_, h2, ?_⟩
        · simp only [List.length_cons, gc_sweep, List.get?_eq_getElem?, hget, hm, hl,
            if_true, ne_eq, not_true_eq_false, if_false]
          rw [h1]
          simp [kept_slots, hl, hm]
        · simpa [kept_slots, hl, hm] using h3
    · have hl0 : isLong cp = false := by simpa using hl
      have hwf1 : pool_wf_from (p :: rest) = true := by
        cases p with
        | none => simp [pool_wf_from, hl0] at hwf
        | some cp1 => simpa [pool_wf_from, hl0] using hwf
      by_cases hm : cp.refCount ≠ 0
      · have hd2 : (pool.set n (some cp)).drop (i + 1) = p :: rest := by
          rw [List.drop_set_of_lt _ _ (by omega)]
          exact hdrop
        obtain ⟨pool1, h1, h2, h3⟩ := gc_sweep_spec (p :: rest) (i + 1)
          (pool.set n (some cp)) (map.set i n) (n + 1) hd2 (by omega) hwf1
        refine ⟨pool1, ?_, by simpa using h2, ?_⟩
        · simp only [List.length_cons, gc_sweep, List.get?_eq_getElem?, hget, hm, hl0,
            if_true, ne_eq, not_false_eq_true, Bool.false_eq_true, if_false]
          rw [List.length_cons] at h1
          rw [h1]
          simp only [kept_slots, hl0, hm, ne_eq, not_false_eq_true, List.map_cons,
            sweep_map, List.length_cons, Bool.false_eq_true, if_false, if_true]
          congr 3
          omega
        · simp only [kept_slots, hl0, hm, ne_eq, not_false_eq_true, List.map_cons,
            List.length_cons, Bool.false_eq_true, if_false, if_true]
          have e : n + ((kept_slots (i + 1) (p :: rest)).length + 1)
              = n + 1 + (kept_slots (i + 1) (p :: rest)).length := by omega
          rw [e, h3, take_succ_set pool n _ (by omega)]
          simp
      · push_neg at hm
        obtain ⟨pool1, h1, h2, h3⟩ := gc_sweep_spec (p :: rest) (i + 1) pool map n hdrop
          (by omega) hwf1
        refine ⟨pool1, ?_, h2, ?_⟩
        · simp only [List.length_cons, gc_sweep, List.get?_eq_getElem?, hget, hm, hl0,
            ne_eq, not_true_eq_false, if_false, Bool.false_eq_true]
          rw [List.length_cons] at h1
          rw [h1]
          simp [kept_slots, hl0, hm]
        · simpa [kept_slots, hl0, hm] using h3

theorem survives_entry (P : List (Option cp_info)) (i : Nat) (cp : cp_info)
    (h : P[i]? = some (some cp)) : survives P i = (cp.refCount != 0) := by
  simp [survives, h]

theorem survives_placeholder (P : List (Option cp_info)) (i : Nat) (cp : cp_info)
    (h : P[i]? = some (some cp)) (h1 : P[i + 1]? = some none) :
    survives P (i + 1) = (isLong cp && cp.refCount != 0) := by
  simp [survives, h, h1]

/-- The slots kept by the sweep are the surviving slots, with their entries. -/
theorem kept_slots_eq : ∀ (suffix : List (Option cp_info)) (i : Nat)
    (P : List (Option cp_info)),
    P.drop i = suffix → pool_wf_from suffix = true →
    kept_slots i suffix
      = ((List.range' i suffix.length).filter (survives P)).map (fun j => (j, P.getD j none))
  | [], i, P, _, _ => by simp [kept_slots]
  | none :: rest, i, P, _, hwf => by simp [pool_wf_from] at hwf
  | [some cp], i, P, hd, hwf => by
    obtain ⟨hget, hdrop, hlt⟩ := drop_cons_info P i _ _ hd
    have hs := survives_entry P i cp hget
    by_cases hm : cp.refCount ≠ 0
    · have hs1 : survives P i = true := by rw [hs]; simpa using hm
      simp [kept_slots, hm, List.range'_succ, hs1, hget]
    · have hs1 : survives P i = false := by rw [hs]; simpa using hm
      simp [kept_slots, hm, List.range'_succ, hs1]
  | some cp :: p :: rest, i, P, hd, hwf => by
    obtain ⟨hget, hdrop, hlt⟩ := drop_cons_info P i _ _ hd
    obtain ⟨hget1, hdrop1, hlt1⟩ := drop_cons_info P (i + 1) _ _ hdrop
    have hs := survives_entry P i cp hget
    by_cases hl : isLong cp = true
    · have hp : p = none ∧ pool_wf_from rest = true := by
        cases p with
        | none => simpa [pool_wf_from, hl] using hwf
        | some cp1 => simp [pool_wf_from, hl] at hwf
      obtain ⟨hp, hwf1⟩ := hp
      subst hp
      have hs2 := survives_placeholder P i cp hget hget1
      have ih := kept_slots_eq rest (i + 2) P hdrop1 hwf1
      by_cases hm : cp.refCount ≠ 0
      · have hs1 : survives P i = true := by rw [hs]; simpa using hm
        have hs3 : survives P (i + 1) = true := by rw [hs2, hl]; simpa using hm
        simp [kept_slots, hm, hl, List.range'_succ, hs1, hs3, hget, hget1, ih]
      · have hs1 : survives P i = false := by rw [hs]; simpa using hm
        have hs3 : survives P (i + 1) = false := by rw [hs2, hl]; simpa using hm
        simp [kept_slots, hm, hl, List.range'_succ, hs1, hs3, ih]
    · have hl0 : isLong cp = false := by simpa using hl
      have hwf1 : pool_wf_from (p :: rest) = true := by
        cases p with
        | none => simp [pool_wf_from, hl0] at hwf
        | some cp1 => simpa [pool_wf_from, hl0] using hwf
      have ih := kept_slots_eq (p :: rest) (i + 1) P hdrop hwf1
      by_cases hm : cp.refCount ≠ 0
      · have hs1 : survives P i = true := by rw [hs]; simpa using hm
        rw [List.length_cons, List.range'_succ, List.filter_cons, if_pos hs1]
        simp only [kept_slots, hl0, hm, ne_eq, not_false_eq_true, Bool.false_eq_true,
          if_false, if_true, List.map_cons]
        rw [ih]
        simp [hget]
      · have hs1 : survives P i = false := by rw [hs]; simpa using hm
        rw [List.length_cons, List.range'_succ, List.filter_cons, if_neg (by simp [hs1])]
        simp only [kept_slots, hl0, hm, ne_eq, not_true_eq_false, Bool.false_eq_true,
          if_false]
        rw [ih]

theorem sweep_map_length : ∀ (js : List Nat) (n : Nat) (map : List Nat),
    (sweep_map n js map).length = map.length
  | [], n, map => by simp [sweep_map]
  | j :: js, n, map => by simp [sweep_map, sweep_map_length js]

theorem sweep_map_other : ∀ (js : List Nat) (n : Nat) (map : List Nat) (x : Nat),
    x ∉ js → (sweep_map n js map)[x]? = map[x]?
  | [], n, map, x, _ => by simp [sweep_map]
  | j :: js, n, map, x, hx => by
    simp only [List.mem_cons, not_or] at hx
    rw [sweep_map, sweep_map_other js (n + 1) _ x hx.2, List.getElem?_set_ne (Ne.symm hx.1)]

theorem sweep_map_at : ∀ (js : List Nat) (n : Nat) (map : List Nat) (k : Nat),
    js.Nodup → (∀ j ∈ js, j < map.length) → (hk : k < js.length) →
    (sweep_map n js map)[js[k]]? = some (n + k)
  | [], n, map, k, _, _, hk => by simp at hk
  | j :: js, n, map, 0, hnd, hlt, _ => by
    have hj : j ∉ js := (List.nodup_cons.1 hnd).1
    simp only [sweep_map, List.getElem_cons_zero]
    rw [sweep_map_other js (n + 1) _ j hj, List.getElem?_set, if_pos rfl,
      if_pos (hlt j (List.mem_cons_self _ _))]
    simp
  | j :: js, n, map, k + 1, hnd, hlt, hk => by
    simp only [sweep_map, List.getElem_cons_succ]
    rw [sweep_map_at js (n + 1) (map.set j n) k (List.nodup_cons.1 hnd).2
      (fun x hx => by simpa using hlt x (List.mem_cons_of_mem _ hx))
      (by simpa using hk)]
    congr 1
    omega

theorem gc_cp_info_tag (MAP : Nat → Nat) (cp : cp_info) : (gc_cp_info MAP cp).tag = cp.tag := by
  obtain ⟨r, d⟩ := cp
  cases d <;> rfl

theorem gc_cp_info_refCount (MAP : Nat → Nat) (cp : cp_info) :
    (gc_cp_info MAP cp).refCount = cp.refCount := by
  obtain ⟨r, d⟩ := cp
  cases d <;> rfl

theorem gc_cp_info_isLong (MAP : Nat → Nat) (cp : cp_info) :
    isLong (gc_cp_info MAP cp) = isLong cp := by
  simp [isLong, gc_cp_info_tag]

theorem pool_wf_from_map (MAP : Nat → Nat) : ∀ (l : List (Option cp_info)),
    pool_wf_from (l.map (Option.map (gc_cp_info MAP))) = pool_wf_from l
  | [] => rfl
  | none :: _ => rfl
  | [some cp] => by simp [pool_wf_from, gc_cp_info_isLong]
  | some cp :: none :: rest => by
    simp [pool_wf_from, gc_cp_info_isLong, pool_wf_from_map MAP rest]
  | some cp :: some cp1 :: rest => by
    have ih := pool_wf_from_map MAP (some cp1 :: rest)
    simp only [List.map_cons, Option.map_some'] at ih
    simp [pool_wf_from, gc_cp_info_isLong, ih]

theorem pool_wf_from_kept : ∀ (suffix : List (Option cp_info)) (i : Nat),
    pool_wf_from suffix = true → pool_wf_from ((kept_slots i suffix).map Prod.snd) = true
  | [], i, _ => by simp [kept_slots, pool_wf_from]
  | none :: rest, i, hwf => by simp [pool_wf_from] at hwf
  | [some cp], i, hwf => by
    by_cases hm : cp.refCount ≠ 0
    · simpa [kept_slots, hm] using hwf
    · simp [kept_slots, hm, pool_wf_from]
  | some cp :: p :: rest, i, hwf => by
    by_cases hl : isLong cp = true
    · have hp : p = none ∧ pool_wf_from rest = true := by
        cases p with
        | none => simpa [pool_wf_from, hl] using hwf
        | some cp1 => simp [pool_wf_from, hl] at hwf
      obtain ⟨hp, hwf1⟩ := hp
      subst hp
      have ih := pool_wf_from_kept rest (i + 2) hwf1
      by_cases hm : cp.refCount ≠ 0
      · simp [kept_slots, hm, hl, pool_wf_from, ih]
      · simp [kept_slots, hm, hl, ih]
    · have hl0 : isLong cp = false := by simpa using hl
      have hwf1 : pool_wf_from (p :: rest) = true := by
        cases p with
        | none => simp [pool_wf_from, hl0] at hwf
        | some cp1 => simpa [pool_wf_from, hl0] using hwf
      have ih := pool_wf_from_kept (p :: rest) (i + 1) hwf1
      by_cases hm : cp.refCount ≠ 0
      · simp only [kept_slots, hl0, hm, ne_eq, not_false_eq_true, Bool.false_eq_true,
          if_false, if_true, List.map_cons]
        generalize hk : (kept_slots (i + 1) (p :: rest)).map Prod.snd = ks at ih
        cases ks with
        | nil => simp [pool_wf_from, hl0]
        | cons q qs =>
          cases q with
          | none => simp [pool_wf_from] at ih
          | some cq => simpa [pool_wf_from, hl0] using ih
      · simpa [kept_slots, hm, hl0] using ih

theorem survivors_length_le (cf : ClassFile) :
    (survivors cf).length ≤ cf.constant_pool_count - 1 := by
  unfold survivors
  calc ((List.range' 1 (cf.constant_pool_count - 1)).filter (survives cf.constant_pool)).length
      ≤ (List.range' 1 (cf.constant_pool_count - 1)).length := List.length_filter_le _ _
    _ = cf.constant_pool_count - 1 := by simp

theorem survivors_mem (cf : ClassFile) (i : Nat) :
    i ∈ survivors cf ↔
      1 ≤ i ∧ i < cf.constant_pool_count ∧ survives cf.constant_pool i = true := by
  simp only [survivors, List.mem_filter, List.mem_range'_1]
  constructor
  · rintro ⟨⟨h1, h2⟩, h3⟩
    exact ⟨h1, by omega, h3⟩
  · rintro ⟨h1, h2, h3⟩
    exact ⟨⟨h1, by omega⟩, h3⟩

theorem survivors_sorted (cf : ClassFile) : (survivors cf).Pairwise (· < ·) := by
  unfold survivors
  apply List.Pairwise.filter
  exact List.pairwise_lt_range' 1 _

theorem survivors_nodup (cf : ClassFile) : (survivors cf).Nodup := by
  have h := survivors_sorted cf
  exact h.imp (fun hab => Nat.ne_of_lt hab)

/-- The whole of `gc_ClassFile` on a well-formed pool, in closed form. -/
theorem gc_ClassFile_spec (uninit : Nat → Nat) (cf : ClassFile) (hwf : pool_wf cf = true) :
    gc_ClassFile uninit cf = some (cf.constant_pool_count == 1 + (survivors cf).length,
      { cf with
        constant_pool_map := gc_map uninit cf,
        constant_pool_count := 1 + (survivors cf).length,
        this_class := gc_MAP uninit cf cf.this_class,
        super_class := gc_MAP uninit cf cf.super_class,
        constant_pool :=
          (cf.constant_pool.take 1
            ++ (survivors cf).map (fun j => cf.constant_pool.getD j none)).map
              (Option.map (gc_cp_info (gc_MAP uninit cf))),
        interfaces := cf.interfaces.map (gc_MAP uninit cf),
        fields := cf.fields.map (gc_field_info (gc_MAP uninit cf)),
        methods := cf.methods.map (gc_method_info (gc_MAP uninit cf)),
        attributes := gc_attributes (gc_MAP uninit cf) cf.attributes }) := by
  simp only [pool_wf, Bool.and_eq_true, decide_eq_true_eq] at hwf
  obtain ⟨⟨hlen, hpos⟩, hwf1⟩ := hwf
  obtain ⟨pool1, h1, h2, h3⟩ := gc_sweep_spec (cf.constant_pool.drop 1) 1 cf.constant_pool
    ((List.range cf.constant_pool_count).map (fun i => uninit i % 65536)) 1 rfl
    (Nat.le_refl 1) hwf1
  have hk := kept_slots_eq (cf.constant_pool.drop 1) 1 cf.constant_pool rfl hwf1
  have hl : (cf.constant_pool.drop 1).length = cf.constant_pool_count - 1 := by
    simp [hlen]
  rw [hl] at hk h1
  have hfst : (kept_slots 1 (cf.constant_pool.drop 1)).map Prod.fst = survivors cf := by
    rw [hk, List.map_map]
    unfold survivors
    exact List.map_id _
  have hsnd : (kept_slots 1 (cf.constant_pool.drop 1)).map Prod.snd
      = (survivors cf).map (fun j => cf.constant_pool.getD j none) := by
    rw [hk, List.map_map]
    rfl
  have hlen2 : (kept_slots 1 (cf.constant_pool.drop 1)).length = (survivors cf).length := by
    rw [← hfst, List.length_map]
  rw [hfst, hlen2] at h1
  rw [hsnd, hlen2] at h3
  have hle := survivors_length_le cf
  unfold gc_ClassFile
  simp only [h1]
  rw [if_neg (by omega), h3]
  rfl

theorem gc_MAP_survivor (uninit : Nat → Nat) (cf : ClassFile)
    (k : Nat) (hk : k < (survivors cf).length) :
    gc_MAP uninit cf ((survivors cf)[k]) = k + 1 := by
  have h := sweep_map_at (survivors cf) 1
    ((List.range cf.constant_pool_count).map (fun i => uninit i % 65536)) k
    (survivors_nodup cf)
    (fun j hj => by simpa using ((survivors_mem cf j).1 hj).2.1) hk
  unfold gc_MAP gc_map
  rw [List.getD_eq_getElem?_getD, h]
  simp
  omega

theorem sorted_index_lt (ks : List Nat) (hs : ks.Pairwise (· < ·)) (a b : Nat)
    (ha : a < ks.length) (hb : b < ks.length) (h : ks[a] < ks[b]) : a < b := by
  by_contra hc
  have hba : b ≤ a := by omega
  rcases Nat.eq_or_lt_of_le hba with e | e
  · subst e
    omega
  · have := (List.pairwise_iff_getElem.1 hs) b a hb ha e
    omega

theorem gc_pool_at (uninit : Nat → Nat) (cf : ClassFile)
    (hlen : cf.constant_pool.length = cf.constant_pool_count)
    (hpos : 0 < cf.constant_pool_count)
    (k : Nat) (hk : k < (survivors cf).length) :
    ((cf.constant_pool.take 1
      ++ (survivors cf).map (fun j => cf.constant_pool.getD j none)).map
        (Option.map (gc_cp_info (gc_MAP uninit cf))))[k + 1]?
      = some ((cf.constant_pool.getD ((survivors cf)[k]) none).map
          (gc_cp_info (gc_MAP uninit cf))) := by
  have h1 : (cf.constant_pool.take 1).length = 1 := by
    rw [List.length_take]
    omega
  rw [List.getElem?_map, List.getElem?_append_right (by omega), h1]
  simp [hk]

theorem pool_wf_long_next : ∀ (suffix : List (Option cp_info)) (s : Nat)
    (P : List (Option cp_info)),
    P.drop s = suffix → pool_wf_from suffix = true →
    ∀ i cp, s ≤ i → P[i]? = some (some cp) → isLong cp = true → P[i + 1]? = some none
  | [], s, P, hd, _ => by
    intro i cp hi hget _
    have : P.length ≤ s := by simpa using hd
    have hlt : i < P.length := by
      by_contra hc
      rw [List.getElem?_eq_none (by omega)] at hget
      simp at hget
    omega
  | none :: rest, s, P, _, hwf => by simp [pool_wf_from] at hwf
  | [some c0], s, P, hd, hwf => by
    intro i cp hi hget hl
    obtain ⟨hget0, hdrop, hlt⟩ := drop_cons_info P s _ _ hd
    have hnl : isLong c0 = false := by simpa [pool_wf_from] using hwf
    rcases Nat.eq_or_lt_of_le hi with e | e
    · subst e
      rw [hget0] at hget
      simp only [Option.some.injEq] at hget
      subst hget
      rw [hnl] at hl
      simp at hl
    · exact pool_wf_long_next [] (s + 1) P hdrop (by simp [pool_wf_from]) i cp (by omega) hget hl
  | some c0 :: p :: rest, s, P, hd, hwf => by
    intro i cp hi hget hl
    obtain ⟨hget0, hdrop, hlt⟩ := drop_cons_info P s _ _ hd
    obtain ⟨hget1, hdrop1, hlt1⟩ := drop_cons_info P (s + 1) _ _ hdrop
    by_cases hl0 : isLong c0 = true
    · have hp : p = none ∧ pool_wf_from rest = true := by
        cases p with
        | none => simpa [pool_wf_from, hl0] using hwf
        | some cp1 => simp [pool_wf_from, hl0] at hwf
      obtain ⟨hp, hwf1⟩ := hp
      subst hp
      rcases Nat.eq_or_lt_of_le hi with e | e
      · subst e
        exact hget1
      · have hne : i ≠ s + 1 := by
          intro e1
          subst e1
          rw [hget1] at hget
          simp at hget
        exact pool_wf_long_next rest (s + 2) P hdrop1 hwf1 i cp (by omega) hget hl
    · have hl1 : isLong c0 = false := by simpa using hl0
      have hwf1 : pool_wf_from (p :: rest) = true := by
        cases p with
        | none => simp [pool_wf_from, hl1] at hwf
        | some cp1 => simpa [pool_wf_from, hl1] using hwf
      rcases Nat.eq_or_lt_of_le hi with e | e
      · subst e
        rw [hget0] at hget
        simp only [Option.some.injEq] at hget
        subst hget
        rw [hl1] at hl
        simp at hl
      · exact pool_wf_long_next (p :: rest) (s + 1) P hdrop hwf1 i cp (by omega) hget hl

/-! ## The sweep: the claims -/

/-- C5 (the sweep keeps exactly the marked entries).  On every well-formed
pool `gc_ClassFile` returns; an original entry at index `i` is among the
surviving slots exactly when its reference count is not zero (the placeholder
of a Long or Double survives with it, by the definition of `survives`); the new
pool, from index 1 on, consists of the entries of the surviving slots, in order,
each passed through `gc_cp_info`; and the new `constant_pool_count` is 1 plus
the number of surviving slots. -/
theorem gc_sweep_keeps_marked (uninit : Nat → Nat) (cf : ClassFile)
    (hwf : pool_wf cf = true) :
    ∃ done cf1, gc_ClassFile uninit cf = some (done, cf1) ∧
      (∀ i cp, 1 ≤ i → cf.constant_pool[i]? = some (some cp) →
        (i ∈ survivors cf ↔ cp.refCount ≠ 0)) ∧
      cf1.constant_pool_count = 1 + (survivors cf).length ∧
      cf1.constant_pool.drop 1
        = (survivors cf).map (fun j =>
            (cf.constant_pool.getD j none).map (gc_cp_info (map_cp uninit cf1))) := by
  have hspec := gc_ClassFile_spec uninit cf hwf
  simp only [pool_wf, Bool.and_eq_true, decide_eq_true_eq] at hwf
  obtain ⟨⟨hlen, hpos⟩, hwf1⟩ := hwf
  refine ⟨_, _, hspec, ?_, rfl, ?_⟩
  · intro i cp hi hget
    have hlt : i < cf.constant_pool_count := by
      rw [← hlen]
      by_contra hc
      rw [List.getElem?_eq_none (by omega)] at hget
      simp at hget
    rw [survivors_mem, survives_entry _ i cp hget]
    simp [hi, hlt]
  · have h1 : (cf.constant_pool.take 1).length = 1 := by
      rw [List.length_take]
      omega
    show List.drop 1 (List.map _ _) = _
    rw [List.map_append, List.drop_append_eq_append_drop]
    simp only [List.length_map, h1, Nat.sub_self, List.drop_zero]
    rw [List.drop_eq_nil_of_le (by simp [h1])]
    simp only [List.nil_append, List.map_map]
    rfl

/-- Witness for C5: in the example the thirteen slots shrink to ten. -/
theorem gc_sweep_keeps_marked_witness :
    pool_wf gcExample = true ∧
    ∃ done cf1, gc_ClassFile (fun _ => 0) gcExample = some (done, cf1) ∧
      done = false ∧ cf1.constant_pool_count = 10 ∧
      cf1.constant_pool.drop 1 =
        [utf8 1 "A", some ⟨2, .class_info 1⟩, some ⟨1, .long 0 7⟩, none,
          utf8 1 "java/lang/Object", some ⟨1, .class_info 5⟩,
          utf8 1 "Code", utf8 1 "m", utf8 1 "()V"] := by
  refine ⟨by decide, ?_⟩
  obtain ⟨done, cf1, h, _⟩ := gc_sweep_keeps_marked (fun _ => 0) gcExample (by decide)
  have hx : (gc_ClassFile (fun _ => 0) gcExample).map (fun r =>
      (r.1, r.2.constant_pool_count, r.2.constant_pool.drop 1))
      = some (false, 10,
        [utf8 1 "A", some ⟨2, .class_info 1⟩, some ⟨1, .long 0 7⟩, none,
          utf8 1 "java/lang/Object", some ⟨1, .class_info 5⟩,
          utf8 1 "Code", utf8 1 "m", utf8 1 "()V"]) := by rfl
  rw [h] at hx
  simp only [Option.map_some', Option.some.injEq, Prod.mk.injEq] at hx
  exact ⟨done, cf1, h, hx.1, hx.2.1, hx.2.2⟩

theorem gc_cp_info_leaf (MAP : Nat → Nat) (cp : cp_info) :
    match cp.info with
    | .integer _ => gc_cp_info MAP cp = cp
    | .float _ => gc_cp_info MAP cp = cp
    | .long _ _ => gc_cp_info MAP cp = cp
    | .double _ _ => gc_cp_info MAP cp = cp
    | .utf8_info _ _ => gc_cp_info MAP cp = cp
    | _ => True := by
  obtain ⟨r, d⟩ := cp
  cases d <;> simp [gc_cp_info]

theorem gc_cp_info_long (MAP : Nat → Nat) (cp : cp_info) (h : isLong cp = true) :
    gc_cp_info MAP cp = cp := by
  obtain ⟨r, d⟩ := cp
  cases d <;> simp [isLong, cp_info.tag, CONSTANT_Long, CONSTANT_Double, CONSTANT_Class,
    CONSTANT_Fieldref, CONSTANT_Methodref, CONSTANT_InterfaceMethodref, CONSTANT_String,
    CONSTANT_Integer, CONSTANT_Float, CONSTANT_NameAndType, CONSTANT_Utf8] at h <;>
    simp [gc_cp_info]

/-- The new pool slot of a surviving old slot. -/
theorem gc_pool_at_survivor (uninit : Nat → Nat) (cf : ClassFile)
    (hlen : cf.constant_pool.length = cf.constant_pool_count)
    (hpos : 0 < cf.constant_pool_count) (i : Nat) (hi : i ∈ survivors cf) :
    ((cf.constant_pool.take 1
      ++ (survivors cf).map (fun j => cf.constant_pool.getD j none)).map
        (Option.map (gc_cp_info (gc_MAP uninit cf))))[gc_MAP uninit cf i]?
      = some ((cf.constant_pool.getD i none).map (gc_cp_info (gc_MAP uninit cf))) := by
  obtain ⟨k, hk, rfl⟩ := List.getElem_of_mem hi
  rw [gc_MAP_survivor uninit cf k hk]
  exact gc_pool_at uninit cf hlen hpos k hk

theorem kept_slots_snd (cf : ClassFile) (hwf1 : pool_wf_from (cf.constant_pool.drop 1) = true)
    (hlen : cf.constant_pool.length = cf.constant_pool_count) :
    (kept_slots 1 (cf.constant_pool.drop 1)).map Prod.snd
      = (survivors cf).map (fun j => cf.constant_pool.getD j none) := by
  have hk := kept_slots_eq (cf.constant_pool.drop 1) 1 cf.constant_pool rfl hwf1
  have hl : (cf.constant_pool.drop 1).length = cf.constant_pool_count - 1 := by
    simp [hlen]
  rw [hl] at hk
  rw [hk, List.map_map]
  rfl

/-- C7 (Long and Double pairing).  On every well-formed pool `gc_ClassFile`
returns, and for a Long or Double at the old index `i`: when its reference
count is not zero, `map[i+1] = map[i] + 1`, the new pool holds the entry at
`map[i]` and a null placeholder right behind it; when its reference count is
zero, neither slot survives.  The new pool is well formed again (every null
slot follows its Long or Double), and the new index of a surviving entry never
denotes a placeholder. -/
theorem gc_long_pairing (uninit : Nat → Nat) (cf : ClassFile) (hwf : pool_wf cf = true) :
    ∃ done cf1, gc_ClassFile uninit cf = some (done, cf1) ∧
      (∀ i cp, 1 ≤ i → cf.constant_pool[i]? = some (some cp) → isLong cp = true →
        (cp.refCount ≠ 0 →
          map_cp uninit cf1 (i + 1) = map_cp uninit cf1 i + 1 ∧
          cf1.constant_pool[map_cp uninit cf1 i]? = some (some cp) ∧
          cf1.constant_pool[map_cp uninit cf1 i + 1]? = some none) ∧
        (cp.refCount = 0 → i ∉ survivors cf ∧ i + 1 ∉ survivors cf)) ∧
      pool_wf_from (cf1.constant_pool.drop 1) = true ∧
      (∀ i cp, i ∈ survivors cf → cf.constant_pool[i]? = some (some cp) →
        ∃ cp1, cf1.constant_pool[map_cp uninit cf1 i]? = some (some cp1)) := by
  have hspec := gc_ClassFile_spec uninit cf hwf
  simp only [pool_wf, Bool.and_eq_true, decide_eq_true_eq] at hwf
  obtain ⟨⟨hlen, hpos⟩, hwf1⟩ := hwf
  refine ⟨_, _, hspec, ?_, ?_, ?_⟩
  · intro i cp hi hget hl
    have hlt : i < cf.constant_pool_count := by
      rw [← hlen]
      by_contra hc
      rw [List.getElem?_eq_none (by omega)] at hget
      simp at hget
    have hi0 : cf.constant_pool[i - 1 + 1]? = some (some cp) := by
      rw [Nat.sub_add_cancel hi]
      exact hget
    have hnext : cf.constant_pool[i + 1]? = some none :=
      pool_wf_long_next _ 1 cf.constant_pool rfl hwf1 i cp hi hget hl
    have hlt1 : i + 1 < cf.constant_pool_count := by
      rw [← hlen]
      by_contra hc
      rw [List.getElem?_eq_none (by omega)] at hnext
      simp at hnext
    have hs := survives_entry _ i cp hget
    have hs1 := survives_placeholder _ i cp hget hnext
    constructor
    · intro hm
      have hmem : i ∈ survivors cf := by
        rw [survivors_mem, hs]
        simp [hi, hlt, hm]
      have hmem1 : i + 1 ∈ survivors cf := by
        rw [survivors_mem, hs1, hl]
        simp [hlt1, hm]
      obtain ⟨a, ha, ea⟩ := List.getElem_of_mem hmem
      obtain ⟨b, hb, eb⟩ := List.getElem_of_mem hmem1
      have hsorted := survivors_sorted cf
      have hab : a < b := sorted_index_lt _ hsorted a b ha hb (by rw [ea, eb]; omega)
      have hb1 : b = a + 1 := by
        by_contra hne
        have h1 := (List.pairwise_iff_getElem.1 hsorted) a (a + 1) ha (by omega) (by omega)
        have h2 := (List.pairwise_iff_getElem.1 hsorted) (a + 1) b (by omega) hb (by omega)
        rw [ea] at h1
        rw [eb] at h2
        omega
      subst hb1
      have m1 : gc_MAP uninit cf i = a + 1 := by
        rw [← ea]
        exact gc_MAP_survivor uninit cf a ha
      have m2 : gc_MAP uninit cf (i + 1) = a + 1 + 1 := by
        rw [← eb]
        exact gc_MAP_survivor uninit cf (a + 1) hb
      have p1 := gc_pool_at_survivor uninit cf hlen hpos i hmem
      have p2 := gc_pool_at_survivor uninit cf hlen hpos (i + 1) hmem1
      have e : gc_MAP uninit cf (i + 1) = gc_MAP uninit cf i + 1 := by rw [m1, m2]
      rw [e] at p2
      refine ⟨e, ?_, ?_⟩
      · exact p1.trans (by simp [hget, gc_cp_info_long _ cp hl])
      · exact p2.trans (by simp [hnext])
    · intro hm
      constructor
      · rw [survivors_mem, hs]
        simp [hm]
      · rw [survivors_mem, hs1]
        simp [hm]
  · have h1 : (cf.constant_pool.take 1).length = 1 := by
      rw [List.length_take]
      omega
    show pool_wf_from (List.drop 1 (List.map _ _)) = true
    rw [List.map_append, List.drop_append_eq_append_drop]
    simp only [List.length_map, h1, Nat.sub_self, List.drop_zero]
    rw [List.drop_eq_nil_of_le (by simp [h1])]
    simp only [List.nil_append]
    rw [pool_wf_from_map, ← kept_slots_snd cf hwf1 hlen]
    exact pool_wf_from_kept _ 1 hwf1
  · intro i cp hi hget
    have p1 := gc_pool_at_survivor uninit cf hlen hpos i hi
    exact ⟨gc_cp_info (gc_MAP uninit cf) cp, p1.trans (by simp [hget])⟩

/-- Witness for C7: the Long of the example moves from 4 to 3 with its
placeholder from 5 to 4; the unreferenced Double at 6 and 7 is gone. -/
theorem gc_long_pairing_witness :
    pool_wf gcExample = true ∧
    ∃ done cf1, gc_ClassFile (fun _ => 0) gcExample = some (done, cf1) ∧
      map_cp (fun _ => 0) cf1 4 = 3 ∧ map_cp (fun _ => 0) cf1 5 = 4 ∧
      cf1.constant_pool[3]? = some (some ⟨1, .long 0 7⟩) ∧
      cf1.constant_pool[4]? = some none ∧
      pool_wf_from (cf1.constant_pool.drop 1) = true := by
  refine ⟨by decide, ?_⟩
  obtain ⟨done, cf1, h, _, hw, _⟩ := gc_long_pairing (fun _ => 0) gcExample (by decide)
  have hx : (gc_ClassFile (fun _ => 0) gcExample).map (fun r =>
      (map_cp (fun _ => 0) r.2 4, map_cp (fun _ => 0) r.2 5,
        r.2.constant_pool[3]?, r.2.constant_pool[4]?))
      = some (3, 4, some (some ⟨1, .long 0 7⟩), some none) := by rfl
  rw [h] at hx
  simp only [Option.map_some', Option.some.injEq, Prod.mk.injEq] at hx
  exact ⟨done, cf1, h, hx.1, hx.2.1, hx.2.2.1, hx.2.2.2, hw⟩

/-! ## The remapping pass: lemmas -/

theorem remap_required (m : Nat → Nat) (i : Nat) :
    remap_field m (required i) = required (m i) := by
  simp [remap_field, required]

theorem remap_optional (m : Nat → Nat) (i : Nat) :
    remap_field m (optional i) = optional (if i ≠ 0 then m i else i) := by
  by_cases h : i = 0 <;> simp [remap_field, optional, h]

theorem idx_gc_cp_info (m : Nat → Nat) (cp : cp_info) :
    idx_cp_info (gc_cp_info m cp) = (idx_cp_info cp).map (remap_field m) := by
  obtain ⟨r, d⟩ := cp
  cases d <;> simp [gc_cp_info, idx_cp_info, remap_required]

mutual
theorem idx_gc_element_value (m : Nat → Nat) : ∀ (v : element_value),
    idx_element_value (gc_element_value m v) = (idx_element_value v).map (remap_field m)
  | .const _ _ => by simp [gc_element_value, idx_element_value, remap_required]
  | .enum_const _ _ => by simp [gc_element_value, idx_element_value, remap_required]
  | .class_info _ => by simp [gc_element_value, idx_element_value, remap_required]
  | .annotation_value a => by
    simp [gc_element_value, idx_element_value, idx_gc_annotation m a]
  | .array _ vs => by
    simp [gc_element_value, idx_element_value, idx_gc_element_values m vs]
theorem idx_gc_element_values (m : Nat → Nat) : ∀ (vs : List element_value),
    idx_element_values (gc_element_values m vs) = (idx_element_values vs).map (remap_field m)
  | [] => by simp [gc_element_values, idx_element_values]
  | v :: rest => by
    simp [gc_element_values, idx_element_values, idx_gc_element_value m v,
      idx_gc_element_values m rest]
theorem idx_gc_annotation (m : Nat → Nat) : ∀ (a : annotation),
    idx_annotation ( gc_annotation m a) = ( idx_annotation a).map (remap_field m)
  | .mk _ _ ps => by
    simp [ gc_annotation, idx_annotation, remap_required, idx_gc_element_value_pairs m ps]
theorem idx_gc_element_value_pairs (m : Nat → Nat) : ∀ (ps : List element_value_pair),
    idx_element_value_pairs (gc_element_value_pairs m ps)
      = (idx_element_value_pairs ps).map (remap_field m)
  | [] => by simp [gc_element_value_pairs, idx_element_value_pairs]
  | .mk _ v :: rest => by
    simp [gc_element_value_pairs, idx_element_value_pairs, remap_required,
      idx_gc_element_value m v, idx_gc_element_value_pairs m rest]
end

theorem idx_gc_annotations (m : Nat → Nat) : ∀ (as : List annotation),
    idx_annotations (gc_annotations m as) = (idx_annotations as).map (remap_field m)
  | [] => by simp [gc_annotations, idx_annotations]
  | a :: rest => by
    simp [gc_annotations, idx_annotations, idx_gc_annotation m a, idx_gc_annotations m rest]

mutual
theorem idx_gc_attribute_info (m : Nat → Nat) : ∀ (a : attribute_info),
    idx_attribute_info (gc_attribute_info m a) = (idx_attribute_info a).map (remap_field m)
  | .mk _ _ _ v => by
    simp [gc_attribute_info, idx_attribute_info, remap_required, idx_gc_attribute_value m v]
theorem idx_gc_attribute_value (m : Nat → Nat) : ∀ (v : attribute_value),
    idx_attribute_value (gc_attribute_value m v) = (idx_attribute_value v).map (remap_field m)
  | .Unknown => by simp [gc_attribute_value, idx_attribute_value]
  | .ConstantValue _ => by simp [gc_attribute_value, idx_attribute_value, remap_required]
  | .Code _ _ _ _ _ _ _ as => by
    simp [gc_attribute_value, idx_attribute_value, idx_gc_attributes m as]
  | .Exceptions _ t => by
    simp [gc_attribute_value, idx_attribute_value, Function.comp_def, remap_required]
  | .InnerClasses _ t => by
    simp [gc_attribute_value, idx_attribute_value, List.flatMap_map, List.map_flatMap,
      gc_innerclasses_table_entry, remap_required, remap_optional]
  | .Synthetic => by simp [gc_attribute_value, idx_attribute_value]
  | .SourceFile _ => by simp [gc_attribute_value, idx_attribute_value, remap_required]
  | .LineNumberTable _ _ => by simp [gc_attribute_value, idx_attribute_value]
  | .LocalVariableTable _ t => by
    simp [gc_attribute_value, idx_attribute_value, List.flatMap_map, List.map_flatMap,
      remap_required]
  | .Deprecated => by simp [gc_attribute_value, idx_attribute_value]
  | .RuntimeVisibleAnnotations _ as => by
    simp [gc_attribute_value, idx_attribute_value, idx_gc_annotations m as]
  | .EnclosingMethod _ _ => by
    simp [gc_attribute_value, idx_attribute_value, remap_required, remap_optional]
  | .StackMapTable => by simp [gc_attribute_value, idx_attribute_value]
  | .Signature _ => by simp [gc_attribute_value, idx_attribute_value, remap_required]
  | .LocalVariableTypeTable _ t => by
    simp [gc_attribute_value, idx_attribute_value, List.flatMap_map, List.map_flatMap,
      remap_required]
  | .AnnotationDefault v => by
    simp [gc_attribute_value, idx_attribute_value, idx_gc_element_value m v]
theorem idx_gc_attributes (m : Nat → Nat) : ∀ (as : List attribute_info),
    idx_attributes (gc_attributes m as) = (idx_attributes as).map (remap_field m)
  | [] => by simp [gc_attributes, idx_attributes]
  | a :: rest => by
    simp [gc_attributes, idx_attributes, idx_gc_attribute_info m a, idx_gc_attributes m rest]
end

mutual
theorem code_bodies_gc (m : Nat → Nat) : ∀ (a : attribute_info),
    code_bodies (gc_attribute_info m a) = code_bodies a
  | .mk _ _ _ v => by
    cases v with
    | Code _ _ _ _ _ _ _ as =>
      simp [gc_attribute_info, gc_attribute_value, code_bodies, code_bodies_list_gc m as]
    | _ => simp [gc_attribute_info, gc_attribute_value, code_bodies]
theorem code_bodies_list_gc (m : Nat → Nat) : ∀ (as : List attribute_info),
    code_bodies_list (gc_attributes m as) = code_bodies_list as
  | [] => by simp [gc_attributes, code_bodies_list]
  | a :: rest => by
    simp [gc_attributes, code_bodies_list, code_bodies_gc m a, code_bodies_list_gc m rest]
end

theorem idx_gc_field_info (m : Nat → Nat) (fi : field_info) :
    idx_field_info (gc_field_info m fi) = (idx_field_info fi).map (remap_field m) := by
  simp [idx_field_info, gc_field_info, remap_required, idx_gc_attributes]

theorem idx_gc_method_info (m : Nat → Nat) (mi : method_info) :
    idx_method_info (gc_method_info m mi) = (idx_method_info mi).map (remap_field m) := by
  simp [idx_method_info, gc_method_info, remap_required, idx_gc_attributes]

theorem idx_flatMap_fields (m : Nat → Nat) (fs : List field_info) :
    (fs.map (gc_field_info m)).flatMap idx_field_info
      = (fs.flatMap idx_field_info).map (remap_field m) := by
  induction fs with
  | nil => simp
  | cons fi fs ih => simp [idx_gc_field_info, ih]

theorem idx_flatMap_methods (m : Nat → Nat) (ms : List method_info) :
    (ms.map (gc_method_info m)).flatMap idx_method_info
      = (ms.flatMap idx_method_info).map (remap_field m) := by
  induction ms with
  | nil => simp
  | cons mi ms ih => simp [idx_gc_method_info, ih]

/-- The facts about the result of `gc_ClassFile` that the later arguments use:
the new pool, the new count, and the index fields outside the pool. -/
theorem gc_ClassFile_props (uninit : Nat → Nat) (cf : ClassFile) (hwf : pool_wf cf = true) :
    ∃ done cf2, gc_ClassFile uninit cf = some (done, cf2) ∧
      cf2.constant_pool = (cf.constant_pool.take 1
        ++ (survivors cf).map (fun j => cf.constant_pool.getD j none)).map
          (Option.map (gc_cp_info (gc_MAP uninit cf))) ∧
      cf2.constant_pool_count = 1 + (survivors cf).length ∧
      idx_ClassFile cf2 = (idx_ClassFile cf).map (remap_field (gc_MAP uninit cf)) := by
  refine ⟨_, _, gc_ClassFile_spec uninit cf hwf, rfl, rfl, ?_⟩
  simp only [idx_ClassFile, List.map_cons, List.map_append, remap_required, List.map_map,
    idx_flatMap_fields, idx_flatMap_methods, idx_gc_attributes, Function.comp_def]

/-! ## The remapping pass: the claims -/

/-- C8, as amended (index remap).  On every well-formed pool `gc_ClassFile`
returns, and every index field of the model outside the bytecode and the
exception tables holds the map applied to its old value: this class, super
class, interfaces, the name and descriptor index of every field and method,
every attribute name index, the indices of every decoded attribute value and
annotation (an optional index only when it is not 0), and the indices of every
surviving pool entry.  The bytecode, the exception table length and the
exception table of every Code attribute are left as they were. -/
theorem gc_remap_index_fields (uninit : Nat → Nat) (cf : ClassFile)
    (hwf : pool_wf cf = true) :
    ∃ done cf1, gc_ClassFile uninit cf = some (done, cf1) ∧
      idx_ClassFile cf1 = (idx_ClassFile cf).map (remap_field (map_cp uninit cf1)) ∧
      (∀ i, i ∈ survivors cf → ∃ e, cf1.constant_pool[map_cp uninit cf1 i]? = some e ∧
        idx_slot e = (idx_slot (cf.constant_pool.getD i none)).map
          (remap_field (map_cp uninit cf1))) ∧
      cf1.fields.map (fun fi => code_bodies_list fi.attributes)
        = cf.fields.map (fun fi => code_bodies_list fi.attributes) ∧
      cf1.methods.map (fun mi => code_bodies_list mi.attributes)
        = cf.methods.map (fun mi => code_bodies_list mi.attributes) ∧
      code_bodies_list cf1.attributes = code_bodies_list cf.attributes := by
  have hspec := gc_ClassFile_spec uninit cf hwf
  simp only [pool_wf, Bool.and_eq_true, decide_eq_true_eq] at hwf
  obtain ⟨⟨hlen, hpos⟩, hwf1⟩ := hwf
  refine ⟨_, _, hspec, ?_, ?_, ?_, ?_, ?_⟩
  · obtain ⟨_, cf2, h2, _, _, he⟩ := gc_ClassFile_props uninit cf (by
      simp only [pool_wf, Bool.and_eq_true, decide_eq_true_eq]
      exact ⟨⟨hlen, hpos⟩, hwf1⟩)
    rw [hspec] at h2
    simp only [Option.some.injEq, Prod.mk.injEq] at h2
    obtain ⟨_, h3⟩ := h2
    subst h3
    exact he
  · intro i hi
    refine ⟨_, gc_pool_at_survivor uninit cf hlen hpos i hi, ?_⟩
    show _ = List.map (remap_field (gc_MAP uninit cf)) _
    cases cf.constant_pool.getD i none with
    | none => simp [idx_slot]
    | some cp => simp [idx_slot, idx_gc_cp_info]
  · show List.map _ (List.map _ _) = _
    simp [gc_field_info, code_bodies_list_gc, Function.comp_def]
  · show List.map _ (List.map _ _) = _
    simp [gc_method_info, code_bodies_list_gc, Function.comp_def]
  · exact code_bodies_list_gc _ _

/-- Witness for C8 as amended: the index fields of the example after the pass. -/
theorem gc_remap_index_fields_witness :
    pool_wf gcExample = true ∧
    ∃ done cf1, gc_ClassFile (fun _ => 0) gcExample = some (done, cf1) ∧
      idx_ClassFile cf1
        = [required 2, required 6, required 8, required 9, required 7] := by
  refine ⟨by decide, ?_⟩
  obtain ⟨done, cf1, h, _⟩ := gc_remap_index_fields (fun _ => 0) gcExample (by decide)
  have hx : (gc_ClassFile (fun _ => 0) gcExample).map (fun r => idx_ClassFile r.2)
      = some [required 2, required 6, required 8, required 9, required 7] := by rfl
  rw [h] at hx
  simp only [Option.map_some', Option.some.injEq] at hx
  exact ⟨done, cf1, h, hx⟩

/-- Counterexample to C8 as stated: in the example the pass moves the class
entry 3 to 2 and the Long 4 to 3, yet the Code attribute keeps the catch type 3
and the bytecode `ldc2_w #4`: neither holds the map of its old value. -/
theorem gc_remap_counterexample :
    ∃ done cf1, gc_ClassFile (fun _ => 0) gcExample = some (done, cf1) ∧
      map_cp (fun _ => 0) cf1 3 = 2 ∧ map_cp (fun _ => 0) cf1 4 = 3 ∧
      cf1.methods.map (fun mi => code_bodies_list mi.attributes)
        = [[([20, 0, 4, 88, 177], 1, [⟨0, 4, 4, 3⟩])]] ∧
      (3 : Nat) ≠ map_cp (fun _ => 0) cf1 3 ∧ (4 : Nat) ≠ map_cp (fun _ => 0) cf1 4 := by
  have hx : gc_ClassFile (fun _ => 0) gcExample
      = some ((gc_ClassFile (fun _ => 0) gcExample).get (by decide)) := by simp
  refine ⟨_, _, hx, ?_, ?_, ?_, ?_, ?_⟩
  · rfl
  · rfl
  · rfl
  · decide
  · decide

/-! ## The mark pass: lemmas -/

theorem slot_le_refl (a : Option cp_info) : slot_le a a := by
  cases a <;> simp [slot_le]

theorem pool_le_refl : ∀ (p : List (Option cp_info)), pool_le p p
  | [] => List.Forall₂.nil
  | a :: rest => List.Forall₂.cons (slot_le_refl a) (pool_le_refl rest)

theorem slot_le_trans {a b c : Option cp_info} (h1 : slot_le a b) (h2 : slot_le b c) :
    slot_le a c := by
  cases a <;> cases b <;> cases c <;> simp only [slot_le] at h1 h2 ⊢
  all_goals
    first
    | trivial
    | exact h1.elim
    | exact h2.elim
    | exact ⟨h1.1.trans h2.1, Nat.le_trans h1.2 h2.2⟩

theorem pool_le_trans {p q r : List (Option cp_info)} (h1 : pool_le p q) (h2 : pool_le q r) :
    pool_le p r := by
  induction h1 generalizing r with
  | nil => cases h2; exact List.Forall₂.nil
  | cons hab _ ih =>
    cases h2 with
    | cons hbc hrest => exact List.Forall₂.cons (slot_le_trans hab hbc) (ih hrest)

theorem pool_le_get {p q : List (Option cp_info)} (h : pool_le p q) (i : Nat) (cp : cp_info)
    (hg : p[i]? = some (some cp)) :
    ∃ cq, q[i]? = some (some cq) ∧ cq.info = cp.info ∧ cp.refCount ≤ cq.refCount := by
  induction h generalizing i with
  | nil => simp at hg
  | @cons a b l1 l2 hab _ ih =>
    cases i with
    | zero =>
      simp only [List.getElem?_cons_zero, Option.some.injEq] at hg
      subst hg
      cases b with
      | none => simp [slot_le] at hab
      | some y => exact ⟨y, by simp, hab.1.symm, hab.2⟩
    | succ n =>
      simp only [List.getElem?_cons_succ] at hg ⊢
      exact ih n hg

theorem marked_mono {p q : List (Option cp_info)} (h : pool_le p q) (i : Nat)
    (hm : marked p i) : marked q i := by
  obtain ⟨cp, hg, hne⟩ := hm
  obtain ⟨cq, hq, _, hle⟩ := pool_le_get h i cp hg
  exact ⟨cq, hq, by omega⟩

theorem pool_le_set : ∀ (p : List (Option cp_info)) (i : Nat) (cp cq : cp_info),
    p[i]? = some (some cp) → cq.info = cp.info → cp.refCount ≤ cq.refCount →
    pool_le p (p.set i (some cq))
  | [], i, cp, cq, hg, _, _ => by simp at hg
  | a :: rest, 0, cp, cq, hg, hi, hr => by
    simp only [List.getElem?_cons_zero, Option.some.injEq] at hg
    subst hg
    exact List.Forall₂.cons ⟨hi.symm, hr⟩ (pool_le_refl rest)
  | a :: rest, n + 1, cp, cq, hg, hi, hr => by
    simp only [List.getElem?_cons_succ] at hg
    exact List.Forall₂.cons (slot_le_refl a) (pool_le_set rest n cp cq hg hi hr)

theorem ref_marks (p q : List (Option cp_info)) (i : Nat) (h : ref p i = some q) :
    Marks [i] p q := by
  unfold ref at h
  split at h
  · rename_i cp hg
    simp only [List.get?_eq_getElem?] at hg
    split at h
    swap
    · simp at h
    simp only [Option.some.injEq] at h
    subst h
    refine ⟨pool_le_set p i cp _ hg rfl (Nat.le_succ _), ?_⟩
    intro j hj
    simp only [List.mem_singleton] at hj
    subst hj
    have hlt : j < p.length := by
      by_contra hc
      rw [List.getElem?_eq_none (by omega)] at hg
      simp at hg
    exact ⟨_, by rw [List.getElem?_set, if_pos rfl, if_pos hlt], by simp⟩
  · simp at h

theorem marks_nil (p : List (Option cp_info)) : Marks [] p p :=
  ⟨pool_le_refl p, by simp⟩

theorem marks_append {l1 l2 : List Nat} {p q r : List (Option cp_info)}
    (h1 : Marks l1 p q) (h2 : Marks l2 q r) : Marks (l1 ++ l2) p r := by
  refine ⟨pool_le_trans h1.1 h2.1, ?_⟩
  intro i hi
  rcases List.mem_append.1 hi with h | h
  · exact marked_mono h2.1 i (h1.2 i h)
  · exact h2.2 i h

theorem marks_sub {l l1 : List Nat} {p q : List (Option cp_info)} (h : Marks l p q)
    (hs : ∀ i, i ∈ l1 → i ∈ l) : Marks l1 p q :=
  ⟨h.1, fun i hi => h.2 i (hs i hi)⟩

theorem andThen_some {r : Option (List (Option cp_info))}
    {f : List (Option cp_info) → Option (List (Option cp_info))} {q : List (Option cp_info)}
    (h : andThen r f = some q) : ∃ p1, r = some p1 ∧ f p1 = some q := by
  cases r with
  | none => simp [andThen] at h
  | some p1 => exact ⟨p1, rfl, h⟩

theorem marks_ref2 (p q : List (Option cp_info)) (i j : Nat)
    (h : andThen (ref p i) (fun p1 => ref p1 j) = some q) : Marks [i, j] p q := by
  obtain ⟨p1, h1, h2⟩ := andThen_some h
  exact marks_append (ref_marks _ _ _ h1) (ref_marks _ _ _ h2)

theorem marks_each {α : Type} (f : α → List (Option cp_info) → Option (List (Option cp_info)))
    (g : α → List Nat)
    (hf : ∀ a p q, f a p = some q → Marks (g a) p q) :
    ∀ (l : List α) (p q : List (Option cp_info)),
      refct_each f l p = some q → Marks (l.flatMap g) p q
  | [], p, q, h => by
    simp only [refct_each, Option.some.injEq] at h
    subst h
    exact marks_nil p
  | a :: rest, p, q, h => by
    simp only [refct_each] at h
    split at h
    · simp at h
    · rename_i p1 h1
      have := marks_append (hf a p p1 h1) (marks_each f g hf rest p1 q h)
      simpa using this

theorem refs_of_append (l1 l2 : List (Bool × Nat)) :
    refs_of (l1 ++ l2) = refs_of l1 ++ refs_of l2 := by
  simp [refs_of]

theorem refs_of_required (i : Nat) (l : List (Bool × Nat)) :
    refs_of (required i :: l) = i :: refs_of l := by
  simp [refs_of, required]

theorem refs_of_optional (i : Nat) (l : List (Bool × Nat)) :
    refs_of (optional i :: l) = if i ≠ 0 then i :: refs_of l else refs_of l := by
  by_cases h : i = 0 <;> simp [refs_of, optional, h]

theorem refs_of_nil : refs_of [] = [] := rfl

theorem refct_cp_info_marks (cp : Option cp_info) (p q : List (Option cp_info))
    (h : refct_cp_info cp p = some q) : Marks (refs_of (idx_slot cp)) p q := by
  cases cp with
  | none =>
    simp only [refct_cp_info, Option.some.injEq] at h
    subst h
    exact marks_nil p
  | some c =>
    obtain ⟨r, d⟩ := c
    cases d <;> simp only [refct_cp_info] at h <;>
      simp only [idx_slot, idx_cp_info, refs_of_required, refs_of_nil]
    case class_info n => exact ref_marks _ _ _ h
    case fieldref_info a b => exact marks_ref2 _ _ _ _ h
    case methodref_info a b => exact marks_ref2 _ _ _ _ h
    case interfaceMethodref_info a b => exact marks_ref2 _ _ _ _ h
    case string n => exact ref_marks _ _ _ h
    case nameAndType_info a b => exact marks_ref2 _ _ _ _ h
    all_goals
      simp only [Option.some.injEq] at h
      subst h
      exact marks_nil p

theorem ref_le (p q : List (Option cp_info)) (i : Nat) (h : ref p i = some q) : pool_le p q :=
  (ref_marks p q i h).1

theorem rop_run_le (t : code_h) (g_code : List Nat) (h : rop) (g_pc pc1 : Nat)
    (p q : List (Option cp_info)) (hr : rop_run t g_code h g_pc p = some (pc1, q)) :
    pool_le p q := by
  cases h <;> simp only [rop_run] at hr
  case rop_0 => simp only [Option.some.injEq, Prod.mk.injEq] at hr; rw [← hr.2]; exact pool_le_refl p
  case no_case => simp only [Option.some.injEq, Prod.mk.injEq] at hr; rw [← hr.2]; exact pool_le_refl p
  case rop_1bc =>
    split at hr
    · simp at hr
    · rename_i idx pc2 _
      cases hq : ref p idx with
      | none => simp [hq] at hr
      | some q1 =>
        simp only [hq, Option.map_some', Option.some.injEq, Prod.mk.injEq] at hr
        rw [← hr.2]
        exact ref_le _ _ _ hq
  case rop_1wc =>
    split at hr
    · simp at hr
    · rename_i idx pc2 _
      cases hq : ref p idx with
      | none => simp [hq] at hr
      | some q1 =>
        simp only [hq, Option.map_some', Option.some.injEq, Prod.mk.injEq] at hr
        rw [← hr.2]
        exact ref_le _ _ _ hq
  case rop_2wcb =>
    split at hr
    · simp at hr
    · rename_i idx pc2 _
      split at hr
      · simp at hr
      · rename_i q1 hq
        simp only [Option.map_eq_some', Prod.mk.injEq] at hr
        obtain ⟨_, _, _, hr2⟩ := hr
        rw [← hr2]
        exact ref_le _ _ _ hq
  case rop_3wcbx =>
    split at hr
    · simp at hr
    · rename_i idx pc2 _
      split at hr
      · simp at hr
      · rename_i q1 hq
        split at hr
        · simp at hr
        · simp only [Option.map_eq_some', Prod.mk.injEq] at hr
          obtain ⟨_, _, _, hr2⟩ := hr
          rw [← hr2]
          exact ref_le _ _ _ hq
  case rop_2bb =>
    split at hr
    · simp at hr
    · simp only [Option.map_eq_some', Prod.mk.injEq] at hr
      obtain ⟨_, _, _, hr2⟩ := hr
      rw [← hr2]
      exact pool_le_refl p
  all_goals
    simp only [Option.map_eq_some', Prod.mk.injEq] at hr
    obtain ⟨_, _, _, hr2⟩ := hr
    rw [← hr2]
    exact pool_le_refl p

theorem refct_code_loop_le (t : code_h) (g_code : List Nat) (length : Nat) :
    ∀ (turns g_pc : Nat) (p q : List (Option cp_info)),
      refct_code_loop t g_code length turns g_pc p = some q → pool_le p q
  | 0, g_pc, p, q, h => by
    simp only [refct_code_loop] at h
    split at h
    · simp at h
    · simp only [Option.some.injEq] at h
      rw [← h]
      exact pool_le_refl p
  | turns + 1, g_pc, p, q, h => by
    simp only [refct_code_loop] at h
    split at h
    · split at h
      · simp at h
      · rename_i op pc1 _
        split at h
        · simp at h
        · rename_i pc2 p1 hrun
          exact pool_le_trans (rop_run_le t g_code _ _ _ _ _ hrun)
            (refct_code_loop_le t g_code length turns pc2 p1 q h)
    · simp only [Option.some.injEq] at h
      rw [← h]
      exact pool_le_refl p

mutual
theorem refct_element_value_marks : ∀ (v : element_value) (p q : List (Option cp_info)),
    refct_element_value v p = some q → Marks (refs_of (idx_element_value v)) p q
  | .const _ i, p, q, h => by
    simp only [refct_element_value] at h
    simpa [idx_element_value, refs_of_required, refs_of_nil] using ref_marks _ _ _ h
  | .enum_const a b, p, q, h => by
    simp only [refct_element_value] at h
    simpa [idx_element_value, refs_of_required, refs_of_nil] using marks_ref2 _ _ _ _ h
  | .class_info i, p, q, h => by
    simp only [refct_element_value] at h
    simpa [idx_element_value, refs_of_required, refs_of_nil] using ref_marks _ _ _ h
  | .annotation_value a, p, q, h => by
    simp only [refct_element_value] at h
    simpa [idx_element_value] using refct_annotation_marks a p q h
  | .array _ vs, p, q, h => by
    simp only [refct_element_value] at h
    simpa [idx_element_value] using refct_element_values_marks vs p q h
theorem refct_element_values_marks : ∀ (vs : List element_value)
    (p q : List (Option cp_info)),
    refct_element_values vs p = some q → Marks (refs_of (idx_element_values vs)) p q
  | [], p, q, h => by
    simp only [refct_element_values, Option.some.injEq] at h
    subst h
    exact marks_nil p
  | v :: rest, p, q, h => by
    simp only [refct_element_values] at h
    split at h
    · simp at h
    · rename_i p1 h1
      simp only [idx_element_values, refs_of_append]
      exact marks_append (refct_element_value_marks v p p1 h1)
        (refct_element_values_marks rest p1 q h)
theorem refct_annotation_marks : ∀ (a : annotation) (p q : List (Option cp_info)),
    refct_annotation a p = some q → Marks (refs_of ( idx_annotation a)) p q
  | .mk ty _ ps, p, q, h => by
    simp only [ refct_annotation] at h
    split at h
    · simp at h
    · rename_i p1 h1
      simp only [ idx_annotation, refs_of_required]
      exact marks_append (ref_marks _ _ _ h1) (refct_element_value_pairs_marks ps p1 q h)
theorem refct_element_value_pairs_marks : ∀ (ps : List element_value_pair)
    (p q : List (Option cp_info)),
    refct_element_value_pairs ps p = some q → Marks (refs_of (idx_element_value_pairs ps)) p q
  | [], p, q, h => by
    simp only [refct_element_value_pairs, Option.some.injEq] at h
    subst h
    exact marks_nil p
  | .mk n v :: rest, p, q, h => by
    simp only [refct_element_value_pairs] at h
    split at h
    · simp at h
    · rename_i p1 h1
      split at h
      · simp at h
      · rename_i p2 h2
        simp only [idx_element_value_pairs, refs_of_required, refs_of_append]
        exact marks_append (ref_marks _ _ _ h1)
          (marks_append (refct_element_value_marks v p1 p2 h2)
            (refct_element_value_pairs_marks rest p2 q h))
end

theorem refs_of_flatMap {α : Type} (f : α → List (Bool × Nat)) (l : List α) :
    refs_of (l.flatMap f) = l.flatMap (fun a => refs_of (f a)) := by
  induction l with
  | nil => rfl
  | cons a rest ih => simp [refs_of_append, ih]

theorem refs_of_map_required (l : List Nat) : refs_of (l.map required) = l := by
  induction l with
  | nil => rfl
  | cons a rest ih => simp [refs_of_required, ih]

theorem idx_annotations_eq (as : List annotation) :
    idx_annotations as = as.flatMap idx_annotation := by
  induction as with
  | nil => rfl
  | cons a rest ih => simp [idx_annotations, ih]

theorem marks_opt (p q : List (Option cp_info)) (i : Nat)
    (h : (if i ≠ 0 then ref p i else some p) = some q) :
    Marks (if i ≠ 0 then [i] else []) p q := by
  by_cases hi : i ≠ 0
  · rw [if_pos hi] at h ⊢
    exact ref_marks _ _ _ h
  · rw [if_neg hi] at h ⊢
    simp only [Option.some.injEq] at h
    subst h
    exact marks_nil p

theorem refct_innerclasses_table_entry_marks (entry : innerclasses_table_entry)
    (p q : List (Option cp_info)) (h : refct_innerclasses_table_entry entry p = some q) :
    Marks (refs_of [required entry.inner_class_info_index,
      optional entry.outer_class_info_index, optional entry.inner_name_index]) p q := by
  unfold refct_innerclasses_table_entry at h
  obtain ⟨p1, h1, h2⟩ := andThen_some h
  obtain ⟨p2, h3, h4⟩ := andThen_some h2
  have m := marks_append (ref_marks _ _ _ h1)
    (marks_append (marks_opt _ _ _ h3) (marks_opt _ _ _ h4))
  refine marks_sub m ?_
  intro i hi
  simp only [refs_of_required, refs_of_optional, refs_of_nil] at hi
  by_cases ha : entry.outer_class_info_index = 0 <;>
    by_cases hb : entry.inner_name_index = 0 <;>
    simp_all

mutual
theorem refct_attribute_info_marks (t : code_h) : ∀ (a : attribute_info)
    (p q : List (Option cp_info)),
    refct_attribute_info t a p = some q → Marks (refs_of (idx_attribute_info a)) p q
  | .mk n _ _ v, p, q, h => by
    simp only [refct_attribute_info] at h
    split at h
    · simp at h
    · rename_i p1 h1
      simp only [idx_attribute_info, refs_of_required]
      exact marks_append (ref_marks _ _ _ h1) (refct_attribute_value_marks t v p1 q h)
theorem refct_attribute_value_marks (t : code_h) : ∀ (v : attribute_value)
    (p q : List (Option cp_info)),
    refct_attribute_value t v p = some q → Marks (refs_of (idx_attribute_value v)) p q
  | .Unknown, p, q, h => by
    simp only [refct_attribute_value, Option.some.injEq] at h
    subst h
    exact marks_nil p
  | .ConstantValue i, p, q, h => by
    simp only [refct_attribute_value] at h
    simpa [idx_attribute_value, refs_of_required, refs_of_nil] using ref_marks _ _ _ h
  | .Code _ _ cl code etl et _ as, p, q, h => by
    simp only [refct_attribute_value] at h
    split at h
    · simp at h
    · rename_i p1 h1
      split at h
      · simp at h
      · rename_i p2 h2
        have m1 : Marks [] p p1 := ⟨refct_code_loop_le t code cl cl 0 p p1 h1, by simp⟩
        have m2 := marks_each refct_exception_table_entry (fun _ => [])
          (fun e a b he => by
            unfold refct_exception_table_entry at he
            exact ⟨(marks_opt _ _ _ he).1, by simp⟩) _ p1 p2 h2
        have m3 := refct_attributes_marks t as p2 q h
        have m2a : Marks [] p1 p2 := ⟨m2.1, by simp⟩
        have m := marks_append m1 (marks_append m2a m3)
        simpa [idx_attribute_value] using m
  | .Exceptions _ l, p, q, h => by
    simp only [refct_attribute_value] at h
    have m := marks_each (fun idx p => ref p idx) (fun idx => [idx])
      (fun a b c hh => ref_marks _ _ _ hh) l p q h
    simpa [idx_attribute_value, refs_of_map_required] using m
  | .InnerClasses _ l, p, q, h => by
    simp only [refct_attribute_value] at h
    have m := marks_each refct_innerclasses_table_entry _
      refct_innerclasses_table_entry_marks l p q h
    simpa [idx_attribute_value, refs_of_flatMap] using m
  | .Synthetic, p, q, h => by
    simp only [refct_attribute_value, Option.some.injEq] at h
    subst h
    exact marks_nil p
  | .SourceFile i, p, q, h => by
    simp only [refct_attribute_value] at h
    simpa [idx_attribute_value, refs_of_required, refs_of_nil] using ref_marks _ _ _ h
  | .LineNumberTable _ _, p, q, h => by
    simp only [refct_attribute_value, Option.some.injEq] at h
    subst h
    exact marks_nil p
  | .LocalVariableTable _ l, p, q, h => by
    simp only [refct_attribute_value] at h
    have m := marks_each _ (fun (entry : local_variable_table_entry) =>
        [entry.name_index, entry.descriptor_index])
      (fun a b c hh => marks_ref2 _ _ _ _ hh) l p q h
    simpa [idx_attribute_value, refs_of_flatMap, refs_of_required, refs_of_nil] using m
  | .Deprecated, p, q, h => by
    simp only [refct_attribute_value, Option.some.injEq] at h
    subst h
    exact marks_nil p
  | .RuntimeVisibleAnnotations _ l, p, q, h => by
    simp only [refct_attribute_value] at h
    have m := marks_each refct_annotation _ refct_annotation_marks l p q h
    simpa [idx_attribute_value, idx_annotations_eq, refs_of_flatMap] using m
  | .EnclosingMethod a b, p, q, h => by
    simp only [refct_attribute_value] at h
    obtain ⟨p1, h1, h2⟩ := andThen_some h
    have m := marks_append (ref_marks _ _ _ h1) (marks_opt _ _ _ h2)
    refine marks_sub m ?_
    intro i hi
    simp only [idx_attribute_value, refs_of_required, refs_of_optional, refs_of_nil] at hi
    by_cases hb : b = 0 <;> simp_all
  | .StackMapTable, p, q, h => by
    simp only [refct_attribute_value, Option.some.injEq] at h
    subst h
    exact marks_nil p
  | .Signature i, p, q, h => by
    simp only [refct_attribute_value] at h
    simpa [idx_attribute_value, refs_of_required, refs_of_nil] using ref_marks _ _ _ h
  | .LocalVariableTypeTable _ l, p, q, h => by
    simp only [refct_attribute_value] at h
    have m := marks_each _ (fun (entry : local_variable_type_table_entry) =>
        [entry.name_index, entry.signature_index])
      (fun a b c hh => marks_ref2 _ _ _ _ hh) l p q h
    simpa [idx_attribute_value, refs_of_flatMap, refs_of_required, refs_of_nil] using m
  | .AnnotationDefault v, p, q, h => by
    simp only [refct_attribute_value] at h
    simpa [idx_attribute_value] using refct_element_value_marks v p q h
theorem refct_attributes_marks (t : code_h) : ∀ (as : List attribute_info)
    (p q : List (Option cp_info)),
    refct_attributes t as p = some q → Marks (refs_of (idx_attributes as)) p q
  | [], p, q, h => by
    simp only [refct_attributes, Option.some.injEq] at h
    subst h
    exact marks_nil p
  | a :: rest, p, q, h => by
    simp only [refct_attributes] at h
    split at h
    · simp at h
    · rename_i p1 h1
      simp only [idx_attributes, refs_of_append]
      exact marks_append (refct_attribute_info_marks t a p p1 h1)
        (refct_attributes_marks t rest p1 q h)
end

theorem refct_field_info_marks (t : code_h) (fi : field_info) (p q : List (Option cp_info))
    (h : refct_field_info t fi p = some q) : Marks (refs_of (idx_field_info fi)) p q := by
  unfold refct_field_info at h
  obtain ⟨p1, h1, h2⟩ := andThen_some h
  obtain ⟨p2, h3, h4⟩ := andThen_some h2
  simp only [idx_field_info, refs_of_required]
  exact marks_append (ref_marks _ _ _ h1)
    (marks_append (ref_marks _ _ _ h3) (refct_attributes_marks t _ _ _ h4))

theorem refct_method_info_marks (t : code_h) (mi : method_info) (p q : List (Option cp_info))
    (h : refct_method_info t mi p = some q) : Marks (refs_of (idx_method_info mi)) p q := by
  unfold refct_method_info at h
  obtain ⟨p1, h1, h2⟩ := andThen_some h
  obtain ⟨p2, h3, h4⟩ := andThen_some h2
  simp only [idx_method_info, refs_of_required]
  exact marks_append (ref_marks _ _ _ h1)
    (marks_append (ref_marks _ _ _ h3) (refct_attributes_marks t _ _ _ h4))

/-- What `refct_ClassFile` does when it runs to its end: it changes nothing
but reference counts, and every entry that an index field of the model or of a
pool entry refers to ends with a reference count that is not zero. -/
theorem refct_ClassFile_spec (t : code_h) (cf cf1 : ClassFile)
    (h : refct_ClassFile t cf = some cf1) :
    cf1.constant_pool_count = cf.constant_pool_count ∧
    idx_ClassFile cf1 = idx_ClassFile cf ∧
    pool_le (cf.constant_pool.map (Option.map (fun cp => { cp with refCount := 0 })))
      cf1.constant_pool ∧
    (∀ i, i ∈ refs_of (idx_ClassFile cf) → marked cf1.constant_pool i) ∧
    (∀ e, e ∈ cf.constant_pool → ∀ i, i ∈ refs_of (idx_slot e) → marked cf1.constant_pool i) := by
  unfold refct_ClassFile at h
  simp only at h
  split at h
  · simp at h
  · rename_i pool hr
    simp only [Option.some.injEq] at h
    subst h
    obtain ⟨p1, h1, hr⟩ := andThen_some hr
    obtain ⟨p2, h2, hr⟩ := andThen_some hr
    obtain ⟨p3, h3, hr⟩ := andThen_some hr
    obtain ⟨p4, h4, hr⟩ := andThen_some hr
    obtain ⟨p5, h5, hr⟩ := andThen_some hr
    obtain ⟨p6, h6, h7⟩ := andThen_some hr
    have m1 := ref_marks _ _ _ h1
    have m2 := ref_marks _ _ _ h2
    have m3 := marks_each refct_cp_info _ refct_cp_info_marks _ _ _ h3
    have m4 := marks_each (fun idx p => ref p idx) (fun idx => [idx])
      (fun a b c hh => ref_marks _ _ _ hh) _ _ _ h4
    have m5 := marks_each (refct_field_info t) _ (refct_field_info_marks t) _ _ _ h5
    have m6 := marks_each (refct_method_info t) _ (refct_method_info_marks t) _ _ _ h6
    have m7 := refct_attributes_marks t _ _ _ h7
    have m := marks_append m1 (marks_append m2 (marks_append m3 (marks_append m4
      (marks_append m5 (marks_append m6 m7)))))
    refine ⟨rfl, rfl, m.1, ?_, ?_⟩
    · intro i hi
      apply m.2
      simp only [idx_ClassFile, refs_of_required, refs_of_append, refs_of_map_required,
        refs_of_flatMap, List.mem_cons, List.mem_append] at hi
      simp only [List.mem_append, List.mem_cons, List.mem_singleton, List.not_mem_nil,
        or_false]
      have e4 : (cf.interfaces.flatMap fun idx => [idx]) = cf.interfaces := by
        induction cf.interfaces with
        | nil => rfl
        | cons a rest ih => simp [ih]
      rw [e4]
      tauto
    · intro e he i hi
      apply m.2
      simp only [List.mem_append, List.mem_cons, List.mem_singleton]
      right; right; left
      exact List.mem_flatMap.2 ⟨e, he, hi⟩

theorem same_pool_of_reset_le : ∀ (P Q : List (Option cp_info)),
    pool_le (P.map (Option.map (fun cp => { cp with refCount := 0 }))) Q → same_pool P Q
  | [], Q, h => by
    cases h
    exact List.Forall₂.nil
  | a :: rest, Q, h => by
    simp only [List.map_cons] at h
    cases h with
    | @cons _ b _ l2 hab hrest =>
      refine List.Forall₂.cons ?_ (same_pool_of_reset_le rest _ hrest)
      cases a <;> cases b <;> simp_all [slot_le, same_slot]

theorem same_pool_length {P Q : List (Option cp_info)} (h : same_pool P Q) :
    P.length = Q.length := List.Forall₂.length_eq h

theorem same_pool_get {P Q : List (Option cp_info)} (h : same_pool P Q) (i : Nat)
    (cq : cp_info) (hg : Q[i]? = some (some cq)) :
    ∃ cp, P[i]? = some (some cp) ∧ cp.info = cq.info := by
  induction h generalizing i with
  | nil => simp at hg
  | @cons a b l1 l2 hab _ ih =>
    cases i with
    | zero =>
      simp only [List.getElem?_cons_zero, Option.some.injEq] at hg
      subst hg
      cases a with
      | none => simp [same_slot] at hab
      | some x => exact ⟨x, by simp, by simpa [same_slot] using hab⟩
    | succ n =>
      simp only [List.getElem?_cons_succ] at hg ⊢
      exact ih n hg

theorem same_pool_get_none {P Q : List (Option cp_info)} (h : same_pool P Q) (i : Nat)
    (hg : P[i]? = some none) : Q[i]? = some none := by
  induction h generalizing i with
  | nil => simp at hg
  | @cons a b l1 l2 hab _ ih =>
    cases i with
    | zero =>
      simp only [List.getElem?_cons_zero, Option.some.injEq] at hg
      subst hg
      cases b with
      | none => simp
      | some x => simp [same_slot] at hab
    | succ n =>
      simp only [List.getElem?_cons_succ] at hg ⊢
      exact ih n hg

theorem tag_of_info {a b : cp_info} (h : a.info = b.info) : a.tag = b.tag := by
  simp [cp_info.tag, h]

theorem isLong_of_info {a b : cp_info} (h : a.info = b.info) : isLong a = isLong b := by
  simp [isLong, tag_of_info h]

theorem pool_wf_from_same : ∀ (P Q : List (Option cp_info)),
    same_pool P Q → pool_wf_from P = pool_wf_from Q
  | [], Q, h => by cases h; rfl
  | none :: _, Q, h => by
    cases h with
    | @cons _ b _ l2 hab _ =>
      cases b with
      | none => rfl
      | some x => simp [same_slot] at hab
  | [some cp], Q, h => by
    cases h with
    | @cons _ b _ l2 hab hrest =>
      cases hrest
      cases b with
      | none => simp [same_slot] at hab
      | some x =>
        have : cp.info = x.info := by simpa [same_slot] using hab
        simp [pool_wf_from, isLong_of_info this]
  | some cp :: none :: rest, Q, h => by
    cases h with
    | @cons _ b _ l2 hab hrest =>
      cases hrest with
      | @cons _ b2 _ l3 hab2 hrest2 =>
        cases b with
        | none => simp [same_slot] at hab
        | some x =>
          cases b2 with
          | some y => simp [same_slot] at hab2
          | none =>
            have : cp.info = x.info := by simpa [same_slot] using hab
            simp [pool_wf_from, isLong_of_info this, pool_wf_from_same rest _ hrest2]
  | some cp :: some cp1 :: rest, Q, h => by
    cases h with
    | @cons _ b _ l2 hab hrest =>
      have ih := pool_wf_from_same (some cp1 :: rest) _ hrest
      cases hrest with
      | @cons _ b2 _ l3 hab2 hrest2 =>
        cases b with
        | none => simp [same_slot] at hab
        | some x =>
          cases b2 with
          | none => simp [same_slot] at hab2
          | some y =>
            have : cp.info = x.info := by simpa [same_slot] using hab
            simp only [pool_wf_from, isLong_of_info this]
            rw [ih]

theorem same_pool_drop {P Q : List (Option cp_info)} (h : same_pool P Q) (n : Nat) :
    same_pool (P.drop n) (Q.drop n) := by
  induction h generalizing n with
  | nil =>
    simp only [List.drop_nil]
    exact List.Forall₂.nil
  | cons hab hrest ih =>
    cases n with
    | zero => exact List.Forall₂.cons hab hrest
    | succ k => simpa using ih k

theorem refs_of_remap (m : Nat → Nat) : ∀ (l : List (Bool × Nat)),
    (∀ v, v ∈ refs_of l → m v ≠ 0) →
    refs_of (l.map (remap_field m)) = (refs_of l).map m
  | [], _ => rfl
  | (opt, v) :: rest, h => by
    by_cases hz : opt = true ∧ v = 0
    · have ih := refs_of_remap m rest (fun x hx => h x (by
        simp only [refs_of, List.filterMap_cons, hz, and_self, if_true] at hx ⊢
        exact hx))
      simp only [refs_of] at ih
      simp [refs_of, remap_field, hz, ih]
    · have hv : v ∈ refs_of ((opt, v) :: rest) := by simp [refs_of, hz]
      have hm := h v hv
      have ih := refs_of_remap m rest (fun x hx => h x (by
        simp only [refs_of, List.filterMap_cons, hz, if_false, List.mem_cons] at hx ⊢
        exact Or.inr hx))
      simp only [refs_of] at ih
      simp [refs_of, remap_field, hz, hm, ih]

theorem forall₂_map_right {α β : Type} {R : α → β → Prop} (f : α → β) :
    ∀ (l : List α), (∀ a, a ∈ l → R a (f a)) → List.Forall₂ R l (l.map f)
  | [], _ => List.Forall₂.nil
  | a :: rest, h =>
    List.Forall₂.cons (h a (List.mem_cons_self _ _))
      (forall₂_map_right f rest (fun x hx => h x (List.mem_cons_of_mem _ hx)))

theorem idx_slot_same {a b : Option cp_info} (h : same_slot a b) : idx_slot a = idx_slot b := by
  cases a <;> cases b <;> simp [same_slot] at h
  · rfl
  · simp [idx_slot, idx_cp_info, h]

theorem same_pool_getD {P Q : List (Option cp_info)} (h : same_pool P Q) (i : Nat) :
    same_slot (P.getD i none) (Q.getD i none) := by
  induction h generalizing i with
  | nil => simp [same_slot]
  | cons hab _ ih =>
    cases i with
    | zero => simpa using hab
    | succ n => simpa using ih n

/-- After the mark pass and the sweep, a marked old index and its new index
denote the same entry. -/
theorem marked_same_target (uninit : Nat → Nat) (cf cf1 : ClassFile)
    (hsame : same_pool cf.constant_pool cf1.constant_pool)
    (h0 : cf.constant_pool[0]? = some none)
    (hlen : cf1.constant_pool.length = cf1.constant_pool_count)
    (hpos : 0 < cf1.constant_pool_count) (cf2 : ClassFile)
    (hp2 : cf2.constant_pool = (cf1.constant_pool.take 1
      ++ (survivors cf1).map (fun j => cf1.constant_pool.getD j none)).map
        (Option.map (gc_cp_info (gc_MAP uninit cf1))))
    (hc2 : cf2.constant_pool_count = 1 + (survivors cf1).length)
    (i : Nat) (hm : marked cf1.constant_pool i) :
    gc_MAP uninit cf1 i ≠ 0 ∧ same_target cf cf2 i (gc_MAP uninit cf1 i) := by
  obtain ⟨cp1, hg, hne⟩ := hm
  have hi : 1 ≤ i := by
    by_contra hc
    have : i = 0 := by omega
    subst this
    rw [same_pool_get_none hsame 0 h0] at hg
    simp at hg
  have hlt : i < cf1.constant_pool_count := by
    rw [← hlen]
    by_contra hc
    rw [List.getElem?_eq_none (by omega)] at hg
    simp at hg
  have hmem : i ∈ survivors cf1 := by
    rw [survivors_mem, survives_entry _ i cp1 hg]
    simp [hi, hlt, hne]
  obtain ⟨cp, hgp, hinfo⟩ := same_pool_get hsame i cp1 hg
  have hpool := gc_pool_at_survivor uninit cf1 hlen hpos i hmem
  obtain ⟨k, hk, hki⟩ := List.getElem_of_mem hmem
  have hmap : gc_MAP uninit cf1 i = k + 1 := by
    rw [← hki]
    exact gc_MAP_survivor uninit cf1 k hk
  refine ⟨by omega, ?_, cp, gc_cp_info (gc_MAP uninit cf1) cp1, hgp, ?_, ?_⟩
  · rw [hc2, hmap]
    omega
  · rw [hp2, hpool]
    simp [hg]
  · rw [gc_cp_info_tag]
    exact tag_of_info hinfo.symm

/-! ## The mark pass followed by the sweep: the claim -/

/-- C9, as amended (pool index validity).  Let the pool be well formed with a
null slot 0, and let the mark pass run to its end (it does so exactly when
every index it visits denotes an existing entry).  Then `gc_ClassFile` returns,
the new pool has `constant_pool_count` slots, and every index that the new model
refers to outside the bytecode and the exception tables (header, interfaces,
fields, methods, attributes, annotations, and the entries of the new pool) is
below the new count and resolves to an entry, not to a null slot, of the same
variant as the entry that the field denoted before the pass. -/
theorem mark_compact_index_validity (t : code_h) (uninit : Nat → Nat) (cf cf1 : ClassFile)
    (hwf : pool_wf cf = true) (h0 : cf.constant_pool[0]? = some none)
    (hr : refct_ClassFile t cf = some cf1) :
    ∃ done cf2, gc_ClassFile uninit cf1 = some (done, cf2) ∧
      cf2.constant_pool.length = cf2.constant_pool_count ∧
      cf2.constant_pool_count = 1 + (survivors cf1).length ∧
      cf2.constant_pool[0]? = some none ∧
      List.Forall₂ (same_target cf cf2)
        (refs_of (idx_ClassFile cf)) (refs_of (idx_ClassFile cf2)) ∧
      ∀ k (hk : k < (survivors cf1).length),
        List.Forall₂ (same_target cf cf2)
          (refs_of (idx_slot (cf.constant_pool.getD ((survivors cf1)[k]) none)))
          (refs_of (idx_slot (cf2.constant_pool.getD (k + 1) none))) := by
  obtain ⟨hcount, hidx, hle, hm1, hm2⟩ := refct_ClassFile_spec t cf cf1 hr
  have hsame := same_pool_of_reset_le _ _ hle
  simp only [pool_wf, Bool.and_eq_true, decide_eq_true_eq] at hwf
  obtain ⟨⟨hlen0, hpos0⟩, hwf0⟩ := hwf
  have hlen : cf1.constant_pool.length = cf1.constant_pool_count := by
    rw [hcount, ← same_pool_length hsame, hlen0]
  have hpos : 0 < cf1.constant_pool_count := by omega
  have hwf1 : pool_wf cf1 = true := by
    simp only [pool_wf, Bool.and_eq_true, decide_eq_true_eq]
    refine ⟨⟨hlen, hpos⟩, ?_⟩
    rw [← pool_wf_from_same _ _ (same_pool_drop hsame 1)]
    exact hwf0
  obtain ⟨done, cf2, hgc, hp2, hc2, hidx2⟩ := gc_ClassFile_props uninit cf1 hwf1
  have h10 : cf1.constant_pool[0]? = some none := same_pool_get_none hsame 0 h0
  have key := fun i hm =>
    marked_same_target uninit cf cf1 hsame h0 hlen hpos cf2 hp2 hc2 i hm
  have htake : (cf1.constant_pool.take 1).length = 1 := by
    rw [List.length_take]
    omega
  refine ⟨done, cf2, hgc, ?_, hc2, ?_, ?_, ?_⟩
  · rw [hp2, hc2, List.length_map, List.length_append, htake, List.length_map]
  · rw [hp2, List.getElem?_map, List.getElem?_append_left (by omega), List.getElem?_take]
    simp [h10]
  · rw [hidx2, hidx, refs_of_remap _ _ (fun v hv => (key v (hm1 v hv)).1)]
    exact forall₂_map_right _ _ (fun v hv => (key v (hm1 v hv)).2)
  · intro k hk
    have hmem : (survivors cf1)[k] ∈ survivors cf1 := List.getElem_mem hk
    have hs := (survivors_mem cf1 _).1 hmem
    have hslot : cf2.constant_pool.getD (k + 1) none
        = (cf1.constant_pool.getD ((survivors cf1)[k]) none).map
            (gc_cp_info (gc_MAP uninit cf1)) := by
      rw [List.getD_eq_getElem?_getD, hp2, gc_pool_at uninit cf1 hlen hpos k hk]
      rfl
    have hin : cf.constant_pool.getD ((survivors cf1)[k]) none ∈ cf.constant_pool := by
      have hlt : (survivors cf1)[k] < cf.constant_pool.length := by
        rw [hlen0, ← hcount]
        exact hs.2.1
      rw [List.getD_eq_getElem?_getD, List.getElem?_eq_getElem hlt]
      exact List.getElem_mem hlt
    have hmk := hm2 _ hin
    have e1 : idx_slot (cf2.constant_pool.getD (k + 1) none)
        = (idx_slot (cf.constant_pool.getD ((survivors cf1)[k]) none)).map
            (remap_field (gc_MAP uninit cf1)) := by
      rw [hslot, idx_slot_same (same_pool_getD hsame ((survivors cf1)[k]))]
      cases cf1.constant_pool.getD ((survivors cf1)[k]) none with
      | none => simp [idx_slot]
      | some cp => simp [idx_slot, idx_gc_cp_info]
    rw [e1, refs_of_remap _ _ (fun v hv => (key v (hmk v hv)).1)]
    exact forall₂_map_right _ _ (fun v hv => (key v (hmk v hv)).2)

/-- Witness for C9 as amended: the mark pass and the sweep of the example. -/
theorem mark_compact_index_validity_witness :
    pool_wf markExample = true ∧ markExample.constant_pool[0]? = some none ∧
    ∃ cf1, refct_ClassFile stub_opcodes markExample = some cf1 ∧
      ∃ done cf2, gc_ClassFile (fun _ => 0) cf1 = some (done, cf2) ∧
        cf2.constant_pool_count = 8 ∧
        refs_of (idx_ClassFile cf2) = [2, 4, 6, 7, 5] := by
  have hr : refct_ClassFile stub_opcodes markExample
      = some ((refct_ClassFile stub_opcodes markExample).get (by decide)) := by simp
  refine ⟨by decide, by decide, _, hr, ?_⟩
  obtain ⟨done, cf2, h, _⟩ := mark_compact_index_validity stub_opcodes (fun _ => 0)
    markExample _ (by decide) (by decide) hr
  have hx : (gc_ClassFile (fun _ => 0)
      ((refct_ClassFile stub_opcodes markExample).get (by decide))).map (fun r =>
        (r.2.constant_pool_count, refs_of (idx_ClassFile r.2)))
      = some (8, [2, 4, 6, 7, 5]) := by rfl
  rw [h] at hx
  simp only [Option.map_some', Option.some.injEq, Prod.mk.injEq] at hx
  exact ⟨done, cf2, h, hx.1, hx.2⟩

/-- Counterexample to C9 as stated: after the mark pass and the sweep of the
example, the catch type of the handler is still 3, which denoted the class
entry before the pass and denotes the Utf8 entry `java/lang/Object` after it. -/
theorem mark_compact_counterexample :
    ∃ cf1, refct_ClassFile stub_opcodes markExample = some cf1 ∧
      ∃ done cf2, gc_ClassFile (fun _ => 0) cf1 = some (done, cf2) ∧
        cf2.methods.map (fun mi => code_bodies_list mi.attributes)
          = [[([177], 1, [⟨0, 1, 1, 3⟩])]] ∧
        markExample.constant_pool[3]? = some (some ⟨0, .class_info 2⟩) ∧
        cf2.constant_pool[3]? = some (utf8 1 "java/lang/Object") := by
  have hr : refct_ClassFile stub_opcodes markExample
      = some ((refct_ClassFile stub_opcodes markExample).get (by decide)) := by simp
  have hg : gc_ClassFile (fun _ => 0)
        ((refct_ClassFile stub_opcodes markExample).get (by decide))
      = some ((gc_ClassFile (fun _ => 0)
          ((refct_ClassFile stub_opcodes markExample).get (by decide))).get (by decide)) := by
    simp
  exact ⟨_, hr, _, _, hg, by rfl, by rfl, by rfl⟩

/-! ## The codec: the nesting bounds -/

theorem scan_u1_length (s : List Nat) (v : Nat) (r : List Nat) (h : scan_u1 s = some (v, r)) :
    r.length + 1 = s.length := by
  cases s with
  | nil => simp [scan_u1] at h
  | cons b t =>
    simp only [scan_u1, Option.some.injEq, Prod.mk.injEq] at h
    simp [← h.2]

theorem scan_u2_length (le : Bool) (s : List Nat) (v : Nat) (r : List Nat)
    (h : scan_u2 le s = some (v, r)) : r.length + 2 = s.length := by
  match s, h with
  | _ :: _ :: t, h =>
    simp only [scan_u2, Option.some.injEq, Prod.mk.injEq] at h
    simp [← h.2]
  | [], h => simp [scan_u2] at h
  | [_], h => simp [scan_u2] at h

theorem scan_u4_length (le : Bool) (s : List Nat) (v : Nat) (r : List Nat)
    (h : scan_u4 le s = some (v, r)) : r.length + 4 = s.length := by
  match s, h with
  | _ :: _ :: _ :: _ :: t, h =>
    simp only [scan_u4, Option.some.injEq, Prod.mk.injEq] at h
    simp [← h.2]
  | [], h => simp [scan_u4] at h
  | [_], h => simp [scan_u4] at h
  | [_, _], h => simp [scan_u4] at h
  | [_, _, _], h => simp [scan_u4] at h

theorem scan_u1_array_length (s : List Nat) (n : Nat) (v r : List Nat)
    (h : scan_u1_array s n = some (v, r)) : r.length + n = s.length ∧ v.length = n := by
  unfold scan_u1_array at h
  split at h
  · rename_i hn
    simp only [Option.some.injEq, Prod.mk.injEq] at h
    obtain ⟨rfl, rfl⟩ := h
    simp only [List.length_drop, List.length_take]
    omega
  · simp at h

theorem scan_times_length {α : Type} (scan : List Nat → Option (α × List Nat))
    (hs : shrinks scan) (count : Nat) : shrinks (scan_times scan count) := by
  induction count with
  | zero =>
    intro s l r h
    simp only [scan_times, Option.some.injEq, Prod.mk.injEq] at h
    simp [← h.2]
  | succ n ih =>
    intro s l r h
    simp only [scan_times] at h
    split at h
    · simp at h
    · rename_i a s1 h1
      split at h
      · simp at h
      · rename_i l1 s2 h2
        simp only [Option.some.injEq, Prod.mk.injEq] at h
        have := hs s a s1 h1
        have := ih s1 l1 s2 h2
        rw [← h.2]
        omega

/-- Two scanners that agree on every part of the buffer give the same loop. -/
theorem scan_times_congr {α : Type} (f g : List Nat → Option (α × List Nat))
    (hf : shrinks f) (count : Nat) : ∀ (s : List Nat),
    (∀ t, t.length ≤ s.length → f t = g t) → scan_times f count s = scan_times g count s := by
  induction count with
  | zero => intro s _; rfl
  | succ n ih =>
    intro s h
    simp only [scan_times]
    rw [← h s (Nat.le_refl _)]
    cases h1 : f s with
    | none => rfl
    | some p =>
      obtain ⟨a, s1⟩ := p
      have hl := hf s a s1 h1
      simp only
      rw [ih s1 (fun t ht => h t (by omega))]

theorem scan_element_value_pair_shrinks (le : Bool)
    (f : List Nat → Option (element_value × List Nat)) (hf : shrinks f) :
    shrinks (scan_element_value_pair le f) := by
  intro s a r h
  unfold scan_element_value_pair at h
  split at h
  · simp at h
  · rename_i n s1 h1
    obtain ⟨⟨v, r1⟩, h2, h3⟩ := Option.map_eq_some'.1 h
    simp only [Prod.mk.injEq] at h3
    have := scan_u2_length le _ _ _ h1
    have := hf _ _ _ h2
    rw [← h3.2]
    omega

theorem scan_annotation_with_shrinks (le : Bool)
    (f : List Nat → Option (element_value × List Nat)) (hf : shrinks f) :
    shrinks (scan_annotation_with le f) := by
  intro s a r h
  unfold scan_annotation_with at h
  split at h
  · simp at h
  · rename_i t s1 h1
    split at h
    · simp at h
    · rename_i n s2 h2
      obtain ⟨⟨ps, r1⟩, h3, h4⟩ := Option.map_eq_some'.1 h
      simp only [Prod.mk.injEq] at h4
      have := scan_u2_length le _ _ _ h1
      have := scan_u2_length le _ _ _ h2
      have := scan_times_length _ (scan_element_value_pair_shrinks le f hf) n _ _ _ h3
      rw [← h4.2]
      omega

theorem scan_element_value_shrinks (le : Bool) (depth : Nat) :
    shrinks (scan_element_value le depth) := by
  induction depth with
  | zero => intro s a r h; simp [scan_element_value] at h
  | succ depth ih =>
    intro s a r h
    unfold scan_element_value at h
    split at h
    · simp at h
    · rename_i tag s0 h0
      have l0 := scan_u1_length _ _ _ h0
      split_ifs at h
      · obtain ⟨⟨v, r1⟩, h2, h3⟩ := Option.map_eq_some'.1 h
        simp only [Prod.mk.injEq] at h3
        have := scan_u2_length le _ _ _ h2
        rw [← h3.2]; omega
      · split at h
        · simp at h
        · rename_i x s1 h1
          obtain ⟨⟨v, r1⟩, h2, h3⟩ := Option.map_eq_some'.1 h
          simp only [Prod.mk.injEq] at h3
          have := scan_u2_length le _ _ _ h1
          have := scan_u2_length le _ _ _ h2
          rw [← h3.2]; omega
      · obtain ⟨⟨v, r1⟩, h2, h3⟩ := Option.map_eq_some'.1 h
        simp only [Prod.mk.injEq] at h3
        have := scan_u2_length le _ _ _ h2
        rw [← h3.2]; omega
      · obtain ⟨⟨v, r1⟩, h2, h3⟩ := Option.map_eq_some'.1 h
        simp only [Prod.mk.injEq] at h3
        have := scan_annotation_with_shrinks le _ ih _ _ _ h2
        rw [← h3.2]; omega
      · split at h
        · simp at h
        · rename_i x s1 h1
          obtain ⟨⟨v, r1⟩, h2, h3⟩ := Option.map_eq_some'.1 h
          simp only [Prod.mk.injEq] at h3
          have := scan_u2_length le _ _ _ h1
          have := scan_times_length _ ih x _ _ _ h2
          rw [← h3.2]; omega

theorem scan_element_value_pair_congr (le : Bool)
    (f g : List Nat → Option (element_value × List Nat)) (s : List Nat)
    (h : ∀ t, t.length ≤ s.length → f t = g t) :
    scan_element_value_pair le f s = scan_element_value_pair le g s := by
  unfold scan_element_value_pair
  cases h1 : scan_u2 le s with
  | none => rfl
  | some p =>
    obtain ⟨n, s1⟩ := p
    have := scan_u2_length le _ _ _ h1
    simp only
    rw [h s1 (by omega)]

theorem scan_annotation_with_congr (le : Bool)
    (f g : List Nat → Option (element_value × List Nat)) (hf : shrinks f) (s : List Nat)
    (h : ∀ t, t.length ≤ s.length → f t = g t) :
    scan_annotation_with le f s = scan_annotation_with le g s := by
  unfold scan_annotation_with
  cases h1 : scan_u2 le s with
  | none => rfl
  | some p =>
    obtain ⟨n, s1⟩ := p
    have := scan_u2_length le _ _ _ h1
    simp only
    cases h2 : scan_u2 le s1 with
    | none => rfl
    | some p =>
      obtain ⟨m, s2⟩ := p
      have := scan_u2_length le _ _ _ h2
      simp only
      rw [scan_times_congr _ (scan_element_value_pair le g)
        (scan_element_value_pair_shrinks le f hf) m s2
        (fun t ht => scan_element_value_pair_congr le f g t
          (fun u hu => h u (by omega)))]

/-- The nesting bound of `scan_element_value` does not matter once it is at
least the length of the buffer. -/
theorem scan_element_value_fuel (le : Bool) (d1 : Nat) : ∀ (d2 : Nat) (s : List Nat),
    s.length ≤ d1 → s.length ≤ d2 →
    scan_element_value le d1 s = scan_element_value le d2 s := by
  induction d1 with
  | zero =>
    intro d2 s h1 _
    have hs : s = [] := List.length_eq_zero.1 (by omega)
    subst hs
    cases d2 <;> simp [scan_element_value, scan_u1]
  | succ d1 ih =>
    intro d2 s h1 h2
    cases d2 with
    | zero =>
      have hs : s = [] := List.length_eq_zero.1 (by omega)
      subst hs
      simp [scan_element_value, scan_u1]
    | succ d2 =>
      unfold scan_element_value
      cases h0 : scan_u1 s with
      | none => rfl
      | some p =>
        obtain ⟨tag, s0⟩ := p
        have l0 := scan_u1_length _ _ _ h0
        simp only
        rw [scan_annotation_with_congr le (scan_element_value le d1) (scan_element_value le d2)
          (scan_element_value_shrinks le d1) s0
          (fun t ht => ih d2 t (by omega) (by omega))]
        have e : ∀ n s1, s1.length ≤ s0.length →
            scan_times (scan_element_value le d1) n s1
              = scan_times (scan_element_value le d2) n s1 := fun n s1 hs1 =>
          scan_times_congr _ _ (scan_element_value_shrinks le d1) n s1
            (fun t ht => ih d2 t (by omega) (by omega))
        split_ifs
        · rfl
        · rfl
        · rfl
        · rfl
        · cases h3 : scan_u2 le s0 with
          | none => rfl
          | some p =>
            obtain ⟨x, s1⟩ := p
            have := scan_u2_length le _ _ _ h3
            simp only
            rw [e x s1 (by omega)]
        · rfl

theorem scan_attribute_info_with_shrinks (le : Bool)
    (decode : Nat → List Nat → Option attribute_value) :
    shrinks (scan_attribute_info_with le decode) := by
  intro s a r h
  unfold scan_attribute_info_with at h
  split at h
  · simp at h
  · rename_i n s1 h1
    split at h
    · simp at h
    · rename_i len s2 h2
      split at h
      · simp at h
      · rename_i info s3 h3
        obtain ⟨v, h4, h5⟩ := Option.map_eq_some'.1 h
        simp only [Prod.mk.injEq] at h5
        have := scan_u2_length le _ _ _ h1
        have := scan_u4_length le _ _ _ h2
        have := (scan_u1_array_length _ _ _ _ h3).1
        rw [← h5.2]
        omega

theorem scan_attribute_info_with_congr (le : Bool)
    (d1 d2 : Nat → List Nat → Option attribute_value) (s : List Nat)
    (h : ∀ n i, i.length ≤ s.length → d1 n i = d2 n i) :
    scan_attribute_info_with le d1 s = scan_attribute_info_with le d2 s := by
  unfold scan_attribute_info_with
  cases h1 : scan_u2 le s with
  | none => rfl
  | some p =>
    obtain ⟨n, s1⟩ := p
    simp only
    cases h2 : scan_u4 le s1 with
    | none => rfl
    | some p =>
      obtain ⟨len, s2⟩ := p
      simp only
      cases h3 : scan_u1_array s2 len with
      | none => rfl
      | some p =>
        obtain ⟨info, s3⟩ := p
        have := scan_u2_length le _ _ _ h1
        have := scan_u4_length le _ _ _ h2
        have := scan_u1_array_length _ _ _ _ h3
        simp only
        rw [h n info (by omega)]

theorem decode_scan_congr (le : Bool)
    (f g : Nat → List Nat → Option (List attribute_info × List Nat))
    (pool : List (Option cp_info)) (n : Nat) (info : List Nat)
    (h : ∀ count s, s.length < info.length → f count s = g count s) :
    decode_scan le f pool n info = decode_scan le g pool n info := by
  unfold decode_scan
  cases pUtf8 pool n with
  | none => rfl
  | some name =>
    simp only
    by_cases t : name = cbytes "Code"
    · have t0 : ¬ name = cbytes "ConstantValue" := by rw [t]; decide
      rw [if_neg t0, if_neg t0, if_pos t, if_pos t]
      cases h1 : scan_u2 le info with
      | none => rfl
      | some p =>
      obtain ⟨ms, s1⟩ := p
      simp only
      cases h2 : scan_u2 le s1 with
      | none => rfl
      | some p =>
      obtain ⟨ml, s2⟩ := p
      simp only
      cases h3 : scan_u4 le s2 with
      | none => rfl
      | some p =>
      obtain ⟨cl, s3⟩ := p
      simp only
      cases h4 : scan_u1_array s3 cl with
      | none => rfl
      | some p =>
      obtain ⟨code, s4⟩ := p
      simp only
      cases h5 : scan_u2 le s4 with
      | none => rfl
      | some p =>
      obtain ⟨etl, s5⟩ := p
      simp only
      split
      · rfl
      · rename_i et s6 h6
        cases h7 : scan_u2 le s6 with
        | none => rfl
        | some p =>
        obtain ⟨ac, s7⟩ := p
        have := scan_u2_length le _ _ _ h1
        have := scan_u2_length le _ _ _ h2
        have := scan_u4_length le _ _ _ h3
        have := (scan_u1_array_length _ _ _ _ h4).1
        have := scan_u2_length le _ _ _ h5
        have := scan_times_length _ (by
          intro s a r hh
          dsimp only at hh
          split at hh
          · simp at hh
          · rename_i x1 t1 k1
            split at hh
            · simp at hh
            · rename_i x2 t2 k2
              split at hh
              · simp at hh
              · rename_i x3 t3 k3
                obtain ⟨⟨v, r1⟩, k4, k5⟩ := Option.map_eq_some'.1 hh
                simp only [Prod.mk.injEq] at k5
                have := scan_u2_length le _ _ _ k1
                have := scan_u2_length le _ _ _ k2
                have := scan_u2_length le _ _ _ k3
                have := scan_u2_length le _ _ _ k4
                rw [← k5.2]
                omega) etl _ _ _ h6
        have := scan_u2_length le _ _ _ h7
        simp only
        rw [h ac s7 (by omega)]
    · simp only [if_neg t]

/-- The nesting bound of `decode_attribute_value` does not matter once it is at
least the length of the payload. -/
theorem decode_attribute_scan_fuel (le : Bool) (pool : List (Option cp_info)) (d1 : Nat) :
    ∀ (d2 n : Nat) (info : List Nat), info.length ≤ d1 → info.length ≤ d2 →
    decode_attribute_scan le pool d1 n info = decode_attribute_scan le pool d2 n info := by
  induction d1 with
  | zero =>
    intro d2 n info h1 _
    cases d2 with
    | zero => rfl
    | succ d2 =>
      simp only [decode_attribute_scan]
      exact decode_scan_congr le _ _ pool n info (fun count s hs => by omega)
  | succ d1 ih =>
    intro d2 n info h1 h2
    cases d2 with
    | zero =>
      simp only [decode_attribute_scan]
      exact decode_scan_congr le _ _ pool n info (fun count s hs => by omega)
    | succ d2 =>
      simp only [decode_attribute_scan]
      refine decode_scan_congr le _ _ pool n info (fun count s hs => ?_)
      exact scan_times_congr _ _ (scan_attribute_info_with_shrinks le _) count s
        (fun t ht => scan_attribute_info_with_congr le _ _ t
          (fun m i hi => by rw [ih d2 m i (by omega) (by omega)]))

/-! ## The codec: lemmas -/

theorem okBytes_append {s t : List Nat} : okBytes (s ++ t) ↔ okBytes s ∧ okBytes t := by
  simp [okBytes, List.forall_mem_append, or_imp, forall_and]

theorem read_u1_print (s : List Nat) (v : Nat) (rest : List Nat) (hb : okBytes s)
    (h : read_u1 s = some (v, rest)) : s = write_u1 v ++ rest ∧ v < 256 := by
  cases s with
  | nil => simp [read_u1] at h
  | cons b t =>
    simp only [read_u1, Option.some.injEq, Prod.mk.injEq] at h
    obtain ⟨rfl, rfl⟩ := h
    have : b < 256 := hb b (by simp)
    simp [write_u1, Nat.mod_eq_of_lt this, this]

theorem write_u2_eq (le : Bool) (v : Nat) : write_u2 le v = [v / 256 % 256, v % 256] := by
  cases le <;> simp [write_u2, to_host, reverseBytes, List.range_succ]

theorem write_u4_eq (le : Bool) (v : Nat) :
    write_u4 le v = [v / 16777216 % 256, v / 65536 % 256, v / 256 % 256, v % 256] := by
  cases le <;> simp [write_u4, to_host, reverseBytes, List.range_succ]

theorem read_u2_eq (le : Bool) (b0 b1 : Nat) (rest : List Nat) :
    read_u2 le (b0 :: b1 :: rest) = some (b0 * 256 + b1, rest) := by
  cases le <;> simp [read_u2, from_host, reverseBytes]

theorem read_u4_eq (le : Bool) (b0 b1 b2 b3 : Nat) (rest : List Nat) :
    read_u4 le (b0 :: b1 :: b2 :: b3 :: rest)
      = some (((b0 * 256 + b1) * 256 + b2) * 256 + b3, rest) := by
  cases le <;> simp [read_u4, from_host, reverseBytes]

theorem read_u2_print (le : Bool) (s : List Nat) (v : Nat) (rest : List Nat) (hb : okBytes s)
    (h : read_u2 le s = some (v, rest)) : s = write_u2 le v ++ rest := by
  match s, h with
  | b0 :: b1 :: t, h =>
    rw [read_u2_eq] at h
    simp only [Option.some.injEq, Prod.mk.injEq] at h
    obtain ⟨rfl, rfl⟩ := h
    have h0 : b0 < 256 := hb b0 (by simp)
    have h1 : b1 < 256 := hb b1 (by simp)
    rw [write_u2_eq]
    have e0 : (b0 * 256 + b1) / 256 % 256 = b0 := by omega
    have e1 : (b0 * 256 + b1) % 256 = b1 := by omega
    simp [e0, e1]
  | [], h => simp [read_u2] at h
  | [_], h => simp [read_u2] at h

theorem read_u4_print (le : Bool) (s : List Nat) (v : Nat) (rest : List Nat) (hb : okBytes s)
    (h : read_u4 le s = some (v, rest)) : s = write_u4 le v ++ rest ∧ v < 4294967296 := by
  match s, h with
  | b0 :: b1 :: b2 :: b3 :: t, h =>
    rw [read_u4_eq] at h
    simp only [Option.some.injEq, Prod.mk.injEq] at h
    obtain ⟨rfl, rfl⟩ := h
    have h0 : b0 < 256 := hb b0 (by simp)
    have h1 : b1 < 256 := hb b1 (by simp)
    have h2 : b2 < 256 := hb b2 (by simp)
    have h3 : b3 < 256 := hb b3 (by simp)
    rw [write_u4_eq]
    have e0 : (((b0 * 256 + b1) * 256 + b2) * 256 + b3) / 16777216 % 256 = b0 := by omega
    have e1 : (((b0 * 256 + b1) * 256 + b2) * 256 + b3) / 65536 % 256 = b1 := by omega
    have e2 : (((b0 * 256 + b1) * 256 + b2) * 256 + b3) / 256 % 256 = b2 := by omega
    have e3 : (((b0 * 256 + b1) * 256 + b2) * 256 + b3) % 256 = b3 := by omega
    refine ⟨by simp [e0, e1, e2, e3], by omega⟩
  | [], h => simp [read_u4] at h
  | [_], h => simp [read_u4] at h
  | [_, _], h => simp [read_u4] at h
  | [_, _, _], h => simp [read_u4] at h

theorem read_u1_array_print (s : List Nat) (n : Nat) (v rest : List Nat)
    (h : read_u1_array s n = some (v, rest)) :
    s = write_u1_array n v ++ rest ∧ v.length = n ∧ n < 2147483648 := by
  unfold read_u1_array at h
  split at h
  · rename_i hn
    simp only [Option.some.injEq, Prod.mk.injEq] at h
    obtain ⟨rfl, rfl⟩ := h
    simp [write_u1_array, List.take_take, hn.1, hn.2]
  · simp at h

theorem emit_u1_array_eq (n : Nat) (v : List Nat) (h : n < 2147483648) :
    emit_u1_array n v = write_u1_array n v := by
  simp [emit_u1_array, write_u1_array, h]

theorem read_u2_array_print (le : Bool) (n : Nat) : ∀ (s v rest : List Nat), okBytes s →
    read_u2_array le s n = some (v, rest) →
    s = write_u2_array le n v ++ rest ∧ v.length = n := by
  induction n with
  | zero =>
    intro s v rest _ h
    simp only [read_u2_array, Option.some.injEq, Prod.mk.injEq] at h
    obtain ⟨rfl, rfl⟩ := h
    simp [write_u2_array]
  | succ n ih =>
    intro s v rest hb h
    simp only [read_u2_array] at h
    split at h
    · simp at h
    · rename_i x s1 h1
      split at h
      · simp at h
      · rename_i vs s2 h2
        simp only [Option.some.injEq, Prod.mk.injEq] at h
        obtain ⟨rfl, rfl⟩ := h
        have e1 := read_u2_print le s x s1 hb h1
        have hb1 : okBytes s1 := by rw [e1] at hb; exact (okBytes_append.1 hb).2
        obtain ⟨e2, e3⟩ := ih s1 vs s2 hb1 h2
        have e4 : write_u2_array le (n + 1) (x :: vs) = write_u2 le x ++ write_u2_array le n vs := by
          simp [write_u2_array, write_u2]
        rw [e4, List.append_assoc, ← e2, ← e1]
        simp [e3]

/-- One step of a reader of `u2` values: what is left is a stream of bytes. -/
theorem read_u2_step (le : Bool) (s : List Nat) (v : Nat) (rest : List Nat) (hb : okBytes s)
    (h : read_u2 le s = some (v, rest)) : s = write_u2 le v ++ rest ∧ okBytes rest := by
  have e := read_u2_print le s v rest hb h
  rw [e] at hb
  exact ⟨e, (okBytes_append.1 hb).2⟩

theorem read_u4_step (le : Bool) (s : List Nat) (v : Nat) (rest : List Nat) (hb : okBytes s)
    (h : read_u4 le s = some (v, rest)) : s = write_u4 le v ++ rest ∧ okBytes rest := by
  have e := (read_u4_print le s v rest hb h).1
  rw [e] at hb
  exact ⟨e, (okBytes_append.1 hb).2⟩

theorem map_u2_step {α : Type} (le : Bool) (f : Nat × List Nat → α) (s : List Nat) (y : α)
    (hb : okBytes s) (h : (read_u2 le s).map f = some y) :
    ∃ v rest, f (v, rest) = y ∧ s = write_u2 le v ++ rest ∧ okBytes rest := by
  obtain ⟨⟨a, r⟩, h1, h2⟩ := Option.map_eq_some'.1 h
  exact ⟨a, r, h2, read_u2_step le _ _ _ hb h1⟩

theorem map_u4_step {α : Type} (le : Bool) (f : Nat × List Nat → α) (s : List Nat) (y : α)
    (hb : okBytes s) (h : (read_u4 le s).map f = some y) :
    ∃ v rest, f (v, rest) = y ∧ s = write_u4 le v ++ rest ∧ okBytes rest := by
  obtain ⟨⟨a, r⟩, h1, h2⟩ := Option.map_eq_some'.1 h
  exact ⟨a, r, h2, read_u4_step le _ _ _ hb h1⟩

theorem bind_u2_step {α : Type} (le : Bool) (k : Nat → List Nat → Option α) (s : List Nat)
    (x : α) (hb : okBytes s)
    (h : (match read_u2 le s with
          | none => none
          | some (a, s1) => k a s1) = some x) :
    ∃ a s1, s = write_u2 le a ++ s1 ∧ okBytes s1 ∧ k a s1 = some x := by
  split at h
  · simp at h
  · rename_i a s1 h1
    exact ⟨a, s1, (read_u2_step le _ _ _ hb h1).1, (read_u2_step le _ _ _ hb h1).2, h⟩

theorem bind_u4_step {α : Type} (le : Bool) (k : Nat → List Nat → Option α) (s : List Nat)
    (x : α) (hb : okBytes s)
    (h : (match read_u4 le s with
          | none => none
          | some (a, s1) => k a s1) = some x) :
    ∃ a s1, s = write_u4 le a ++ s1 ∧ okBytes s1 ∧ k a s1 = some x := by
  split at h
  · simp at h
  · rename_i a s1 h1
    exact ⟨a, s1, (read_u4_step le _ _ _ hb h1).1, (read_u4_step le _ _ _ hb h1).2, h⟩

theorem read_cp_info_print (le : Bool) (s : List Nat) (cp : cp_info) (rest : List Nat)
    (hb : okBytes s) (h : read_cp_info le s = some (some cp, rest)) :
    s = write_cp_info le cp ++ rest := by
  unfold read_cp_info at h
  split at h
  · simp at h
  · rename_i tag s0 h0
    obtain ⟨e0, -⟩ := read_u1_print _ _ _ hb h0
    have hb0 : okBytes s0 := by rw [e0] at hb; exact (okBytes_append.1 hb).2
    subst e0
    by_cases t : tag = CONSTANT_Class
    · rw [if_pos t] at h
      obtain ⟨v, r, hx, e, -⟩ := map_u2_step le _ _ _ hb0 h
      simp only [Prod.mk.injEq, Option.some.injEq] at hx
      obtain ⟨rfl, rfl⟩ := hx
      subst e
      simp [write_cp_info, cp_info.tag, t]
    rw [if_neg t] at h; clear t
    by_cases t : tag = CONSTANT_Fieldref
    · rw [if_pos t] at h
      obtain ⟨a, s1, e1, hb1, h1⟩ := bind_u2_step le _ _ _ hb0 h
      obtain ⟨v, r, hx, e, -⟩ := map_u2_step le _ _ _ hb1 h1
      simp only [Prod.mk.injEq, Option.some.injEq] at hx
      obtain ⟨rfl, rfl⟩ := hx
      subst e1; subst e
      simp [write_cp_info, cp_info.tag, t]
    rw [if_neg t] at h; clear t
    by_cases t : tag = CONSTANT_Methodref
    · rw [if_pos t] at h
      obtain ⟨a, s1, e1, hb1, h1⟩ := bind_u2_step le _ _ _ hb0 h
      obtain ⟨v, r, hx, e, -⟩ := map_u2_step le _ _ _ hb1 h1
      simp only [Prod.mk.injEq, Option.some.injEq] at hx
      obtain ⟨rfl, rfl⟩ := hx
      subst e1; subst e
      simp [write_cp_info, cp_info.tag, t]
    rw [if_neg t] at h; clear t
    by_cases t : tag = CONSTANT_InterfaceMethodref
    · rw [if_pos t] at h
      obtain ⟨a, s1, e1, hb1, h1⟩ := bind_u2_step le _ _ _ hb0 h
      obtain ⟨v, r, hx, e, -⟩ := map_u2_step le _ _ _ hb1 h1
      simp only [Prod.mk.injEq, Option.some.injEq] at hx
      obtain ⟨rfl, rfl⟩ := hx
      subst e1; subst e
      simp [write_cp_info, cp_info.tag, t]
    rw [if_neg t] at h; clear t
    by_cases t : tag = CONSTANT_String
    · rw [if_pos t] at h
      obtain ⟨v, r, hx, e, -⟩ := map_u2_step le _ _ _ hb0 h
      simp only [Prod.mk.injEq, Option.some.injEq] at hx
      obtain ⟨rfl, rfl⟩ := hx
      subst e
      simp [write_cp_info, cp_info.tag, t]
    rw [if_neg t] at h; clear t
    by_cases t : tag = CONSTANT_Integer
    · rw [if_pos t] at h
      obtain ⟨v, r, hx, e, -⟩ := map_u4_step le _ _ _ hb0 h
      simp only [Prod.mk.injEq, Option.some.injEq] at hx
      obtain ⟨rfl, rfl⟩ := hx
      subst e
      simp [write_cp_info, cp_info.tag, t]
    rw [if_neg t] at h; clear t
    by_cases t : tag = CONSTANT_Float
    · rw [if_pos t] at h
      obtain ⟨v, r, hx, e, -⟩ := map_u4_step le _ _ _ hb0 h
      simp only [Prod.mk.injEq, Option.some.injEq] at hx
      obtain ⟨rfl, rfl⟩ := hx
      subst e
      simp [write_cp_info, cp_info.tag, t]
    rw [if_neg t] at h; clear t
    by_cases t : tag = CONSTANT_Long
    · rw [if_pos t] at h
      obtain ⟨a, s1, e1, hb1, h1⟩ := bind_u4_step le _ _ _ hb0 h
      obtain ⟨v, r, hx, e, -⟩ := map_u4_step le _ _ _ hb1 h1
      simp only [Prod.mk.injEq, Option.some.injEq] at hx
      obtain ⟨rfl, rfl⟩ := hx
      subst e1; subst e
      simp [write_cp_info, cp_info.tag, t]
    rw [if_neg t] at h; clear t
    by_cases t : tag = CONSTANT_Double
    · rw [if_pos t] at h
      obtain ⟨a, s1, e1, hb1, h1⟩ := bind_u4_step le _ _ _ hb0 h
      obtain ⟨v, r, hx, e, -⟩ := map_u4_step le _ _ _ hb1 h1
      simp only [Prod.mk.injEq, Option.some.injEq] at hx
      obtain ⟨rfl, rfl⟩ := hx
      subst e1; subst e
      simp [write_cp_info, cp_info.tag, t]
    rw [if_neg t] at h; clear t
    by_cases t : tag = CONSTANT_NameAndType
    · rw [if_pos t] at h
      obtain ⟨a, s1, e1, hb1, h1⟩ := bind_u2_step le _ _ _ hb0 h
      obtain ⟨v, r, hx, e, -⟩ := map_u2_step le _ _ _ hb1 h1
      simp only [Prod.mk.injEq, Option.some.injEq] at hx
      obtain ⟨rfl, rfl⟩ := hx
      subst e1; subst e
      simp [write_cp_info, cp_info.tag, t]
    rw [if_neg t] at h; clear t
    by_cases t : tag = CONSTANT_Utf8
    · rw [if_pos t] at h
      obtain ⟨a, s1, e1, hb1, h1⟩ := bind_u2_step le _ _ _ hb0 h
      obtain ⟨⟨b, r⟩, h2, h3⟩ := Option.map_eq_some'.1 h1
      simp only [Option.some.injEq, Prod.mk.injEq] at h3
      obtain ⟨rfl, rfl⟩ := h3
      obtain ⟨e2, -⟩ := read_u1_array_print _ _ _ _ h2
      subst e1; subst e2
      simp [write_cp_info, cp_info.tag, t]
    rw [if_neg t] at h
    simp at h

theorem read_cp_info_step (le : Bool) (s : List Nat) (cp : cp_info) (rest : List Nat)
    (hb : okBytes s) (h : read_cp_info le s = some (some cp, rest)) :
    s = write_cp_info le cp ++ rest ∧ okBytes rest := by
  have e := read_cp_info_print le s cp rest hb h
  rw [e] at hb
  exact ⟨e, (okBytes_append.1 hb).2⟩

theorem get?_append_length {α : Type} (pre l : List α) : (pre ++ l).get? pre.length = l.head? := by
  induction pre with
  | nil => cases l <;> simp
  | cons a pre ih => simpa using ih

theorem read_constant_pool_loop_print (le : Bool) (r : Nat) :
    ∀ (s : List Nat) (l : List (Option cp_info)) (rest : List Nat) (pre : List (Option cp_info)),
    okBytes s → read_constant_pool_loop le r s = some (l, rest) →
    ∃ out, write_constant_pool_loop le r pre.length (pre ++ l) = some out ∧
      s = out ++ rest ∧ okBytes rest := by
  induction r using Nat.strong_induction_on with
  | _ r ih =>
    intro s l rest pre hb h
    cases r with
    | zero =>
      simp only [read_constant_pool_loop, Option.some.injEq, Prod.mk.injEq] at h
      obtain ⟨rfl, rfl⟩ := h
      exact ⟨[], by simp [write_constant_pool_loop], by simp, hb⟩
    | succ r =>
      unfold read_constant_pool_loop at h
      split at h
      · rename_i cp s1 h1
        obtain ⟨e1, hb1⟩ := read_cp_info_step le s cp s1 hb h1
        split at h
        · rename_i hl
          split at h
          · simp at h
          · rename_i r1
            split at h
            · simp at h
            · rename_i l1 s2 h2
              simp only [Option.some.injEq, Prod.mk.injEq] at h
              obtain ⟨rfl, rfl⟩ := h
              obtain ⟨out, w, e2, hb2⟩ :=
                ih r1 (by omega) s1 l1 s2 (pre ++ [some cp, none]) hb1 h2
              simp only [List.length_append, List.length_cons, List.length_nil,
                List.append_assoc, List.cons_append, List.nil_append] at w
              refine ⟨write_cp_info le cp ++ out, ?_, ?_, hb2⟩
              · unfold write_constant_pool_loop
                rw [get?_append_length]
                simp [hl, w]
              · rw [e1, e2]; simp
        · rename_i hl
          split at h
          · simp at h
          · rename_i l1 s2 h2
            simp only [Option.some.injEq, Prod.mk.injEq] at h
            obtain ⟨rfl, rfl⟩ := h
            obtain ⟨out, w, e2, hb2⟩ :=
              ih r (by omega) s1 l1 s2 (pre ++ [some cp]) hb1 h2
            simp only [List.length_append, List.length_cons, List.length_nil,
              List.append_assoc, List.cons_append, List.nil_append] at w
            refine ⟨write_cp_info le cp ++ out, ?_, ?_, hb2⟩
            · unfold write_constant_pool_loop
              rw [get?_append_length]
              simp [hl, w]
            · rw [e1, e2]; simp
      · simp at h

theorem read_constant_pool_print (le : Bool) (s : List Nat) (count : Nat)
    (pool : List (Option cp_info)) (rest : List Nat) (hb : okBytes s)
    (h : read_constant_pool le s count = some (pool, rest)) :
    ∃ out, write_constant_pool le count pool = some out ∧ s = out ++ rest ∧ okBytes rest := by
  unfold read_constant_pool at h
  split at h
  · simp at h
  · split at h
    · simp at h
    · rename_i l s1 h1
      simp only [Option.some.injEq, Prod.mk.injEq] at h
      obtain ⟨rfl, rfl⟩ := h
      obtain ⟨out, w, e, hb1⟩ := read_constant_pool_loop_print le _ s l s1 [none] hb h1
      exact ⟨out, by simpa [write_constant_pool] using w, e, hb1⟩

/-- A loop of readers against a loop of writers: `ok` is what holds of the
stream all along and `Q` what holds of every element read. -/
theorem scan_times_print {α : Type} (ok : List Nat → Prop) (Q : α → Prop)
    (scan : List Nat → Option (α × List Nat)) (print : α → Option (List Nat))
    (hs : ∀ s a rest, ok s → Q a → scan s = some (a, rest) →
      ∃ out, print a = some out ∧ s = out ++ rest ∧ ok rest)
    (count : Nat) : ∀ (s : List Nat) (l : List α) (rest : List Nat), ok s → (∀ a ∈ l, Q a) →
    scan_times scan count s = some (l, rest) →
    ∃ out, write_each print l = some out ∧ s = out ++ rest ∧ ok rest ∧ l.length = count := by
  induction count with
  | zero =>
    intro s l rest hb _ h
    simp only [scan_times, Option.some.injEq, Prod.mk.injEq] at h
    obtain ⟨rfl, rfl⟩ := h
    exact ⟨[], by simp [write_each], by simp, hb, rfl⟩
  | succ n ih =>
    intro s l rest hb hq h
    simp only [scan_times] at h
    split at h
    · simp at h
    · rename_i a s1 h1
      split at h
      · simp at h
      · rename_i l1 s2 h2
        simp only [Option.some.injEq, Prod.mk.injEq] at h
        obtain ⟨rfl, rfl⟩ := h
        obtain ⟨o1, p1, e1, hb1⟩ := hs s a s1 hb (hq a (by simp)) h1
        obtain ⟨o2, p2, e2, hb2, hl⟩ :=
          ih s1 l1 s2 hb1 (fun b hb => hq b (by simp [hb])) h2
        exact ⟨o1 ++ o2, by simp [write_each, p1, p2], by rw [e1, e2]; simp, hb2, by simp [hl]⟩

/-- A loop of readers against the concatenation of what a total writer emits. -/
theorem scan_times_flat {α : Type} (scan : List Nat → Option (α × List Nat))
    (print : α → List Nat)
    (hs : ∀ s a rest, okBytes s → scan s = some (a, rest) → s = print a ++ rest ∧ okBytes rest)
    (count : Nat) : ∀ (s : List Nat) (l : List α) (rest : List Nat), okBytes s →
    scan_times scan count s = some (l, rest) →
    s = l.flatMap print ++ rest ∧ okBytes rest ∧ l.length = count := by
  induction count with
  | zero =>
    intro s l rest hb h
    simp only [scan_times, Option.some.injEq, Prod.mk.injEq] at h
    obtain ⟨rfl, rfl⟩ := h
    exact ⟨by simp, hb, rfl⟩
  | succ n ih =>
    intro s l rest hb h
    simp only [scan_times] at h
    split at h
    · simp at h
    · rename_i a s1 h1
      split at h
      · simp at h
      · rename_i l1 s2 h2
        simp only [Option.some.injEq, Prod.mk.injEq] at h
        obtain ⟨rfl, rfl⟩ := h
        obtain ⟨e1, hb1⟩ := hs s a s1 hb h1
        obtain ⟨e2, hb2, hl⟩ := ih s1 l1 s2 hb1 h2
        exact ⟨by rw [e1, e2]; simp, hb2, by simp [hl]⟩

theorem emit_element_value_pairs_eq (le : Bool) (ps : List element_value_pair) :
    emit_element_value_pairs le ps = ps.flatMap (emit_element_value_pair le) := by
  induction ps with
  | nil => simp [emit_element_value_pairs]
  | cons p ps ih =>
    cases p
    simp [emit_element_value_pairs, emit_element_value_pair, ih]

theorem emit_element_values_eq (le : Bool) (vs : List element_value) :
    emit_element_values le vs = vs.flatMap (emit_element_value le) := by
  induction vs with
  | nil => simp [emit_element_values]
  | cons p ps ih => simp [emit_element_values, ih]

theorem emit_annotations_eq (le : Bool) (l : List annotation) :
    emit_annotations le l = l.flatMap ( emit_annotation le) := by
  induction l with
  | nil => simp [emit_annotations]
  | cons p ps ih => simp [emit_annotations, ih]

theorem scan_element_value_pair_print (le : Bool)
    (scan_value : List Nat → Option (element_value × List Nat))
    (hv : ∀ s v rest, okBytes s → scan_value s = some (v, rest) →
      s = emit_element_value le v ++ rest ∧ okBytes rest)
    (s : List Nat) (p : element_value_pair) (rest : List Nat) (hb : okBytes s)
    (h : scan_element_value_pair le scan_value s = some (p, rest)) :
    s = emit_element_value_pair le p ++ rest ∧ okBytes rest := by
  unfold scan_element_value_pair at h
  obtain ⟨n, s1, e1, hb1, h1⟩ := bind_u2_step le _ _ _ hb h
  obtain ⟨⟨v, r⟩, h2, h3⟩ := Option.map_eq_some'.1 h1
  simp only [Prod.mk.injEq] at h3
  obtain ⟨rfl, rfl⟩ := h3
  obtain ⟨e2, hb2⟩ := hv s1 v r hb1 h2
  refine ⟨?_, hb2⟩
  rw [e1, e2]
  simp [emit_element_value_pair, emit_u2, write_u2]

theorem scan_annotation_with_print (le : Bool)
    (scan_value : List Nat → Option (element_value × List Nat))
    (hv : ∀ s v rest, okBytes s → scan_value s = some (v, rest) →
      s = emit_element_value le v ++ rest ∧ okBytes rest)
    (s : List Nat) (a : annotation) (rest : List Nat) (hb : okBytes s)
    (h : scan_annotation_with le scan_value s = some (a, rest)) :
    s = emit_annotation le a ++ rest ∧ okBytes rest := by
  unfold scan_annotation_with at h
  obtain ⟨t, s1, e1, hb1, h1⟩ := bind_u2_step le _ _ _ hb h
  obtain ⟨n, s2, e2, hb2, h2⟩ := bind_u2_step le _ _ _ hb1 h1
  obtain ⟨⟨ps, r⟩, h3, h4⟩ := Option.map_eq_some'.1 h2
  simp only [Prod.mk.injEq] at h4
  obtain ⟨rfl, rfl⟩ := h4
  obtain ⟨e3, hb3, -⟩ := scan_times_flat _ (emit_element_value_pair le)
    (scan_element_value_pair_print le scan_value hv) n s2 ps r hb2 h3
  refine ⟨?_, hb3⟩
  rw [e1, e2, e3]
  simp [ emit_annotation, emit_element_value_pairs_eq, emit_u2, write_u2]

theorem scan_element_value_print (le : Bool) (depth : Nat) :
    ∀ (s : List Nat) (v : element_value) (rest : List Nat), okBytes s →
    scan_element_value le depth s = some (v, rest) →
    s = emit_element_value le v ++ rest ∧ okBytes rest := by
  induction depth with
  | zero => intro s v rest _ h; simp [scan_element_value] at h
  | succ depth ih =>
    intro s v rest hb h
    unfold scan_element_value at h
    split at h
    · simp at h
    · rename_i tag s0 h0
      obtain ⟨e0, ht⟩ := read_u1_print _ _ _ hb h0
      have hb0 : okBytes s0 := by rw [e0] at hb; exact (okBytes_append.1 hb).2
      subst e0
      by_cases t : isConstTag tag = true
      · rw [if_pos t] at h
        obtain ⟨x, r, hx, e, hb1⟩ := map_u2_step le _ _ _ hb0 h
        simp only [Prod.mk.injEq] at hx
        obtain ⟨rfl, rfl⟩ := hx
        subst e
        exact ⟨by simp [emit_element_value, t, emit_u2, write_u2, emit_u1, write_u1], hb1⟩
      rw [if_neg t] at h; clear t
      by_cases t : tag = 101
      · rw [if_pos t] at h
        obtain ⟨a, s1, e1, hb1, h1⟩ := bind_u2_step le _ _ _ hb0 h
        obtain ⟨x, r, hx, e, hb2⟩ := map_u2_step le _ _ _ hb1 h1
        simp only [Prod.mk.injEq] at hx
        obtain ⟨rfl, rfl⟩ := hx
        subst e1; subst e
        exact ⟨by simp [emit_element_value, t, emit_u2, write_u2, emit_u1, write_u1], hb2⟩
      rw [if_neg t] at h; clear t
      by_cases t : tag = 99
      · rw [if_pos t] at h
        obtain ⟨x, r, hx, e, hb1⟩ := map_u2_step le _ _ _ hb0 h
        simp only [Prod.mk.injEq] at hx
        obtain ⟨rfl, rfl⟩ := hx
        subst e
        exact ⟨by simp [emit_element_value, t, emit_u2, write_u2, emit_u1, write_u1], hb1⟩
      rw [if_neg t] at h; clear t
      by_cases t : tag = 64
      · rw [if_pos t] at h
        obtain ⟨⟨a, r⟩, h1, h2⟩ := Option.map_eq_some'.1 h
        simp only [Prod.mk.injEq] at h2
        obtain ⟨rfl, rfl⟩ := h2
        obtain ⟨e1, hb1⟩ := scan_annotation_with_print le _ ih s0 a r hb0 h1
        subst e1
        exact ⟨by simp [emit_element_value, t, emit_u1, write_u1], hb1⟩
      rw [if_neg t] at h; clear t
      by_cases t : tag = 91
      · rw [if_pos t] at h
        obtain ⟨n, s1, e1, hb1, h1⟩ := bind_u2_step le _ _ _ hb0 h
        obtain ⟨⟨vs, r⟩, h2, h3⟩ := Option.map_eq_some'.1 h1
        simp only [Prod.mk.injEq] at h3
        obtain ⟨rfl, rfl⟩ := h3
        obtain ⟨e2, hb2, -⟩ := scan_times_flat _ (emit_element_value le) ih n s1 vs r hb1 h2
        subst e1
        refine ⟨?_, hb2⟩
        rw [e2]
        simp [emit_element_value, t, emit_u1, write_u1, emit_u2, write_u2,
          emit_element_values_eq]
      rw [if_neg t] at h
      simp at h

theorem scan_u2_array_eq (le : Bool) (n : Nat) :
    ∀ s, scan_u2_array le s n = read_u2_array le s n := by
  induction n with
  | zero => intro s; simp [scan_u2_array, read_u2_array]
  | succ n ih =>
    intro s
    simp only [scan_u2_array, read_u2_array]
    have e : scan_u2 le s = read_u2 le s := rfl
    rw [e]
    cases read_u2 le s with
    | none => rfl
    | some p => simp [ih]

theorem emit_attributes_some (le : Bool) : ∀ (as : List attribute_info) (out : List Nat),
    emit_attributes le as = some out → out = as.flatMap (emit_raw le)
  | [], out, h => by
    simp only [emit_attributes, Option.some.injEq] at h
    simp [← h]
  | a :: as, out, h => by
    simp only [emit_attributes] at h
    split at h
    · simp at h
    · split at h
      · simp at h
      · rename_i out1 h1
        simp only [Option.some.injEq] at h
        rw [← h, emit_attributes_some le as out1 h1]
        simp

theorem decode_scan_print (le : Bool)
    (scan_attributes : Nat → List Nat → Option (List attribute_info × List Nat))
    (pool : List (Option cp_info)) (n : Nat) (info : List Nat)
    (hs : ∀ count s as rest, okBytes s → scan_attributes count s = some (as, rest) →
      s = as.flatMap (emit_raw le) ++ rest)
    (v : attribute_value) (rest : List Nat) (hb : okBytes info)
    (hl : info.length < 2147483648)
    (h : decode_scan le scan_attributes pool n info = some (v, rest)) :
    ∃ payload,
      encode_switch le info.length info v
        = (emit_attributes le (nestedOf v)).map (fun _ => payload) ∧
      (isRaw v = true → payload = info) ∧ (isRaw v = false → info = payload ++ rest) ∧
      (nestedOf v = [] ∨ ∃ count s r, okBytes s ∧ s.length ≤ info.length ∧
        scan_attributes count s = some (nestedOf v, r)) := by
  unfold decode_scan at h
  split at h
  · simp at h
  · rename_i name hname
    clear hname
    by_cases t : name = cbytes "ConstantValue"
    · rw [if_pos t] at h
      obtain ⟨x, r, hx, e, -⟩ := map_u2_step le _ _ _ hb h
      simp only [Prod.mk.injEq] at hx
      obtain ⟨rfl, rfl⟩ := hx
      exact ⟨_, rfl, by simp [isRaw], fun _ => by rw [e]; simp [emit_u2, write_u2], Or.inl rfl⟩
    rw [if_neg t] at h; clear t
    by_cases t : name = cbytes "Code"
    · rw [if_pos t] at h
      obtain ⟨ms, s1, e1, hb1, h1⟩ := bind_u2_step le _ _ _ hb h
      obtain ⟨ml, s2, e2, hb2, h2⟩ := bind_u2_step le _ _ _ hb1 h1
      obtain ⟨cl, s3, e3, hb3, h3⟩ := bind_u4_step le _ _ _ hb2 h2
      split at h3
      · simp at h3
      · rename_i code s4 h4
        obtain ⟨e4, hcl, hcl2⟩ := read_u1_array_print _ _ _ _ h4
        have hb4 : okBytes s4 := by rw [e4] at hb3; exact (okBytes_append.1 hb3).2
        obtain ⟨etl, s5, e5, hb5, h5⟩ := bind_u2_step le _ _ _ hb4 h3
        split at h5
        · simp at h5
        · rename_i et s6 h6
          obtain ⟨e6, hb6, hetl⟩ := scan_times_flat _
            (fun e : exception_table_entry => emit_u2 le e.start_pc ++ emit_u2 le e.end_pc
              ++ emit_u2 le e.handler_pc ++ emit_u2 le e.catch_type)
            (by
            intro s a rest hb h
            obtain ⟨x1, t1, e1, hb1, h1⟩ := bind_u2_step le _ _ _ hb h
            obtain ⟨x2, t2, e2, hb2, h2⟩ := bind_u2_step le _ _ _ hb1 h1
            obtain ⟨x3, t3, e3, hb3, h3⟩ := bind_u2_step le _ _ _ hb2 h2
            obtain ⟨x4, r, hx, e4, hb4⟩ := map_u2_step le _ _ _ hb3 h3
            simp only [Prod.mk.injEq] at hx
            obtain ⟨rfl, rfl⟩ := hx
            exact ⟨by rw [e1, e2, e3, e4]; simp [emit_u2, write_u2], hb4⟩) etl s5 et s6 hb5 h6
          obtain ⟨ac, s7, e7, hb7, h7⟩ := bind_u2_step le _ _ _ hb6 h5
          obtain ⟨⟨as, r⟩, h8, h9⟩ := Option.map_eq_some'.1 h7
          simp only [Prod.mk.injEq] at h9
          obtain ⟨rfl, rfl⟩ := h9
          have hlen : s7.length ≤ info.length := by
            have l1 := congrArg List.length e1
            have l2 := congrArg List.length e2
            have l3 := congrArg List.length e3
            have l4 := congrArg List.length e4
            have l5 := congrArg List.length e5
            have l6 := congrArg List.length e6
            have l7 := congrArg List.length e7
            simp only [List.length_append] at l1 l2 l3 l4 l5 l6 l7
            omega
          have e8 := hs ac s7 as r hb7 h8
          refine ⟨emit_u2 le ms ++ emit_u2 le ml ++ emit_u4 le cl ++ emit_u1_array cl code
              ++ emit_u2 le etl
              ++ (et.take etl).flatMap (fun e : exception_table_entry =>
                  emit_u2 le e.start_pc ++ emit_u2 le e.end_pc
                    ++ emit_u2 le e.handler_pc ++ emit_u2 le e.catch_type)
              ++ emit_u2 le ac ++ as.flatMap (emit_raw le), ?_, by simp [isRaw], fun _ => ?_,
            Or.inr ⟨ac, s7, r, hb7, hlen, h8⟩⟩
          · simp only [encode_switch, nestedOf]
            cases hE : emit_attributes le as with
            | none => rfl
            | some nested => simp [emit_attributes_some le as nested hE]
          · rw [e1, e2, e3, e4, e5, e6, e7, e8]
            simp [emit_u2, write_u2, emit_u4, write_u4, emit_u1_array_eq _ _ hcl2,
              write_u1_array, ← hetl]
    rw [if_neg t] at h; clear t
    by_cases t : name = cbytes "Exceptions"
    · rw [if_pos t] at h
      obtain ⟨n1, s1, e1, hb1, h1⟩ := bind_u2_step le _ _ _ hb h
      obtain ⟨⟨l, r⟩, h2, h3⟩ := Option.map_eq_some'.1 h1
      simp only [Prod.mk.injEq] at h3
      obtain ⟨rfl, rfl⟩ := h3
      rw [scan_u2_array_eq] at h2
      obtain ⟨e2, -⟩ := read_u2_array_print le n1 s1 l r hb1 h2
      exact ⟨_, rfl, by simp [isRaw], fun _ => by
        rw [e1, e2]; simp [emit_u2, write_u2, emit_u2_array, write_u2_array], Or.inl rfl⟩
    rw [if_neg t] at h; clear t
    by_cases t : name = cbytes "InnerClasses"
    · rw [if_pos t] at h
      obtain ⟨n1, s1, e1, hb1, h1⟩ := bind_u2_step le _ _ _ hb h
      obtain ⟨⟨l, r⟩, h2, h3⟩ := Option.map_eq_some'.1 h1
      simp only [Prod.mk.injEq] at h3
      obtain ⟨rfl, rfl⟩ := h3
      obtain ⟨e2, -, -⟩ := scan_times_flat _ (fun e : innerclasses_table_entry =>
          emit_u2 le e.inner_class_info_index ++ emit_u2 le e.outer_class_info_index
            ++ emit_u2 le e.inner_name_index ++ emit_u2 le e.inner_class_access_flags)
        (by
        intro s a rest hb h
        obtain ⟨x1, t1, e1, hb1, h1⟩ := bind_u2_step le _ _ _ hb h
        obtain ⟨x2, t2, e2, hb2, h2⟩ := bind_u2_step le _ _ _ hb1 h1
        obtain ⟨x3, t3, e3, hb3, h3⟩ := bind_u2_step le _ _ _ hb2 h2
        obtain ⟨x4, r, hx, e4, hb4⟩ := map_u2_step le _ _ _ hb3 h3
        simp only [Prod.mk.injEq] at hx
        obtain ⟨rfl, rfl⟩ := hx
        exact ⟨by rw [e1, e2, e3, e4]; simp [emit_u2, write_u2], hb4⟩) n1 s1 l r hb1 h2
      exact ⟨_, rfl, by simp [isRaw], fun _ => by rw [e1, e2]; simp [emit_u2, write_u2], Or.inl rfl⟩
    rw [if_neg t] at h; clear t
    by_cases t : name = cbytes "Synthetic"
    · rw [if_pos t] at h
      simp only [Option.some.injEq, Prod.mk.injEq] at h
      obtain ⟨rfl, rfl⟩ := h
      exact ⟨_, rfl, by simp [isRaw], fun _ => by simp, Or.inl rfl⟩
    rw [if_neg t] at h; clear t
    by_cases t : name = cbytes "SourceFile"
    · rw [if_pos t] at h
      obtain ⟨x, r, hx, e, -⟩ := map_u2_step le _ _ _ hb h
      simp only [Prod.mk.injEq] at hx
      obtain ⟨rfl, rfl⟩ := hx
      exact ⟨_, rfl, by simp [isRaw], fun _ => by rw [e]; simp [emit_u2, write_u2], Or.inl rfl⟩
    rw [if_neg t] at h; clear t
    by_cases t : name = cbytes "LineNumberTable"
    · rw [if_pos t] at h
      obtain ⟨n1, s1, e1, hb1, h1⟩ := bind_u2_step le _ _ _ hb h
      obtain ⟨⟨l, r⟩, h2, h3⟩ := Option.map_eq_some'.1 h1
      simp only [Prod.mk.injEq] at h3
      obtain ⟨rfl, rfl⟩ := h3
      obtain ⟨e2, -, -⟩ := scan_times_flat _ (fun e : line_number_table_entry =>
          emit_u2 le e.start_pc ++ emit_u2 le e.line_number)
        (by
        intro s a rest hb h
        obtain ⟨x1, t1, e1, hb1, h1⟩ := bind_u2_step le _ _ _ hb h
        obtain ⟨x4, r, hx, e4, hb4⟩ := map_u2_step le _ _ _ hb1 h1
        simp only [Prod.mk.injEq] at hx
        obtain ⟨rfl, rfl⟩ := hx
        exact ⟨by rw [e1, e4]; simp [emit_u2, write_u2], hb4⟩) n1 s1 l r hb1 h2
      exact ⟨_, rfl, by simp [isRaw], fun _ => by rw [e1, e2]; simp [emit_u2, write_u2], Or.inl rfl⟩
    rw [if_neg t] at h; clear t
    by_cases t : name = cbytes "LocalVariableTable"
    · rw [if_pos t] at h
      obtain ⟨n1, s1, e1, hb1, h1⟩ := bind_u2_step le _ _ _ hb h
      obtain ⟨⟨l, r⟩, h2, h3⟩ := Option.map_eq_some'.1 h1
      simp only [Prod.mk.injEq] at h3
      obtain ⟨rfl, rfl⟩ := h3
      obtain ⟨e2, -, -⟩ := scan_times_flat _ (fun e : local_variable_table_entry =>
          emit_u2 le e.start_pc ++ emit_u2 le e.length ++ emit_u2 le e.name_index
            ++ emit_u2 le e.descriptor_index ++ emit_u2 le e.index)
        (by
        intro s a rest hb h
        obtain ⟨x1, t1, e1, hb1, h1⟩ := bind_u2_step le _ _ _ hb h
        obtain ⟨x2, t2, e2, hb2, h2⟩ := bind_u2_step le _ _ _ hb1 h1
        obtain ⟨x3, t3, e3, hb3, h3⟩ := bind_u2_step le _ _ _ hb2 h2
        obtain ⟨x5, t5, e5, hb5, h5⟩ := bind_u2_step le _ _ _ hb3 h3
        obtain ⟨x4, r, hx, e4, hb4⟩ := map_u2_step le _ _ _ hb5 h5
        simp only [Prod.mk.injEq] at hx
        obtain ⟨rfl, rfl⟩ := hx
        exact ⟨by rw [e1, e2, e3, e5, e4]; simp [emit_u2, write_u2], hb4⟩) n1 s1 l r hb1 h2
      exact ⟨_, rfl, by simp [isRaw], fun _ => by rw [e1, e2]; simp [emit_u2, write_u2], Or.inl rfl⟩
    rw [if_neg t] at h; clear t
    by_cases t : name = cbytes "Deprecated"
    · rw [if_pos t] at h
      simp only [Option.some.injEq, Prod.mk.injEq] at h
      obtain ⟨rfl, rfl⟩ := h
      exact ⟨_, rfl, by simp [isRaw], fun _ => by simp, Or.inl rfl⟩
    rw [if_neg t] at h; clear t
    by_cases t : name = cbytes "RuntimeVisibleAnnotations"
    · rw [if_pos t] at h
      obtain ⟨n1, s1, e1, hb1, h1⟩ := bind_u2_step le _ _ _ hb h
      obtain ⟨⟨l, r⟩, h2, h3⟩ := Option.map_eq_some'.1 h1
      simp only [Prod.mk.injEq] at h3
      obtain ⟨rfl, rfl⟩ := h3
      obtain ⟨e2, -, -⟩ := scan_times_flat _ ( emit_annotation le)
        (scan_annotation_with_print le _ (scan_element_value_print le s1.length))
        n1 s1 l r hb1 h2
      exact ⟨_, rfl, by simp [isRaw], fun _ => by
        rw [e1, e2]; simp [emit_u2, write_u2, emit_annotations_eq], Or.inl rfl⟩
    rw [if_neg t] at h; clear t
    by_cases t : name = cbytes "EnclosingMethod"
    · rw [if_pos t] at h
      obtain ⟨n1, s1, e1, hb1, h1⟩ := bind_u2_step le _ _ _ hb h
      obtain ⟨x, r, hx, e, -⟩ := map_u2_step le _ _ _ hb1 h1
      simp only [Prod.mk.injEq] at hx
      obtain ⟨rfl, rfl⟩ := hx
      exact ⟨_, rfl, by simp [isRaw], fun _ => by rw [e1, e]; simp [emit_u2, write_u2], Or.inl rfl⟩
    rw [if_neg t] at h; clear t
    by_cases t : name = cbytes "StackMapTable"
    · rw [if_pos t] at h
      simp only [Option.some.injEq, Prod.mk.injEq] at h
      obtain ⟨rfl, rfl⟩ := h
      exact ⟨_, rfl, fun _ => by simp [emit_u1_array, hl], by simp [isRaw], Or.inl rfl⟩
    rw [if_neg t] at h; clear t
    by_cases t : name = cbytes "Signature"
    · rw [if_pos t] at h
      obtain ⟨x, r, hx, e, -⟩ := map_u2_step le _ _ _ hb h
      simp only [Prod.mk.injEq] at hx
      obtain ⟨rfl, rfl⟩ := hx
      exact ⟨_, rfl, by simp [isRaw], fun _ => by rw [e]; simp [emit_u2, write_u2], Or.inl rfl⟩
    rw [if_neg t] at h; clear t
    by_cases t : name = cbytes "LocalVariableTypeTable"
    · rw [if_pos t] at h
      obtain ⟨n1, s1, e1, hb1, h1⟩ := bind_u2_step le _ _ _ hb h
      obtain ⟨⟨l, r⟩, h2, h3⟩ := Option.map_eq_some'.1 h1
      simp only [Prod.mk.injEq] at h3
      obtain ⟨rfl, rfl⟩ := h3
      obtain ⟨e2, -, -⟩ := scan_times_flat _ (fun e : local_variable_type_table_entry =>
          emit_u2 le e.start_pc ++ emit_u2 le e.length ++ emit_u2 le e.name_index
            ++ emit_u2 le e.signature_index ++ emit_u2 le e.index)
        (by
        intro s a rest hb h
        obtain ⟨x1, t1, e1, hb1, h1⟩ := bind_u2_step le _ _ _ hb h
        obtain ⟨x2, t2, e2, hb2, h2⟩ := bind_u2_step le _ _ _ hb1 h1
        obtain ⟨x3, t3, e3, hb3, h3⟩ := bind_u2_step le _ _ _ hb2 h2
        obtain ⟨x5, t5, e5, hb5, h5⟩ := bind_u2_step le _ _ _ hb3 h3
        obtain ⟨x4, r, hx, e4, hb4⟩ := map_u2_step le _ _ _ hb5 h5
        simp only [Prod.mk.injEq] at hx
        obtain ⟨rfl, rfl⟩ := hx
        exact ⟨by rw [e1, e2, e3, e5, e4]; simp [emit_u2, write_u2], hb4⟩) n1 s1 l r hb1 h2
      exact ⟨_, rfl, by simp [isRaw], fun _ => by rw [e1, e2]; simp [emit_u2, write_u2], Or.inl rfl⟩
    rw [if_neg t] at h; clear t
    by_cases t : name = cbytes "AnnotationDefault"
    · rw [if_pos t] at h
      obtain ⟨⟨x, r⟩, h2, h3⟩ := Option.map_eq_some'.1 h
      simp only [Prod.mk.injEq] at h3
      obtain ⟨rfl, rfl⟩ := h3
      obtain ⟨e2, -⟩ := scan_element_value_print le _ _ _ _ hb h2
      exact ⟨_, rfl, by simp [isRaw], fun _ => e2, Or.inl rfl⟩
    rw [if_neg t] at h
    simp only [Option.some.injEq, Prod.mk.injEq] at h
    obtain ⟨rfl, rfl⟩ := h
    exact ⟨_, rfl, fun _ => by simp [emit_u1_array, hl], by simp [isRaw], Or.inl rfl⟩

theorem emit_attributes_eq (le : Bool) (as : List attribute_info) :
    emit_attributes le as = write_each (emit_attribute_info le) as := by
  induction as with
  | nil => simp [emit_attributes, write_each]
  | cons a as ih =>
    simp only [emit_attributes, write_each, emit_attribute_info, ← ih]
    cases encode_attribute_value le a <;> rfl

/-- What `scan_attribute_info` reads is what `emit_attribute_info` emits. -/
theorem scan_attribute_info_with_raw (le : Bool)
    (decode : Nat → List Nat → Option attribute_value)
    (s : List Nat) (a : attribute_info) (rest : List Nat) (hb : okBytes s)
    (h : scan_attribute_info_with le decode s = some (a, rest)) :
    s = emit_raw le a ++ rest ∧ okBytes rest ∧ rest.length ≤ s.length ∧
      a.attribute_length = a.info.length ∧ okBytes a.info ∧ a.info.length ≤ s.length ∧
      a.info.length < 2147483648 ∧
      decode a.attribute_name_index a.info = some a.value := by
  unfold scan_attribute_info_with at h
  obtain ⟨n, s1, e1, hb1, h1⟩ := bind_u2_step le _ _ _ hb h
  obtain ⟨len, s2, e2, hb2, h2⟩ := bind_u4_step le _ _ _ hb1 h1
  split at h2
  · simp at h2
  · rename_i info s3 h3
    obtain ⟨e3, hlen, hlen2⟩ := read_u1_array_print _ _ _ _ h3
    obtain ⟨v, h4, h5⟩ := Option.map_eq_some'.1 h2
    simp only [Prod.mk.injEq] at h5
    obtain ⟨rfl, rfl⟩ := h5
    have l1 := congrArg List.length e1
    have l2 := congrArg List.length e2
    have l3 := congrArg List.length e3
    simp only [List.length_append, write_u1_array, List.length_take] at l1 l2 l3
    have hb3 : okBytes s2 := hb2
    rw [e3] at hb3
    have hbi : okBytes info := by
      have := (okBytes_append.1 hb3).1
      simpa [write_u1_array, ← hlen] using this
    refine ⟨?_, (okBytes_append.1 hb3).2, by omega, hlen.symm, hbi, by
      simp only [attribute_info.info]; omega, by
      simp only [attribute_info.info]; omega, h4⟩
    rw [e1, e2, e3]
    simp [emit_raw, attribute_info.attribute_name_index, attribute_info.attribute_length,
      attribute_info.info, emit_u2, write_u2, emit_u4, write_u4, emit_u1_array_eq _ _ hlen2,
      write_u1_array]

/-- The payload that `encode_attribute_value` builds from a decoded value is the
part of the payload that `decode_attribute_value` scanned. -/
theorem decode_attribute_scan_payload (le : Bool) (pool : List (Option cp_info)) (depth : Nat)
    (n : Nat) (info : List Nat) (v : attribute_value) (rest : List Nat) (hb : okBytes info)
    (hl : info.length < 2147483648)
    (h : decode_attribute_scan le pool depth n info = some (v, rest)) :
    ∃ payload,
      encode_switch le info.length info v
        = (emit_attributes le (nestedOf v)).map (fun _ => payload) ∧
      (isRaw v = true → payload = info) ∧ (isRaw v = false → info = payload ++ rest) := by
  cases depth with
  | zero =>
    simp only [decode_attribute_scan] at h
    obtain ⟨p, w1, w2, w3, -⟩ := decode_scan_print le _ pool n info (by
      intro count s as r _ hc
      split at hc
      · simp only [Option.some.injEq, Prod.mk.injEq] at hc
        obtain ⟨rfl, rfl⟩ := hc
        simp
      · simp at hc) v rest hb hl h
    exact ⟨p, w1, w2, w3⟩
  | succ depth =>
    simp only [decode_attribute_scan] at h
    obtain ⟨p, w1, w2, w3, -⟩ := decode_scan_print le _ pool n info (by
      intro count s as r hbs hc
      exact (scan_times_flat _ (emit_raw le)
        (fun s a rest hs h1 =>
          ⟨(scan_attribute_info_with_raw le _ s a rest hs h1).1,
            (scan_attribute_info_with_raw le _ s a rest hs h1).2.1⟩)
        count s as r hbs hc).1) v rest hb hl h
    exact ⟨p, w1, w2, w3⟩

theorem payload_length_le (v : attribute_value) (payload info rest : List Nat)
    (w2 : isRaw v = true → payload = info) (w3 : isRaw v = false → info = payload ++ rest) :
    payload.length ≤ info.length := by
  cases hr : isRaw v
  · have := congrArg List.length (w3 hr)
    simp only [List.length_append] at this
    omega
  · rw [w2 hr]

/-- Within the buffer, `encode_attribute_value` runs to its end on what
`decode_attribute_value` produced. -/
theorem encode_attribute_value_total (le : Bool) (pool : List (Option cp_info)) (depth : Nat) :
    ∀ (n : Nat) (info : List Nat) (v : attribute_value) (rest : List Nat), okBytes info →
    info.length ≤ 65000 →
    decode_attribute_scan le pool depth n info = some (v, rest) →
    ∃ nested, emit_attributes le (nestedOf v) = some nested := by
  induction depth with
  | zero =>
    intro n info v rest hb hl h
    simp only [decode_attribute_scan] at h
    obtain ⟨p, -, -, -, w4⟩ := decode_scan_print le _ pool n info (by
      intro count s as r _ hc
      split at hc
      · simp only [Option.some.injEq, Prod.mk.injEq] at hc
        obtain ⟨rfl, rfl⟩ := hc
        simp
      · simp at hc) v rest hb (by omega) h
    rcases w4 with w4 | ⟨count, s, r, -, -, hc⟩
    · exact ⟨[], by rw [w4]; simp [emit_attributes]⟩
    · split at hc
      · simp only [Option.some.injEq, Prod.mk.injEq] at hc
        exact ⟨[], by rw [← hc.1]; simp [emit_attributes]⟩
      · simp at hc
  | succ depth ih =>
    intro n info v rest hb hl h
    simp only [decode_attribute_scan] at h
    obtain ⟨p, -, -, -, w4⟩ := decode_scan_print le _ pool n info (by
      intro count s as r hbs hc
      exact (scan_times_flat _ (emit_raw le)
        (fun s a rest hs h1 =>
          ⟨(scan_attribute_info_with_raw le _ s a rest hs h1).1,
            (scan_attribute_info_with_raw le _ s a rest hs h1).2.1⟩)
        count s as r hbs hc).1) v rest hb (by omega) h
    rcases w4 with w4 | ⟨count, s, r, hbs, hls, hc⟩
    · exact ⟨[], by rw [w4]; simp [emit_attributes]⟩
    · obtain ⟨out, w, -⟩ := scan_times_print (fun s => okBytes s ∧ s.length ≤ 65000)
        (fun _ => True) _ (emit_attribute_info le)
        (by
          intro s a rest hs _ h1
          obtain ⟨e1, hb1, hl1, hlen, hbi, hli, hli2, hd⟩ :=
            scan_attribute_info_with_raw le _ s a rest hs.1 h1
          obtain ⟨⟨v2, r2⟩, h2, h3⟩ := Option.map_eq_some'.1 hd
          simp only at h3
          obtain ⟨nested, hn⟩ := ih _ _ v2 r2 hbi (by omega) h2
          obtain ⟨p2, x1, x2, x3⟩ :=
            decode_attribute_scan_payload le pool depth _ _ v2 r2 hbi hli2 h2
          have hp := payload_length_le v2 p2 _ r2 x2 x3
          refine ⟨emit_raw le a, ?_, e1, hb1, by omega⟩
          cases a with
          | mk n1 len1 info1 v1 =>
            simp only [attribute_info.attribute_length, attribute_info.info,
              attribute_info.value] at hlen hn x1 h3 hp hli
            subst h3
            simp only [emit_attribute_info, encode_attribute_value, hlen, x1, hn,
              Option.map_some']
            rw [if_pos (by omega)])
        count s (nestedOf v) r ⟨hbs, by omega⟩ (fun _ _ => trivial) hc
      exact ⟨out, by rw [emit_attributes_eq]; exact w⟩

/-- A loop of readers against a loop of writers that overrun a buffer on the
elements that do not fit. -/
theorem scan_times_cond {α : Type} (Q : α → Prop) (fit : α → Bool)
    (scan : List Nat → Option (α × List Nat)) (print : α → Option (List Nat))
    (hs : ∀ s a rest, okBytes s → Q a → scan s = some (a, rest) →
      ∃ out, s = out ++ rest ∧ okBytes rest ∧
        print a = if fit a = true then some out else none)
    (count : Nat) : ∀ (s : List Nat) (l : List α) (rest : List Nat), okBytes s →
    (∀ a ∈ l, Q a) → scan_times scan count s = some (l, rest) →
    ∃ out, s = out ++ rest ∧ okBytes rest ∧
      write_each print l = if l.all fit = true then some out else none := by
  induction count with
  | zero =>
    intro s l rest hb _ h
    simp only [scan_times, Option.some.injEq, Prod.mk.injEq] at h
    obtain ⟨rfl, rfl⟩ := h
    exact ⟨[], by simp, hb, by simp [write_each]⟩
  | succ n ih =>
    intro s l rest hb hq h
    simp only [scan_times] at h
    split at h
    · simp at h
    · rename_i a s1 h1
      split at h
      · simp at h
      · rename_i l1 s2 h2
        simp only [Option.some.injEq, Prod.mk.injEq] at h
        obtain ⟨rfl, rfl⟩ := h
        obtain ⟨o1, e1, hb1, p1⟩ := hs s a s1 hb (hq a (by simp)) h1
        obtain ⟨o2, e2, hb2, p2⟩ := ih s1 l1 s2 hb1 (fun b hb => hq b (by simp [hb])) h2
        refine ⟨o1 ++ o2, by rw [e1, e2]; simp, hb2, ?_⟩
        simp only [write_each, p1, p2, List.all_cons]
        rcases Bool.eq_false_or_eq_true (fit a) with hfa | hfa <;>
          rcases Bool.eq_false_or_eq_true (l1.all fit) with hfl | hfl <;> simp [hfa, hfl]

theorem read_attribute_info_cond (le : Bool) (pool : List (Option cp_info)) (s : List Nat)
    (a : attribute_info) (rest : List Nat) (hb : okBytes s)
    (hv : payload_decoded le pool a = true)
    (h : read_attribute_info le pool s = some (a, rest)) :
    ∃ out, s = out ++ rest ∧ okBytes rest ∧
      write_attribute_info le a = if payload_fits a = true then some out else none := by
  unfold read_attribute_info at h
  obtain ⟨n, s1, e1, hb1, h1⟩ := bind_u2_step le _ _ _ hb h
  obtain ⟨len, s2, e2, hb2, h2⟩ := bind_u4_step le _ _ _ hb1 h1
  split at h2
  · simp at h2
  · rename_i info s3 h3
    obtain ⟨e3, hlen, hlen2⟩ := read_u1_array_print _ _ _ _ h3
    obtain ⟨v, h4, h5⟩ := Option.map_eq_some'.1 h2
    simp only [Prod.mk.injEq] at h5
    obtain ⟨rfl, rfl⟩ := h5
    have hb3 : okBytes s2 := hb2
    rw [e3] at hb3
    have hbi : okBytes info := by
      have := (okBytes_append.1 hb3).1
      simpa [write_u1_array, ← hlen] using this
    obtain ⟨⟨v2, r2⟩, h6, h7⟩ := Option.map_eq_some'.1 h4
    simp only at h7
    subst h7
    simp only [payload_decoded, attribute_info.info, attribute_info.attribute_name_index, h6,
      Bool.or_eq_true, List.isEmpty_iff] at hv
    obtain ⟨p, w1, w2, w3⟩ :=
      decode_attribute_scan_payload le pool _ n info v2 r2 hbi (by omega) h6
    have ho : p = info := by
      cases hr : isRaw v2
      · have hr2 : r2 = [] := by
          rcases hv with hx | hx
          · rw [hr] at hx; cases hx
          · exact hx
        have := w3 hr
        rw [hr2, List.append_nil] at this
        exact this.symm
      · exact w2 hr
    subst ho
    rw [hlen] at w1
    refine ⟨write_u2 le n ++ write_u4 le len ++ write_u1_array len p, ?_,
      (okBytes_append.1 hb3).2, ?_⟩
    · rw [e1, e2, e3]
      simp
    · simp only [write_attribute_info, encode_attribute_value, w1, payload_fits,
        attribute_info.info, attribute_info.attribute_name_index, decide_eq_true_eq]
      by_cases hf : p.length ≤ 65000
      · obtain ⟨nested, hn⟩ := encode_attribute_value_total le pool _ n p v2 r2 hbi hf h6
        have hf1 : len ≤ 65000 := by omega
        simp [hn, hf, hf1, hlen]
      · cases emit_attributes le (nestedOf v2) <;> simp [hf]

theorem read_attributes_cond (le : Bool) (pool : List (Option cp_info)) (count : Nat)
    (s : List Nat) (as : List attribute_info) (rest : List Nat) (hb : okBytes s)
    (hv : as.all (payload_decoded le pool) = true)
    (h : read_attributes le pool s count = some (as, rest)) :
    ∃ out, s = out ++ rest ∧ okBytes rest ∧
      write_attributes le as = if as.all payload_fits = true then some out else none :=
  scan_times_cond (fun a => payload_decoded le pool a = true) payload_fits _
    (write_attribute_info le)
    (fun s a rest hs hq h1 => read_attribute_info_cond le pool s a rest hs hq h1)
    count s as rest hb (by simpa using hv) h

theorem read_field_info_cond (le : Bool) (pool : List (Option cp_info)) (s : List Nat)
    (fi : field_info) (rest : List Nat) (hb : okBytes s)
    (hv : fi.attributes.all (payload_decoded le pool) = true)
    (h : read_field_info le pool s = some (fi, rest)) :
    ∃ out, s = out ++ rest ∧ okBytes rest ∧
      write_field_info le fi = if fi.attributes.all payload_fits = true then some out else none := by
  unfold read_field_info at h
  obtain ⟨x1, s1, e1, hb1, h1⟩ := bind_u2_step le _ _ _ hb h
  obtain ⟨x2, s2, e2, hb2, h2⟩ := bind_u2_step le _ _ _ hb1 h1
  obtain ⟨x3, s3, e3, hb3, h3⟩ := bind_u2_step le _ _ _ hb2 h2
  obtain ⟨x4, s4, e4, hb4, h4⟩ := bind_u2_step le _ _ _ hb3 h3
  obtain ⟨⟨as, r⟩, h5, h6⟩ := Option.map_eq_some'.1 h4
  simp only [Prod.mk.injEq] at h6
  obtain ⟨rfl, rfl⟩ := h6
  obtain ⟨out, e5, hb5, w⟩ := read_attributes_cond le pool x4 s4 as r hb4 hv h5
  refine ⟨write_u2 le x1 ++ write_u2 le x2 ++ write_u2 le x3 ++ write_u2 le x4 ++ out, ?_,
    hb5, ?_⟩
  · rw [e1, e2, e3, e4, e5]
    simp
  · simp only [write_field_info, w]
    rcases Bool.eq_false_or_eq_true (as.all payload_fits) with ha | ha <;> simp [ha]

theorem read_method_info_cond (le : Bool) (pool : List (Option cp_info)) (s : List Nat)
    (mi : method_info) (rest : List Nat) (hb : okBytes s)
    (hv : mi.attributes.all (payload_decoded le pool) = true)
    (h : read_method_info le pool s = some (mi, rest)) :
    ∃ out, s = out ++ rest ∧ okBytes rest ∧
      write_method_info le mi
        = if mi.attributes.all payload_fits = true then some out else none := by
  unfold read_method_info at h
  obtain ⟨x1, s1, e1, hb1, h1⟩ := bind_u2_step le _ _ _ hb h
  obtain ⟨x2, s2, e2, hb2, h2⟩ := bind_u2_step le _ _ _ hb1 h1
  obtain ⟨x3, s3, e3, hb3, h3⟩ := bind_u2_step le _ _ _ hb2 h2
  obtain ⟨x4, s4, e4, hb4, h4⟩ := bind_u2_step le _ _ _ hb3 h3
  obtain ⟨⟨as, r⟩, h5, h6⟩ := Option.map_eq_some'.1 h4
  simp only [Prod.mk.injEq] at h6
  obtain ⟨rfl, rfl⟩ := h6
  obtain ⟨out, e5, hb5, w⟩ := read_attributes_cond le pool x4 s4 as r hb4 hv h5
  refine ⟨write_u2 le x1 ++ write_u2 le x2 ++ write_u2 le x3 ++ write_u2 le x4 ++ out, ?_,
    hb5, ?_⟩
  · rw [e1, e2, e3, e4, e5]
    simp
  · simp only [write_method_info, w]
    rcases Bool.eq_false_or_eq_true (as.all payload_fits) with ha | ha <;> simp [ha]

theorem read_fields_cond (le : Bool) (pool : List (Option cp_info)) (count : Nat)
    (s : List Nat) (fs : List field_info) (rest : List Nat) (hb : okBytes s)
    (hv : fs.all (fun fi => fi.attributes.all (payload_decoded le pool)) = true)
    (h : read_fields le pool s count = some (fs, rest)) :
    ∃ out, s = out ++ rest ∧ okBytes rest ∧
      write_fields le fs
        = if fs.all (fun fi => fi.attributes.all payload_fits) = true then some out else none :=
  scan_times_cond (fun fi : field_info => fi.attributes.all (payload_decoded le pool) = true)
    (fun fi => fi.attributes.all payload_fits) _ (write_field_info le)
    (fun s a rest hs hq h1 => read_field_info_cond le pool s a rest hs hq h1)
    count s fs rest hb (by simpa using hv) h

theorem read_methods_cond (le : Bool) (pool : List (Option cp_info)) (count : Nat)
    (s : List Nat) (ms : List method_info) (rest : List Nat) (hb : okBytes s)
    (hv : ms.all (fun mi => mi.attributes.all (payload_decoded le pool)) = true)
    (h : read_methods le pool s count = some (ms, rest)) :
    ∃ out, s = out ++ rest ∧ okBytes rest ∧
      write_methods le ms
        = if ms.all (fun mi => mi.attributes.all payload_fits) = true then some out else none :=
  scan_times_cond (fun mi : method_info => mi.attributes.all (payload_decoded le pool) = true)
    (fun mi => mi.attributes.all payload_fits) _ (write_method_info le)
    (fun s a rest hs hq h1 => read_method_info_cond le pool s a rest hs hq h1)
    count s ms rest hb (by simpa using hv) h

/-- Reading and then writing: the stream read comes back, unless an attribute
overruns the buffer of `encode_attribute_value`. -/
theorem read_write_ClassFile (le : Bool) (s : List Nat) (cf : ClassFile) (rest : List Nat)
    (hb : okBytes s) (hv : all_attributes (payload_decoded le cf.constant_pool) cf = true)
    (h : read_ClassFile le s = some (cf, rest)) :
    ∃ out, s = out ++ rest ∧
      write_ClassFile le cf = if all_attributes payload_fits cf = true then some out else none := by
  unfold read_ClassFile at h
  split at h
  · simp at h
  rename_i magic s1 h1
  split at h
  · simp at h
  rename_i minor s2 h2
  split at h
  · simp at h
  rename_i major s3 h3
  split at h
  · simp at h
  rename_i cpc s4 h4
  split at h
  · simp at h
  rename_i pool s5 h5
  split at h
  · simp at h
  rename_i flags s6 h6
  split at h
  · simp at h
  rename_i this s7 h7
  split at h
  · simp at h
  rename_i super s8 h8
  split at h
  · simp at h
  rename_i ic s9 h9
  split at h
  · simp at h
  rename_i ifs s10 h10
  split at h
  · simp at h
  rename_i fc s11 h11
  split at h
  · simp at h
  rename_i fs s12 h12
  split at h
  · simp at h
  rename_i mc s13 h13
  split at h
  · simp at h
  rename_i ms s14 h14
  split at h
  · simp at h
  rename_i ac s15 h15
  obtain ⟨⟨as, r⟩, h16, hcf⟩ := Option.map_eq_some'.1 h
  simp only [Prod.mk.injEq] at hcf
  obtain ⟨rfl, rfl⟩ := hcf
  simp only [all_attributes, Bool.and_eq_true] at hv
  obtain ⟨⟨hva, hvf⟩, hvm⟩ := hv
  obtain ⟨e1, b1⟩ := read_u4_step le _ _ _ hb h1
  obtain ⟨e2, b2⟩ := read_u2_step le _ _ _ b1 h2
  obtain ⟨e3, b3⟩ := read_u2_step le _ _ _ b2 h3
  obtain ⟨e4, b4⟩ := read_u2_step le _ _ _ b3 h4
  obtain ⟨opool, wpool, e5, b5⟩ := read_constant_pool_print le _ _ _ _ b4 h5
  obtain ⟨e6, b6⟩ := read_u2_step le _ _ _ b5 h6
  obtain ⟨e7, b7⟩ := read_u2_step le _ _ _ b6 h7
  obtain ⟨e8, b8⟩ := read_u2_step le _ _ _ b7 h8
  obtain ⟨e9, b9⟩ := read_u2_step le _ _ _ b8 h9
  obtain ⟨e10, -⟩ := read_u2_array_print le _ _ _ _ b9 h10
  have b10 : okBytes s10 := by
    have := b9
    rw [e10] at this
    exact (okBytes_append.1 this).2
  obtain ⟨e11, b11⟩ := read_u2_step le _ _ _ b10 h11
  obtain ⟨ofs, e12, b12, wfs⟩ := read_fields_cond le _ _ _ _ _ b11 hvf h12
  obtain ⟨e13, b13⟩ := read_u2_step le _ _ _ b12 h13
  obtain ⟨oms, e14, b14, wms⟩ := read_methods_cond le _ _ _ _ _ b13 hvm h14
  obtain ⟨e15, b15⟩ := read_u2_step le _ _ _ b14 h15
  obtain ⟨oas, e16, -, was⟩ := read_attributes_cond le _ _ _ _ _ b15 hva h16
  refine ⟨write_u4 le magic ++ write_u2 le minor ++ write_u2 le major ++ write_u2 le cpc
    ++ opool ++ write_u2 le flags ++ write_u2 le this ++ write_u2 le super
    ++ write_u2 le ic ++ write_u2_array le ic ifs ++ write_u2 le fc ++ ofs
    ++ write_u2 le mc ++ oms ++ write_u2 le ac ++ oas, ?_, ?_⟩
  · rw [e1, e2, e3, e4, e5, e6, e7, e8, e9, e10, e11, e12, e13, e14, e15, e16]
    simp
  · simp only [write_ClassFile, wpool, wfs, wms, was, all_attributes]
    rcases Bool.eq_false_or_eq_true (as.all payload_fits) with ha | ha <;>
      rcases Bool.eq_false_or_eq_true (fs.all (fun fi => fi.attributes.all payload_fits))
        with hf | hf <;>
      rcases Bool.eq_false_or_eq_true (ms.all (fun mi => mi.attributes.all payload_fits))
        with hm | hm <;> simp [ha, hf, hm]

theorem bigPayload_length : bigPayload.length = 65001 :=
  List.length_replicate _ _

theorem bigPayload_okBytes : okBytes bigPayload := by
  intro b hb
  rw [bigPayload, List.mem_replicate] at hb
  omega

theorem bigFile_okBytes : okBytes bigFile := by
  rw [bigFile, okBytes_append, okBytes_append]
  exact ⟨⟨by unfold okBytes; decide, by unfold okBytes; decide⟩, bigPayload_okBytes⟩

theorem read_bigHeader (t : List Nat) :
    read_ClassFile true (bigHeader ++ t)
      = (read_attributes true bigPool t 1).map (fun r =>
        ({ magic := 0xCAFEBABE, minor_version := 0, major_version := 49,
           constant_pool_count := 6, constant_pool := bigPool,
           access_flags := 0x21, this_class := 2, super_class := 4,
           interfaces_count := 0, interfaces := [],
           fields_count := 0, fields := [],
           methods_count := 0, methods := [],
           attributes_count := 1, attributes := r.1,
           constant_pool_map := [] }, r.2)) := by
  rfl

theorem decode_bigPool (depth : Nat) (info : List Nat) :
    decode_attribute_scan true bigPool depth 5 info = some (.Unknown, info) := by
  cases depth <;> rfl

theorem read_bigTail (p : List Nat) (hp : p.length = 65001) :
    read_attributes true bigPool ([0, 5, 0, 0, 253, 233] ++ p) 1
      = some ([.mk 5 65001 p .Unknown], []) := by
  simp [read_attributes, scan_times, read_attribute_info, read_u2_eq, read_u4_eq,
      read_u1_array, hp, decode_attribute_value, decode_bigPool]

theorem read_bigFile1 : read_ClassFile true bigFile = (read_attributes true bigPool ([0, 5, 0, 0, 253, 233] ++ bigPayload) 1).map (fun r =>
        ({ magic := 0xCAFEBABE, minor_version := 0, major_version := 49,
           constant_pool_count := 6, constant_pool := bigPool,
           access_flags := 0x21, this_class := 2, super_class := 4,
           interfaces_count := 0, interfaces := [],
           fields_count := 0, fields := [],
           methods_count := 0, methods := [],
           attributes_count := 1, attributes := r.1,
           constant_pool_map := [] }, r.2)) := by
  rw [bigFile, List.append_assoc, read_bigHeader]

theorem read_bigFile : read_ClassFile true bigFile = some (bigClass, []) := by
  rw [read_bigFile1, read_bigTail bigPayload bigPayload_length]
  rfl

theorem bigClass_decoded :
    all_attributes (payload_decoded true bigClass.constant_pool) bigClass = true := by
  have h : ∀ p : List Nat, payload_decoded true bigPool (.mk 5 65001 p .Unknown) = true := by
    intro p
    simp [payload_decoded, decode_bigPool, isRaw, attribute_info.info,
      attribute_info.attribute_name_index]
  simp [all_attributes, bigClass, h]

theorem bigClass_fits : all_attributes payload_fits bigClass = false := by
  have h : ∀ p : List Nat, p.length = 65001 →
      payload_fits (.mk 5 65001 p .Unknown) = false := by
    intro p hp
    simp [payload_fits, attribute_info.info, hp]
  simp [all_attributes, bigClass, h bigPayload bigPayload_length]

/-! ## The codec: the claim -/

/-- C1 (round-trip identity): when `read_ClassFile` reads a stream of bytes to
its end and every attribute payload of the class, of its fields and of its
methods is decoded to its last byte, `write_ClassFile` writes the bytes that
were read if each of these payloads fits the 65000 bytes of the buffer of
`encode_attribute_value`, and overruns that buffer otherwise. -/
theorem read_write_roundtrip (g_littleEndian : Bool) (bytes : List Nat) (cf : ClassFile)
    (hb : ∀ b ∈ bytes, b < 256)
    (hr : read_ClassFile g_littleEndian bytes = some (cf, []))
    (hv : all_attributes (payload_decoded g_littleEndian cf.constant_pool) cf = true) :
    write_ClassFile g_littleEndian cf
      = if all_attributes payload_fits cf = true then some bytes else none := by
  obtain ⟨out, e, w⟩ := read_write_ClassFile g_littleEndian bytes cf [] hb hv hr
  rw [List.append_nil] at e
  rw [w, e]

set_option maxRecDepth 100000 in
/-- Witness for C1: a class with a Long constant, fields, methods and
attributes, and a class with none of them, come back byte for byte; a class
with an attribute of 65001 bytes does not. -/
theorem read_write_roundtrip_witness :
    ((∀ b ∈ exampleFile, b < 256) ∧
      read_ClassFile true exampleFile = some (exampleClass, []) ∧
      all_attributes (payload_decoded true exampleClass.constant_pool) exampleClass = true ∧
      write_ClassFile true exampleClass = some exampleFile) ∧
    ((∀ b ∈ emptyFile, b < 256) ∧
      read_ClassFile false emptyFile = some (emptyClass, []) ∧
      all_attributes (payload_decoded false emptyClass.constant_pool) emptyClass = true ∧
      write_ClassFile false emptyClass = some emptyFile) ∧
    ((∀ b ∈ bigFile, b < 256) ∧
      read_ClassFile true bigFile = some (bigClass, []) ∧
      all_attributes (payload_decoded true bigClass.constant_pool) bigClass = true ∧
      write_ClassFile true bigClass = none) := by
  refine ⟨⟨by decide, by rfl, by decide, ?_⟩, ⟨by decide, by rfl, by decide, ?_⟩,
    ⟨bigFile_okBytes, read_bigFile, bigClass_decoded, ?_⟩⟩
  · exact (read_write_roundtrip true exampleFile exampleClass (by decide) (by rfl)
      (by decide)).trans (by decide)
  · exact (read_write_roundtrip false emptyFile emptyClass (by decide) (by rfl)
      (by decide)).trans (by decide)
  · refine (read_write_roundtrip true bigFile bigClass bigFile_okBytes read_bigFile
      bigClass_decoded).trans ?_
    rw [bigClass_fits]
    rfl

/-! ## The mark pass: the counts -/

theorem mark_all_nil (p : List (Option cp_info)) : mark_all [] p = some p := rfl

theorem mark_all_cons (i : Nat) (l : List Nat) (p : List (Option cp_info)) :
    mark_all (i :: l) p = andThen (ref p i) (mark_all l) := by
  simp only [mark_all, refct_each, andThen]

theorem mark_all_append (l1 l2 : List Nat) (p : List (Option cp_info)) :
    mark_all (l1 ++ l2) p = andThen (mark_all l1 p) (mark_all l2) := by
  induction l1 generalizing p with
  | nil => rfl
  | cons i l1 ih =>
    simp only [List.cons_append, mark_all_cons]
    cases ref p i with
    | none => rfl
    | some q => simpa [andThen] using ih q

theorem mark_all_one (i : Nat) (p : List (Option cp_info)) : mark_all [i] p = ref p i := by
  simp only [mark_all_cons]
  cases ref p i <;> rfl

theorem mark_refs_some (l : List Nat) (p : List (Option cp_info)) :
    mark_refs (some l) p = mark_all l p := rfl

theorem mark_refs_none (p : List (Option cp_info)) : mark_refs none p = none := rfl

/-- Marking the references of two steps, one after the other. -/
theorem mark_refs_append (r1 r2 : Option (List Nat)) (p : List (Option cp_info)) :
    andThen (mark_refs r1 p) (mark_refs r2)
      = mark_refs (match r1 with
          | none => none
          | some l1 => r2.map (fun l2 => l1 ++ l2)) p := by
  cases r1 with
  | none => rfl
  | some l1 =>
    cases r2 with
    | none =>
      simp only [mark_refs, Option.map_none']
      cases mark_all l1 p <;> rfl
    | some l2 =>
      simp only [mark_refs, Option.map_some', mark_all_append]
      rfl

theorem andThen_eq (r : Option (List (Option cp_info)))
    (f g : List (Option cp_info) → Option (List (Option cp_info)))
    (h : ∀ p, f p = g p) : andThen r f = andThen r g := by
  cases r with
  | none => rfl
  | some p => exact h p

theorem refct_each_mark {α : Type}
    (f : α → List (Option cp_info) → Option (List (Option cp_info))) (g : α → List Nat)
    (hf : ∀ a p, f a p = mark_all (g a) p) :
    ∀ (l : List α) (p : List (Option cp_info)), refct_each f l p = mark_all (l.flatMap g) p
  | [], p => rfl
  | a :: rest, p => by
    simp only [refct_each, List.flatMap_cons, mark_all_append, hf a p]
    cases mark_all (g a) p with
    | none => rfl
    | some q => simpa [andThen] using refct_each_mark f g hf rest q

theorem ref2_mark (i j : Nat) (p : List (Option cp_info)) :
    andThen (ref p i) (fun q => ref q j) = mark_all [i, j] p := by
  simp only [mark_all_cons]
  exact andThen_eq _ _ _ (fun q => by simp [mark_all_one, mark_all_cons, mark_all_nil, andThen]
                                      cases ref q j <;> rfl)

theorem refct_cp_info_mark (cp : Option cp_info) (p : List (Option cp_info)) :
    refct_cp_info cp p = mark_all (refs_of (idx_slot cp)) p := by
  cases cp with
  | none => rfl
  | some c =>
    obtain ⟨rc, info⟩ := c
    cases info <;>
      simp [refct_cp_info, idx_slot, idx_cp_info, refs_of_required, refs_of_nil, mark_all_one,
        ref2_mark, mark_all_nil]

mutual
theorem refct_element_value_mark : ∀ (v : element_value) (p : List (Option cp_info)),
    refct_element_value v p = mark_all (refs_of (idx_element_value v)) p
  | .const _ i, p => by
    simp [refct_element_value, idx_element_value, refs_of_required, refs_of_nil, mark_all_one]
  | .enum_const a b, p => by
    simp [refct_element_value, idx_element_value, refs_of_required, refs_of_nil, ref2_mark]
  | .class_info i, p => by
    simp [refct_element_value, idx_element_value, refs_of_required, refs_of_nil, mark_all_one]
  | .annotation_value a, p => by
    simp only [refct_element_value, idx_element_value]
    exact refct_annotation_mark a p
  | .array _ vs, p => by
    simp only [refct_element_value, idx_element_value]
    exact refct_element_values_mark vs p
theorem refct_element_values_mark : ∀ (vs : List element_value) (p : List (Option cp_info)),
    refct_element_values vs p = mark_all (refs_of (idx_element_values vs)) p
  | [], p => rfl
  | v :: rest, p => by
    simp only [refct_element_values, idx_element_values, refs_of_append, mark_all_append,
      refct_element_value_mark v p]
    cases mark_all (refs_of (idx_element_value v)) p with
    | none => rfl
    | some q => simpa [andThen] using refct_element_values_mark rest q
theorem refct_annotation_mark : ∀ (a : annotation) (p : List (Option cp_info)),
    refct_annotation a p = mark_all (refs_of ( idx_annotation a)) p
  | .mk ti _ ps, p => by
    simp only [ refct_annotation, idx_annotation, refs_of_required, mark_all_cons]
    cases ref p ti with
    | none => rfl
    | some q => simpa [andThen] using refct_element_value_pairs_mark ps q
theorem refct_element_value_pairs_mark : ∀ (ps : List element_value_pair)
    (p : List (Option cp_info)),
    refct_element_value_pairs ps p = mark_all (refs_of (idx_element_value_pairs ps)) p
  | [], p => rfl
  | .mk n v :: rest, p => by
    simp only [refct_element_value_pairs, idx_element_value_pairs, refs_of_required,
      refs_of_append, mark_all_cons]
    cases ref p n with
    | none => rfl
    | some q =>
      simp only [andThen, refct_element_value_mark v q]
      rw [mark_all_append]
      cases mark_all (refs_of (idx_element_value v)) q with
      | none => rfl
      | some q1 => simpa [andThen] using refct_element_value_pairs_mark rest q1
end

theorem rop_run_refs (t : code_h) (g_code : List Nat) (h : rop) (g_pc : Nat)
    (p : List (Option cp_info)) :
    rop_run t g_code h g_pc p
      = match rop_refs t g_code h g_pc with
        | none => none
        | some (pc1, l) => (mark_all l p).map (fun q => (pc1, q)) := by
  cases h <;> simp only [rop_run, rop_refs]
  case rop_0 => rfl
  case no_case => rfl
  case rop_1b => cases argb g_code g_pc <;> rfl
  case rop_1bc =>
    cases argb g_code g_pc with
    | none => rfl
    | some r => simp [mark_all_one]
  case rop_1w => cases argw g_code g_pc <;> rfl
  case rop_1wc =>
    cases argw g_code g_pc with
    | none => rfl
    | some r => simp [mark_all_one]
  case rop_1l => cases argl g_code g_pc <;> rfl
  case rop_2bb =>
    cases argb g_code g_pc with
    | none => rfl
    | some r =>
      obtain ⟨x, pc1⟩ := r
      simp only
      cases argb g_code pc1 <;> rfl
  case rop_2wcb =>
    cases argw g_code g_pc with
    | none => rfl
    | some r =>
      obtain ⟨idx, pc1⟩ := r
      simp only
      cases argb g_code pc1 with
      | none => cases ref p idx <;> rfl
      | some r1 =>
        simp only [Option.map_some', mark_all_one]
        cases ref p idx <;> rfl
  case rop_3wcbx =>
    cases argw g_code g_pc with
    | none => rfl
    | some r =>
      obtain ⟨idx, pc1⟩ := r
      simp only
      cases argb g_code pc1 with
      | none => cases ref p idx <;> rfl
      | some r1 =>
        obtain ⟨x, pc2⟩ := r1
        simp only
        cases argb g_code pc2 with
        | none => cases ref p idx <;> rfl
        | some r2 =>
          simp only [Option.map_some', mark_all_one]
          cases ref p idx <;> rfl
  case rop_lookupswitch => cases rop_lookupswitch g_code g_pc <;> rfl
  case rop_tableswitch => cases rop_tableswitch g_code g_pc <;> rfl
  case rop_wide => cases rop_wide t g_code g_pc <;> rfl

theorem refct_code_loop_refs (t : code_h) (g_code : List Nat) (length : Nat) :
    ∀ (turns g_pc : Nat) (p : List (Option cp_info)),
      refct_code_loop t g_code length turns g_pc p
        = mark_refs (code_refs_loop t g_code length turns g_pc) p
  | 0, g_pc, p => by
    simp only [refct_code_loop, code_refs_loop]
    split <;> rfl
  | turns + 1, g_pc, p => by
    simp only [refct_code_loop, code_refs_loop]
    split
    · cases argb g_code g_pc with
      | none => rfl
      | some r =>
        obtain ⟨op, pc1⟩ := r
        simp only [rop_run_refs]
        cases rop_refs t g_code (t.refct_code_switch op) pc1 with
        | none => rfl
        | some r1 =>
          obtain ⟨pc2, l⟩ := r1
          simp only
          have ih := fun q => refct_code_loop_refs t g_code length turns pc2 q
          cases hc : code_refs_loop t g_code length turns pc2 with
          | none =>
            simp only [Option.map_none', mark_refs]
            cases mark_all l p with
            | none => rfl
            | some q => simp [ih q, hc, mark_refs]
          | some l1 =>
            simp only [Option.map_some', mark_refs, mark_all_append]
            cases mark_all l p with
            | none => rfl
            | some q => simp [ih q, hc, mark_refs, andThen]
    · rfl

theorem refct_code_refs (t : code_h) (code : List Nat) (length : Nat)
    (p : List (Option cp_info)) :
    refct_code t code length p = mark_refs (code_refs t code length) p :=
  refct_code_loop_refs t code length length 0 p

theorem opt_mark (i : Nat) (p : List (Option cp_info)) :
    (if i ≠ 0 then ref p i else some p) = mark_all (refs_of [optional i]) p := by
  by_cases hi : i = 0
  · simp [hi, refs_of_optional, refs_of_nil, mark_all_nil]
  · simp [hi, refs_of_optional, refs_of_nil, mark_all_one]

theorem refct_innerclasses_table_entry_mark (entry : innerclasses_table_entry)
    (p : List (Option cp_info)) :
    refct_innerclasses_table_entry entry p
      = mark_all (refs_of [required entry.inner_class_info_index,
          optional entry.outer_class_info_index, optional entry.inner_name_index]) p := by
  have e : refs_of [required entry.inner_class_info_index,
      optional entry.outer_class_info_index, optional entry.inner_name_index]
      = [entry.inner_class_info_index] ++ (refs_of [optional entry.outer_class_info_index]
        ++ refs_of [optional entry.inner_name_index]) := by
    rw [← refs_of_append, refs_of_required]
    rfl
  rw [e, mark_all_append, mark_all_one]
  unfold refct_innerclasses_table_entry
  refine andThen_eq _ _ _ (fun q => ?_)
  rw [mark_all_append, opt_mark]
  exact andThen_eq _ _ _ (fun q1 => opt_mark _ q1)

theorem refct_exception_table_mark (et : List exception_table_entry)
    (p : List (Option cp_info)) :
    refct_each refct_exception_table_entry et p
      = mark_all ((et.map (fun e => e.catch_type)).filter (fun c => c != 0)) p := by
  induction et generalizing p with
  | nil => rfl
  | cons e rest ih =>
    simp only [refct_each, refct_exception_table_entry, List.map_cons, List.filter_cons]
    by_cases hc : e.catch_type = 0
    · simp [hc, ih]
    · simp only [hc, ne_eq, not_false_eq_true, if_true, bne_iff_ne, mark_all_cons]
      cases ref p e.catch_type with
      | none => rfl
      | some q => simpa [andThen] using ih q

mutual
theorem refct_attribute_info_refs (t : code_h) : ∀ (a : attribute_info)
    (p : List (Option cp_info)),
    refct_attribute_info t a p = mark_refs (refs_attribute_info t a) p
  | .mk n _ _ v, p => by
    simp only [refct_attribute_info, refs_attribute_info]
    cases hv : refs_attribute_value t v with
    | none =>
      simp only [Option.map_none', mark_refs]
      cases ref p n with
      | none => rfl
      | some q => simp [refct_attribute_value_refs t v q, hv, mark_refs]
    | some l =>
      simp only [Option.map_some', mark_refs, mark_all_cons]
      cases ref p n with
      | none => rfl
      | some q => simp [refct_attribute_value_refs t v q, hv, mark_refs, andThen]
theorem refct_attribute_value_refs (t : code_h) : ∀ (v : attribute_value)
    (p : List (Option cp_info)),
    refct_attribute_value t v p = mark_refs (refs_attribute_value t v) p
  | .Unknown, p => rfl
  | .ConstantValue i, p => by
    simp [refct_attribute_value, refs_attribute_value, mark_refs, mark_all_one]
  | .Code _ _ cl code etl et _ attrs, p => by
    simp only [refct_attribute_value, refs_attribute_value, refct_code_refs]
    cases hc : code_refs t code cl with
    | none => rfl
    | some l1 =>
      simp only [mark_refs]
      cases hn : refs_attributes t attrs with
      | none =>
        simp only [Option.map_none']
        cases mark_all l1 p with
        | none => rfl
        | some q =>
          simp only [refct_exception_table_mark]
          cases mark_all (List.filter (fun c => c != 0)
              (List.map (fun e => e.catch_type) (List.take etl et))) q with
          | none => rfl
          | some q1 => simp [refct_attributes_refs t attrs q1, hn, mark_refs]
      | some l2 =>
        simp only [Option.map_some', mark_all_append, catch_refs]
        cases mark_all l1 p with
        | none => rfl
        | some q =>
          simp only [refct_exception_table_mark, andThen]
          cases mark_all (List.filter (fun c => c != 0)
              (List.map (fun e => e.catch_type) (List.take etl et))) q with
          | none => rfl
          | some q1 => simp [refct_attributes_refs t attrs q1, hn, mark_refs]
  | .Exceptions _ table, p => by
    simp [refct_attribute_value, refs_attribute_value, mark_refs, idx_attribute_value,
      refs_of_map_required, mark_all]
  | .InnerClasses _ classes, p => by
    simp only [refct_attribute_value, refs_attribute_value, mark_refs, idx_attribute_value,
      refs_of_flatMap]
    exact refct_each_mark _ _ refct_innerclasses_table_entry_mark classes p
  | .Synthetic, p => rfl
  | .SourceFile i, p => by
    simp [refct_attribute_value, refs_attribute_value, mark_refs, mark_all_one]
  | .LineNumberTable _ _, p => rfl
  | .LocalVariableTable _ table, p => by
    simp only [refct_attribute_value, refs_attribute_value, mark_refs, idx_attribute_value,
      refs_of_flatMap]
    exact refct_each_mark _ _ (fun e q => by
      simp [ref2_mark, refs_of_required, refs_of_nil]) table p
  | .Deprecated, p => rfl
  | .RuntimeVisibleAnnotations _ as, p => by
    simp only [refct_attribute_value, refs_attribute_value, mark_refs, idx_attribute_value,
      idx_annotations_eq, refs_of_flatMap]
    exact refct_each_mark _ _ refct_annotation_mark as p
  | .EnclosingMethod c m, p => by
    simp only [refct_attribute_value, refs_attribute_value, mark_refs, idx_attribute_value,
      refs_of_required, mark_all_cons]
    exact andThen_eq _ _ _ (fun q => opt_mark m q)
  | .StackMapTable, p => rfl
  | .Signature i, p => by
    simp [refct_attribute_value, refs_attribute_value, mark_refs, mark_all_one]
  | .LocalVariableTypeTable _ table, p => by
    simp only [refct_attribute_value, refs_attribute_value, mark_refs, idx_attribute_value,
      refs_of_flatMap]
    exact refct_each_mark _ _ (fun e q => by
      simp [ref2_mark, refs_of_required, refs_of_nil]) table p
  | .AnnotationDefault v, p => by
    simp only [refct_attribute_value, refs_attribute_value, mark_refs, idx_attribute_value]
    exact refct_element_value_mark v p
theorem refct_attributes_refs (t : code_h) : ∀ (as : List attribute_info)
    (p : List (Option cp_info)),
    refct_attributes t as p = mark_refs (refs_attributes t as) p
  | [], p => rfl
  | a :: rest, p => by
    simp only [refct_attributes, refs_attributes, refct_attribute_info_refs t a p]
    cases ha : refs_attribute_info t a with
    | none => rfl
    | some l =>
      simp only [mark_refs]
      cases hr : refs_attributes t rest with
      | none =>
        simp only [Option.map_none']
        cases mark_all l p with
        | none => rfl
        | some q => simp [refct_attributes_refs t rest q, hr, mark_refs]
      | some l1 =>
        simp only [Option.map_some', mark_all_append]
        cases mark_all l p with
        | none => rfl
        | some q => simp [refct_attributes_refs t rest q, hr, mark_refs, andThen]
end

theorem refct_each_refs {α : Type}
    (f : α → List (Option cp_info) → Option (List (Option cp_info)))
    (g : α → Option (List Nat)) (hf : ∀ a p, f a p = mark_refs (g a) p) :
    ∀ (l : List α) (p : List (Option cp_info)),
      refct_each f l p = mark_refs (refs_each g l) p
  | [], p => rfl
  | a :: rest, p => by
    simp only [refct_each, refs_each, hf a p]
    cases ha : g a with
    | none => rfl
    | some l =>
      simp only [mark_refs]
      cases hr : refs_each g rest with
      | none =>
        simp only [Option.map_none']
        cases mark_all l p with
        | none => rfl
        | some q => simp [refct_each_refs f g hf rest q, hr, mark_refs]
      | some l1 =>
        simp only [Option.map_some', mark_all_append]
        cases mark_all l p with
        | none => rfl
        | some q => simp [refct_each_refs f g hf rest q, hr, mark_refs, andThen]

theorem refct_field_info_refs (t : code_h) (fi : field_info) (p : List (Option cp_info)) :
    refct_field_info t fi p = mark_refs (refs_field_info t fi) p := by
  simp only [refct_field_info, refs_field_info]
  cases hr : refs_attributes t fi.attributes with
  | none =>
    simp only [Option.map_none', mark_refs]
    cases ref p fi.name_index with
    | none => rfl
    | some q =>
      simp only [andThen]
      cases ref q fi.descriptor_index with
      | none => rfl
      | some q1 => simp [refct_attributes_refs, hr, mark_refs]
  | some l =>
    simp only [Option.map_some', mark_refs, mark_all_cons]
    refine andThen_eq _ _ _ (fun q => andThen_eq _ _ _ (fun q1 => ?_))
    rw [refct_attributes_refs, hr]
    rfl

theorem refct_method_info_refs (t : code_h) (mi : method_info) (p : List (Option cp_info)) :
    refct_method_info t mi p = mark_refs (refs_method_info t mi) p := by
  simp only [refct_method_info, refs_method_info]
  cases hr : refs_attributes t mi.attributes with
  | none =>
    simp only [Option.map_none', mark_refs]
    cases ref p mi.name_index with
    | none => rfl
    | some q =>
      simp only [andThen]
      cases ref q mi.descriptor_index with
      | none => rfl
      | some q1 => simp [refct_attributes_refs, hr, mark_refs]
  | some l =>
    simp only [Option.map_some', mark_refs, mark_all_cons]
    refine andThen_eq _ _ _ (fun q => andThen_eq _ _ _ (fun q1 => ?_))
    rw [refct_attributes_refs, hr]
    rfl

theorem andThen_none (f : List (Option cp_info) → Option (List (Option cp_info))) :
    andThen none f = none := rfl

theorem andThen_mark_none (r : Option (List (Option cp_info))) :
    andThen r (mark_refs none) = none := by
  cases r <;> rfl

/-- The marking steps of `refct_ClassFile`, as the marking of the list of
references of the model. -/
theorem refct_steps_refs (t : code_h) (cf : ClassFile) (pool0 : List (Option cp_info)) :
    andThen (ref pool0 cf.this_class) (fun p1 =>
    andThen (ref p1 cf.super_class) (fun p2 =>
    andThen (refct_each refct_cp_info cf.constant_pool p2) (fun p3 =>
    andThen (refct_each (fun idx p => ref p idx) cf.interfaces p3) (fun p4 =>
    andThen (refct_each (refct_field_info t) cf.fields p4) (fun p5 =>
    andThen (refct_each (refct_method_info t) cf.methods p5) (fun p6 =>
      refct_attributes t cf.attributes p6))))))
      = mark_refs (refs_ClassFile t cf) pool0 := by
  simp only [refct_each_refs _ _ (refct_field_info_refs t),
    refct_each_refs _ _ (refct_method_info_refs t), refct_attributes_refs,
    refct_each_mark _ _ refct_cp_info_mark]
  unfold refs_ClassFile
  cases hf : refs_each (refs_field_info t) cf.fields with
  | none =>
    simp only [mark_refs]
    cases ref pool0 cf.this_class with
    | none => rfl
    | some p1 =>
      simp only [andThen]
      cases ref p1 cf.super_class with
      | none => rfl
      | some p2 =>
        simp only []
        cases mark_all (cf.constant_pool.flatMap (fun e => refs_of (idx_slot e))) p2 with
        | none => rfl
        | some p3 =>
          simp only []
          cases refct_each (fun idx p => ref p idx) cf.interfaces p3 with
          | none => rfl
          | some p4 => rfl
  | some fl =>
    cases hm : refs_each (refs_method_info t) cf.methods with
    | none =>
      simp only [mark_refs]
      cases ref pool0 cf.this_class with
      | none => rfl
      | some p1 =>
        simp only [andThen]
        cases ref p1 cf.super_class with
        | none => rfl
        | some p2 =>
          simp only []
          cases mark_all (cf.constant_pool.flatMap (fun e => refs_of (idx_slot e))) p2 with
          | none => rfl
          | some p3 =>
            simp only []
            cases refct_each (fun idx p => ref p idx) cf.interfaces p3 with
            | none => rfl
            | some p4 =>
              simp only []
              cases mark_all fl p4 with
              | none => rfl
              | some p5 => rfl
    | some ml =>
      cases ha : refs_attributes t cf.attributes with
      | none =>
        simp only [mark_refs, Option.map_none']
        cases ref pool0 cf.this_class with
        | none => rfl
        | some p1 =>
          simp only [andThen]
          cases ref p1 cf.super_class with
          | none => rfl
          | some p2 =>
            simp only []
            cases mark_all (cf.constant_pool.flatMap (fun e => refs_of (idx_slot e))) p2 with
            | none => rfl
            | some p3 =>
              simp only []
              cases refct_each (fun idx p => ref p idx) cf.interfaces p3 with
              | none => rfl
              | some p4 =>
                simp only []
                cases mark_all fl p4 with
                | none => rfl
                | some p5 =>
                  simp only []
                  cases mark_all ml p5 with
                  | none => rfl
                  | some p6 => rfl
      | some al =>
        simp only [mark_refs, Option.map_some', mark_all_cons, mark_all_append, refs_pool]
        refine andThen_eq _ _ _ (fun p1 => andThen_eq _ _ _ (fun p2 => ?_))
        have i1 : ∀ q, refct_each (fun idx p => ref p idx) cf.interfaces q
            = mark_all cf.interfaces q := fun q => rfl
        simp only [i1]
        change _ = mark_all _ p2
        simp only [mark_all_append]
        cases mark_all (cf.constant_pool.flatMap (fun e => refs_of (idx_slot e))) p2 with
        | none => rfl
        | some p3 =>
          simp only [andThen]
          cases mark_all cf.interfaces p3 with
          | none => rfl
          | some p4 =>
            simp only []
            cases mark_all fl p4 with
            | none => rfl
            | some p5 =>
              simp only []

/-- The mark pass is the marking of the list of references of the model, one
after the other, in a pool whose counts are zero. -/
theorem refct_ClassFile_refs (t : code_h) (cf : ClassFile) :
    refct_ClassFile t cf
      = (mark_refs (refs_ClassFile t cf) (reset_counts cf.constant_pool)).map
          (fun p => { cf with constant_pool := p }) := by
  rw [← refct_steps_refs]
  unfold refct_ClassFile reset_counts
  simp only []
  split <;> rename_i h <;> rw [h] <;> rfl

theorem ref_eq (p : List (Option cp_info)) (i : Nat) (cp : cp_info)
    (h : p[i]? = some (some cp)) (hn : cp.refCount + 1 < 2147483648) :
    ref p i = some (p.set i (some { cp with refCount := cp.refCount + 1 })) := by
  unfold ref
  rw [List.get?_eq_getElem?, h]
  simp only [hn, if_true]

/-- Marking a list of references adds to the count of every entry the number
of occurrences of its index in the list. -/
theorem mark_all_counts : ∀ (l : List Nat) (p : List (Option cp_info)),
    (∀ i ∈ l, ∃ cp, p[i]? = some (some cp) ∧ cp.refCount + l.count i < 2147483648) →
    ∃ q, mark_all l p = some q ∧ q.length = p.length ∧
      ∀ i, q[i]? = (p[i]?).map (Option.map (fun cp : cp_info =>
        { cp with refCount := cp.refCount + l.count i }))
  | [], p, _ => by
    refine ⟨p, rfl, rfl, fun i => ?_⟩
    simp only [List.count_nil, Nat.add_zero]
    cases p[i]? with
    | none => rfl
    | some e => cases e <;> rfl
  | a :: l, p, h => by
    obtain ⟨cp, hcp, hlt⟩ := h a (List.mem_cons_self a l)
    simp only [List.count_cons_self] at hlt
    have hal : a < p.length := by
      by_contra hc
      rw [List.getElem?_eq_none (by omega)] at hcp
      simp at hcp
    have hr := ref_eq p a cp hcp (by omega)
    have h1 : ∀ i ∈ l, ∃ cp1, (p.set a (some { cp with refCount := cp.refCount + 1 }))[i]?
        = some (some cp1) ∧ cp1.refCount + l.count i < 2147483648 := by
      intro i hi
      by_cases e : a = i
      · subst e
        refine ⟨_, by rw [List.getElem?_set, if_pos rfl, if_pos hal], ?_⟩
        simp only
        omega
      · obtain ⟨c, hc, hl⟩ := h i (List.mem_cons_of_mem a hi)
        refine ⟨c, by rw [List.getElem?_set, if_neg e]; exact hc, ?_⟩
        rw [List.count_cons_of_ne (fun x => e x.symm)] at hl
        exact hl
    obtain ⟨q, hq, hlen, hget⟩ := mark_all_counts l _ h1
    refine ⟨q, ?_, by rw [hlen, List.length_set], fun i => ?_⟩
    · rw [mark_all_cons, hr]
      exact hq
    · rw [hget i]
      by_cases e : a = i
      · subst e
        rw [List.getElem?_set, if_pos rfl, if_pos hal, hcp]
        simp only [Option.map_some', List.count_cons_self, Option.some.injEq, cp_info.mk.injEq,
          and_true]
        omega
      · rw [List.getElem?_set, if_neg e, List.count_cons_of_ne (fun x => e x.symm)]

theorem present_iff (p : List (Option cp_info)) (i : Nat) :
    present p i = true ↔ ∃ cp, p[i]? = some (some cp) := by
  unfold present
  split
  · rename_i cp h
    simp [h]
  · rename_i h
    simp only [Bool.false_eq_true, false_iff, not_exists]
    exact fun cp hc => h cp hc

theorem reset_counts_get (p : List (Option cp_info)) (i : Nat) :
    (reset_counts p)[i]? = (p[i]?).map (Option.map (fun cp : cp_info => { cp with refCount := 0 })) := by
  simp [reset_counts]

theorem refs_pool_same {p q : List (Option cp_info)} (h : same_pool p q) :
    refs_pool p = refs_pool q := by
  induction h with
  | nil => rfl
  | cons hab _ ih =>
    simp only [refs_pool, List.flatMap_cons] at ih ⊢
    rw [ih, idx_slot_same hab]

/-- The references of the model do not depend on the counts in the pool. -/
theorem refs_ClassFile_pool (t : code_h) (cf : ClassFile) (q : List (Option cp_info))
    (h : same_pool cf.constant_pool q) :
    refs_ClassFile t { cf with constant_pool := q } = refs_ClassFile t cf := by
  unfold refs_ClassFile
  simp only [refs_pool_same h]

/-- What the mark pass returns: the counts are the numbers of occurrences in
the list of references, and nothing else changes. -/
theorem refct_ClassFile_counts (t : code_h) (cf : ClassFile) (l : List Nat)
    (hl : refs_ClassFile t cf = some l)
    (hv : ∀ i ∈ l, present cf.constant_pool i = true)
    (hn : l.length < 2147483648) :
    ∃ q, refct_ClassFile t cf = some { cf with constant_pool := q } ∧
      q.length = cf.constant_pool.length ∧
      (∀ i, q[i]? = counted l cf.constant_pool i) ∧
      same_pool cf.constant_pool q := by
  have h1 : ∀ i ∈ l, ∃ cp, (reset_counts cf.constant_pool)[i]? = some (some cp) ∧
      cp.refCount + l.count i < 2147483648 := by
    intro i hi
    obtain ⟨cp, hcp⟩ := (present_iff _ _).1 (hv i hi)
    refine ⟨{ cp with refCount := 0 }, by rw [reset_counts_get, hcp]; rfl, ?_⟩
    have := List.count_le_length i l
    simp only
    omega
  obtain ⟨q, hq, hlen, hget⟩ := mark_all_counts l _ h1
  have hc : ∀ i, q[i]? = counted l cf.constant_pool i := by
    intro i
    rw [hget i, reset_counts_get, counted]
    cases cf.constant_pool[i]? with
    | none => rfl
    | some e =>
      cases e with
      | none => rfl
      | some cp => simp
  have hlen1 : q.length = cf.constant_pool.length := by
    rw [hlen, reset_counts, List.length_map]
  refine ⟨q, ?_, hlen1, hc, ?_⟩
  · rw [refct_ClassFile_refs, hl, mark_refs_some, hq]
    rfl
  · unfold same_pool
    rw [List.forall₂_iff_get]
    refine ⟨hlen1.symm, fun i h1 h2 => ?_⟩
    have e := hc i
    rw [counted, List.getElem?_eq_getElem h1, List.getElem?_eq_getElem h2] at e
    simp only [Option.map_some', Option.some.injEq] at e
    simp only [List.get_eq_getElem]
    rw [e]
    unfold same_slot
    cases cf.constant_pool[i] <;> rfl

/-! ## The mark pass: the claim on the counts -/

/-! ## Pruning: the frame -/

theorem pruned_with_frame (constant_pool : List (Option cp_info)) (mi : method_info)
    (a a1 : attribute_info) (h : pruned_with constant_pool mi a a1) :
    stack_and_locals a1 = stack_and_locals a := by
  obtain ⟨n, l, i, v⟩ := a
  cases v <;> simp only [pruned_with] at h
  case Code =>
    obtain ⟨_, _, _, _, rfl⟩ := h
    rfl
  all_goals
    subst h
    rfl

theorem forall₂_map_eq {α β γ : Type} (R : α → β → Prop) (f : α → γ) (g : β → γ)
    (h : ∀ a b, R a b → g b = f a) :
    ∀ (l1 : List α) (l2 : List β), List.Forall₂ R l1 l2 → l2.map g = l1.map f := by
  intro l1 l2 hr
  induction hr with
  | nil => rfl
  | cons hab _ ih => simp only [List.map_cons, h _ _ hab, ih]

/-- C16 (prune frame).  On every model that pruning runs on to its end,
`prune_ClassFile` returns a model with the same constant pool and
`constant_pool_count`, magic, minor and major version, class access flags,
`this_class`, `super_class`, interface count and interfaces; and the kept
attributes of every kept method declare, one by one, the stack and local sizes
that they declared before. -/
theorem prune_frame (cf : ClassFile) (h : prunable cf = true) :
    ∃ cf1, prune_ClassFile cf = some cf1 ∧
      cf1.constant_pool = cf.constant_pool ∧
      cf1.constant_pool_count = cf.constant_pool_count ∧
      cf1.constant_pool_map = cf.constant_pool_map ∧
      cf1.magic = cf.magic ∧ cf1.minor_version = cf.minor_version ∧
      cf1.major_version = cf.major_version ∧ cf1.access_flags = cf.access_flags ∧
      cf1.this_class = cf.this_class ∧ cf1.super_class = cf.super_class ∧
      cf1.interfaces_count = cf.interfaces_count ∧ cf1.interfaces = cf.interfaces ∧
      List.Forall₂ (fun mi mi1 =>
          mi1.attributes.map stack_and_locals
            = (mi.attributes.filter kept).map stack_and_locals)
        (cf.methods.filter (fun mi => visible mi.access_flags)) cf1.methods := by
  obtain ⟨cf1, h1⟩ := prune_ClassFile_total cf h
  obtain ⟨_, _, hm, _⟩ := prune_ClassFile_spec cf cf1 h1
  have hf : cf1.constant_pool = cf.constant_pool ∧
      cf1.constant_pool_count = cf.constant_pool_count ∧
      cf1.constant_pool_map = cf.constant_pool_map ∧
      cf1.magic = cf.magic ∧ cf1.minor_version = cf.minor_version ∧
      cf1.major_version = cf.major_version ∧ cf1.access_flags = cf.access_flags ∧
      cf1.this_class = cf.this_class ∧ cf1.super_class = cf.super_class ∧
      cf1.interfaces_count = cf.interfaces_count ∧ cf1.interfaces = cf.interfaces := by
    unfold prune_ClassFile at h1
    split at h1
    · simp at h1
    · split at h1
      · simp at h1
      · split at h1
        · simp at h1
        · simp only [Option.some.injEq] at h1
          subst h1
          simp
  obtain ⟨f1, f2, f3, f4, f5, f6, f7, f8, f9, f10, f11⟩ := hf
  refine ⟨cf1, h1, f1, f2, f3, f4, f5, f6, f7, f8, f9, f10, f11, ?_⟩
  refine List.Forall₂.imp ?_ hm
  intro mi mi1 hmi
  exact forall₂_map_eq _ _ _ (pruned_with_frame cf.constant_pool mi) _ _ hmi.2.2.2.1

/-- Witness for C16: the example class, whose protected method has a Code
attribute that declares one stack slot and one local. -/
theorem prune_frame_witness :
    prunable exampleClass = true ∧
    ∃ cf1, prune_ClassFile exampleClass = some cf1 ∧
      cf1.constant_pool = examplePool ∧ cf1.constant_pool_count = 14 ∧
      cf1.this_class = 6 ∧ cf1.super_class = 7 ∧
      cf1.methods.map (fun mi => mi.attributes.map stack_and_locals) = [[some (1, 1)]] := by
  obtain ⟨cf1, h, h1, h2, _, _, _, _, _, h3, h4, _, _, _⟩ :=
    prune_frame exampleClass (by decide)
  have hx : (prune_ClassFile exampleClass).map (fun r =>
      r.methods.map (fun mi => mi.attributes.map stack_and_locals))
      = some [[some (1, 1)]] := by rfl
  rw [h] at hx
  simp only [Option.map_some', Option.some.injEq] at hx
  exact ⟨by decide, cf1, h, h1, h2, h3, h4, hx⟩

/-! ## The reader: a tag that is not known -/

/-- A tag outside the known ones has no `case`: `read_cp_info` returns null. -/
theorem read_cp_info_bad_tag (g_littleEndian : Bool) (fyle s : List Nat) (tag : Nat)
    (h : read_u1 fyle = some (tag, s)) (hbad : tag ∉ known_tags) :
    read_cp_info g_littleEndian fyle = some (none, s) := by
  simp only [known_tags, List.mem_cons, List.mem_singleton, List.not_mem_nil, or_false,
    not_or] at hbad
  obtain ⟨t1, t3, t4, t5, t6, t7, t8, t9, t10, t11, t12⟩ := hbad
  unfold read_cp_info
  rw [h]
  simp only [CONSTANT_Class, CONSTANT_Fieldref, CONSTANT_Methodref,
    CONSTANT_InterfaceMethodref, CONSTANT_String, CONSTANT_Integer, CONSTANT_Float,
    CONSTANT_Long, CONSTANT_Double, CONSTANT_NameAndType, CONSTANT_Utf8,
    if_neg t1, if_neg t3, if_neg t4, if_neg t5, if_neg t6, if_neg t7, if_neg t8, if_neg t9,
    if_neg t10, if_neg t11, if_neg t12]

/-- The loop of `read_constant_pool` after `k` slots that it has filled. -/
theorem read_constant_pool_loop_add (g_littleEndian : Bool) (r : Nat) :
    ∀ (k : Nat) (s s1 : List Nat) (l : List (Option cp_info)),
      read_constant_pool_loop g_littleEndian k s = some (l, s1) →
      read_constant_pool_loop g_littleEndian (k + r) s
        = (read_constant_pool_loop g_littleEndian r s1).map (fun x => (l ++ x.1, x.2)) := by
  intro k
  induction k using Nat.strong_induction_on with
  | _ k ih =>
    intro s s1 l h
    cases k with
    | zero =>
      simp only [read_constant_pool_loop, Option.some.injEq, Prod.mk.injEq] at h
      obtain ⟨rfl, rfl⟩ := h
      rw [Nat.zero_add]
      cases read_constant_pool_loop g_littleEndian r s with
      | none => rfl
      | some x => rfl
    | succ k =>
      rw [Nat.add_right_comm]
      rw [read_constant_pool_loop] at h
      conv_lhs => rw [read_constant_pool_loop]
      split at h
      swap
      · simp at h
      rename_i cp s2 hcp
      by_cases hl : isLong cp = true
      · simp only [hl, if_true] at h ⊢
        cases k with
        | zero => simp at h
        | succ k1 =>
          simp only at h
          rw [Nat.add_right_comm]
          simp only
          cases h2 : read_constant_pool_loop g_littleEndian k1 s2 with
          | none => simp [h2] at h
          | some x =>
            obtain ⟨l2, s3⟩ := x
            simp only [h2, Option.some.injEq, Prod.mk.injEq] at h
            obtain ⟨rfl, rfl⟩ := h
            rw [ih k1 (by omega) s2 s3 l2 h2]
            cases read_constant_pool_loop g_littleEndian r s3 with
            | none => rfl
            | some y => rfl
      · simp only [hl, Bool.false_eq_true, if_false] at h ⊢
        cases h2 : read_constant_pool_loop g_littleEndian k s2 with
        | none => simp [h2] at h
        | some x =>
          obtain ⟨l2, s3⟩ := x
          simp only [h2, Option.some.injEq, Prod.mk.injEq] at h
          obtain ⟨rfl, rfl⟩ := h
          rw [ih k (by omega) s2 s3 l2 h2]
          cases read_constant_pool_loop g_littleEndian r s3 with
          | none => rfl
          | some y => rfl

/-- The loop of `read_constant_pool` stops at a tag that has no `case`. -/
theorem read_constant_pool_bad_tag (g_littleEndian : Bool) (count k tag : Nat)
    (s s1 s2 : List Nat) (l : List (Option cp_info))
    (hk : read_constant_pool_loop g_littleEndian k s = some (l, s1))
    (hlt : k + 1 < count)
    (ht : read_u1 s1 = some (tag, s2)) (hbad : tag ∉ known_tags) :
    read_constant_pool g_littleEndian s count = none := by
  unfold read_constant_pool
  rw [if_neg (by omega)]
  have e : count - 1 = k + (count - 2 - k + 1) := by omega
  rw [e, read_constant_pool_loop_add g_littleEndian _ k s s1 l hk]
  rw [read_constant_pool_loop, read_cp_info_bad_tag g_littleEndian s1 s2 tag ht hbad]
  rfl

/-! ## Attributes of an unknown name -/

/-- A name that is none of the fifteen falls through to the last `else`. -/
theorem decode_scan_unknown (g_littleEndian : Bool)
    (scan_attributes : Nat → List Nat → Option (List attribute_info × List Nat))
    (constant_pool : List (Option cp_info)) (n : Nat) (info name : List Nat)
    (hn : pUtf8 constant_pool n = some name) (hu : name ∉ recognized_names) :
    decode_scan g_littleEndian scan_attributes constant_pool n info = some (.Unknown, info) := by
  simp only [recognized_names, List.mem_cons, List.mem_singleton, List.not_mem_nil, or_false,
    not_or] at hu
  obtain ⟨u1, u2, u3, u4, u5, u6, u7, u8, u9, u10, u11, u12, u13, u14, u15⟩ := hu
  unfold decode_scan
  rw [hn]
  simp only [if_neg u1, if_neg u2, if_neg u3, if_neg u4, if_neg u5, if_neg u6, if_neg u7,
    if_neg u8, if_neg u9, if_neg u10, if_neg u11, if_neg u12, if_neg u13, if_neg u14,
    if_neg u15]

theorem decode_attribute_value_unknown (g_littleEndian : Bool)
    (constant_pool : List (Option cp_info)) (n : Nat) (info name : List Nat)
    (hn : pUtf8 constant_pool n = some name) (hu : name ∉ recognized_names) :
    decode_attribute_value g_littleEndian constant_pool n info = some .Unknown := by
  unfold decode_attribute_value
  cases info.length with
  | zero =>
    rw [decode_attribute_scan, decode_scan_unknown g_littleEndian _ constant_pool n info name hn hu]
    rfl
  | succ d =>
    rw [decode_attribute_scan, decode_scan_unknown g_littleEndian _ constant_pool n info name hn hu]
    rfl

/-- The text that `pUtf8` returns for an entry that is not a Utf8 entry. -/
theorem pUtf8_not_utf8 (constant_pool : List (Option cp_info)) (n : Nat) (cp : cp_info)
    (h : constant_pool[n]? = some (some cp)) (ht : cp.tag ≠ CONSTANT_Utf8) :
    pUtf8 constant_pool n = some (cbytes "<invalidutf8>") := by
  unfold pUtf8
  rw [List.get?_eq_getElem?, h]
  obtain ⟨rc, i⟩ := cp
  cases i <;> first | rfl | exact absurd rfl ht

theorem pUtf8_absent (constant_pool : List (Option cp_info)) (n : Nat)
    (h : present constant_pool n = false) : pUtf8 constant_pool n = none := by
  unfold present at h
  unfold pUtf8
  rw [List.get?_eq_getElem?]
  cases hc : constant_pool[n]? with
  | none => rfl
  | some e =>
    cases e with
    | none => rfl
    | some cp =>
      rw [hc] at h
      simp at h

/-- C18 (unknown attributes are opaque).  Let the name index of an attribute
resolve, through `pUtf8`, to a text that is none of the fifteen recognized
names, and let its payload `info` have the length `len` that the reader gives
it, below 2^31.  Then `decode_attribute_value` yields the Unknown variant;
`prune_attribute_info` keeps the attribute as it is; `gc_attribute_info`
changes its name index and nothing else; and `encode_attribute_value`
regenerates the payload `info`, byte for byte and so with the same length,
exactly when `len` is at most 65000, the size of its buffer: for a longer
payload it writes past the end of the buffer. -/
theorem unknown_attribute_opaque (g_littleEndian : Bool)
    (constant_pool : List (Option cp_info)) (mi : Option method_info) (MAP : Nat → Nat)
    (n len : Nat) (info name : List Nat)
    (hn : pUtf8 constant_pool n = some name) (hu : name ∉ recognized_names)
    (hlen : info.length = len) (hl : len < 2147483648) :
    decode_attribute_value g_littleEndian constant_pool n info = some .Unknown ∧
    prune_attribute_info constant_pool (.mk n len info .Unknown) mi
      = some (false, .mk n len info .Unknown) ∧
    gc_attribute_info MAP (.mk n len info .Unknown) = .mk (MAP n) len info .Unknown ∧
    encode_attribute_value g_littleEndian (.mk (MAP n) len info .Unknown)
      = if len ≤ 65000 then some info else none := by
  refine ⟨decode_attribute_value_unknown g_littleEndian constant_pool n info name hn hu,
    ?_, ?_, ?_⟩
  · simp only [prune_attribute_info]
  · simp only [gc_attribute_info, gc_attribute_value]
  · simp only [encode_attribute_value, encode_switch, emit_u1_array, hl, if_true]
    rw [← hlen, List.take_length]

/-- Witness for C18: an attribute named `SourceDebugExtension` with a payload
of three bytes, and one with a payload of 65001 bytes, which
`encode_attribute_value` cannot regenerate. -/
theorem unknown_attribute_opaque_witness :
    pUtf8 bigPool 5 = some (cbytes "SourceDebugExtension") ∧
    (decode_attribute_value false bigPool 5 [1, 2, 3] = some .Unknown ∧
      prune_attribute_info bigPool (.mk 5 3 [1, 2, 3] .Unknown) none
        = some (false, .mk 5 3 [1, 2, 3] .Unknown) ∧
      gc_attribute_info (fun i => i - 1) (.mk 5 3 [1, 2, 3] .Unknown)
        = .mk 4 3 [1, 2, 3] .Unknown ∧
      encode_attribute_value false (.mk 4 3 [1, 2, 3] .Unknown) = some [1, 2, 3]) ∧
    decode_attribute_value false bigPool 5 bigPayload = some .Unknown ∧
    encode_attribute_value false (.mk 5 65001 bigPayload .Unknown) = none := by
  have hp : pUtf8 bigPool 5 = some (cbytes "SourceDebugExtension") := by decide
  have h1 := unknown_attribute_opaque false bigPool none (fun i => i - 1) 5 3 [1, 2, 3] _ hp
    (by decide) rfl (by decide)
  have h2 := unknown_attribute_opaque false bigPool none (fun i => i) 5 65001 bigPayload _ hp
    (by decide) bigPayload_length (by decide)
  exact ⟨hp, h1, h2.1, h2.2.2.2.trans (if_neg (by decide))⟩

/-! ## The reader: an attribute name that is not a Utf8 entry -/

theorem decode_attribute_value_absent (g_littleEndian : Bool)
    (constant_pool : List (Option cp_info)) (n : Nat) (info : List Nat)
    (h : present constant_pool n = false) :
    decode_attribute_value g_littleEndian constant_pool n info = none := by
  unfold decode_attribute_value
  cases info.length with
  | zero =>
    rw [decode_attribute_scan, decode_scan, pUtf8_absent constant_pool n h]
    rfl
  | succ d =>
    rw [decode_attribute_scan, decode_scan, pUtf8_absent constant_pool n h]
    rfl

/-- C19, as amended (attribute name that is not a Utf8 entry).  Let the name
index, the length and the payload of an attribute be read from the input.  If
the name index denotes an entry of the pool that is not a Utf8 entry, the read
does not stop: `read_attribute_info` returns the attribute, decoded as the
Unknown variant with its payload kept, and the stream behind it.  If the name
index denotes no entry at all (a null slot or an index outside the pool),
`read_attribute_info` returns nothing. -/
theorem read_attribute_bad_name (g_littleEndian : Bool)
    (constant_pool : List (Option cp_info)) (fyle s s1 rest info : List Nat) (n len : Nat)
    (h1 : read_u2 g_littleEndian fyle = some (n, s))
    (h2 : read_u4 g_littleEndian s = some (len, s1))
    (h3 : read_u1_array s1 len = some (info, rest)) :
    (∀ cp, constant_pool[n]? = some (some cp) → cp.tag ≠ CONSTANT_Utf8 →
      read_attribute_info g_littleEndian constant_pool fyle
        = some (.mk n len info .Unknown, rest)) ∧
    (present constant_pool n = false →
      read_attribute_info g_littleEndian constant_pool fyle = none) := by
  constructor
  · intro cp hcp ht
    unfold read_attribute_info
    simp only [h1, h2, h3]
    rw [decode_attribute_value_unknown g_littleEndian constant_pool n info _
      (pUtf8_not_utf8 constant_pool n cp hcp ht) (by decide)]
    rfl
  · intro hp
    unfold read_attribute_info
    simp only [h1, h2, h3]
    rw [decode_attribute_value_absent g_littleEndian constant_pool n info hp]
    rfl

/-- Witness for C19 as amended: the attribute of the example file, read with a
pool in which index 2 is a Class entry, and with a pool in which it is null. -/
theorem read_attribute_bad_name_witness :
    read_attribute_info false [none, utf8 0 "A", some ⟨0, .class_info 1⟩]
        (badNameFile.drop 31) = some (.mk 2 0 [] .Unknown, []) ∧
    read_attribute_info false [none, some ⟨0, .long 0 1⟩, none] (badNameFile.drop 31) = none := by
  have h := fun pool => read_attribute_bad_name false pool (badNameFile.drop 31)
    (badNameFile.drop 33) [] [] [] 2 0 (by decide) (by decide) (by decide)
  exact ⟨(h _).1 ⟨0, .class_info 1⟩ (by decide) (by decide), (h _).2 (by decide)⟩

/-- Counterexample to C19 as stated: the name index of the one attribute of
the example file denotes a Class entry, and `read_ClassFile` returns a model
that holds this attribute, decoded as Unknown. -/
theorem read_bad_name_counterexample :
    (read_ClassFile false badNameFile).map (fun r =>
        (r.1.constant_pool, r.1.attributes, r.2))
      = some ([none, utf8 0 "A", some ⟨0, .class_info 1⟩], [.mk 2 0 [] .Unknown], []) := by
  rfl

/-! ## The driver loop: termination -/

/-- The mark pass keeps a well-formed pool well formed. -/
theorem refct_pool_wf (t : code_h) (cf cf1 : ClassFile) (hwf : pool_wf cf = true)
    (hr : refct_ClassFile t cf = some cf1) :
    pool_wf cf1 = true ∧ cf1.constant_pool_count = cf.constant_pool_count ∧
      same_pool cf.constant_pool cf1.constant_pool := by
  obtain ⟨hcount, _, hle, _, _⟩ := refct_ClassFile_spec t cf cf1 hr
  have hsame := same_pool_of_reset_le _ _ hle
  simp only [pool_wf, Bool.and_eq_true, decide_eq_true_eq] at hwf
  obtain ⟨⟨hlen0, hpos0⟩, hwf0⟩ := hwf
  refine ⟨?_, hcount, hsame⟩
  simp only [pool_wf, Bool.and_eq_true, decide_eq_true_eq]
  refine ⟨⟨by rw [hcount, ← same_pool_length hsame, hlen0], by omega⟩, ?_⟩
  rw [← pool_wf_from_same _ _ (same_pool_drop hsame 1)]
  exact hwf0

/-- The sweep of a well-formed pool: it returns, the new pool is well formed,
and the flag tells whether the count is unchanged. -/
theorem gc_pool_wf (uninit : Nat → Nat) (cf : ClassFile) (hwf : pool_wf cf = true) :
    ∃ cf2, gc_ClassFile uninit cf
        = some (cf.constant_pool_count == cf2.constant_pool_count, cf2) ∧
      pool_wf cf2 = true ∧
      cf2.constant_pool_count = 1 + (survivors cf).length ∧
      cf2.constant_pool_count ≤ cf.constant_pool_count ∧
      (cf.constant_pool[0]? = some none → cf2.constant_pool[0]? = some none) := by
  have hspec := gc_ClassFile_spec uninit cf hwf
  have hle := survivors_length_le cf
  simp only [pool_wf, Bool.and_eq_true, decide_eq_true_eq] at hwf
  obtain ⟨⟨hlen, hpos⟩, hwf1⟩ := hwf
  have htake : (cf.constant_pool.take 1).length = 1 := by
    rw [List.length_take]
    omega
  refine ⟨{ cf with
      constant_pool_map := gc_map uninit cf,
      constant_pool_count := 1 + (survivors cf).length,
      this_class := gc_MAP uninit cf cf.this_class,
      super_class := gc_MAP uninit cf cf.super_class,
      constant_pool :=
        (cf.constant_pool.take 1
          ++ (survivors cf).map (fun j => cf.constant_pool.getD j none)).map
            (Option.map (gc_cp_info (gc_MAP uninit cf))),
      interfaces := cf.interfaces.map (gc_MAP uninit cf),
      fields := cf.fields.map (gc_field_info (gc_MAP uninit cf)),
      methods := cf.methods.map (gc_method_info (gc_MAP uninit cf)),
      attributes := gc_attributes (gc_MAP uninit cf) cf.attributes }, hspec, ?_, rfl, ?_, ?_⟩
  · simp only [pool_wf, Bool.and_eq_true, decide_eq_true_eq]
    refine ⟨⟨?_, by omega⟩, ?_⟩
    · rw [List.length_map, List.length_append, htake, List.length_map]
    · rw [← List.map_drop, List.drop_append_eq_append_drop, htake]
      simp only [Nat.sub_self, List.drop_zero]
      rw [List.drop_eq_nil_of_le (by omega), List.nil_append, pool_wf_from_map,
        ← kept_slots_snd cf hwf1 hlen]
      exact pool_wf_from_kept _ 1 hwf1
  · simp only
    omega
  · intro h0
    simp only
    rw [List.getElem?_map, List.getElem?_append_left (by omega), List.getElem?_take]
    simp [h0]

/-- One round of the loop on a well-formed pool, when the mark pass returns. -/
theorem round_pool_wf (t : code_h) (uninit : Nat → Nat) (cf cf1 : ClassFile)
    (hwf : pool_wf cf = true) (hr : refct_ClassFile t cf = some cf1) :
    ∃ cf2, gc_ClassFile uninit cf1
        = some (cf.constant_pool_count == cf2.constant_pool_count, cf2) ∧
      pool_wf cf2 = true ∧
      cf2.constant_pool_count ≤ cf.constant_pool_count ∧
      (cf.constant_pool[0]? = some none → cf2.constant_pool[0]? = some none) := by
  obtain ⟨hwf1, hc, hs⟩ := refct_pool_wf t cf cf1 hwf hr
  obtain ⟨cf2, hg, hwf2, _, hle, h0⟩ := gc_pool_wf uninit cf1 hwf1
  rw [hc] at hg hle
  exact ⟨cf2, hg, hwf2, hle, fun h => h0 (same_pool_get_none hs 0 h)⟩

theorem pool_wf_pos (cf : ClassFile) (hwf : pool_wf cf = true) : 0 < cf.constant_pool_count := by
  simp only [pool_wf, Bool.and_eq_true, decide_eq_true_eq] at hwf
  exact hwf.1.2

/-- The loop does not use up a bound of `constant_pool_count` rounds, and it
is left after at most that many rounds. -/
theorem gc_loop_bound (t : code_h) (uninit : Nat → Nat → Nat) :
    ∀ (fuel n : Nat) (cf : ClassFile), pool_wf cf = true → cf.constant_pool_count ≤ fuel →
      gc_loop t uninit fuel n cf ≠ .unfinished ∧
      ∀ rounds cf3, gc_loop t uninit fuel n cf = .finished rounds cf3 →
        n < rounds ∧ rounds ≤ n + cf.constant_pool_count
  | 0, n, cf, hwf, hle => by
    have := pool_wf_pos cf hwf
    omega
  | fuel + 1, n, cf, hwf, hle => by
    have hpos := pool_wf_pos cf hwf
    rw [gc_loop]
    cases hr : refct_ClassFile t cf with
    | none => simp
    | some cf1 =>
      obtain ⟨cf2, hg, hwf2, hle2, _⟩ := round_pool_wf t (uninit n) cf cf1 hwf hr
      simp only [hg]
      by_cases hd : (cf.constant_pool_count == cf2.constant_pool_count) = true
      · simp only [hd, if_true]
        refine ⟨by simp, fun rounds cf3 h => ?_⟩
        simp only [loop_result.finished.injEq] at h
        omega
      · simp only [hd, Bool.false_eq_true, if_false]
        have hne : cf.constant_pool_count ≠ cf2.constant_pool_count := by
          simpa using hd
        obtain ⟨h1, h2⟩ := gc_loop_bound t uninit fuel (n + 1) cf2 hwf2 (by omega)
        refine ⟨h1, fun rounds cf3 h => ?_⟩
        have := h2 rounds cf3 h
        omega

/-- A run that does not use up its bound is the same with a larger bound. -/
theorem gc_loop_more (t : code_h) (uninit : Nat → Nat → Nat) (k : Nat) :
    ∀ (fuel n : Nat) (cf : ClassFile), gc_loop t uninit fuel n cf ≠ .unfinished →
      gc_loop t uninit (fuel + k) n cf = gc_loop t uninit fuel n cf
  | 0, n, cf, h => by simp [gc_loop] at h
  | fuel + 1, n, cf, h => by
    rw [Nat.add_right_comm, gc_loop, gc_loop]
    rw [gc_loop] at h
    cases hr : refct_ClassFile t cf with
    | none => rfl
    | some cf1 =>
      simp only [hr] at h ⊢
      cases hg : gc_ClassFile (uninit n) cf1 with
      | none => rfl
      | some r =>
        obtain ⟨done, cf2⟩ := r
        simp only [hg] at h ⊢
        cases done with
        | true => rfl
        | false =>
          simp only [Bool.false_eq_true, if_false] at h ⊢
          exact gc_loop_more t uninit k fuel (n + 1) cf2 h

/-- C14 (fixpoint termination).  On a well-formed pool `gc_ClassFile` returns;
the new `constant_pool_count` is at most the old one; the flag it returns is
true exactly when the count is unchanged, and when it is false the count is
smaller.  Hence the driver loop does not use up a bound of
`constant_pool_count` rounds (it is left, or a pass has no result), a larger
bound gives the same run, and when the loop is left it has made at most
`constant_pool_count` rounds. -/
theorem gc_loop_terminates (t : code_h) (uninit : Nat → Nat → Nat) (cf : ClassFile)
    (hwf : pool_wf cf = true) :
    (∀ u, ∃ done cf2, gc_ClassFile u cf = some (done, cf2) ∧
      cf2.constant_pool_count ≤ cf.constant_pool_count ∧
      (done = true ↔ cf2.constant_pool_count = cf.constant_pool_count) ∧
      (done = false → cf2.constant_pool_count < cf.constant_pool_count)) ∧
    gc_loop t uninit cf.constant_pool_count 0 cf ≠ .unfinished ∧
    (∀ fuel, cf.constant_pool_count ≤ fuel →
      gc_loop t uninit fuel 0 cf = gc_loop t uninit cf.constant_pool_count 0 cf) ∧
    ∀ rounds cf3, gc_loop t uninit cf.constant_pool_count 0 cf = .finished rounds cf3 →
      rounds ≤ cf.constant_pool_count := by
  obtain ⟨h1, h2⟩ := gc_loop_bound t uninit cf.constant_pool_count 0 cf hwf (Nat.le_refl _)
  refine ⟨fun u => ?_, h1, fun fuel hf => ?_, fun rounds cf3 h => ?_⟩
  · obtain ⟨cf2, hg, _, _, hle, _⟩ := gc_pool_wf u cf hwf
    refine ⟨_, cf2, hg, hle, ?_, ?_⟩
    · rw [beq_iff_eq]
      exact ⟨fun h => h.symm, fun h => h.symm⟩
    · intro hd
      have hne : cf.constant_pool_count ≠ cf2.constant_pool_count := by
        simpa using hd
      omega
  · obtain ⟨k, rfl⟩ := Nat.exists_eq_add_of_le hf
    exact gc_loop_more t uninit k _ 0 cf h1
  · have := (h2 rounds cf3 h).2
    omega

/-- Witness for C14: the loop on the example is left after two rounds, with a
bound of 9, its `constant_pool_count`, and with a bound of 100. -/
theorem gc_loop_terminates_witness :
    pool_wf markExample = true ∧
    (gc_loop stub_opcodes (fun _ _ => 0) 9 0 markExample).rounds = some 2 ∧
    gc_loop stub_opcodes (fun _ _ => 0) 100 0 markExample
      = gc_loop stub_opcodes (fun _ _ => 0) markExample.constant_pool_count 0 markExample :=
  ⟨by decide, by decide!,
    (gc_loop_terminates stub_opcodes (fun _ _ => 0) markExample (by decide)).2.2.1 100
      (by decide)⟩

/-! ## The driver loop: the last round -/

theorem refs_all_append {P : Nat → Prop} {a b : List (Bool × Nat)}
    (h : ∀ x ∈ refs_of (a ++ b), P x) :
    (∀ x ∈ refs_of a, P x) ∧ ∀ x ∈ refs_of b, P x := by
  rw [refs_of_append] at h
  exact ⟨fun x hx => h x (List.mem_append_left _ hx), fun x hx => h x (List.mem_append_right _ hx)⟩

theorem refs_all_required {P : Nat → Prop} {i : Nat} {l : List (Bool × Nat)}
    (h : ∀ x ∈ refs_of (required i :: l), P x) : P i ∧ ∀ x ∈ refs_of l, P x := by
  rw [refs_of_required] at h
  exact ⟨h i (List.mem_cons_self _ _), fun x hx => h x (List.mem_cons_of_mem _ hx)⟩

theorem refs_all_optional {P : Nat → Prop} {i : Nat} {l : List (Bool × Nat)}
    (h : ∀ x ∈ refs_of (optional i :: l), P x) : (i ≠ 0 → P i) ∧ ∀ x ∈ refs_of l, P x := by
  rw [refs_of_optional] at h
  by_cases hi : i = 0
  · simp only [hi, ne_eq, not_true_eq_false, if_false] at h
    exact ⟨fun hc => absurd hi hc, h⟩
  · simp only [hi, ne_eq, not_false_eq_true, if_true] at h
    exact ⟨fun _ => h i (List.mem_cons_self _ _), fun x hx => h x (List.mem_cons_of_mem _ hx)⟩

/-- A map that fixes the indices of an entry leaves the entry as it is. -/
theorem gc_cp_info_id (m : Nat → Nat) (cp : cp_info)
    (h : ∀ x ∈ refs_of (idx_cp_info cp), m x = x) : gc_cp_info m cp = cp := by
  obtain ⟨r, d⟩ := cp
  cases d <;> simp only [idx_cp_info, refs_of_required, refs_of_nil, List.mem_cons,
    List.mem_singleton, List.not_mem_nil, or_false, forall_eq_or_imp, forall_eq] at h <;>
    simp [gc_cp_info, h]

mutual
theorem gc_element_value_id (m : Nat → Nat) : ∀ (v : element_value),
    (∀ x ∈ refs_of (idx_element_value v), m x = x) → gc_element_value m v = v
  | .const _ _, h => by
    simp only [idx_element_value] at h
    simp [gc_element_value, (refs_all_required h).1]
  | .enum_const _ _, h => by
    simp only [idx_element_value] at h
    simp [gc_element_value, (refs_all_required h).1,
      (refs_all_required (refs_all_required h).2).1]
  | .class_info _, h => by
    simp only [idx_element_value] at h
    simp [gc_element_value, (refs_all_required h).1]
  | .annotation_value a, h => by
    simp only [idx_element_value] at h
    simp [gc_element_value, gc_annotation_id m a h]
  | .array _ vs, h => by
    simp only [idx_element_value] at h
    simp [gc_element_value, gc_element_values_id m vs h]
theorem gc_element_values_id (m : Nat → Nat) : ∀ (vs : List element_value),
    (∀ x ∈ refs_of (idx_element_values vs), m x = x) → gc_element_values m vs = vs
  | [], _ => rfl
  | v :: rest, h => by
    simp only [idx_element_values] at h
    simp [gc_element_values, gc_element_value_id m v (refs_all_append h).1,
      gc_element_values_id m rest (refs_all_append h).2]
theorem gc_annotation_id (m : Nat → Nat) : ∀ (a : annotation),
    (∀ x ∈ refs_of ( idx_annotation a), m x = x) → gc_annotation m a = a
  | .mk _ _ ps, h => by
    simp only [ idx_annotation] at h
    simp [ gc_annotation, (refs_all_required h).1,
      gc_element_value_pairs_id m ps (refs_all_required h).2]
theorem gc_element_value_pairs_id (m : Nat → Nat) : ∀ (ps : List element_value_pair),
    (∀ x ∈ refs_of (idx_element_value_pairs ps), m x = x) → gc_element_value_pairs m ps = ps
  | [], _ => rfl
  | .mk _ v :: rest, h => by
    simp only [idx_element_value_pairs] at h
    have h1 := refs_all_required h
    simp [gc_element_value_pairs, h1.1, gc_element_value_id m v (refs_all_append h1.2).1,
      gc_element_value_pairs_id m rest (refs_all_append h1.2).2]
end

theorem gc_annotations_id (m : Nat → Nat) : ∀ (as : List annotation),
    (∀ x ∈ refs_of (idx_annotations as), m x = x) → gc_annotations m as = as
  | [], _ => rfl
  | a :: rest, h => by
    simp only [idx_annotations] at h
    simp [gc_annotations, gc_annotation_id m a (refs_all_append h).1,
      gc_annotations_id m rest (refs_all_append h).2]

theorem map_id_of_refs {α : Type} (f : α → α) (g : α → List (Bool × Nat)) (m : Nat → Nat)
    (hf : ∀ a, (∀ x ∈ refs_of (g a), m x = x) → f a = a) :
    ∀ (l : List α), (∀ x ∈ refs_of (l.flatMap g), m x = x) → l.map f = l
  | [], _ => rfl
  | a :: rest, h => by
    simp only [List.flatMap_cons] at h
    simp [hf a (refs_all_append h).1, map_id_of_refs f g m hf rest (refs_all_append h).2]

mutual
theorem gc_attribute_info_id (m : Nat → Nat) : ∀ (a : attribute_info),
    (∀ x ∈ refs_of (idx_attribute_info a), m x = x) → gc_attribute_info m a = a
  | .mk _ _ _ v, h => by
    simp only [idx_attribute_info] at h
    simp [gc_attribute_info, (refs_all_required h).1,
      gc_attribute_value_id m v (refs_all_required h).2]
theorem gc_attribute_value_id (m : Nat → Nat) : ∀ (v : attribute_value),
    (∀ x ∈ refs_of (idx_attribute_value v), m x = x) → gc_attribute_value m v = v
  | .Unknown, _ => rfl
  | .ConstantValue _, h => by
    simp only [idx_attribute_value] at h
    simp [gc_attribute_value, (refs_all_required h).1]
  | .Code _ _ _ _ _ _ _ as, h => by
    simp only [idx_attribute_value] at h
    simp [gc_attribute_value, gc_attributes_id m as h]
  | .Exceptions _ t, h => by
    simp only [idx_attribute_value, refs_of_map_required] at h
    simp only [gc_attribute_value, attribute_value.Exceptions.injEq, true_and]
    calc t.map m = t.map id := List.map_congr_left h
      _ = t := List.map_id t
  | .InnerClasses _ t, h => by
    simp only [idx_attribute_value] at h
    simp only [gc_attribute_value, attribute_value.InnerClasses.injEq, true_and]
    refine map_id_of_refs _ _ m (fun e he => ?_) t h
    have h1 := refs_all_required he
    have h2 := refs_all_optional h1.2
    have h3 := refs_all_optional h2.2
    obtain ⟨a, b, c, d⟩ := e
    simp only [gc_innerclasses_table_entry, innerclasses_table_entry.mk.injEq, and_true]
    refine ⟨h1.1, ?_, ?_⟩
    · by_cases hb : b = 0
      · simp [hb]
      · simp [hb, h2.1 hb]
    · by_cases hc : c = 0
      · simp [hc]
      · simp [hc, h3.1 hc]
  | .Synthetic, _ => rfl
  | .SourceFile _, h => by
    simp only [idx_attribute_value] at h
    simp [gc_attribute_value, (refs_all_required h).1]
  | .LineNumberTable _ _, _ => rfl
  | .LocalVariableTable _ t, h => by
    simp only [idx_attribute_value] at h
    simp only [gc_attribute_value, attribute_value.LocalVariableTable.injEq, true_and]
    refine map_id_of_refs _ _ m (fun e he => ?_) t h
    have h1 := refs_all_required he
    have h2 := refs_all_required h1.2
    simp [h1.1, h2.1]
  | .Deprecated, _ => rfl
  | .RuntimeVisibleAnnotations _ as, h => by
    simp only [idx_attribute_value] at h
    simp [gc_attribute_value, gc_annotations_id m as h]
  | .EnclosingMethod _ b, h => by
    simp only [idx_attribute_value] at h
    have h1 := refs_all_required h
    have h2 := refs_all_optional h1.2
    simp only [gc_attribute_value, h1.1, attribute_value.EnclosingMethod.injEq, true_and]
    by_cases hb : b = 0
    · simp [hb]
    · simp [hb, h2.1 hb]
  | .StackMapTable, _ => rfl
  | .Signature _, h => by
    simp only [idx_attribute_value] at h
    simp [gc_attribute_value, (refs_all_required h).1]
  | .LocalVariableTypeTable _ t, h => by
    simp only [idx_attribute_value] at h
    simp only [gc_attribute_value, attribute_value.LocalVariableTypeTable.injEq, true_and]
    refine map_id_of_refs _ _ m (fun e he => ?_) t h
    have h1 := refs_all_required he
    have h2 := refs_all_required h1.2
    simp [h1.1, h2.1]
  | .AnnotationDefault v, h => by
    simp only [idx_attribute_value] at h
    simp [gc_attribute_value, gc_element_value_id m v h]
theorem gc_attributes_id (m : Nat → Nat) : ∀ (as : List attribute_info),
    (∀ x ∈ refs_of (idx_attributes as), m x = x) → gc_attributes m as = as
  | [], _ => rfl
  | a :: rest, h => by
    simp only [idx_attributes] at h
    simp [gc_attributes, gc_attribute_info_id m a (refs_all_append h).1,
      gc_attributes_id m rest (refs_all_append h).2]
end

theorem gc_field_info_id (m : Nat → Nat) (fi : field_info)
    (h : ∀ x ∈ refs_of (idx_field_info fi), m x = x) : gc_field_info m fi = fi := by
  simp only [idx_field_info] at h
  have h1 := refs_all_required h
  have h2 := refs_all_required h1.2
  simp [gc_field_info, h1.1, h2.1, gc_attributes_id m _ h2.2]

theorem gc_method_info_id (m : Nat → Nat) (mi : method_info)
    (h : ∀ x ∈ refs_of (idx_method_info mi), m x = x) : gc_method_info m mi = mi := by
  simp only [idx_method_info] at h
  have h1 := refs_all_required h
  have h2 := refs_all_required h1.2
  simp [gc_method_info, h1.1, h2.1, gc_attributes_id m _ h2.2]

/-- When the sweep keeps every slot, the survivors are all the slots from 1. -/
theorem survivors_full (cf : ClassFile)
    (h : cf.constant_pool_count = 1 + (survivors cf).length) :
    survivors cf = List.range' 1 (cf.constant_pool_count - 1) := by
  unfold survivors at h ⊢
  apply List.filter_eq_self.2
  apply List.filter_length_eq_length.1
  rw [List.length_range']
  omega

theorem marked_range (cf : ClassFile) (hwf : pool_wf cf = true)
    (h0 : cf.constant_pool[0]? = some none) (i : Nat) (hm : marked cf.constant_pool i) :
    1 ≤ i ∧ i < cf.constant_pool_count := by
  simp only [pool_wf, Bool.and_eq_true, decide_eq_true_eq] at hwf
  obtain ⟨cp, hcp, _⟩ := hm
  constructor
  · by_contra hc
    have : i = 0 := by omega
    subst this
    rw [h0] at hcp
    simp at hcp
  · by_contra hc
    rw [List.getElem?_eq_none (by omega)] at hcp
    simp at hcp

/-- When the sweep keeps every slot, its map sends every slot from 1 to itself. -/
theorem gc_MAP_full (uninit : Nat → Nat) (cf : ClassFile)
    (h : cf.constant_pool_count = 1 + (survivors cf).length) (i : Nat)
    (h1 : 1 ≤ i) (h2 : i < cf.constant_pool_count) : gc_MAP uninit cf i = i := by
  have hk : i - 1 < (survivors cf).length := by omega
  have e := gc_MAP_survivor uninit cf (i - 1) hk
  have hs : (survivors cf)[i - 1] = i := by
    simp only [survivors_full cf h, List.getElem_range']
    omega
  rw [hs] at e
  omega

/-- A round whose sweep returns true leaves the marked model as it is, up to
the map that the sweep stores. -/
theorem gc_fixpoint (uninit : Nat → Nat) (cf cf2 : ClassFile) (hwf : pool_wf cf = true)
    (h0 : cf.constant_pool[0]? = some none)
    (hm1 : ∀ i, i ∈ refs_of (idx_ClassFile cf) → marked cf.constant_pool i)
    (hm2 : ∀ e, e ∈ cf.constant_pool → ∀ i, i ∈ refs_of (idx_slot e) →
      marked cf.constant_pool i)
    (hg : gc_ClassFile uninit cf = some (true, cf2)) :
    cf2 = { cf with constant_pool_map := gc_map uninit cf } ∧
      ∀ (i : Nat) (cp : cp_info), cf.constant_pool[i]? = some (some cp) → cp.refCount ≠ 0 := by
  have hspec := gc_ClassFile_spec uninit cf hwf
  rw [hspec] at hg
  simp only [Option.some.injEq, Prod.mk.injEq, beq_iff_eq] at hg
  obtain ⟨hc, hcf⟩ := hg
  have hwf' := hwf
  simp only [pool_wf, Bool.and_eq_true, decide_eq_true_eq] at hwf'
  obtain ⟨⟨hlen, hpos⟩, hwf1⟩ := hwf'
  have hfix : ∀ i, marked cf.constant_pool i → gc_MAP uninit cf i = i := fun i hm =>
    gc_MAP_full uninit cf hc i (marked_range cf hwf h0 i hm).1 (marked_range cf hwf h0 i hm).2
  have hroot : ∀ x ∈ refs_of (idx_ClassFile cf), gc_MAP uninit cf x = x :=
    fun x hx => hfix x (hm1 x hx)
  simp only [idx_ClassFile] at hroot
  have r1 := refs_all_required hroot
  have r2 := refs_all_required r1.2
  have r3 := refs_all_append r2.2
  have r4 := refs_all_append r3.1
  have r5 := refs_all_append r4.1
  have hi : cf.interfaces.map (gc_MAP uninit cf) = cf.interfaces := by
    have := r5.1
    rw [refs_of_map_required] at this
    calc cf.interfaces.map (gc_MAP uninit cf) = cf.interfaces.map id :=
          List.map_congr_left this
      _ = cf.interfaces := List.map_id _
  have hf : cf.fields.map (gc_field_info (gc_MAP uninit cf)) = cf.fields :=
    map_id_of_refs _ _ _ (gc_field_info_id _) _ r5.2
  have hme : cf.methods.map (gc_method_info (gc_MAP uninit cf)) = cf.methods :=
    map_id_of_refs _ _ _ (gc_method_info_id _) _ r4.2
  have ha : gc_attributes (gc_MAP uninit cf) cf.attributes = cf.attributes :=
    gc_attributes_id _ _ r3.2
  have hp : (cf.constant_pool.take 1
      ++ (survivors cf).map (fun j => cf.constant_pool.getD j none)).map
        (Option.map (gc_cp_info (gc_MAP uninit cf))) = cf.constant_pool := by
    apply List.ext_getElem?
    intro k
    by_cases hk : k < cf.constant_pool_count
    · cases k with
      | zero =>
        rw [List.getElem?_map, List.getElem?_append_left (by
          rw [List.length_take]
          omega), List.getElem?_take]
        simp [h0]
      | succ k =>
        have hk1 : k < (survivors cf).length := by omega
        rw [gc_pool_at uninit cf hlen hpos k hk1]
        have hs : (survivors cf)[k] = k + 1 := by
          simp only [survivors_full cf hc, List.getElem_range']
          omega
        rw [hs, List.getD_eq_getElem?_getD, List.getElem?_eq_getElem (by omega)]
        simp only [Option.getD_some, Option.some.injEq]
        cases he : cf.constant_pool[k + 1] with
        | none => rfl
        | some cp =>
          simp only [Option.map_some', Option.some.injEq]
          apply gc_cp_info_id
          intro x hx
          refine hfix x (hm2 (some cp) ?_ x hx)
          rw [← he]
          exact List.getElem_mem _
    · rw [List.getElem?_eq_none (by
        rw [List.length_map, List.length_append, List.length_take, List.length_map]
        omega), List.getElem?_eq_none (by omega)]
  constructor
  · rw [← hcf, hp, hi, hf, hme, ha, r1.1, r2.1, ← hc]
  · intro i cp hcp
    have hlt : i < cf.constant_pool.length := by
      by_contra hcn
      rw [List.getElem?_eq_none (by omega)] at hcp
      simp at hcp
    have hi1 : 1 ≤ i := by
      by_contra hcn
      have : i = 0 := by omega
      subst this
      rw [h0] at hcp
      simp at hcp
    have hmem : i ∈ survivors cf := by
      rw [survivors_full cf hc, List.mem_range'_1]
      omega
    have hsv := ((survivors_mem cf i).1 hmem).2.2
    unfold survives at hsv
    rw [List.getD_eq_getElem?_getD, hcp] at hsv
    simpa using hsv

theorem ref_some (p q : List (Option cp_info)) (i : Nat) (h : ref p i = some q) :
    ∃ cp, p[i]? = some (some cp) ∧ cp.refCount + 1 < 2147483648 ∧
      q = p.set i (some { cp with refCount := cp.refCount + 1 }) := by
  unfold ref at h
  rw [List.get?_eq_getElem?] at h
  split at h
  · rename_i cp hcp
    split at h
    · rename_i hlt
      simp only [Option.some.injEq] at h
      exact ⟨cp, hcp, hlt, h.symm⟩
    · simp at h
  · simp at h

/-- A marking that returns has met only indices that denote entries, and no
count has left the range of `int`. -/
theorem mark_all_valid : ∀ (l : List Nat) (p q : List (Option cp_info)),
    mark_all l p = some q →
    ∀ i ∈ l, ∃ cp, p[i]? = some (some cp) ∧ cp.refCount + l.count i < 2147483648
  | [], _, _, _ => by simp
  | a :: l, p, q, h => by
    rw [mark_all_cons] at h
    cases hr : ref p a with
    | none => simp [hr, andThen] at h
    | some p1 =>
      rw [hr] at h
      obtain ⟨cp, hcp, hlt, rfl⟩ := ref_some p p1 a hr
      have ih := mark_all_valid l _ q h
      have hal : a < p.length := by
        by_contra hc
        rw [List.getElem?_eq_none (by omega)] at hcp
        simp at hcp
      intro i hi
      by_cases e : a = i
      · subst e
        refine ⟨cp, hcp, ?_⟩
        rw [List.count_cons_self]
        by_cases hm : a ∈ l
        · obtain ⟨c1, hc1, hl1⟩ := ih a hm
          rw [List.getElem?_set, if_pos rfl, if_pos hal] at hc1
          simp only [Option.some.injEq] at hc1
          subst hc1
          simp only at hl1
          omega
        · rw [List.count_eq_zero_of_not_mem hm]
          omega
      · have hm : i ∈ l := by
          rcases List.mem_cons.1 hi with h1 | h1
          · exact absurd h1.symm e
          · exact h1
        obtain ⟨c1, hc1, hl1⟩ := ih i hm
        rw [List.getElem?_set, if_neg e] at hc1
        refine ⟨c1, hc1, ?_⟩
        rw [List.count_cons_of_ne (fun x => e x.symm)]
        exact hl1

/-- The last round of a run that leaves the loop: a mark pass on a well-formed
pool, and a sweep that returns true. -/
theorem gc_loop_last (t : code_h) (uninit : Nat → Nat → Nat) :
    ∀ (fuel n : Nat) (cf : ClassFile) (rounds : Nat) (cf3 : ClassFile),
      pool_wf cf = true → cf.constant_pool[0]? = some none →
      gc_loop t uninit fuel n cf = .finished rounds cf3 →
      ∃ cfl cf1 u, pool_wf cfl = true ∧ cfl.constant_pool[0]? = some none ∧
        refct_ClassFile t cfl = some cf1 ∧ gc_ClassFile u cf1 = some (true, cf3)
  | 0, n, cf, rounds, cf3, _, _, h => by simp [gc_loop] at h
  | fuel + 1, n, cf, rounds, cf3, hwf, h0, h => by
    rw [gc_loop] at h
    cases hr : refct_ClassFile t cf with
    | none => simp [hr] at h
    | some cf1 =>
      obtain ⟨cf2, hg, hwf2, _, h02⟩ := round_pool_wf t (uninit n) cf cf1 hwf hr
      simp only [hr, hg] at h
      by_cases hd : (cf.constant_pool_count == cf2.constant_pool_count) = true
      · simp only [hd, if_true, loop_result.finished.injEq] at h
        rw [hd, h.2] at hg
        exact ⟨cf, cf1, uninit n, hwf, h0, hr, hg⟩
      · simp only [hd, Bool.false_eq_true, if_false] at h
        exact gc_loop_last t uninit fuel (n + 1) cf2 rounds cf3 hwf2 (h02 h0) h

/-! ## The driver loop: no garbage when it is left -/

theorem same_pool_mem {P Q : List (Option cp_info)} (h : same_pool P Q) (e : Option cp_info)
    (he : e ∈ Q) : ∃ e0, e0 ∈ P ∧ same_slot e0 e := by
  induction h with
  | nil => simp at he
  | @cons a b _ _ hab _ ih =>
    rcases List.mem_cons.1 he with h1 | h1
    · subst h1
      exact ⟨a, List.mem_cons_self _ _, hab⟩
    · obtain ⟨e0, h2, h3⟩ := ih h1
      exact ⟨e0, List.mem_cons_of_mem _ h2, h3⟩

mutual
theorem quiet_attribute_info_refs (t : code_h) : ∀ (a : attribute_info),
    quiet_attribute_info t a = true →
    refs_attribute_info t a = some (refs_of (idx_attribute_info a))
  | .mk n _ _ v, h => by
    simp only [quiet_attribute_info] at h
    simp only [refs_attribute_info, idx_attribute_info, quiet_attribute_value_refs t v h,
      Option.map_some', refs_of_required]
theorem quiet_attribute_value_refs (t : code_h) : ∀ (v : attribute_value),
    quiet_attribute_value t v = true →
    refs_attribute_value t v = some (refs_of (idx_attribute_value v))
  | .Unknown, _ => rfl
  | .ConstantValue _, _ => by
    simp only [refs_attribute_value, idx_attribute_value, refs_of_required, refs_of_nil]
  | .Code _ _ cl code etl et _ as, h => by
    simp only [quiet_attribute_value, Bool.and_eq_true, beq_iff_eq] at h
    obtain ⟨⟨h1, h2⟩, h3⟩ := h
    simp only [refs_attribute_value, h1, h2, quiet_attributes_refs t as h3, Option.map_some',
      idx_attribute_value, List.nil_append]
  | .Exceptions _ _, _ => rfl
  | .InnerClasses _ _, _ => rfl
  | .Synthetic, _ => rfl
  | .SourceFile _, _ => by
    simp only [refs_attribute_value, idx_attribute_value, refs_of_required, refs_of_nil]
  | .LineNumberTable _ _, _ => rfl
  | .LocalVariableTable _ _, _ => rfl
  | .Deprecated, _ => rfl
  | .RuntimeVisibleAnnotations _ _, _ => rfl
  | .EnclosingMethod _ _, _ => rfl
  | .StackMapTable, _ => rfl
  | .Signature _, _ => by
    simp only [refs_attribute_value, idx_attribute_value, refs_of_required, refs_of_nil]
  | .LocalVariableTypeTable _ _, _ => rfl
  | .AnnotationDefault _, _ => rfl
theorem quiet_attributes_refs (t : code_h) : ∀ (as : List attribute_info),
    quiet_attributes t as = true →
    refs_attributes t as = some (refs_of (idx_attributes as))
  | [], _ => rfl
  | a :: rest, h => by
    simp only [quiet_attributes, Bool.and_eq_true] at h
    simp only [refs_attributes, quiet_attribute_info_refs t a h.1,
      quiet_attributes_refs t rest h.2, Option.map_some', idx_attributes, refs_of_append]
end

mutual
theorem quiet_gc_attribute_info (t : code_h) (m : Nat → Nat) : ∀ (a : attribute_info),
    quiet_attribute_info t (gc_attribute_info m a) = quiet_attribute_info t a
  | .mk _ _ _ v => by
    simp only [gc_attribute_info, quiet_attribute_info, quiet_gc_attribute_value t m v]
theorem quiet_gc_attribute_value (t : code_h) (m : Nat → Nat) : ∀ (v : attribute_value),
    quiet_attribute_value t (gc_attribute_value m v) = quiet_attribute_value t v
  | .Code _ _ _ _ _ _ _ as => by
    simp only [gc_attribute_value, quiet_attribute_value, quiet_gc_attributes t m as]
  | .Unknown => rfl
  | .ConstantValue _ => rfl
  | .Exceptions _ _ => rfl
  | .InnerClasses _ _ => rfl
  | .Synthetic => rfl
  | .SourceFile _ => rfl
  | .LineNumberTable _ _ => rfl
  | .LocalVariableTable _ _ => rfl
  | .Deprecated => rfl
  | .RuntimeVisibleAnnotations _ _ => rfl
  | .EnclosingMethod _ _ => rfl
  | .StackMapTable => rfl
  | .Signature _ => rfl
  | .LocalVariableTypeTable _ _ => rfl
  | .AnnotationDefault _ => rfl
theorem quiet_gc_attributes (t : code_h) (m : Nat → Nat) : ∀ (as : List attribute_info),
    quiet_attributes t (gc_attributes m as) = quiet_attributes t as
  | [] => rfl
  | a :: rest => by
    simp only [gc_attributes, quiet_attributes, quiet_gc_attribute_info t m a,
      quiet_gc_attributes t m rest]
end

theorem refs_each_quiet {α : Type} (f : α → Option (List Nat)) (g : α → List (Bool × Nat))
    (q : α → Bool) (hf : ∀ a, q a = true → f a = some (refs_of (g a))) :
    ∀ (l : List α), l.all q = true → refs_each f l = some (refs_of (l.flatMap g))
  | [], _ => rfl
  | a :: rest, h => by
    simp only [List.all_cons, Bool.and_eq_true] at h
    simp only [refs_each, hf a h.1, refs_each_quiet f g q hf rest h.2, Option.map_some',
      List.flatMap_cons, refs_of_append]

/-- The references of a model whose Code bodies are quiet: its index fields
and the indices inside its pool entries. -/
theorem quiet_refs (t : code_h) (cf : ClassFile) (h : quiet t cf = true) :
    ∃ l, refs_ClassFile t cf = some l ∧ l.Perm (roots cf ++ refs_pool cf.constant_pool) := by
  simp only [quiet, Bool.and_eq_true] at h
  obtain ⟨⟨hf, hm⟩, ha⟩ := h
  have e1 := refs_each_quiet (refs_field_info t) idx_field_info
    (fun fi => quiet_attributes t fi.attributes) (fun fi hq => by
      simp only [refs_field_info, quiet_attributes_refs t _ hq, Option.map_some',
        idx_field_info, refs_of_required]) cf.fields hf
  have e2 := refs_each_quiet (refs_method_info t) idx_method_info
    (fun mi => quiet_attributes t mi.attributes) (fun mi hq => by
      simp only [refs_method_info, quiet_attributes_refs t _ hq, Option.map_some',
        idx_method_info, refs_of_required]) cf.methods hm
  have e3 : refs_ClassFile t cf = some (cf.this_class :: cf.super_class ::
      (refs_pool cf.constant_pool ++ cf.interfaces
        ++ refs_of (cf.fields.flatMap idx_field_info)
        ++ refs_of (cf.methods.flatMap idx_method_info)
        ++ refs_of (idx_attributes cf.attributes))) := by
    simp only [refs_ClassFile, e1, e2, quiet_attributes_refs t _ ha, Option.map_some']
  refine ⟨_, e3, ?_⟩
  simp only [roots, idx_ClassFile, refs_of_required, refs_of_append, refs_of_map_required,
    List.cons_append]
  refine List.Perm.cons _ (List.Perm.cons _ ?_)
  have e4 := @List.perm_append_comm _ (refs_pool cf.constant_pool)
    (cf.interfaces ++ refs_of (cf.fields.flatMap idx_field_info)
      ++ refs_of (cf.methods.flatMap idx_method_info)
      ++ refs_of (idx_attributes cf.attributes))
  simpa only [List.append_assoc] using e4

theorem quiet_gc (t : code_h) (m : Nat → Nat) (cf cf2 : ClassFile)
    (hf : cf2.fields = cf.fields.map (gc_field_info m))
    (hm : cf2.methods = cf.methods.map (gc_method_info m))
    (ha : cf2.attributes = gc_attributes m cf.attributes) :
    quiet t cf2 = quiet t cf := by
  simp only [quiet, hf, hm, ha, List.all_map, quiet_gc_attributes, Function.comp_def,
    gc_field_info, gc_method_info]

theorem present_getD (pool : List (Option cp_info)) (j : Nat) :
    present pool j = (pool.getD j none).isSome := by
  unfold present
  rw [List.getD_eq_getElem?_getD]
  cases pool[j]? with
  | none => rfl
  | some e => cases e <;> rfl

theorem getD_of_absent (pool : List (Option cp_info)) (j : Nat)
    (h : present pool j = false) : pool.getD j none = none := by
  rw [present_getD] at h
  cases hx : pool.getD j none with
  | none => rfl
  | some cp =>
    rw [hx] at h
    exact absurd h (Bool.noConfusion)

theorem present_of_long (pool : List (Option cp_info)) (j : Nat)
    (h : long_at pool j = true) : present pool j = true := by
  rw [present_getD]
  unfold long_at at h
  cases hx : pool.getD j none with
  | none =>
    rw [hx] at h
    exact absurd h (by decide)
  | some cp => rfl

theorem entry_refs_absent (pool : List (Option cp_info)) (j : Nat)
    (h : present pool j = false) : entry_refs pool j = [] := by
  unfold entry_refs
  rw [getD_of_absent pool j h]
  rfl

theorem entry_refs_sub (pool : List (Option cp_info)) (j v : Nat)
    (h : v ∈ entry_refs pool j) : v ∈ refs_pool pool := by
  unfold entry_refs at h
  unfold refs_pool
  rw [List.mem_flatMap]
  by_cases hj : j < pool.length
  · rw [List.getD_eq_getElem _ _ hj] at h
    exact ⟨pool[j], List.getElem_mem hj, h⟩
  · rw [List.getD_eq_default _ _ (by omega)] at h
    simp [idx_slot, refs_of] at h

theorem slots_nil (pool : List (Option cp_info)) : slots pool [] = [] := rfl

theorem slots_cons (pool : List (Option cp_info)) (j : Nat) (rest : List Nat) :
    slots pool (j :: rest)
      = (if long_at pool j then [j, j + 1] else [j]) ++ slots pool rest := rfl

theorem mem_slots (pool : List (Option cp_info)) (alive : List Nat) (s : Nat) :
    s ∈ slots pool alive ↔ s ∈ alive ∨ ∃ j ∈ alive, long_at pool j = true ∧ s = j + 1 := by
  induction alive with
  | nil => simp [slots_nil]
  | cons j rest ih =>
    rw [slots_cons, List.mem_append, ih]
    by_cases hl : long_at pool j = true
    · simp only [hl, if_true, List.mem_cons, List.mem_singleton, List.not_mem_nil, or_false,
        exists_eq_or_imp, true_and]
      tauto
    · simp only [hl, Bool.false_eq_true, if_false, List.mem_singleton, List.mem_cons,
        exists_eq_or_imp, false_and, false_or]
      tauto

theorem mem_slots_of_mem (pool : List (Option cp_info)) (alive : List Nat) (s : Nat)
    (h : s ∈ alive) : s ∈ slots pool alive :=
  (mem_slots pool alive s).2 (Or.inl h)

theorem slots_present (pool : List (Option cp_info)) (alive : List Nat) (hp : paired pool)
    (s : Nat) (h : s ∈ slots pool alive) (hs : present pool s = true) : s ∈ alive := by
  rcases (mem_slots pool alive s).1 h with h1 | ⟨j, _, hl, rfl⟩
  · exact h1
  · rw [hp j hl] at hs
    simp at hs

theorem slots_sorted (pool : List (Option cp_info)) (hp : paired pool) :
    ∀ (alive : List Nat), alive.Pairwise (fun a b => a < b) →
      (∀ j ∈ alive, present pool j = true) →
      (slots pool alive).Pairwise (fun a b => a < b)
  | [], _, _ => List.Pairwise.nil
  | j :: rest, hs, hpr => by
    obtain ⟨h1, h2⟩ := List.pairwise_cons.1 hs
    have ih := slots_sorted pool hp rest h2
      (fun x hx => hpr x (List.mem_cons_of_mem _ hx))
    have hgt : ∀ s ∈ slots pool rest, j < s ∧ (long_at pool j = true → j + 1 < s) := by
      intro s hs1
      rcases (mem_slots pool rest s).1 hs1 with h3 | ⟨x, hx, _, rfl⟩
      · have hjs := h1 s h3
        refine ⟨hjs, fun hl => ?_⟩
        have hne : s ≠ j + 1 := by
          intro e
          have := hpr s (List.mem_cons_of_mem _ h3)
          rw [e, hp j hl] at this
          simp at this
        omega
      · have hjx := h1 x hx
        exact ⟨by omega, fun _ => by omega⟩
    rw [slots_cons]
    by_cases hl : long_at pool j = true
    · simp only [hl, if_true, List.cons_append, List.nil_append, List.pairwise_cons,
        List.mem_cons]
      refine ⟨?_, fun s hs1 => (hgt s hs1).2 hl, ih⟩
      rintro s (rfl | hs1)
      · omega
      · exact (hgt s hs1).1
    · simp only [hl, Bool.false_eq_true, if_false, List.cons_append, List.nil_append,
        List.pairwise_cons]
      exact ⟨fun s hs1 => (hgt s hs1).1, ih⟩

theorem slots_nodup (pool : List (Option cp_info)) (hp : paired pool) (alive : List Nat)
    (hs : alive.Pairwise (fun a b => a < b)) (hpr : ∀ j ∈ alive, present pool j = true) :
    (slots pool alive).Nodup :=
  (slots_sorted pool hp alive hs hpr).imp (fun h => Nat.ne_of_lt h)

/-- A slot that holds no entry comes right after its Long or Double. -/
theorem slots_prev (pool : List (Option cp_info)) :
    ∀ (alive : List Nat), (∀ j ∈ alive, present pool j = true) →
      ∀ (k s : Nat), (slots pool alive)[k]? = some s → present pool s = false →
        ∃ j, s = j + 1 ∧ 1 ≤ k ∧ (slots pool alive)[k - 1]? = some j ∧
          long_at pool j = true ∧ j ∈ alive
  | [], _, k, s, h, _ => by simp [slots_nil] at h
  | j :: rest, hpr, k, s, h, hs => by
    have hj := hpr j (List.mem_cons_self _ _)
    rw [slots_cons] at h ⊢
    by_cases hl : long_at pool j = true
    · simp only [hl, if_true, List.cons_append, List.nil_append] at h ⊢
      cases k with
      | zero =>
        simp only [List.getElem?_cons_zero, Option.some.injEq] at h
        rw [← h, hj] at hs
        simp at hs
      | succ k =>
        cases k with
        | zero =>
          simp only [List.getElem?_cons_succ, List.getElem?_cons_zero, Option.some.injEq] at h
          exact ⟨j, h.symm, by omega, by simp, hl, List.mem_cons_self _ _⟩
        | succ k =>
          simp only [List.getElem?_cons_succ] at h
          obtain ⟨x, hx, hk, hg, hlx, hm⟩ := slots_prev pool rest
            (fun y hy => hpr y (List.mem_cons_of_mem _ hy)) k s h hs
          refine ⟨x, hx, by omega, ?_, hlx, List.mem_cons_of_mem _ hm⟩
          have e : k + 1 + 1 - 1 = (k - 1) + 1 + 1 := by omega
          rw [e]
          simpa using hg
    · simp only [hl, Bool.false_eq_true, if_false, List.cons_append, List.nil_append] at h ⊢
      cases k with
      | zero =>
        simp only [List.getElem?_cons_zero, Option.some.injEq] at h
        rw [← h, hj] at hs
        simp at hs
      | succ k =>
        simp only [List.getElem?_cons_succ] at h
        obtain ⟨x, hx, hk, hg, hlx, hm⟩ := slots_prev pool rest
          (fun y hy => hpr y (List.mem_cons_of_mem _ hy)) k s h hs
        refine ⟨x, hx, by omega, ?_, hlx, List.mem_cons_of_mem _ hm⟩
        have e : k + 1 - 1 = (k - 1) + 1 := by omega
        rw [e]
        simpa using hg

/-- The slots of the entries that a filter keeps are the slots that go with
the kept entries. -/
theorem slots_filter (pool : List (Option cp_info)) (hp : paired pool) (m : Nat → Bool) :
    ∀ (alive : List Nat), (∀ j ∈ alive, present pool j = true) →
      slots pool (alive.filter m)
        = (slots pool alive).filter (fun s => m (if present pool s = true then s else s - 1))
  | [], _ => rfl
  | j :: rest, hpr => by
    have hj := hpr j (List.mem_cons_self _ _)
    have ih := slots_filter pool hp m rest (fun y hy => hpr y (List.mem_cons_of_mem _ hy))
    rw [slots_cons, List.filter_append, ← ih, List.filter_cons]
    by_cases hl : long_at pool j = true
    · have hn := hp j hl
      by_cases hm : m j = true
      · simp [hm, hl, hj, hn, slots_cons]
      · simp [hm, hl, hj, hn]
    · by_cases hm : m j = true
      · simp [hm, hl, hj, slots_cons]
      · simp [hm, hl, hj]

theorem slots_entry_refs (pool : List (Option cp_info)) (hp : paired pool) :
    ∀ (alive : List Nat),
      (slots pool alive).flatMap (entry_refs pool) = alive.flatMap (entry_refs pool)
  | [] => rfl
  | j :: rest => by
    rw [slots_cons, List.flatMap_append, slots_entry_refs pool hp rest, List.flatMap_cons]
    by_cases hl : long_at pool j = true
    · simp [hl, entry_refs_absent pool (j + 1) (hp j hl)]
    · simp [hl]

theorem posn_get (sl : List Nat) (hn : sl.Nodup) (k : Nat) (hk : k < sl.length) :
    posn sl (sl.getD k 0) = k + 1 := by
  unfold posn
  rw [List.getD_eq_getElem?_getD, List.getElem?_eq_getElem hk, Option.getD_some,
    List.indexOf_getElem hn]

theorem posn_mem (sl : List Nat) (s : Nat) (h : s ∈ sl) :
    1 ≤ posn sl s ∧ posn sl s ≤ sl.length ∧ sl.getD (posn sl s - 1) 0 = s := by
  unfold posn
  have hlt := List.indexOf_lt_length.2 h
  refine ⟨by omega, by omega, ?_⟩
  rw [Nat.add_sub_cancel, List.getD_eq_getElem?_getD, List.getElem?_eq_getElem hlt,
    Option.getD_some]
  exact List.indexOf_get hlt

theorem posn_inj (sl : List Nat) (a b : Nat) (ha : a ∈ sl) (hb : b ∈ sl)
    (h : posn sl a = posn sl b) : a = b := by
  have h1 := (posn_mem sl a ha).2.2
  have h2 := (posn_mem sl b hb).2.2
  rw [h] at h1
  rw [← h1, h2]

theorem posn_pos (sl : List Nat) (s : Nat) : posn sl s ≠ 0 := by
  unfold posn
  omega

theorem same_slot_refl (a : Option cp_info) : same_slot a a := rfl

theorem same_slot_symm {a b : Option cp_info} (h : same_slot a b) : same_slot b a := by
  unfold same_slot at h ⊢
  exact h.symm

theorem same_slot_trans {a b c : Option cp_info} (h1 : same_slot a b) (h2 : same_slot b c) :
    same_slot a c := by
  unfold same_slot at h1 h2 ⊢
  exact h1.trans h2

theorem gc_cp_info_info (m : Nat → Nat) (a b : cp_info) (h : a.info = b.info) :
    (gc_cp_info m a).info = (gc_cp_info m b).info := by
  obtain ⟨ra, ia⟩ := a
  obtain ⟨rb, ib⟩ := b
  simp only at h
  subst h
  cases ia <;> rfl

theorem same_slot_gc (m : Nat → Nat) {a b : Option cp_info} (h : same_slot a b) :
    same_slot (a.map (gc_cp_info m)) (b.map (gc_cp_info m)) := by
  unfold same_slot at h ⊢
  cases a with
  | none =>
    cases b with
    | none => rfl
    | some y => simp at h
  | some x =>
    cases b with
    | none => simp at h
    | some y =>
      simp only [Option.map_some', Option.some.injEq] at h ⊢
      exact gc_cp_info_info m x y h

/-- Two maps in a row on an entry, when they agree with a third on its indices. -/
theorem gc_cp_info_comp (m1 m2 m3 : Nat → Nat) (cp : cp_info)
    (h : ∀ v ∈ refs_of (idx_cp_info cp), m2 (m1 v) = m3 v) :
    (gc_cp_info m2 (gc_cp_info m1 cp)).info = (gc_cp_info m3 cp).info := by
  obtain ⟨r, d⟩ := cp
  cases d <;> simp only [idx_cp_info, refs_of_required, refs_of_nil, List.mem_cons,
    List.mem_singleton, List.not_mem_nil, or_false, forall_eq_or_imp, forall_eq] at h <;>
    simp [gc_cp_info, h]

theorem refs_of_mem (l : List (Bool × Nat)) (v : Nat) :
    v ∈ refs_of l ↔ ∃ opt, (opt, v) ∈ l ∧ ¬(opt = true ∧ v = 0) := by
  unfold refs_of
  rw [List.mem_filterMap]
  constructor
  · rintro ⟨⟨opt, w⟩, hm, hx⟩
    by_cases hz : opt = true ∧ w = 0
    · simp [hz] at hx
    · rw [if_neg hz] at hx
      simp only [Option.some.injEq] at hx
      subst hx
      exact ⟨opt, hm, hz⟩
  · rintro ⟨opt, hm, hz⟩
    exact ⟨(opt, v), hm, by rw [if_neg hz]⟩

/-- Two remappings in a row of the index fields of a model. -/
theorem remap_remap (m1 m2 m3 : Nat → Nat) (l : List (Bool × Nat))
    (h1 : ∀ v, m1 v ≠ 0) (h : ∀ v ∈ refs_of l, m2 (m1 v) = m3 v) :
    (l.map (remap_field m1)).map (remap_field m2) = l.map (remap_field m3) := by
  rw [List.map_map]
  apply List.map_congr_left
  rintro ⟨opt, v⟩ hm
  by_cases hz : opt = true ∧ v = 0
  · simp [remap_field, hz]
  · have hv := h v ((refs_of_mem l v).2 ⟨opt, hm, hz⟩)
    have hn : ¬(opt = true ∧ m1 v = 0) := fun hc => h1 v hc.2
    simp [remap_field, hz, hn, hv]

theorem remap_id (m : Nat → Nat) (l : List (Bool × Nat))
    (h : ∀ v ∈ refs_of l, m v = v) : l.map (remap_field m) = l := by
  have e : l.map (remap_field m) = l.map id := by
    apply List.map_congr_left
    rintro ⟨opt, v⟩ hm
    by_cases hz : opt = true ∧ v = 0
    · simp [remap_field, hz]
    · have hv := h v ((refs_of_mem l v).2 ⟨opt, hm, hz⟩)
      simp [remap_field, hz, hv]
  rw [e, List.map_id]

theorem refs_pool_cons (e : Option cp_info) (l : List (Option cp_info)) :
    refs_pool (e :: l) = refs_of (idx_slot e) ++ refs_pool l := rfl

theorem refs_pool_map {α : Type} (g : α → Option cp_info) (l : List α) :
    refs_pool (l.map g) = l.flatMap (fun s => refs_of (idx_slot (g s))) := by
  unfold refs_pool
  rw [List.flatMap_map]

theorem entry_refs_gc (m : Nat → Nat) (hm : ∀ v, m v ≠ 0) (e : Option cp_info) :
    refs_of (idx_slot (e.map (gc_cp_info m))) = (refs_of (idx_slot e)).map m := by
  cases e with
  | none => rfl
  | some cp =>
    simp only [Option.map_some', idx_slot, idx_gc_cp_info]
    exact refs_of_remap m _ (fun v _ => hm v)

theorem flatMap_filter_length {α β : Type} (f : α → List β) (p : α → Bool) (l : List α) :
    ((l.filter p).flatMap f).length ≤ (l.flatMap f).length := by
  induction l with
  | nil => simp
  | cons a rest ih =>
    rw [List.filter_cons]
    by_cases h : p a = true
    · simp only [h, if_true, List.flatMap_cons, List.length_append]
      omega
    · simp only [h, Bool.false_eq_true, if_false, List.flatMap_cons, List.length_append]
      omega

theorem pool_wf_length (cf : ClassFile) (hwf : pool_wf cf = true) :
    cf.constant_pool.length = cf.constant_pool_count := by
  simp only [pool_wf, Bool.and_eq_true, decide_eq_true_eq] at hwf
  exact hwf.1.1

/-- The pool of a model in the relation `Sim`, slot by slot. -/
theorem sim_pool (t : code_h) (cf0 cf : ClassFile) (alive : List Nat)
    (hsim : Sim t cf0 cf alive) :
    same_pool cf.constant_pool
      (none :: (slots cf0.constant_pool alive).map (fun s =>
        (cf0.constant_pool.getD s none).map
          (gc_cp_info (posn (slots cf0.constant_pool alive))))) := by
  obtain ⟨hwf, h0, _, hc, _, hpool⟩ := hsim
  have hlen := pool_wf_length cf hwf
  unfold same_pool
  rw [List.forall₂_iff_get]
  refine ⟨by rw [hlen, hc, List.length_cons, List.length_map, Nat.add_comm], ?_⟩
  intro i h1 h2
  simp only [List.get_eq_getElem]
  cases i with
  | zero =>
    have e : cf.constant_pool[0] = none := by
      have := h0
      rw [List.getElem?_eq_getElem h1] at this
      exact Option.some.inj this
    rw [e]
    rfl
  | succ k =>
    have hk : k < (slots cf0.constant_pool alive).length := by
      simp only [List.length_cons, List.length_map] at h2
      omega
    have := hpool k hk
    rw [List.getD_eq_getElem _ _ h1] at this
    simp only [List.getElem_cons_succ, List.getElem_map]
    rw [List.getD_eq_getElem _ _ hk] at this
    exact this

theorem sim_slot (t : code_h) (cf0 cf : ClassFile) (alive : List Nat)
    (hsim : Sim t cf0 cf alive) (s : Nat) (hs : s ∈ slots cf0.constant_pool alive) :
    same_slot (cf.constant_pool.getD (posn (slots cf0.constant_pool alive) s) none)
      ((cf0.constant_pool.getD s none).map
        (gc_cp_info (posn (slots cf0.constant_pool alive)))) := by
  obtain ⟨_, _, _, _, _, hpool⟩ := hsim
  have hm := posn_mem _ s hs
  have := hpool (posn (slots cf0.constant_pool alive) s - 1) (by omega)
  rw [hm.2.2, Nat.sub_add_cancel hm.1] at this
  exact this

/-- The indices inside the pool entries of a model in the relation `Sim`. -/
theorem sim_refs_pool (t : code_h) (cf0 cf : ClassFile) (alive : List Nat)
    (hsim : Sim t cf0 cf alive) (hp : paired cf0.constant_pool) :
    refs_pool cf.constant_pool
      = (alive.flatMap (entry_refs cf0.constant_pool)).map
          (posn (slots cf0.constant_pool alive)) := by
  rw [refs_pool_same (sim_pool t cf0 cf alive hsim), refs_pool_cons, refs_pool_map]
  simp only [idx_slot, refs_of_nil, List.nil_append]
  rw [← slots_entry_refs cf0.constant_pool hp alive, List.map_flatMap]
  congr 1
  funext s
  exact entry_refs_gc _ (posn_pos _) _

theorem sim_roots (t : code_h) (cf0 cf : ClassFile) (alive : List Nat)
    (hsim : Sim t cf0 cf alive) :
    roots cf = (roots cf0).map (posn (slots cf0.constant_pool alive)) := by
  obtain ⟨_, _, _, _, hidx, _⟩ := hsim
  unfold roots
  rw [hidx]
  exact refs_of_remap _ _ (fun v _ => posn_pos _ v)

/-- A reference of the original model: of its index fields or of one of the
entries that are still there. -/
theorem referenced_iff (cf0 : ClassFile) (alive : List Nat) (j : Nat) :
    referenced cf0 alive j = true
      ↔ j ∈ roots cf0 ++ alive.flatMap (entry_refs cf0.constant_pool) := by
  simp only [referenced, Bool.or_eq_true, decide_eq_true_eq, List.any_eq_true,
    List.mem_append, List.mem_flatMap]

theorem closed_mem (cf0 : ClassFile) (alive : List Nat) (hcl : Closed cf0 alive) (v : Nat)
    (hv : v ∈ roots cf0 ++ alive.flatMap (entry_refs cf0.constant_pool)) : v ∈ alive := by
  obtain ⟨_, _, h3, h4⟩ := hcl
  rcases List.mem_append.1 hv with h | h
  · exact h3 v h
  · obtain ⟨j, hj, hvj⟩ := List.mem_flatMap.1 h
    exact h4 j hj v hvj

theorem sim_present (t : code_h) (cf0 cf : ClassFile) (alive : List Nat)
    (hsim : Sim t cf0 cf alive) (hcl : Closed cf0 alive) (v : Nat) (hv : v ∈ alive) :
    ∃ cp cp0, cf.constant_pool.getD (posn (slots cf0.constant_pool alive) v) none = some cp ∧
      cf0.constant_pool.getD v none = some cp0 ∧
      cp.info = (gc_cp_info (posn (slots cf0.constant_pool alive)) cp0).info := by
  have hs := sim_slot t cf0 cf alive hsim v (mem_slots_of_mem _ _ _ hv)
  have hpr := hcl.2.1 v hv
  rw [present_getD] at hpr
  generalize cf0.constant_pool.getD v none = e0 at hs hpr ⊢
  generalize cf.constant_pool.getD (posn (slots cf0.constant_pool alive) v) none = e1 at hs ⊢
  unfold same_slot at hs
  cases e0 with
  | none => exact absurd hpr (by simp)
  | some cp0 =>
    cases e1 with
    | none => simp at hs
    | some cp =>
      simp only [Option.map_some', Option.some.injEq] at hs
      exact ⟨cp, cp0, rfl, rfl, hs⟩

theorem present_of_getD (pool : List (Option cp_info)) (j : Nat) (cp : cp_info)
    (h : pool.getD j none = some cp) : present pool j = true := by
  rw [present_getD, h]
  rfl

/-- The mark pass on a model in the relation `Sim`: it returns, and the list
of references that it counts is, up to the order, the list of the references
of the original model sent through the map. -/
theorem sim_refct (t : code_h) (cf0 cf : ClassFile) (alive : List Nat)
    (hsim : Sim t cf0 cf alive) (hp : paired cf0.constant_pool) (hcl : Closed cf0 alive)
    (hsize : (roots cf0).length + (alive.flatMap (entry_refs cf0.constant_pool)).length
      < 2147483648) :
    ∃ l q, refs_ClassFile t cf = some l ∧
      l.Perm ((roots cf0 ++ alive.flatMap (entry_refs cf0.constant_pool)).map
        (posn (slots cf0.constant_pool alive))) ∧
      refct_ClassFile t cf = some { cf with constant_pool := q } ∧
      (∀ i, q[i]? = counted l cf.constant_pool i) ∧
      same_pool cf.constant_pool q := by
  obtain ⟨l, hl, hperm⟩ := quiet_refs t cf hsim.2.2.1
  rw [sim_roots t cf0 cf alive hsim, sim_refs_pool t cf0 cf alive hsim hp,
    ← List.map_append] at hperm
  have hv : ∀ i ∈ l, present cf.constant_pool i = true := by
    intro i hi
    obtain ⟨v, hv, rfl⟩ := List.mem_map.1 ((hperm.mem_iff).1 hi)
    obtain ⟨cp, _, h1, _, _⟩ := sim_present t cf0 cf alive hsim hcl v
      (closed_mem cf0 alive hcl v hv)
    exact present_of_getD _ _ cp h1
  have hn : l.length < 2147483648 := by
    rw [hperm.length_eq, List.length_map, List.length_append]
    exact hsize
  obtain ⟨q, hq, _, hc, hs⟩ := refct_ClassFile_counts t cf l hl hv hn
  exact ⟨l, q, hl, hperm, hq, hc, hs⟩

theorem getD_some_iff (pool : List (Option cp_info)) (j : Nat) (cp : cp_info) :
    pool.getD j none = some cp ↔ pool[j]? = some (some cp) := by
  rw [List.getD_eq_getElem?_getD]
  cases pool[j]? with
  | none => simp
  | some e => simp

theorem getD_none_of (pool : List (Option cp_info)) (j : Nat)
    (h : pool.getD j none = none) : ∀ cp, pool[j]? ≠ some (some cp) := by
  intro cp hc
  rw [(getD_some_iff pool j cp).2 hc] at h
  exact absurd h (by simp)

theorem counted_getD (l : List Nat) (pool q : List (Option cp_info))
    (hc : ∀ i, q[i]? = counted l pool i) (i : Nat) :
    q.getD i none
      = (pool.getD i none).map (fun cp => { cp with refCount := l.count i }) := by
  rw [List.getD_eq_getElem?_getD, List.getD_eq_getElem?_getD, hc i, counted]
  cases pool[i]? with
  | none => rfl
  | some e => rfl

theorem count_ne_zero_iff (l : List Nat) (i : Nat) : l.count i ≠ 0 ↔ i ∈ l := by
  rw [← List.count_pos_iff]
  omega

/-- The marked entry of an entry that is still there: its count is not 0
exactly when the entry is referenced. -/
theorem sim_marked (t : code_h) (cf0 cf : ClassFile) (alive : List Nat)
    (hsim : Sim t cf0 cf alive) (hcl : Closed cf0 alive)
    (l : List Nat) (q : List (Option cp_info))
    (hperm : l.Perm ((roots cf0 ++ alive.flatMap (entry_refs cf0.constant_pool)).map
      (posn (slots cf0.constant_pool alive))))
    (hc : ∀ i, q[i]? = counted l cf.constant_pool i) (v : Nat) (hv : v ∈ alive) :
    ∃ cp, q.getD (posn (slots cf0.constant_pool alive) v) none = some cp ∧
      isLong cp = long_at cf0.constant_pool v ∧
      (cp.refCount != 0) = referenced cf0 alive v := by
  obtain ⟨cp, cp0, h1, h2, h3⟩ := sim_present t cf0 cf alive hsim hcl v hv
  refine ⟨{ cp with refCount := l.count (posn (slots cf0.constant_pool alive) v) }, ?_, ?_, ?_⟩
  · rw [counted_getD l _ q hc, h1]
    rfl
  · have e1 : isLong { cp with refCount := l.count (posn (slots cf0.constant_pool alive) v) }
        = isLong cp := isLong_of_info rfl
    rw [e1, isLong_of_info h3, gc_cp_info_isLong, long_at, h2]
  · simp only
    have e : l.count (posn (slots cf0.constant_pool alive) v) ≠ 0
        ↔ referenced cf0 alive v = true := by
      rw [count_ne_zero_iff, hperm.mem_iff, referenced_iff, List.mem_map]
      constructor
      · rintro ⟨w, hw, he⟩
        have hwa := closed_mem cf0 alive hcl w hw
        have := posn_inj _ w v (mem_slots_of_mem _ _ _ hwa) (mem_slots_of_mem _ _ _ hv) he
        rw [← this]
        exact hw
      · intro hw
        exact ⟨v, hw, rfl⟩
    by_cases hr : referenced cf0 alive v = true
    · rw [hr]
      simpa using e.2 hr
    · have hr1 : referenced cf0 alive v = false := by simpa using hr
      rw [hr1]
      have : ¬ l.count (posn (slots cf0.constant_pool alive) v) ≠ 0 := fun h => hr (e.1 h)
      simpa using this

/-- In the marked pool a slot survives exactly when the round keeps it. -/
theorem sim_survives (t : code_h) (cf0 cf : ClassFile) (alive : List Nat)
    (hsim : Sim t cf0 cf alive) (hp : paired cf0.constant_pool) (hcl : Closed cf0 alive)
    (l : List Nat) (q : List (Option cp_info))
    (hperm : l.Perm ((roots cf0 ++ alive.flatMap (entry_refs cf0.constant_pool)).map
      (posn (slots cf0.constant_pool alive))))
    (hc : ∀ i, q[i]? = counted l cf.constant_pool i)
    (k : Nat) (hk : k < (slots cf0.constant_pool alive).length) :
    survives q (k + 1) = keep_slot cf0 alive ((slots cf0.constant_pool alive).getD k 0) := by
  have hnd := slots_nodup cf0.constant_pool hp alive hcl.1 hcl.2.1
  have hget : (slots cf0.constant_pool alive)[k]?
      = some ((slots cf0.constant_pool alive).getD k 0) := by
    rw [List.getD_eq_getElem _ _ hk, List.getElem?_eq_getElem hk]
  have hmem : (slots cf0.constant_pool alive).getD k 0 ∈ slots cf0.constant_pool alive := by
    rw [List.getD_eq_getElem _ _ hk]
    exact List.getElem_mem hk
  have hpos := posn_get _ hnd k hk
  generalize (slots cf0.constant_pool alive).getD k 0 = s at hget hmem hpos
  unfold keep_slot survives
  by_cases hs : present cf0.constant_pool s = true
  · have hv := slots_present _ alive hp s hmem hs
    obtain ⟨cp, h1, _, h3⟩ := sim_marked t cf0 cf alive hsim hcl l q hperm hc s hv
    rw [hpos] at h1
    rw [h1, if_pos hs]
    exact h3
  · have hs1 : present cf0.constant_pool s = false := by simpa using hs
    obtain ⟨j, rfl, hk1, hprev, hl, hj⟩ := slots_prev _ alive hcl.2.1 k s hget hs1
    have hposj : posn (slots cf0.constant_pool alive) j = k := by
      have hk2 : k - 1 < (slots cf0.constant_pool alive).length := by omega
      have := posn_get _ hnd (k - 1) hk2
      rw [List.getD_eq_getElem?_getD, hprev, Option.getD_some] at this
      omega
    obtain ⟨cp, h1, h2, h3⟩ := sim_marked t cf0 cf alive hsim hcl l q hperm hc j hj
    rw [hposj] at h1
    have hnone : q.getD (k + 1) none = none := by
      rw [counted_getD l _ q hc]
      have := sim_slot t cf0 cf alive hsim (j + 1) hmem
      rw [hpos, getD_of_absent _ _ hs1] at this
      unfold same_slot at this
      generalize cf.constant_pool.getD (k + 1) none = e at this ⊢
      cases e with
      | none => rfl
      | some x => simp at this
    rw [hnone, if_neg hs]
    simp only [Nat.add_sub_cancel]
    rw [h1]
    simp only
    rw [h2, hl, h3, Bool.true_and]

theorem range_map_getD (sl : List Nat) :
    (List.range' 1 sl.length).map (fun p => sl.getD (p - 1) 0) = sl := by
  apply List.ext_getElem
  · simp
  · intro i h1 h2
    simp only [List.getElem_map, List.getElem_range', Nat.one_mul, Nat.add_sub_cancel_left]
    exact List.getD_eq_getElem _ _ h2

theorem survivors_pool (cf : ClassFile) (q : List (Option cp_info)) :
    survivors { cf with constant_pool := q }
      = (List.range' 1 (cf.constant_pool_count - 1)).filter (survives q) := rfl

/-- The survivors of the marked pool, as slots of the original pool: they are
the slots of the entries that the round keeps. -/
theorem sim_survivors (t : code_h) (cf0 cf : ClassFile) (alive : List Nat)
    (hsim : Sim t cf0 cf alive) (hp : paired cf0.constant_pool) (hcl : Closed cf0 alive)
    (l : List Nat) (q : List (Option cp_info))
    (hperm : l.Perm ((roots cf0 ++ alive.flatMap (entry_refs cf0.constant_pool)).map
      (posn (slots cf0.constant_pool alive))))
    (hc : ∀ i, q[i]? = counted l cf.constant_pool i) :
    survivors { cf with constant_pool := q }
      = (slots cf0.constant_pool (step cf0 alive)).map (posn (slots cf0.constant_pool alive)) := by
  have hcount : cf.constant_pool_count - 1 = (slots cf0.constant_pool alive).length := by
    rw [hsim.2.2.2.1]
    omega
  have hnd := slots_nodup cf0.constant_pool hp alive hcl.1 hcl.2.1
  have e1 : survivors { cf with constant_pool := q }
      = (List.range' 1 (slots cf0.constant_pool alive).length).filter
          (keep_slot cf0 alive ∘ (fun p => (slots cf0.constant_pool alive).getD (p - 1) 0)) := by
    rw [survivors_pool, hcount]
    apply List.filter_congr
    intro p hpm
    rw [List.mem_range'_1] at hpm
    have := sim_survives t cf0 cf alive hsim hp hcl l q hperm hc (p - 1) (by omega)
    rw [Nat.sub_add_cancel hpm.1] at this
    exact this
  have e2 : (survivors { cf with constant_pool := q }).map
      (fun p => (slots cf0.constant_pool alive).getD (p - 1) 0)
      = slots cf0.constant_pool (step cf0 alive) := by
    rw [e1, ← List.filter_map, range_map_getD, step, slots_filter _ hp _ _ hcl.2.1]
    rfl
  rw [← e2, List.map_map]
  have e3 : (survivors { cf with constant_pool := q }).map
      (posn (slots cf0.constant_pool alive)
        ∘ (fun p => (slots cf0.constant_pool alive).getD (p - 1) 0))
      = (survivors { cf with constant_pool := q }).map id := by
    apply List.map_congr_left
    intro p hpm
    rw [e1, List.mem_filter, List.mem_range'_1] at hpm
    simp only [Function.comp_apply, id]
    rw [posn_get _ hnd (p - 1) (by omega)]
    omega
  rw [e3, List.map_id]

theorem closed_step (cf0 : ClassFile) (alive : List Nat) (hcl : Closed cf0 alive) :
    Closed cf0 (step cf0 alive) := by
  obtain ⟨h1, h2, h3, h4⟩ := hcl
  refine ⟨List.Pairwise.filter _ h1, fun j hj => h2 j (List.mem_filter.1 hj).1, ?_, ?_⟩
  · intro v hv
    refine List.mem_filter.2 ⟨h3 v hv, ?_⟩
    rw [referenced_iff]
    exact List.mem_append_left _ hv
  · intro j hj v hv
    have hja := (List.mem_filter.1 hj).1
    refine List.mem_filter.2 ⟨h4 j hja v hv, ?_⟩
    rw [referenced_iff]
    exact List.mem_append_right _ (List.mem_flatMap.2 ⟨j, hja, hv⟩)

/-- What the model and the kept entries refer to is kept. -/
theorem step_mem (cf0 : ClassFile) (alive : List Nat) (hcl : Closed cf0 alive) (v : Nat)
    (hv : v ∈ roots cf0 ++ (step cf0 alive).flatMap (entry_refs cf0.constant_pool)) :
    v ∈ step cf0 alive :=
  closed_mem cf0 _ (closed_step cf0 alive hcl) v hv

/-- The map of the sweep, on the slots that the round keeps. -/
theorem sim_MAP (t : code_h) (uninit : Nat → Nat) (cf0 cf : ClassFile) (alive : List Nat)
    (hsim : Sim t cf0 cf alive) (hp : paired cf0.constant_pool) (hcl : Closed cf0 alive)
    (l : List Nat) (q : List (Option cp_info))
    (hperm : l.Perm ((roots cf0 ++ alive.flatMap (entry_refs cf0.constant_pool)).map
      (posn (slots cf0.constant_pool alive))))
    (hc : ∀ i, q[i]? = counted l cf.constant_pool i)
    (s : Nat) (hs : s ∈ slots cf0.constant_pool (step cf0 alive)) :
    gc_MAP uninit { cf with constant_pool := q } (posn (slots cf0.constant_pool alive) s)
      = posn (slots cf0.constant_pool (step cf0 alive)) s := by
  have hsv := sim_survivors t cf0 cf alive hsim hp hcl l q hperm hc
  have hcl1 := closed_step cf0 alive hcl
  have hnd1 := slots_nodup cf0.constant_pool hp _ hcl1.1 hcl1.2.1
  obtain ⟨k, hk, rfl⟩ := List.getElem_of_mem hs
  have hk1 : k < (survivors { cf with constant_pool := q }).length := by
    rw [hsv, List.length_map]
    exact hk
  have e := gc_MAP_survivor uninit { cf with constant_pool := q } k hk1
  have e1 : (survivors { cf with constant_pool := q })[k]
      = posn (slots cf0.constant_pool alive) (slots cf0.constant_pool (step cf0 alive))[k] := by
    simp only [hsv, List.getElem_map]
  rw [e1] at e
  rw [e]
  have := posn_get _ hnd1 k hk
  rw [List.getD_eq_getElem _ _ hk] at this
  exact this.symm

theorem slots_step_mem (cf0 : ClassFile) (alive : List Nat) (s : Nat)
    (hs : s ∈ slots cf0.constant_pool (step cf0 alive)) : s ∈ slots cf0.constant_pool alive := by
  rw [mem_slots] at hs ⊢
  rcases hs with h | ⟨j, hj, hl, rfl⟩
  · exact Or.inl (List.mem_filter.1 h).1
  · exact Or.inr ⟨j, (List.mem_filter.1 hj).1, hl, rfl⟩

theorem step_eq_iff (cf0 : ClassFile) (alive : List Nat) (hp : paired cf0.constant_pool)
    (hcl : Closed cf0 alive) :
    (slots cf0.constant_pool (step cf0 alive)).length = (slots cf0.constant_pool alive).length
      ↔ step cf0 alive = alive := by
  constructor
  · intro h
    rw [step, slots_filter _ hp _ _ hcl.2.1, List.filter_length_eq_length] at h
    unfold step
    apply List.filter_eq_self.2
    intro j hj
    have := h j (mem_slots_of_mem _ _ _ hj)
    rw [if_pos (hcl.2.1 j hj)] at this
    exact this
  · intro h
    rw [h]

/-- One round of the loop on a model in the relation `Sim`: both passes return;
the new model is in the relation for the entries that the round keeps; the
sweep returns true exactly when the round keeps every entry. -/
theorem sim_round (t : code_h) (uninit : Nat → Nat) (cf0 cf : ClassFile) (alive : List Nat)
    (hsim : Sim t cf0 cf alive) (hp : paired cf0.constant_pool) (hcl : Closed cf0 alive)
    (hsize : (roots cf0).length + (alive.flatMap (entry_refs cf0.constant_pool)).length
      < 2147483648) :
    ∃ cf1 b cf2, refct_ClassFile t cf = some cf1 ∧
      gc_ClassFile uninit cf1 = some (b, cf2) ∧
      (b = true ↔ step cf0 alive = alive) ∧
      Sim t cf0 cf2 (step cf0 alive) ∧
      survivors cf1 = (slots cf0.constant_pool (step cf0 alive)).map
        (posn (slots cf0.constant_pool alive)) ∧
      ∀ s ∈ slots cf0.constant_pool (step cf0 alive),
        gc_MAP uninit cf1 (posn (slots cf0.constant_pool alive) s)
          = posn (slots cf0.constant_pool (step cf0 alive)) s := by
  obtain ⟨l, q, hl, hperm, hr, hc, hs⟩ := sim_refct t cf0 cf alive hsim hp hcl hsize
  have hsv := sim_survivors t cf0 cf alive hsim hp hcl l q hperm hc
  have hMAP := sim_MAP t uninit cf0 cf alive hsim hp hcl l q hperm hc
  have hcl1 := closed_step cf0 alive hcl
  obtain ⟨hwf1, hc1, _⟩ := refct_pool_wf t cf _ hsim.1 hr
  have h01 : ({ cf with constant_pool := q } : ClassFile).constant_pool[0]? = some none :=
    same_pool_get_none hs 0 hsim.2.1
  obtain ⟨cf2, hg, hwf2, hc2, _, h02⟩ := gc_pool_wf uninit { cf with constant_pool := q } hwf1
  have hspec := gc_ClassFile_spec uninit { cf with constant_pool := q } hwf1
  rw [hg] at hspec
  simp only [Option.some.injEq, Prod.mk.injEq] at hspec
  obtain ⟨_, hcf2⟩ := hspec
  have hcount2 : cf2.constant_pool_count
      = 1 + (slots cf0.constant_pool (step cf0 alive)).length := by
    rw [hc2, hsv, List.length_map]
  refine ⟨_, _, cf2, hr, hg, ?_, ⟨hwf2, h02 h01, ?_, hcount2, ?_, ?_⟩, hsv, hMAP⟩
  · rw [beq_iff_eq, hcount2, ← step_eq_iff cf0 alive hp hcl]
    have := hsim.2.2.2.1
    simp only at this ⊢
    omega
  · rw [quiet_gc t (gc_MAP uninit { cf with constant_pool := q }) { cf with constant_pool := q }
      cf2 (by rw [hcf2]) (by rw [hcf2]) (by rw [hcf2])]
    exact hsim.2.2.1
  · obtain ⟨_, cf3, hg3, _, _, hidx3⟩ :=
      gc_ClassFile_props uninit { cf with constant_pool := q } hwf1
    rw [hg] at hg3
    simp only [Option.some.injEq, Prod.mk.injEq] at hg3
    rw [hg3.2, hidx3]
    have e : idx_ClassFile { cf with constant_pool := q } = idx_ClassFile cf := rfl
    rw [e, hsim.2.2.2.2.1]
    apply remap_remap _ _ _ _ (posn_pos _)
    intro v hv
    exact hMAP v (mem_slots_of_mem _ _ _
      (step_mem cf0 alive hcl v (List.mem_append_left _ hv)))
  · intro k hk
    have hlen1 := pool_wf_length _ hwf1
    have hk1 : k < (survivors { cf with constant_pool := q }).length := by
      rw [hsv, List.length_map]
      exact hk
    have hpool := gc_pool_at uninit { cf with constant_pool := q } hlen1
      (pool_wf_pos _ hwf1) k hk1
    have hsk : (survivors { cf with constant_pool := q })[k]
        = posn (slots cf0.constant_pool alive)
            ((slots cf0.constant_pool (step cf0 alive)).getD k 0) := by
      simp only [hsv, List.getElem_map]
      rw [List.getD_eq_getElem _ _ hk]
    have hmem : (slots cf0.constant_pool (step cf0 alive)).getD k 0
        ∈ slots cf0.constant_pool (step cf0 alive) := by
      rw [List.getD_eq_getElem _ _ hk]
      exact List.getElem_mem hk
    rw [hsk] at hpool
    generalize (slots cf0.constant_pool (step cf0 alive)).getD k 0 = s at hpool hmem
    have hp2 : cf2.constant_pool = (q.take 1
        ++ (survivors { cf with constant_pool := q }).map (fun j => q.getD j none)).map
          (Option.map (gc_cp_info (gc_MAP uninit { cf with constant_pool := q }))) := by
      rw [hcf2]
    rw [List.getD_eq_getElem?_getD, hp2, hpool, Option.getD_some]
    have h1 : same_slot (q.getD (posn (slots cf0.constant_pool alive) s) none)
        ((cf0.constant_pool.getD s none).map
          (gc_cp_info (posn (slots cf0.constant_pool alive)))) :=
      same_slot_trans (same_slot_symm (same_pool_getD hs _))
        (sim_slot t cf0 cf alive hsim s (slots_step_mem cf0 alive s hmem))
    refine same_slot_trans (same_slot_gc _ h1) ?_
    cases he : cf0.constant_pool.getD s none with
    | none => rfl
    | some cp0 =>
      unfold same_slot
      simp only [Option.map_some', Option.some.injEq]
      apply gc_cp_info_comp
      intro v hv
      have hsp : s ∈ step cf0 alive :=
        slots_present _ _ hp s hmem (present_of_getD _ _ cp0 he)
      have hvr : v ∈ entry_refs cf0.constant_pool s := by
        unfold entry_refs
        rw [he]
        exact hv
      exact hMAP v (mem_slots_of_mem _ _ _ (hcl1.2.2.2 s hsp v hvr))

theorem present_of_get (pool : List (Option cp_info)) (j : Nat) (cp : cp_info)
    (h : pool[j]? = some (some cp)) : present pool j = true := by
  unfold present
  rw [h]

theorem absent_of_get (pool : List (Option cp_info)) (j : Nat)
    (h : pool[j]? = some none) : present pool j = false := by
  unfold present
  rw [h]

theorem long_at_of_get (pool : List (Option cp_info)) (j : Nat) (cp : cp_info)
    (h : pool[j]? = some (some cp)) : long_at pool j = isLong cp := by
  unfold long_at
  rw [(getD_some_iff pool j cp).2 h]

/-- The slots of the entries of a well-formed pool are all its slots. -/
theorem slots_entries_from : ∀ (suffix : List (Option cp_info)) (i : Nat)
    (P : List (Option cp_info)),
    P.drop i = suffix → pool_wf_from suffix = true →
    slots P ((List.range' i suffix.length).filter (present P)) = List.range' i suffix.length
  | [], i, P, _, _ => rfl
  | none :: rest, i, P, _, hwf => by simp [pool_wf_from] at hwf
  | [some cp], i, P, hd, hwf => by
    obtain ⟨hget, _, _⟩ := drop_cons_info P i _ _ hd
    have hnl : isLong cp = false := by simpa [pool_wf_from] using hwf
    have hl : long_at P i = false := by rw [long_at_of_get P i cp hget, hnl]
    simp [List.range', List.filter_cons, present_of_get P i cp hget, slots_cons, hl, slots_nil]
  | some cp :: p :: rest, i, P, hd, hwf => by
    obtain ⟨hget, hdrop, _⟩ := drop_cons_info P i _ _ hd
    obtain ⟨hget1, hdrop1, _⟩ := drop_cons_info P (i + 1) _ _ hdrop
    have hpi := present_of_get P i cp hget
    by_cases hl0 : isLong cp = true
    · have hp : p = none ∧ pool_wf_from rest = true := by
        cases p with
        | none => simpa [pool_wf_from, hl0] using hwf
        | some cp1 => simp [pool_wf_from, hl0] at hwf
      obtain ⟨hp, hwf1⟩ := hp
      subst hp
      have ih := slots_entries_from rest (i + 2) P hdrop1 hwf1
      have hl : long_at P i = true := by rw [long_at_of_get P i cp hget, hl0]
      have hn := absent_of_get P (i + 1) hget1
      simp only [List.length_cons, List.range'_succ, List.filter_cons, hpi, if_true, hn,
        Bool.false_eq_true, if_false, slots_cons, hl, List.cons_append, List.nil_append]
      rw [show i + 1 + 1 = i + 2 from rfl, ih]
    · have hnl : isLong cp = false := by simpa using hl0
      have hwf1 : pool_wf_from (p :: rest) = true := by
        cases p with
        | none => simp [pool_wf_from, hnl] at hwf
        | some cp1 => simpa [pool_wf_from, hnl] using hwf
      have ih := slots_entries_from (p :: rest) (i + 1) P hdrop hwf1
      have hl : long_at P i = false := by rw [long_at_of_get P i cp hget, hnl]
      rw [List.length_cons, List.range'_succ, List.filter_cons, hpi, if_pos rfl, slots_cons, hl]
      simp only [Bool.false_eq_true, if_false, List.cons_append, List.nil_append]
      rw [ih, List.length_cons]

theorem slots_entries (cf : ClassFile) (hwf : pool_wf cf = true) :
    slots cf.constant_pool (entries cf) = List.range' 1 (cf.constant_pool_count - 1) := by
  simp only [pool_wf, Bool.and_eq_true, decide_eq_true_eq] at hwf
  obtain ⟨⟨hlen, hpos⟩, hwf1⟩ := hwf
  have := slots_entries_from (cf.constant_pool.drop 1) 1 cf.constant_pool rfl hwf1
  rw [List.length_drop, hlen] at this
  exact this

theorem posn_range (n v : Nat) (h1 : 1 ≤ v) (h2 : v ≤ n) : posn (List.range' 1 n) v = v := by
  have hnd : (List.range' 1 n).Nodup :=
    (List.pairwise_lt_range' 1 n).imp (fun h => Nat.ne_of_lt h)
  have := posn_get (List.range' 1 n) hnd (v - 1) (by rw [List.length_range']; omega)
  rw [List.getD_eq_getElem _ _ (by rw [List.length_range']; omega), List.getElem_range'] at this
  have e : 1 + 1 * (v - 1) = v := by omega
  rw [e] at this
  omega

theorem present_range (cf : ClassFile) (hwf : pool_wf cf = true)
    (h0 : cf.constant_pool[0]? = some none) (v : Nat) (hv : present cf.constant_pool v = true) :
    1 ≤ v ∧ v < cf.constant_pool_count := by
  obtain ⟨cp, hcp⟩ := (present_iff _ _).1 hv
  have hlen := pool_wf_length cf hwf
  constructor
  · by_contra hc
    have : v = 0 := by omega
    subst this
    rw [h0] at hcp
    simp at hcp
  · by_contra hc
    rw [List.getElem?_eq_none (by omega)] at hcp
    simp at hcp

theorem paired_of_wf (cf : ClassFile) (hwf : pool_wf cf = true)
    (h0 : cf.constant_pool[0]? = some none) : paired cf.constant_pool := by
  intro j hl
  have hpr := present_of_long _ j hl
  obtain ⟨cp, hcp⟩ := (present_iff _ _).1 hpr
  have hr := present_range cf hwf h0 j hpr
  rw [long_at_of_get _ j cp hcp] at hl
  simp only [pool_wf, Bool.and_eq_true, decide_eq_true_eq] at hwf
  exact absent_of_get _ _
    (pool_wf_long_next (cf.constant_pool.drop 1) 1 cf.constant_pool rfl hwf.2 j cp hr.1 hcp hl)

theorem mem_entries (cf : ClassFile) (hwf : pool_wf cf = true)
    (h0 : cf.constant_pool[0]? = some none) (v : Nat) :
    v ∈ entries cf ↔ present cf.constant_pool v = true := by
  unfold entries
  rw [List.mem_filter, List.mem_range'_1]
  constructor
  · exact fun h => h.2
  · intro h
    have := present_range cf hwf h0 v h
    exact ⟨⟨this.1, by omega⟩, h⟩

theorem closed_entries (cf : ClassFile) (hwf : pool_wf cf = true)
    (h0 : cf.constant_pool[0]? = some none) (hv : valid_refs cf) : Closed cf (entries cf) := by
  refine ⟨List.Pairwise.filter _ (List.pairwise_lt_range' 1 _), ?_, ?_, ?_⟩
  · exact fun j hj => (mem_entries cf hwf h0 j).1 hj
  · exact fun v h => (mem_entries cf hwf h0 v).2 (hv.1 v h)
  · exact fun j _ v h => (mem_entries cf hwf h0 v).2 (hv.2 v (entry_refs_sub _ j v h))

/-- The model is in the relation `Sim` with itself, for all its entries. -/
theorem sim_init (t : code_h) (cf : ClassFile) (hwf : pool_wf cf = true)
    (h0 : cf.constant_pool[0]? = some none) (hq : quiet t cf = true) (hv : valid_refs cf) :
    Sim t cf cf (entries cf) := by
  have hsl := slots_entries cf hwf
  have hfix : ∀ v, present cf.constant_pool v = true →
      posn (slots cf.constant_pool (entries cf)) v = v := by
    intro v hp
    have := present_range cf hwf h0 v hp
    rw [hsl]
    exact posn_range _ v this.1 (by omega)
  refine ⟨hwf, h0, hq, ?_, ?_, ?_⟩
  · rw [hsl, List.length_range']
    have := pool_wf_pos cf hwf
    omega
  · exact (remap_id _ _ (fun v h => hfix v (hv.1 v h))).symm
  · intro k hk
    rw [hsl, List.length_range'] at hk
    have e : (slots cf.constant_pool (entries cf)).getD k 0 = k + 1 := by
      rw [hsl, List.getD_eq_getElem _ _ (by rw [List.length_range']; exact hk),
        List.getElem_range']
      omega
    rw [e]
    cases he : cf.constant_pool.getD (k + 1) none with
    | none => rfl
    | some cp =>
      unfold same_slot
      simp only [Option.map_some', Option.some.injEq]
      rw [gc_cp_info_id]
      intro x hx
      refine hfix x (hv.2 x (entry_refs_sub _ (k + 1) x ?_))
      unfold entry_refs
      rw [he]
      exact hx

theorem refs_pool_entries_from (P : List (Option cp_info)) :
    ∀ (suffix : List (Option cp_info)) (i : Nat), P.drop i = suffix →
      ((List.range' i suffix.length).filter (present P)).flatMap (entry_refs P)
        = refs_pool suffix
  | [], i, _ => rfl
  | e :: rest, i, hd => by
    obtain ⟨hget, hdrop, _⟩ := drop_cons_info P i _ _ hd
    have ih := refs_pool_entries_from P rest (i + 1) hdrop
    rw [List.length_cons, List.range'_succ, List.filter_cons, refs_pool_cons, ← ih]
    cases e with
    | none =>
      rw [absent_of_get P i hget]
      rfl
    | some cp =>
      rw [present_of_get P i cp hget, if_pos rfl, List.flatMap_cons]
      congr 1
      unfold entry_refs
      rw [(getD_some_iff P i cp).2 hget]

theorem refs_pool_entries (cf : ClassFile) (hwf : pool_wf cf = true)
    (h0 : cf.constant_pool[0]? = some none) :
    (entries cf).flatMap (entry_refs cf.constant_pool) = refs_pool cf.constant_pool := by
  have hlen := pool_wf_length cf hwf
  have hpos := pool_wf_pos cf hwf
  have := refs_pool_entries_from cf.constant_pool (cf.constant_pool.drop 1) 1 rfl
  rw [List.length_drop, hlen] at this
  unfold entries
  rw [this]
  have e : cf.constant_pool = none :: cf.constant_pool.drop 1 := by
    have hlt : 0 < cf.constant_pool.length := by omega
    rw [List.getElem?_eq_getElem hlt] at h0
    conv_lhs => rw [← List.drop_zero cf.constant_pool, List.drop_eq_getElem_cons hlt]
    rw [Option.some.inj h0]
  conv_rhs => rw [e]
  rfl

theorem alive_after_iterate (cf0 : ClassFile) (r : Nat) :
    alive_after cf0 r = (step cf0)^[r] (entries cf0) := by
  induction r with
  | zero => rfl
  | succ r ih => rw [alive_after, ih, Function.iterate_succ_apply']

theorem closed_iterate (cf0 : ClassFile) (alive : List Nat) (hcl : Closed cf0 alive) (r : Nat) :
    Closed cf0 ((step cf0)^[r] alive) := by
  induction r generalizing alive with
  | zero => exact hcl
  | succ r ih => exact ih (step cf0 alive) (closed_step cf0 alive hcl)

theorem step_size (cf0 : ClassFile) (alive : List Nat)
    (hsize : (roots cf0).length + (alive.flatMap (entry_refs cf0.constant_pool)).length
      < 2147483648) :
    (roots cf0).length + ((step cf0 alive).flatMap (entry_refs cf0.constant_pool)).length
      < 2147483648 := by
  have := flatMap_filter_length (entry_refs cf0.constant_pool) (referenced cf0 alive) alive
  unfold step
  omega

/-- The loop on a model in the relation `Sim`: it is left after the first
round that keeps every entry. -/
theorem sim_loop (t : code_h) (uninit : Nat → Nat → Nat) (cf0 : ClassFile)
    (hp : paired cf0.constant_pool) :
    ∀ (r fuel n : Nat) (cf : ClassFile) (alive : List Nat), Sim t cf0 cf alive →
      Closed cf0 alive →
      (roots cf0).length + (alive.flatMap (entry_refs cf0.constant_pool)).length
        < 2147483648 →
      (∀ i, i < r → (step cf0)^[i + 1] alive ≠ (step cf0)^[i] alive) →
      (step cf0)^[r + 1] alive = (step cf0)^[r] alive → r < fuel →
      ∃ final, gc_loop t uninit fuel n cf = .finished (n + r + 1) final ∧
        after_rounds t uninit (r + 1) n cf = some final ∧
        Sim t cf0 final ((step cf0)^[r] alive)
  | _, 0, _, _, _, _, _, _, _, _, hf => by omega
  | 0, fuel + 1, n, cf, alive, hsim, hcl, hsize, _, hfix, _ => by
    obtain ⟨cf1, b, cf2, hr, hg, hb, hsim2, _⟩ :=
      sim_round t (uninit n) cf0 cf alive hsim hp hcl hsize
    have hst : step cf0 alive = alive := hfix
    have hbt : b = true := hb.2 hst
    subst hbt
    rw [hst] at hsim2
    refine ⟨cf2, ?_, ?_, hsim2⟩
    · rw [gc_loop, hr]
      simp only [hg, if_true]
    · rw [after_rounds, hr]
      simp only [hg]
      rfl
  | r + 1, fuel + 1, n, cf, alive, hsim, hcl, hsize, hne, hfix, hf => by
    obtain ⟨cf1, b, cf2, hr, hg, hb, hsim2, _⟩ :=
      sim_round t (uninit n) cf0 cf alive hsim hp hcl hsize
    have hst : step cf0 alive ≠ alive := hne 0 (by omega)
    have hbf : b = false := by
      cases b with
      | false => rfl
      | true => exact absurd (hb.1 rfl) hst
    subst hbf
    obtain ⟨final, h1, h2, h3⟩ := sim_loop t uninit cf0 hp r fuel (n + 1) cf2 (step cf0 alive)
      hsim2 (closed_step cf0 alive hcl) (step_size cf0 alive hsize)
      (fun i hi => hne (i + 1) (by omega)) hfix (by omega)
    refine ⟨final, ?_, ?_, h3⟩
    · rw [gc_loop, hr]
      simp only [hg, Bool.false_eq_true, if_false]
      rw [h1]
      congr 1
      omega
    · rw [after_rounds, hr]
      simp only [hg]
      exact h2

/-- The rounds reach, within as many rounds as there are entries, a list of
entries that a round keeps. -/
theorem step_fix_exists (cf0 : ClassFile) :
    ∀ (m : Nat) (alive : List Nat), alive.length ≤ m →
      ∃ r, r ≤ alive.length ∧
        (∀ i, i < r → (step cf0)^[i + 1] alive ≠ (step cf0)^[i] alive) ∧
        (step cf0)^[r + 1] alive = (step cf0)^[r] alive
  | 0, alive, h => by
    have : alive = [] := List.length_eq_zero.1 (by omega)
    subst this
    exact ⟨0, by simp, by simp, rfl⟩
  | m + 1, alive, h => by
    by_cases hst : step cf0 alive = alive
    · exact ⟨0, by omega, by simp, hst⟩
    · have hlt : (step cf0 alive).length < alive.length := by
        have hle : (step cf0 alive).length ≤ alive.length := List.length_filter_le _ _
        rcases Nat.lt_or_ge (step cf0 alive).length alive.length with h1 | h1
        · exact h1
        · exfalso
          apply hst
          have h2 : (alive.filter (referenced cf0 alive)).length = alive.length :=
            Nat.le_antisymm hle h1
          exact List.filter_eq_self.2 (List.filter_length_eq_length.1 h2)
      obtain ⟨r, hr, h1, h2⟩ := step_fix_exists cf0 m (step cf0 alive) (by omega)
      refine ⟨r + 1, by omega, ?_, h2⟩
      intro i hi
      cases i with
      | zero => exact hst
      | succ i => exact h1 i (by omega)

theorem entries_length (cf : ClassFile) : (entries cf).length ≤ cf.constant_pool_count - 1 := by
  unfold entries
  calc ((List.range' 1 (cf.constant_pool_count - 1)).filter (present cf.constant_pool)).length
      ≤ (List.range' 1 (cf.constant_pool_count - 1)).length := List.length_filter_le _ _
    _ = cf.constant_pool_count - 1 := by simp

/-- The loop on a model whose Code bodies are quiet and whose references
denote entries: it is left, after the first round that keeps every entry, with
a model in the relation `Sim` for the entries that are then there. -/
theorem quiet_loop (t : code_h) (uninit : Nat → Nat → Nat) (cf : ClassFile)
    (hwf : pool_wf cf = true) (h0 : cf.constant_pool[0]? = some none)
    (hq : quiet t cf = true) (hv : valid_refs cf)
    (hsize : (roots cf).length + (refs_pool cf.constant_pool).length < 2147483648) :
    ∃ r final, r < cf.constant_pool_count ∧
      gc_loop t uninit cf.constant_pool_count 0 cf = .finished (r + 1) final ∧
      after_rounds t uninit (r + 1) 0 cf = some final ∧
      Sim t cf final (alive_after cf r) ∧
      Closed cf (alive_after cf r) ∧
      (∀ i, i < r → alive_after cf (i + 1) ≠ alive_after cf i) ∧
      alive_after cf (r + 1) = alive_after cf r := by
  have hp := paired_of_wf cf hwf h0
  have hcl := closed_entries cf hwf h0 hv
  have hsim := sim_init t cf hwf h0 hq hv
  have hpos := pool_wf_pos cf hwf
  rw [← refs_pool_entries cf hwf h0] at hsize
  obtain ⟨r, hr, h1, h2⟩ := step_fix_exists cf (entries cf).length (entries cf) (Nat.le_refl _)
  have hrl := entries_length cf
  obtain ⟨final, hf1, hf2, hf3⟩ := sim_loop t uninit cf hp r cf.constant_pool_count 0 cf
    (entries cf) hsim hcl hsize h1 h2 (by omega)
  refine ⟨r, final, by omega, ?_, hf2, ?_, ?_, ?_, ?_⟩
  · rw [hf1]
    congr 1
    omega
  · rw [alive_after_iterate]
    exact hf3
  · rw [alive_after_iterate]
    exact closed_iterate cf _ hcl r
  · intro i hi
    rw [alive_after_iterate, alive_after_iterate]
    exact h1 i hi
  · rw [alive_after_iterate, alive_after_iterate]
    exact h2

/-! ## The driver loop: one generation in a round -/

theorem mem_getD (l : List Nat) (j : Nat) :
    j ∈ l ↔ ∃ m, m < l.length ∧ l.getD m 0 = j := by
  rw [List.mem_iff_getElem]
  constructor
  · rintro ⟨m, hm, rfl⟩
    exact ⟨m, hm, List.getD_eq_getElem _ _ hm⟩
  · rintro ⟨m, hm, rfl⟩
    exact ⟨m, hm, (List.getD_eq_getElem _ _ hm).symm⟩

theorem code_refs_one (t : code_h) (a : Nat) (ha : t.refct_code_switch a = rop.rop_0) :
    code_refs t [a] 1 = some [] := by
  simp [code_refs, code_refs_loop, argb, rop_refs, ha]

theorem code_refs_two (t : code_h) (a b : Nat) (ha : t.refct_code_switch a = rop.rop_0)
    (hb : t.refct_code_switch b = rop.rop_0) : code_refs t [a, b] 2 = some [] := by
  simp [code_refs, code_refs_loop, argb, rop_refs, ha, hb]

theorem code_refs_stub (t : code_h) (ht : stub_table t) (c : Nat) (stub : List Nat)
    (h : return_stub c = some stub) : code_refs t stub stub.length = some [] := by
  have hs : stub ∈ [[0xb1], [0x03, 0xac], [0x0e, 0xaf], [0x0b, 0xae], [0x09, 0xad],
      [0x01, 0xb0]] := by
    unfold return_stub at h
    split_ifs at h <;> simp at h <;> subst h <;> simp
  simp only [List.mem_cons, List.mem_singleton, List.not_mem_nil, or_false] at hs
  rcases hs with rfl | rfl | rfl | rfl | rfl | rfl
  · exact code_refs_one t _ (ht _ (by simp))
  · exact code_refs_two t _ _ (ht _ (by simp)) (ht _ (by simp))
  · exact code_refs_two t _ _ (ht _ (by simp)) (ht _ (by simp))
  · exact code_refs_two t _ _ (ht _ (by simp)) (ht _ (by simp))
  · exact code_refs_two t _ _ (ht _ (by simp)) (ht _ (by simp))
  · exact code_refs_two t _ _ (ht _ (by simp)) (ht _ (by simp))

theorem noCode_quiet (t : code_h) : ∀ (as : List attribute_info), noCode as = true →
    quiet_attributes t as = true
  | [], _ => by simp [quiet_attributes]
  | a :: rest, h => by
    simp only [noCode, List.all_cons, Bool.and_eq_true] at h
    have ih := noCode_quiet t rest (by simpa [noCode] using h.2)
    obtain ⟨n, l, i, v⟩ := a
    have hv : quiet_attribute_value t v = true := by
      cases v <;> simp [quiet_attribute_value, isCode, attribute_info.value] at h ⊢
    simp [quiet_attributes, quiet_attribute_info, hv, ih]

theorem noCode_filter (p : attribute_info → Bool) (as : List attribute_info)
    (h : noCode as = true) : noCode (as.filter p) = true := by
  simp only [noCode, List.all_eq_true, List.mem_filter] at h ⊢
  exact fun a ha => h a ha.1

theorem prune_attribute_info_quiet (t : code_h) (ht : stub_table t)
    (pool : List (Option cp_info)) (m : method_info) (a a1 : attribute_info) (drop : Bool)
    (h : prune_attribute_info pool a (some m) = some (drop, a1))
    (hok : isCode a.value = true → descriptor_ok pool m = true) :
    quiet_attribute_info t a1 = true := by
  cases a with
  | mk n l i v =>
    cases v
    case Code ms ml cl code etl et ac as =>
      have hok1 := hok rfl
      simp only [prune_attribute_info] at h
      split at h
      · simp at h
      · rename_i descriptor hd
        split at h
        · simp at h
        · rename_i c hc
          split at h
          · simp at h
          · rename_i marked hm
            simp only [Option.some.injEq, Prod.mk.injEq] at h
            obtain ⟨_, h2⟩ := h
            obtain ⟨hf, hn⟩ := prune_attributes_null pool as marked hm
            simp only [descriptor_ok, hd, hc, Option.some_bind, Option.isSome_iff_exists] at hok1
            obtain ⟨stub, hstub⟩ := hok1
            have hq := noCode_quiet t _ (noCode_filter kept as hn)
            have hcr := code_refs_stub t ht c stub hstub
            rw [← h2, repack_eq, hf, prune_code_stub c stub code cl hstub]
            simp [quiet_attribute_info, quiet_attribute_value, hcr, hq, catch_refs]
    all_goals
      simp [prune_attribute_info] at h
      simp [← h.2, quiet_attribute_info, quiet_attribute_value]

theorem prune_attributes_quiet (t : code_h) (ht : stub_table t)
    (pool : List (Option cp_info)) (m : method_info) :
    ∀ (as : List attribute_info) (marked : List (Option attribute_info)),
      prune_attributes pool as (some m) = some marked →
      (noCode as = true ∨ descriptor_ok pool m = true) →
      quiet_attributes t (marked.filterMap id) = true
  | [], marked, h, _ => by
    simp [prune_attributes] at h
    simp [h, quiet_attributes]
  | a :: as, marked, h, hok => by
    simp only [prune_attributes] at h
    split at h
    · simp at h
    · rename_i drop a1 ha
      split at h
      · simp at h
      · rename_i marked1 hrest
        have hqa := prune_attribute_info_quiet t ht pool m a a1 drop ha (by
          intro hc
          rcases hok with hok | hok
          · simp [noCode, hc] at hok
          · exact hok)
        have ih := prune_attributes_quiet t ht pool m as marked1 hrest (by
          rcases hok with hok | hok
          · left
            simp only [noCode, List.all_cons, Bool.and_eq_true] at hok
            simpa [noCode] using hok.2
          · exact Or.inr hok)
        simp only [Option.some.injEq] at h
        subst h
        cases drop
        · simp [quiet_attributes, hqa, ih]
        · simpa using ih

theorem prune_fields_quiet (t : code_h) (cf : ClassFile) :
    ∀ (fs : List field_info) (marked : List (Option field_info)),
      prune_fields cf fs = some marked →
      ∀ fi ∈ marked.filterMap id, quiet_attributes t fi.attributes = true
  | [], marked, h => by
    simp [prune_fields] at h
    simp [h]
  | fi :: fs, marked, h => by
    simp only [prune_fields] at h
    split at h
    · simp at h
    · rename_i drop fi1 hfi
      split at h
      · simp at h
      · rename_i marked1 hrest
        have ih := prune_fields_quiet t cf fs marked1 hrest
        simp only [Option.some.injEq] at h
        subst h
        cases drop
        · intro x hx
          change x ∈ _ :: List.filterMap id marked1 at hx
          rcases List.mem_cons.1 hx with rfl | hx
          · unfold prune_field_info at hfi
            split_ifs at hfi
            · split at hfi
              · simp at hfi
              · rename_i m hm
                simp only [Option.some.injEq, Prod.mk.injEq, true_and] at hfi
                obtain ⟨hf, hn⟩ := prune_attributes_null _ _ _ hm
                rw [← hfi, repack_eq, hf]
                exact noCode_quiet t _ (noCode_filter kept _ hn)
            · simp at hfi
          · exact ih x hx
        · simpa using ih

theorem prune_methods_quiet (t : code_h) (ht : stub_table t) (cf : ClassFile) :
    ∀ (ms : List method_info) (marked : List (Option method_info)),
      prune_methods cf ms = some marked →
      (∀ mi ∈ ms, visible mi.access_flags = true →
        noCode mi.attributes = true ∨ descriptor_ok cf.constant_pool mi = true) →
      ∀ mi ∈ marked.filterMap id, quiet_attributes t mi.attributes = true
  | [], marked, h, _ => by
    simp [prune_methods] at h
    simp [h]
  | mi :: ms, marked, h, hok => by
    simp only [prune_methods] at h
    split at h
    · simp at h
    · rename_i drop mi1 hmi
      split at h
      · simp at h
      · rename_i marked1 hrest
        have ih := prune_methods_quiet t ht cf ms marked1 hrest
          (fun x hx => hok x (List.mem_cons_of_mem _ hx))
        simp only [Option.some.injEq] at h
        subst h
        cases drop
        · intro x hx
          change x ∈ _ :: List.filterMap id marked1 at hx
          rcases List.mem_cons.1 hx with rfl | hx
          · have hvis := (prune_method_info_spec cf mi _ _ hmi).1
            simp only [Bool.false_eq, Bool.not_eq_false'] at hvis
            unfold prune_method_info at hmi
            split_ifs at hmi
            · split at hmi
              · simp at hmi
              · rename_i m hm
                simp only [Option.some.injEq, Prod.mk.injEq, true_and] at hmi
                rw [← hmi, repack_eq]
                exact prune_attributes_quiet t ht _ mi _ _ hm
                  (hok mi (List.mem_cons_self _ _) hvis)
            · simp at hmi
          · exact ih x hx
        · simpa using ih

theorem prune_ClassFile_frame (cf cf1 : ClassFile) (h1 : prune_ClassFile cf = some cf1) :
    cf1.constant_pool = cf.constant_pool ∧
    cf1.constant_pool_count = cf.constant_pool_count ∧
    cf1.this_class = cf.this_class ∧ cf1.super_class = cf.super_class ∧
    cf1.interfaces = cf.interfaces := by
  unfold prune_ClassFile at h1
  split at h1
  · simp at h1
  · split at h1
    · simp at h1
    · split at h1
      · simp at h1
      · simp only [Option.some.injEq] at h1
        subst h1
        simp

theorem prune_ClassFile_quiet (t : code_h) (ht : stub_table t) (cf cf1 : ClassFile)
    (h : prune_ClassFile cf = some cf1) (hd : descriptors_ok cf = true) :
    quiet t cf1 = true := by
  unfold prune_ClassFile at h
  split at h
  · simp at h
  · rename_i fields hf
    split at h
    · simp at h
    · rename_i methods hm
      split at h
      · simp at h
      · rename_i attributes ha
        simp only [Option.some.injEq] at h
        subst h
        have q1 := prune_fields_quiet t cf _ _ hf
        have q2 := prune_methods_quiet t ht cf _ _ hm (by
          intro mi hmi hvis
          simp only [descriptors_ok, List.all_eq_true, Bool.or_eq_true,
            Bool.not_eq_true'] at hd
          rcases hd mi hmi with (h1 | h1) | h1
          · rw [hvis] at h1
            exact absurd h1 (by simp)
          · exact Or.inl h1
          · exact Or.inr h1)
        obtain ⟨h3, hn⟩ := prune_attributes_null _ _ _ ha
        have q3 := noCode_quiet t _ (noCode_filter kept _ hn)
        simp only [quiet, repack_eq, Bool.and_eq_true, List.all_eq_true]
        rw [h3]
        exact ⟨⟨q1, q2⟩, q3⟩

theorem idx_attributes_cons (a : attribute_info) (rest : List attribute_info) :
    idx_attributes (a :: rest) = idx_attribute_info a ++ idx_attributes rest := by
  rw [idx_attributes]

theorem idx_attributes_filter (p : attribute_info → Bool) :
    ∀ as : List attribute_info, (idx_attributes (as.filter p)).Sublist (idx_attributes as)
  | [] => List.Sublist.refl _
  | a :: rest => by
    have ih := idx_attributes_filter p rest
    rw [idx_attributes_cons]
    by_cases h : p a = true
    · rw [List.filter_cons_of_pos h, idx_attributes_cons]
      exact List.Sublist.append (List.Sublist.refl _) ih
    · rw [List.filter_cons_of_neg h]
      exact ih.trans (List.sublist_append_right _ _)

theorem pruned_with_sublist (pool : List (Option cp_info)) (mi : method_info)
    (a a1 : attribute_info) (h : pruned_with pool mi a a1) :
    (idx_attribute_info a1).Sublist (idx_attribute_info a) := by
  obtain ⟨n, l, i, v⟩ := a
  cases v <;> simp only [pruned_with] at h
  case Code =>
    obtain ⟨_, _, _, _, rfl⟩ := h
    simp only [idx_attribute_info, idx_attribute_value]
    exact List.Sublist.cons₂ _ (idx_attributes_filter kept _)
  all_goals
    subst h
    exact List.Sublist.refl _

theorem idx_attributes_forall₂ (R : attribute_info → attribute_info → Prop)
    (hR : ∀ a b, R a b → (idx_attribute_info b).Sublist (idx_attribute_info a))
    (l1 l2 : List attribute_info) (h : List.Forall₂ R l1 l2) :
    (idx_attributes l2).Sublist (idx_attributes l1) := by
  induction h with
  | nil => exact List.Sublist.refl _
  | cons hab _ ih =>
    rw [idx_attributes_cons, idx_attributes_cons]
    exact List.Sublist.append (hR _ _ hab) ih

theorem flatMap_forall₂_sublist {α β γ : Type} (R : α → β → Prop) (f : α → List γ)
    (g : β → List γ) (hR : ∀ a b, R a b → (g b).Sublist (f a))
    (l1 : List α) (l2 : List β) (h : List.Forall₂ R l1 l2) :
    (l2.flatMap g).Sublist (l1.flatMap f) := by
  induction h with
  | nil => exact List.Sublist.refl _
  | cons hab _ ih =>
    rw [List.flatMap_cons, List.flatMap_cons]
    exact List.Sublist.append (hR _ _ hab) ih

theorem flatMap_filter_sublist {α γ : Type} (p : α → Bool) (f : α → List γ) :
    ∀ l : List α, ((l.filter p).flatMap f).Sublist (l.flatMap f)
  | [] => List.Sublist.refl _
  | a :: rest => by
    have ih := flatMap_filter_sublist p f rest
    rw [List.flatMap_cons]
    by_cases h : p a = true
    · rw [List.filter_cons_of_pos h, List.flatMap_cons]
      exact List.Sublist.append (List.Sublist.refl _) ih
    · rw [List.filter_cons_of_neg h]
      exact ih.trans (List.sublist_append_right _ _)

/-- The index fields of the pruned model are index fields of the model, in
their order. -/
theorem prune_ClassFile_idx (cf cf1 : ClassFile) (h : prune_ClassFile cf = some cf1) :
    (idx_ClassFile cf1).Sublist (idx_ClassFile cf) := by
  obtain ⟨hf, _, hm, _, ha, _⟩ := prune_ClassFile_spec cf cf1 h
  obtain ⟨_, _, h1, h2, h3⟩ := prune_ClassFile_frame cf cf1 h
  unfold idx_ClassFile
  rw [h1, h2, h3, ha]
  refine List.Sublist.cons₂ _ (List.Sublist.cons₂ _ ?_)
  refine List.Sublist.append (List.Sublist.append (List.Sublist.append
    (List.Sublist.refl _) ?_) ?_) (idx_attributes_filter kept _)
  · refine (flatMap_forall₂_sublist pruned_field idx_field_info idx_field_info ?_ _ _ hf).trans
      (flatMap_filter_sublist _ _ _)
    intro a b hab
    obtain ⟨_, e1, e2, e3, _⟩ := hab
    unfold idx_field_info
    rw [e1, e2, e3]
    exact List.Sublist.cons₂ _ (List.Sublist.cons₂ _ (idx_attributes_filter kept _))
  · refine (flatMap_forall₂_sublist _ idx_method_info idx_method_info ?_ _ _ hm).trans
      (flatMap_filter_sublist _ _ _)
    intro a b hab
    obtain ⟨_, e1, e2, e3, _⟩ := hab
    unfold idx_method_info
    rw [e1, e2]
    refine List.Sublist.cons₂ _ (List.Sublist.cons₂ _ ?_)
    exact (idx_attributes_forall₂ _ (pruned_with_sublist cf.constant_pool a) _ _ e3).trans
      (idx_attributes_filter kept _)

theorem refs_of_sublist (l1 l2 : List (Bool × Nat)) (h : l1.Sublist l2) :
    (refs_of l1).Sublist (refs_of l2) :=
  List.Sublist.filterMap _ h

/-- The first pass of the loop returns only when every reference of the model
denotes an entry. -/
theorem refct_valid (t : code_h) (cf cf1 : ClassFile) (h : refct_ClassFile t cf = some cf1)
    (hq : quiet t cf = true) : valid_refs cf := by
  obtain ⟨l, hl, hp⟩ := quiet_refs t cf hq
  rw [refct_ClassFile_refs, hl] at h
  simp only [mark_refs, Option.map_eq_some'] at h
  obtain ⟨q, hm, _⟩ := h
  have hv := mark_all_valid l _ q hm
  have key : ∀ v ∈ l, present cf.constant_pool v = true := by
    intro v hvl
    obtain ⟨cp, hcp, _⟩ := hv v hvl
    rw [reset_counts_get] at hcp
    cases hc : cf.constant_pool[v]? with
    | none => simp [hc] at hcp
    | some e =>
      cases e with
      | none => simp [hc] at hcp
      | some cp0 => exact (present_iff _ _).2 ⟨cp0, hc⟩
  constructor
  · intro v hv1
    exact key v (hp.mem_iff.2 (List.mem_append_left _ hv1))
  · intro v hv1
    exact key v (hp.mem_iff.2 (List.mem_append_right _ hv1))

/-- After the rounds, the new index of an entry that is still there denotes
this entry. -/
theorem sim_same_entry (t : code_h) (cf0 cf : ClassFile) (alive : List Nat)
    (hsim : Sim t cf0 cf alive) (hcl : Closed cf0 alive) (v : Nat) (hv : v ∈ alive) :
    same_entry (posn (slots cf0.constant_pool alive)) cf0 cf v := by
  obtain ⟨cp, cp0, h1, h2, h3⟩ := sim_present t cf0 cf alive hsim hcl v hv
  have hm := posn_mem _ v (mem_slots_of_mem cf0.constant_pool alive v hv)
  have hc := hsim.2.2.2.1
  refine ⟨by omega, cp0, cp, (getD_some_iff _ _ _).1 h2, (getD_some_iff _ _ _).1 h1, h3⟩

/-- After the rounds, every entry of the pool is an entry that was there at
the start, at its new index. -/
theorem sim_origin (t : code_h) (cf0 cf : ClassFile) (alive : List Nat)
    (hsim : Sim t cf0 cf alive) (hcl : Closed cf0 alive) (hp : paired cf0.constant_pool)
    (k : Nat) (hk : present cf.constant_pool k = true) :
    ∃ j, j ∈ alive ∧ posn (slots cf0.constant_pool alive) j = k := by
  obtain ⟨hwf, h0, _, hc, _, hs⟩ := hsim
  obtain ⟨k1, k2⟩ := present_range cf hwf h0 k hk
  have hk3 : k - 1 < (slots cf0.constant_pool alive).length := by omega
  have hsl := hs (k - 1) hk3
  have e : k - 1 + 1 = k := by omega
  rw [e] at hsl
  obtain ⟨cp, hcp⟩ := (present_iff _ _).1 hk
  rw [(getD_some_iff _ _ _).2 hcp] at hsl
  have hmem : (slots cf0.constant_pool alive).getD (k - 1) 0 ∈ slots cf0.constant_pool alive :=
    (mem_getD _ _).2 ⟨k - 1, hk3, rfl⟩
  generalize hsv : (slots cf0.constant_pool alive).getD (k - 1) 0 = s at hsl hmem
  have hpr : present cf0.constant_pool s = true := by
    cases hg : cf0.constant_pool.getD s none with
    | none =>
      rw [hg] at hsl
      simp [same_slot] at hsl
    | some cp0 => exact present_of_getD _ _ _ hg
  refine ⟨s, slots_present _ _ hp s hmem hpr, ?_⟩
  have hnd := slots_nodup cf0.constant_pool hp alive hcl.1 hcl.2.1
  have := posn_get _ hnd (k - 1) hk3
  rw [hsv] at this
  omega

theorem stub_opcodes_table : stub_table stub_opcodes := by
  unfold stub_table
  decide

/-- C17 (the output of the prune pipeline is internally consistent).  Let the
pool of the model be well formed with a null slot 0, let every visible method
that has a Code attribute have a well-formed descriptor, and let the opcodes of
the stubs have no operand.  If the model is one that pruning runs on to its
end and every index of the model and of its pool entries denotes an entry,
then `prune_ClassFile` followed by the loop of marking and compacting is left
with a model.  And whenever it is left with a model `final`, there is a map
`M` from the old indices to the new ones such that: the index fields of the
pruned model are index fields of the model that was read, in their order; the
index fields of `final` are, one by one, those of the pruned model sent through
`M` (a field in which 0 means "not present" keeps its 0); for every index `v`
among them, `M v` is below the new `constant_pool_count` and denotes an entry,
not a null slot, that is the entry that `v` denoted in the pool that was read,
with its own indices sent through `M`; every entry of the new pool is such an
entry, and so is what each of its own indices denotes; the pool of `final` is
well formed; and no bytecode operand and no catch type is left in a Code
body of `final`. -/
theorem prune_pipeline_consistent (t : code_h) (uninit : Nat → Nat → Nat) (cf : ClassFile)
    (hwf : pool_wf cf = true) (h0 : cf.constant_pool[0]? = some none)
    (ht : stub_table t) (hd : descriptors_ok cf = true)
    (hsize : (roots cf).length + (refs_pool cf.constant_pool).length < 2147483648) :
    (prunable cf = true → valid_refs cf →
      ∃ n final, prune_action t uninit cf = .finished n final) ∧
    ∀ n final, prune_action t uninit cf = .finished n final →
      ∃ cf0 M, prune_ClassFile cf = some cf0 ∧
        (idx_ClassFile cf0).Sublist (idx_ClassFile cf) ∧
        pool_wf final = true ∧ quiet t final = true ∧
        idx_ClassFile final = (idx_ClassFile cf0).map (remap_field M) ∧
        (∀ v ∈ roots cf0, same_entry M cf final v) ∧
        ∀ k, present final.constant_pool k = true →
          ∃ j, M j = k ∧ same_entry M cf final j ∧
            ∀ v ∈ entry_refs cf.constant_pool j, same_entry M cf final v := by
  have main : ∀ cf0, prune_ClassFile cf = some cf0 →
      pool_wf cf0 = true ∧ cf0.constant_pool[0]? = some none ∧ quiet t cf0 = true ∧
      (idx_ClassFile cf0).Sublist (idx_ClassFile cf) ∧
      (roots cf0).length + (refs_pool cf0.constant_pool).length < 2147483648 ∧
      cf0.constant_pool = cf.constant_pool := by
    intro cf0 hp
    obtain ⟨e1, e2, _⟩ := prune_ClassFile_frame cf cf0 hp
    have hsub := prune_ClassFile_idx cf cf0 hp
    refine ⟨?_, ?_, prune_ClassFile_quiet t ht cf cf0 hp hd, hsub, ?_, e1⟩
    · unfold pool_wf at hwf ⊢
      rw [e1, e2]
      exact hwf
    · rw [e1]
      exact h0
    · have hle : (roots cf0).length ≤ (roots cf).length :=
        (refs_of_sublist _ _ hsub).length_le
      rw [e1]
      omega
  constructor
  · intro hpr hv
    obtain ⟨cf0, hp⟩ := prune_ClassFile_total cf hpr
    obtain ⟨hwf0, h00, hq0, hsub, hsize0, e1⟩ := main cf0 hp
    have hv0 : valid_refs cf0 := by
      constructor
      · intro v hv1
        rw [e1]
        exact hv.1 v ((refs_of_sublist _ _ hsub).subset hv1)
      · rw [e1]
        exact hv.2
    obtain ⟨r, final, _, hg, _⟩ := quiet_loop t uninit cf0 hwf0 h00 hq0 hv0 hsize0
    refine ⟨r + 1, final, ?_⟩
    unfold prune_action
    rw [hp]
    exact hg
  · intro n final hfin
    unfold prune_action at hfin
    cases hp : prune_ClassFile cf with
    | none => simp [hp] at hfin
    | some cf0 =>
      rw [hp] at hfin
      simp only at hfin
      obtain ⟨hwf0, h00, hq0, hsub, hsize0, e1⟩ := main cf0 hp
      have hv0 : valid_refs cf0 := by
        have hpos := pool_wf_pos cf0 hwf0
        obtain ⟨m, hm⟩ : ∃ m, cf0.constant_pool_count = m + 1 := ⟨_, (Nat.succ_pred_eq_of_pos hpos).symm⟩
        have hfin2 := hfin
        rw [hm, gc_loop] at hfin2
        cases hr : refct_ClassFile t cf0 with
        | none => simp [hr] at hfin2
        | some cf1 => exact refct_valid t cf0 cf1 hr hq0
      obtain ⟨r, final1, _, hg, _, hsim, hcl, _⟩ :=
        quiet_loop t uninit cf0 hwf0 h00 hq0 hv0 hsize0
      rw [hg] at hfin
      simp only [loop_result.finished.injEq] at hfin
      obtain ⟨_, rfl⟩ := hfin
      have hpair := paired_of_wf cf0 hwf0 h00
      have hse : ∀ v, same_entry (posn (slots cf0.constant_pool (alive_after cf0 r))) cf0 final1 v →
          same_entry (posn (slots cf0.constant_pool (alive_after cf0 r))) cf final1 v := by
        intro v h
        unfold same_entry at h ⊢
        rw [← e1]
        exact h
      refine ⟨cf0, posn (slots cf0.constant_pool (alive_after cf0 r)), rfl, hsub, hsim.1,
        hsim.2.2.1, hsim.2.2.2.2.1, ?_, ?_⟩
      · intro v hv
        exact hse v (sim_same_entry t cf0 final1 _ hsim hcl v (hcl.2.2.1 v hv))
      · intro k hk
        obtain ⟨j, hj, hjk⟩ := sim_origin t cf0 final1 _ hsim hcl hpair k hk
        refine ⟨j, hjk, hse j (sim_same_entry t cf0 final1 _ hsim hcl j hj), ?_⟩
        intro v hv
        rw [← e1] at hv
        exact hse v (sim_same_entry t cf0 final1 _ hsim hcl v (hcl.2.2.2 j hj v hv))

/-- Witness for C17: the example class, whose pruned model goes through two
rounds, which leave a pool of 9 slots. -/
theorem prune_pipeline_consistent_witness :
    (prune_action stub_opcodes (fun _ _ => 0) exampleClass).rounds = some 2 ∧
    (prune_action stub_opcodes (fun _ _ => 0) exampleClass).classfile.map
      (fun c => c.constant_pool_count) = some 9 ∧
    prunable exampleClass = true ∧ valid_refs exampleClass ∧
    (prunable exampleClass = true → valid_refs exampleClass →
      ∃ n final, prune_action stub_opcodes (fun _ _ => 0) exampleClass = .finished n final) ∧
    ∀ n final, prune_action stub_opcodes (fun _ _ => 0) exampleClass = .finished n final →
      ∃ cf0 M, prune_ClassFile exampleClass = some cf0 ∧
        (idx_ClassFile cf0).Sublist (idx_ClassFile exampleClass) ∧
        pool_wf final = true ∧ quiet stub_opcodes final = true ∧
        idx_ClassFile final = (idx_ClassFile cf0).map (remap_field M) ∧
        (∀ v ∈ roots cf0, same_entry M exampleClass final v) ∧
        ∀ k, present final.constant_pool k = true →
          ∃ j, M j = k ∧ same_entry M exampleClass final j ∧
            ∀ v ∈ entry_refs exampleClass.constant_pool j, same_entry M exampleClass final v :=
  ⟨by decide!, by decide!, by decide, ⟨by decide, by decide⟩,
    prune_pipeline_consistent stub_opcodes (fun _ _ => 0) exampleClass (by decide) (by decide)
      stub_opcodes_table (by decide) (by decide)⟩

/-! ## The codec: the primitives and the byte order -/

theorem emit_u2_eq (le : Bool) (v : Nat) : emit_u2 le v = [v / 256 % 256, v % 256] :=
  write_u2_eq le v

theorem emit_u4_eq (le : Bool) (v : Nat) :
    emit_u4 le v = [v / 16777216 % 256, v / 65536 % 256, v / 256 % 256, v % 256] :=
  write_u4_eq le v

theorem scan_u2_eq (le : Bool) (b0 b1 : Nat) (rest : List Nat) :
    scan_u2 le (b0 :: b1 :: rest) = some (b0 * 256 + b1, rest) :=
  read_u2_eq le b0 b1 rest

theorem scan_u4_eq (le : Bool) (b0 b1 b2 b3 : Nat) (rest : List Nat) :
    scan_u4 le (b0 :: b1 :: b2 :: b3 :: rest)
      = some (((b0 * 256 + b1) * 256 + b2) * 256 + b3, rest) :=
  read_u4_eq le b0 b1 b2 b3 rest

theorem testEndianism_eq (host : Bool) : testEndianism host = host := by
  cases host <;> decide

/-- C24 (big-endian primitives, whatever the byte order of the host).  On a
host of either byte order, with `g_littleEndian` as `testEndianism` sets it on
that host: `emit_u2` and `write_u2` put out the two bytes `v >> 8`, `v & 0xff`
of a `u2` value `v`; `emit_u4` and `write_u4` put out the four bytes of a `u4`
value `w`, the most significant first; and `scan_u2`, `read_u2`, `scan_u4` and
`read_u4` on these bytes return `v` and `w` and leave what follows the bytes. -/
theorem big_endian_primitives (host : Bool) (v w : Nat) (hv : v < 65536)
    (hw : w < 4294967296) (rest : List Nat) :
    testEndianism host = host ∧
    emit_u2 (testEndianism host) v = [v >>> 8, v &&& 0xff] ∧
    write_u2 (testEndianism host) v = [v >>> 8, v &&& 0xff] ∧
    emit_u4 (testEndianism host) w
      = [w >>> 24, (w >>> 16) &&& 0xff, (w >>> 8) &&& 0xff, w &&& 0xff] ∧
    write_u4 (testEndianism host) w
      = [w >>> 24, (w >>> 16) &&& 0xff, (w >>> 8) &&& 0xff, w &&& 0xff] ∧
    scan_u2 (testEndianism host) (emit_u2 (testEndianism host) v ++ rest) = some (v, rest) ∧
    read_u2 (testEndianism host) (write_u2 (testEndianism host) v ++ rest) = some (v, rest) ∧
    scan_u4 (testEndianism host) (emit_u4 (testEndianism host) w ++ rest) = some (w, rest) ∧
    read_u4 (testEndianism host) (write_u4 (testEndianism host) w ++ rest) = some (w, rest) := by
  have m : ∀ x : Nat, x &&& 0xff = x % 256 := fun x => Nat.and_pow_two_sub_one_eq_mod x 8
  have e2 : [v >>> 8, v &&& 0xff] = [v / 256 % 256, v % 256] := by
    rw [m, Nat.shiftRight_eq_div_pow]
    have h1 : v / 256 % 256 = v / 256 := Nat.mod_eq_of_lt (by omega)
    norm_num [h1]
  have e4 : [w >>> 24, (w >>> 16) &&& 0xff, (w >>> 8) &&& 0xff, w &&& 0xff]
      = [w / 16777216 % 256, w / 65536 % 256, w / 256 % 256, w % 256] := by
    rw [m, m, m, Nat.shiftRight_eq_div_pow, Nat.shiftRight_eq_div_pow,
      Nat.shiftRight_eq_div_pow]
    have h1 : w / 16777216 % 256 = w / 16777216 := Nat.mod_eq_of_lt (by omega)
    norm_num [h1]
  refine ⟨testEndianism_eq host, ?_, ?_, ?_, ?_, ?_, ?_, ?_, ?_⟩
  · rw [e2, emit_u2_eq]
  · rw [e2, write_u2_eq]
  · rw [e4, emit_u4_eq]
  · rw [e4, write_u4_eq]
  · rw [emit_u2_eq, List.cons_append, List.cons_append, List.nil_append, scan_u2_eq]
    congr 2
    omega
  · rw [write_u2_eq, List.cons_append, List.cons_append, List.nil_append, read_u2_eq]
    congr 2
    omega
  · rw [emit_u4_eq]
    simp only [List.cons_append, List.nil_append]
    rw [scan_u4_eq]
    congr 2
    omega
  · rw [write_u4_eq]
    simp only [List.cons_append, List.nil_append]
    rw [read_u4_eq]
    congr 2
    omega

/-- Witness for C24: the values `0x1234` and `0xCAFEBABE` on a little-endian
host. -/
theorem big_endian_primitives_witness :
    testEndianism true = true ∧
    emit_u2 (testEndianism true) 0x1234 = [0x1234 >>> 8, 0x1234 &&& 0xff] ∧
    write_u2 (testEndianism true) 0x1234 = [0x1234 >>> 8, 0x1234 &&& 0xff] ∧
    emit_u4 (testEndianism true) 0xCAFEBABE
      = [0xCAFEBABE >>> 24, (0xCAFEBABE >>> 16) &&& 0xff, (0xCAFEBABE >>> 8) &&& 0xff,
          0xCAFEBABE &&& 0xff] ∧
    write_u4 (testEndianism true) 0xCAFEBABE
      = [0xCAFEBABE >>> 24, (0xCAFEBABE >>> 16) &&& 0xff, (0xCAFEBABE >>> 8) &&& 0xff,
          0xCAFEBABE &&& 0xff] ∧
    scan_u2 (testEndianism true) (emit_u2 (testEndianism true) 0x1234 ++ [7])
      = some (0x1234, [7]) ∧
    read_u2 (testEndianism true) (write_u2 (testEndianism true) 0x1234 ++ [7])
      = some (0x1234, [7]) ∧
    scan_u4 (testEndianism true) (emit_u4 (testEndianism true) 0xCAFEBABE ++ [7])
      = some (0xCAFEBABE, [7]) ∧
    read_u4 (testEndianism true) (write_u4 (testEndianism true) 0xCAFEBABE ++ [7])
      = some (0xCAFEBABE, [7]) :=
  big_endian_primitives true 0x1234 0xCAFEBABE (by decide) (by decide) [7]

/-! ## The walk over the bytecode: lemmas -/

theorem argb_some (g_code : List Nat) (g_pc : Nat) (h : g_pc < g_code.length) :
    argb g_code g_pc = some (g_code.getD g_pc 0, g_pc + 1) := by
  unfold argb
  rw [List.get?_eq_getElem?, List.getElem?_eq_getElem h, List.getD_eq_getElem _ _ h]

theorem argb_eq (g_code : List Nat) (g_pc b : Nat) (h : g_code.get? g_pc = some b) :
    argb g_code g_pc = some (b, g_pc + 1) := by
  unfold argb
  rw [h]

theorem argb_next (g_code : List Nat) (g_pc v pc1 : Nat) (h : argb g_code g_pc = some (v, pc1)) :
    pc1 = g_pc + 1 ∧ g_pc < g_code.length := by
  unfold argb at h
  split at h
  · rename_i b hg
    simp only [Option.some.injEq, Prod.mk.injEq] at h
    refine ⟨h.2.symm, ?_⟩
    rw [List.get?_eq_getElem?] at hg
    exact (List.getElem?_eq_some_iff.1 hg).1
  · simp at h

theorem argw_some (g_code : List Nat) (g_pc : Nat) (h : g_pc + 2 ≤ g_code.length) :
    argw g_code g_pc
      = some ((g_code.getD g_pc 0 <<< 8) ||| g_code.getD (g_pc + 1) 0, g_pc + 2) := by
  unfold argw
  rw [argb_some g_code g_pc (by omega)]
  simp only
  rw [argb_some g_code (g_pc + 1) (by omega)]

theorem argw_next (g_code : List Nat) (g_pc : Nat) (v : Nat) (pc1 : Nat)
    (h : argw g_code g_pc = some (v, pc1)) : pc1 = g_pc + 2 ∧ g_pc + 2 ≤ g_code.length := by
  unfold argw at h
  cases h1 : argb g_code g_pc with
  | none => simp [h1] at h
  | some r1 =>
    obtain ⟨v1, p1⟩ := r1
    obtain ⟨e1, l1⟩ := argb_next _ _ _ _ h1
    subst e1
    simp only [h1] at h
    cases h2 : argb g_code (g_pc + 1) with
    | none => simp [h2] at h
    | some r2 =>
      obtain ⟨v2, p2⟩ := r2
      obtain ⟨e2, l2⟩ := argb_next _ _ _ _ h2
      subst e2
      simp only [h2, Option.some.injEq, Prod.mk.injEq] at h
      exact ⟨h.2.symm, by omega⟩

theorem argl_some (g_code : List Nat) (g_pc : Nat) (h : g_pc + 4 ≤ g_code.length) :
    argl g_code g_pc
      = some (toInt32 ((g_code.getD g_pc 0 <<< 24) ||| (g_code.getD (g_pc + 1) 0 <<< 8)
          ||| (g_code.getD (g_pc + 2) 0 <<< 8) ||| g_code.getD (g_pc + 3) 0), g_pc + 4) := by
  unfold argl
  rw [argb_some g_code g_pc (by omega)]
  simp only
  rw [argb_some g_code (g_pc + 1) (by omega)]
  simp only
  rw [argb_some g_code (g_pc + 2) (by omega)]
  simp only
  rw [argb_some g_code (g_pc + 3) (by omega)]

theorem argl_next (g_code : List Nat) (g_pc : Nat) (v : Int) (pc1 : Nat)
    (h : argl g_code g_pc = some (v, pc1)) : pc1 = g_pc + 4 ∧ g_pc + 4 ≤ g_code.length := by
  unfold argl at h
  cases h1 : argb g_code g_pc with
  | none => simp [h1] at h
  | some r1 =>
    obtain ⟨v1, p1⟩ := r1
    obtain ⟨e1, l1⟩ := argb_next _ _ _ _ h1
    subst e1
    simp only [h1] at h
    cases h2 : argb g_code (g_pc + 1) with
    | none => simp [h2] at h
    | some r2 =>
      obtain ⟨v2, p2⟩ := r2
      obtain ⟨e2, l2⟩ := argb_next _ _ _ _ h2
      subst e2
      simp only [h2] at h
      cases h3 : argb g_code (g_pc + 1 + 1) with
      | none => simp [h3] at h
      | some r3 =>
        obtain ⟨v3, p3⟩ := r3
        obtain ⟨e3, l3⟩ := argb_next _ _ _ _ h3
        subst e3
        simp only [h3] at h
        cases h4 : argb g_code (g_pc + 1 + 1 + 1) with
        | none => simp [h4] at h
        | some r4 =>
          obtain ⟨v4, p4⟩ := r4
          obtain ⟨e4, l4⟩ := argb_next _ _ _ _ h4
          subst e4
          simp only [h4, Option.some.injEq, Prod.mk.injEq] at h
          exact ⟨h.2.symm, by omega⟩

theorem argl_times_some (g_code : List Nat) : ∀ (n g_pc : Nat), g_pc + 4 * n ≤ g_code.length →
    argl_times g_code n g_pc = some (g_pc + 4 * n)
  | 0, g_pc, _ => rfl
  | n + 1, g_pc, h => by
    rw [argl_times, argl_some g_code g_pc (by omega)]
    simp only
    rw [argl_times_some g_code n (g_pc + 4) (by omega)]
    congr 1
    omega

theorem align4_succ (a : Nat) :
    align4 (a + 1) = a + 1 + (3 - a % 4) ∧ align4 (a + 1) = 4 * (a / 4 + 1) := by
  unfold align4
  omega

theorem align4_aligned (k : Nat) : align4 (4 * k) = 4 * k := by
  unfold align4
  omega

theorem refct_addr_turn (t : code_h) (g_code : List Nat) (length turns a b : Nat)
    (ha : a < length) (hb : g_code.get? a = some b) :
    refct_code_addr_loop t g_code length (turns + 1) a
      = match rop_refs t g_code (t.refct_code_switch b) (a + 1) with
        | none => none
        | some (pc2, _) =>
          (refct_code_addr_loop t g_code length turns pc2).map (fun l => (a, pc2) :: l) := by
  rw [refct_code_addr_loop, if_pos ha, argb_eq _ _ _ hb]

theorem dump_turn (names : Nat → Option opcode) (g_code : List Nat) (length turns a b : Nat)
    (ha : a < length) (hb : g_code.get? a = some b) :
    dump_code_loop names g_code length (turns + 1) a
      = match op_run names g_code (dump_code_switch names b) (a + 1) with
        | none => none
        | some pc2 =>
          (dump_code_loop names g_code length turns pc2).map (fun l => (a, pc2) :: l) := by
  rw [dump_code_loop, if_pos ha, argb_eq _ _ _ hb]

theorem refct_switch_name (names : Nat → Option opcode) (b : Nat) (n : opcode)
    (hn : names b = some n) :
    (refct_switches names).refct_code_switch b = refct_code_case n := by
  simp only [refct_switches, hn]

theorem rop_wide_switch_name (names : Nat → Option opcode) (b : Nat) (n : opcode)
    (hn : names b = some n) :
    (refct_switches names).rop_wide_switch b = rop_wide_case n := by
  simp only [refct_switches, hn]

theorem dump_switch_name (names : Nat → Option opcode) (b : Nat) (n : opcode)
    (hn : names b = some n) : dump_code_switch names b = dump_code_case n := by
  simp only [dump_code_switch, hn]

theorem op_wide_switch_name (names : Nat → Option opcode) (b : Nat) (n : opcode)
    (hn : names b = some n) : op_wide_switch names b = op_wide_case n := by
  simp only [op_wide_switch, hn]

/-! ## The walk over the bytecode: the scanner and the disassembler -/

/-- Every `case` label has in `dump_code` the handler with the operands of its
handler in `refct_code`. -/
theorem case_shape (n : opcode) : (dump_code_case n).shape = refct_code_case n := by
  cases n <;> rfl

theorem wide_case_shape (n : opcode) :
    (match op_wide_case n with
      | .opw_1 => wide_rop.rop_1w
      | .opw_2 => wide_rop.rop_2ww
      | .illegal => wide_rop.illegal) = rop_wide_case n := by
  cases n <;> rfl

theorem switch_shape (names : Nat → Option opcode) (b : Nat) :
    (dump_code_switch names b).shape = (refct_switches names).refct_code_switch b := by
  unfold dump_code_switch
  cases hn : names b with
  | none =>
    simp only [refct_switches, hn]
    rfl
  | some n =>
    rw [refct_switch_name _ _ _ hn]
    exact case_shape n

theorem op_wide_eq (names : Nat → Option opcode) (g_code : List Nat) (g_pc : Nat) :
    op_wide names g_code g_pc = rop_wide (refct_switches names) g_code g_pc := by
  unfold op_wide rop_wide
  cases argb g_code g_pc with
  | none => rfl
  | some r =>
    obtain ⟨m, pc1⟩ := r
    simp only
    have e : (match op_wide_switch names m with
        | .opw_1 => wide_rop.rop_1w
        | .opw_2 => wide_rop.rop_2ww
        | .illegal => wide_rop.illegal) = (refct_switches names).rop_wide_switch m := by
      unfold op_wide_switch
      cases hn : names m with
      | none =>
        simp only [refct_switches, hn]
      | some n =>
        rw [rop_wide_switch_name _ _ _ hn]
        exact wide_case_shape n
    rw [← e]
    cases op_wide_switch names m <;> rfl

/-- A handler of `dump_code` leaves the cursor where the handler of
`refct_code` with the same operands leaves it. -/
theorem op_run_shape (names : Nat → Option opcode) (g_code : List Nat) (h : op) (g_pc : Nat) :
    op_run names g_code h g_pc
      = (rop_refs (refct_switches names) g_code h.shape g_pc).map Prod.fst := by
  cases h <;> simp only [op_run, op.shape, rop_refs, Option.map_some', Option.map_map]
  case op_1b => cases argb g_code g_pc <;> rfl
  case op_1bc => cases argb g_code g_pc <;> rfl
  case op_1bv => cases argb g_code g_pc <;> rfl
  case op_1ws => cases argw g_code g_pc <;> rfl
  case op_1wc => cases argw g_code g_pc <;> rfl
  case op_1l => cases argl g_code g_pc <;> rfl
  case op_2bb =>
    cases argb g_code g_pc with
    | none => rfl
    | some r =>
      obtain ⟨v, pc1⟩ := r
      simp only
      cases argb g_code pc1 <;> rfl
  case op_2wcb =>
    cases argw g_code g_pc with
    | none => rfl
    | some r =>
      obtain ⟨v, pc1⟩ := r
      simp only
      cases argb g_code pc1 <;> rfl
  case op_3wcbx =>
    cases argw g_code g_pc with
    | none => rfl
    | some r =>
      obtain ⟨v, pc1⟩ := r
      simp only
      cases argb g_code pc1 with
      | none => rfl
      | some r1 =>
        obtain ⟨v1, pc2⟩ := r1
        simp only
        cases argb g_code pc2 <;> rfl
  case op_lookupswitch =>
    show op_lookupswitch g_code g_pc = _
    cases h1 : rop_lookupswitch g_code g_pc <;>
      simp only [Option.map_none', Option.map_some', Function.comp] <;> exact h1
  case op_tableswitch =>
    show op_tableswitch g_code g_pc = _
    cases h1 : rop_tableswitch g_code g_pc <;>
      simp only [Option.map_none', Option.map_some', Function.comp] <;> exact h1
  case op_wide =>
    rw [op_wide_eq]
    cases rop_wide (refct_switches names) g_code g_pc <;> rfl

theorem walks_agree (names : Nat → Option opcode) (g_code : List Nat) (length : Nat) :
    ∀ (turns g_pc : Nat), dump_code_loop names g_code length turns g_pc
      = refct_code_addr_loop (refct_switches names) g_code length turns g_pc
  | 0, g_pc => rfl
  | turns + 1, g_pc => by
    rw [dump_code_loop, refct_code_addr_loop]
    split
    · cases argb g_code g_pc with
      | none => rfl
      | some r =>
        obtain ⟨b, pc1⟩ := r
        simp only
        rw [op_run_shape, switch_shape]
        cases rop_refs (refct_switches names) g_code
            ((refct_switches names).refct_code_switch b) pc1 with
        | none => rfl
        | some r1 =>
          obtain ⟨pc2, l⟩ := r1
          simp only [Option.map_some']
          rw [walks_agree names g_code length turns pc2]
    · rfl

/-- The walk with the addresses and the walk with the pool operands are the
same walk: one has a result when the other has. -/
theorem addrs_refs (t : code_h) (g_code : List Nat) (length : Nat) :
    ∀ (turns g_pc : Nat), (refct_code_addr_loop t g_code length turns g_pc).isSome
      = (code_refs_loop t g_code length turns g_pc).isSome
  | 0, g_pc => by
    rw [refct_code_addr_loop, code_refs_loop]
    split <;> rfl
  | turns + 1, g_pc => by
    rw [refct_code_addr_loop, code_refs_loop]
    split
    · cases argb g_code g_pc with
      | none => rfl
      | some r =>
        obtain ⟨b, pc1⟩ := r
        simp only
        cases rop_refs t g_code (t.refct_code_switch b) pc1 with
        | none => rfl
        | some r1 =>
          obtain ⟨pc2, l⟩ := r1
          simp only [Option.isSome_map']
          exact addrs_refs t g_code length turns pc2
    · rfl

/-- C25 (the scanner and the disassembler walk alike).  For every numbering of
the opcode names, every bytecode array and every length, `dump_code` and
`refct_code` go through the same instructions: the same values of `g_addr` and
the same cursor after each instruction, from every cursor and for every number
of turns, for whatever the opcodes are, `tableswitch`, `lookupswitch`, `wide`
and bytes that have no `case` included; one leaves the array exactly when the
other does; and where `refct_code` returns, `dump_code` has walked to the
end. -/
theorem walkers_agree (names : Nat → Option opcode) (code : List Nat) (length : Nat) :
    dump_code names code length = refct_code_addrs (refct_switches names) code length ∧
    (∀ turns g_pc, dump_code_loop names code length turns g_pc
      = refct_code_addr_loop (refct_switches names) code length turns g_pc) ∧
    (∀ (h : op) g_pc, op_run names code h g_pc
      = (rop_refs (refct_switches names) code h.shape g_pc).map Prod.fst) ∧
    (∀ b, (dump_code_switch names b).shape = (refct_switches names).refct_code_switch b) ∧
    (∀ pool q, refct_code (refct_switches names) code length pool = some q →
      (dump_code names code length).isSome = true) := by
  refine ⟨walks_agree names code length length 0, walks_agree names code length,
    op_run_shape names code, switch_shape names, ?_⟩
  intro pool q h
  rw [refct_code_refs] at h
  have hs : (code_refs (refct_switches names) code length).isSome = true := by
    cases hc : code_refs (refct_switches names) code length with
    | none =>
      rw [hc] at h
      exact Option.noConfusion h
    | some l => rfl
  unfold dump_code
  rw [walks_agree, addrs_refs]
  exact hs

/-- Witness for C25: a method body with a widened `iload`, an `iload` and a
`return`, and one with a `nop`, a `lookupswitch` and a `return`. -/
theorem walkers_agree_witness :
    dump_code exampleNames wideCode 7
      = refct_code_addrs (refct_switches exampleNames) wideCode 7 ∧
    dump_code exampleNames wideCode 7 = some [(0, 4), (4, 6), (6, 7)] ∧
    dump_code exampleNames lookupCode 13
      = refct_code_addrs (refct_switches exampleNames) lookupCode 13 ∧
    dump_code exampleNames lookupCode 13 = some [(0, 1), (1, 12), (12, 13)] :=
  ⟨(walkers_agree exampleNames wideCode 7).1, by decide!,
    (walkers_agree exampleNames lookupCode 13).1, by decide!⟩

/-! ## The walk over the bytecode: the wide prefix -/

/-- C26 (the `wide` prefix).  At an offset `a` of the bytecode that holds the
`wide` opcode followed by `aload`, `astore`, `dload`, `dstore`, `fload`,
`fstore`, `iload`, `istore`, `lload`, `lstore` or `ret` and two more bytes, a
turn of the loop of `refct_code`, and of `dump_code`, consumes 4 bytes; followed
by `iinc` and four more bytes it consumes 6 bytes; and the walk goes on at the
next offset with the loop itself, which keeps nothing of the prefix. -/
theorem wide_pairing (names : Nat → Option opcode) (g_code : List Nat)
    (length turns a b m : Nat) (n : opcode) (ha : a < length)
    (hb : g_code.get? a = some b) (hw : names b = some .WIDE)
    (hm : g_code.get? (a + 1) = some m) (hn : names m = some n)
    (hmem : n ∈ [opcode.ALOAD, .ASTORE, .DLOAD, .DSTORE, .FLOAD, .FSTORE, .ILOAD, .ISTORE,
      .LLOAD, .LSTORE, .RET, .IINC])
    (hlen : a + (if n = .IINC then 6 else 4) ≤ g_code.length) :
    refct_code_addr_loop (refct_switches names) g_code length (turns + 1) a
      = (refct_code_addr_loop (refct_switches names) g_code length turns
          (a + (if n = .IINC then 6 else 4))).map
          (fun l => (a, a + (if n = .IINC then 6 else 4)) :: l) ∧
    dump_code_loop names g_code length (turns + 1) a
      = (dump_code_loop names g_code length turns (a + (if n = .IINC then 6 else 4))).map
          (fun l => (a, a + (if n = .IINC then 6 else 4)) :: l) := by
  have hr : rop_wide_case n = (if n = .IINC then wide_rop.rop_2ww else wide_rop.rop_1w) := by
    simp only [List.mem_cons, List.mem_singleton, List.not_mem_nil, or_false] at hmem
    rcases hmem with rfl | rfl | rfl | rfl | rfl | rfl | rfl | rfl | rfl | rfl | rfl | rfl <;> rfl
  have hd : op_wide_case n = (if n = .IINC then wide_op.opw_2 else wide_op.opw_1) := by
    simp only [List.mem_cons, List.mem_singleton, List.not_mem_nil, or_false] at hmem
    rcases hmem with rfl | rfl | rfl | rfl | rfl | rfl | rfl | rfl | rfl | rfl | rfl | rfl <;> rfl
  have e1 : rop_wide (refct_switches names) g_code (a + 1)
      = some (a + (if n = .IINC then 6 else 4)) := by
    unfold rop_wide
    rw [argb_eq _ _ _ hm]
    simp only
    rw [rop_wide_switch_name _ _ _ hn, hr]
    by_cases hi : n = .IINC
    · rw [if_pos hi] at hlen ⊢
      rw [if_pos hi]
      simp only
      rw [argw_some g_code _ (by omega)]
      simp only
      rw [argw_some g_code _ (by omega)]
      rfl
    · rw [if_neg hi] at hlen ⊢
      rw [if_neg hi]
      simp only
      rw [argw_some g_code _ (by omega)]
      rfl
  have e2 : op_wide names g_code (a + 1) = some (a + (if n = .IINC then 6 else 4)) := by
    unfold op_wide
    rw [argb_eq _ _ _ hm]
    simp only
    rw [op_wide_switch_name _ _ _ hn, hd]
    by_cases hi : n = .IINC
    · rw [if_pos hi] at hlen ⊢
      rw [if_pos hi]
      simp only
      rw [argw_some g_code _ (by omega)]
      simp only
      rw [argw_some g_code _ (by omega)]
      rfl
    · rw [if_neg hi] at hlen ⊢
      rw [if_neg hi]
      simp only
      rw [argw_some g_code _ (by omega)]
      rfl
  constructor
  · rw [refct_addr_turn _ _ _ _ _ _ ha hb, refct_switch_name _ _ _ hw,
      show refct_code_case .WIDE = .rop_wide from rfl]
    simp only [rop_refs, e1, Option.map_some']
  · rw [dump_turn _ _ _ _ _ _ ha hb, dump_switch_name _ _ _ hw,
      show dump_code_case .WIDE = .op_wide from rfl]
    simp only [op_run, e2]

/-- Witness for C26: a widened `iload` followed by an `iload` that is not
widened and takes 2 bytes, and a widened `iinc`. -/
theorem wide_pairing_witness :
    (refct_code_addr_loop (refct_switches exampleNames) wideCode 7 (6 + 1) 0
      = (refct_code_addr_loop (refct_switches exampleNames) wideCode 7 6
          (0 + (if opcode.ILOAD = .IINC then 6 else 4))).map
          (fun l => (0, 0 + (if opcode.ILOAD = .IINC then 6 else 4)) :: l) ∧
      dump_code_loop exampleNames wideCode 7 (6 + 1) 0
      = (dump_code_loop exampleNames wideCode 7 6
          (0 + (if opcode.ILOAD = .IINC then 6 else 4))).map
          (fun l => (0, 0 + (if opcode.ILOAD = .IINC then 6 else 4)) :: l)) ∧
    refct_code_addrs (refct_switches exampleNames) wideCode 7 = some [(0, 4), (4, 6), (6, 7)] ∧
    dump_code exampleNames wideCode 7 = some [(0, 4), (4, 6), (6, 7)] ∧
    refct_code_addrs (refct_switches exampleNames) wideIinc 7 = some [(0, 6), (6, 7)] ∧
    dump_code exampleNames wideIinc 7 = some [(0, 6), (6, 7)] :=
  ⟨wide_pairing exampleNames wideCode 7 6 0 0xc4 0x15 .ILOAD (by decide) (by rfl) (by rfl)
      (by rfl) (by rfl) (by decide) (by decide),
    by decide!, by decide!, by decide!, by decide!⟩

/-! ## The walk over the bytecode: the padding of the switch instructions -/

/-- C27 (the padding of the switch instructions is absolute).  The handlers
`rop_lookupswitch`, `rop_tableswitch`, `op_lookupswitch` and `op_tableswitch`,
called for an opcode at the offset `a` of the bytecode, that is, with the
cursor at `a + 1`, skip `3 - a % 4` bytes and read their first 4-byte operand at
`4 * (a / 4 + 1)`, the smallest multiple of 4 that is greater than `a`; and the
loops of `refct_code` and `dump_code` call them with the cursor at `a + 1`,
where `a` is the offset from the start of the bytecode. -/
theorem switch_padding (names : Nat → Option opcode) (g_code : List Nat)
    (length turns a b : Nat) (n : opcode) (ha : a < length) (hb : g_code.get? a = some b)
    (hn : names b = some n) (hs : n = .LOOKUPSWITCH ∨ n = .TABLESWITCH) :
    align4 (a + 1) = a + 1 + (3 - a % 4) ∧
    align4 (a + 1) = 4 * (a / 4 + 1) ∧
    (∀ m, a < 4 * m → 4 * (a / 4 + 1) ≤ 4 * m) ∧
    rop_lookupswitch g_code (a + 1)
      = (match argl g_code (4 * (a / 4 + 1)) with
        | none => none
        | some (_, pc1) =>
          match argl g_code pc1 with
          | none => none
          | some (opndPairCt, pc2) => argl_times g_code (2 * opndPairCt.toNat) pc2) ∧
    rop_tableswitch g_code (a + 1)
      = (match argl g_code (4 * (a / 4 + 1)) with
        | none => none
        | some (_, pc1) =>
          match argl g_code pc1 with
          | none => none
          | some (opndRangeLo, pc2) =>
            match argl g_code pc2 with
            | none => none
            | some (opndRangeHi, pc3) =>
              argl_times g_code (opndRangeHi - opndRangeLo).toNat pc3) ∧
    op_lookupswitch g_code (a + 1) = rop_lookupswitch g_code (a + 1) ∧
    op_tableswitch g_code (a + 1) = rop_tableswitch g_code (a + 1) ∧
    refct_code_addr_loop (refct_switches names) g_code length (turns + 1) a
      = (match (if n = .LOOKUPSWITCH then rop_lookupswitch g_code (a + 1)
            else rop_tableswitch g_code (a + 1)) with
        | none => none
        | some pc2 =>
          (refct_code_addr_loop (refct_switches names) g_code length turns pc2).map
            (fun l => (a, pc2) :: l)) ∧
    dump_code_loop names g_code length (turns + 1) a
      = (match (if n = .LOOKUPSWITCH then op_lookupswitch g_code (a + 1)
            else op_tableswitch g_code (a + 1)) with
        | none => none
        | some pc2 =>
          (dump_code_loop names g_code length turns pc2).map (fun l => (a, pc2) :: l)) := by
  obtain ⟨e1, e2⟩ := align4_succ a
  refine ⟨e1, e2, fun m hm => by omega, ?_, ?_, rfl, rfl, ?_, ?_⟩
  · unfold rop_lookupswitch
    rw [e2]
  · unfold rop_tableswitch
    rw [e2]
  · rw [refct_addr_turn _ _ _ _ _ _ ha hb, refct_switch_name _ _ _ hn]
    rcases hs with rfl | rfl
    · rw [show refct_code_case .LOOKUPSWITCH = .rop_lookupswitch from rfl, if_pos rfl]
      simp only [rop_refs]
      cases rop_lookupswitch g_code (a + 1) <;> rfl
    · rw [show refct_code_case .TABLESWITCH = .rop_tableswitch from rfl, if_neg (by decide)]
      simp only [rop_refs]
      cases rop_tableswitch g_code (a + 1) <;> rfl
  · rw [dump_turn _ _ _ _ _ _ ha hb, dump_switch_name _ _ _ hn]
    rcases hs with rfl | rfl
    · rw [show dump_code_case .LOOKUPSWITCH = .op_lookupswitch from rfl, if_pos rfl]
      rfl
    · rw [show dump_code_case .TABLESWITCH = .op_tableswitch from rfl, if_neg (by decide)]
      rfl

/-- Witness for C27: a `lookupswitch` at the offset 1, behind a `nop`: two
bytes are skipped and the default offset is read at 4. -/
theorem switch_padding_witness :
    align4 (1 + 1) = 1 + 1 + (3 - 1 % 4) ∧ align4 (1 + 1) = 4 ∧
    refct_code_addrs (refct_switches exampleNames) lookupCode 13
      = some [(0, 1), (1, 12), (12, 13)] ∧
    dump_code exampleNames lookupCode 13 = some [(0, 1), (1, 12), (12, 13)] ∧
    refct_code_addr_loop (refct_switches exampleNames) lookupCode 13 (11 + 1) 1
      = (match (if opcode.LOOKUPSWITCH = .LOOKUPSWITCH then rop_lookupswitch lookupCode (1 + 1)
            else rop_tableswitch lookupCode (1 + 1)) with
        | none => none
        | some pc2 =>
          (refct_code_addr_loop (refct_switches exampleNames) lookupCode 13 11 pc2).map
            (fun l => (1, pc2) :: l)) :=
  ⟨by decide, by decide, by decide!, by decide!,
    (switch_padding exampleNames lookupCode 13 11 1 0xab .LOOKUPSWITCH (by decide) (by rfl)
      (by rfl) (Or.inl rfl)).2.2.2.2.2.2.2.1⟩

/-! ## The walk over the bytecode: the length of a tableswitch -/

/-- C29 (the length of a `tableswitch`).  For a `tableswitch` at the offset `a`
whose bounds, as `argl` reads them, are `lo <= hi`, and whose bytes up to the
last of its `hi - lo + 1` jump offsets lie in the array: `rop_tableswitch` and
`op_tableswitch` consume the padding, the default, the two bounds and
`hi - lo` jump offsets, one less than the table holds, so that the cursor is
left on the last jump offset, 4 bytes before the next instruction. -/
theorem tableswitch_length (g_code : List Nat) (a : Nat) (lo hi : Int)
    (hlo : (argl g_code (4 * (a / 4 + 1) + 4)).map Prod.fst = some lo)
    (hhi : (argl g_code (4 * (a / 4 + 1) + 8)).map Prod.fst = some hi)
    (hle : lo ≤ hi)
    (hlen : 4 * (a / 4 + 1) + 12 + 4 * (hi - lo + 1).toNat ≤ g_code.length) :
    rop_tableswitch g_code (a + 1) = some (4 * (a / 4 + 1) + 12 + 4 * (hi - lo).toNat) ∧
    op_tableswitch g_code (a + 1) = some (4 * (a / 4 + 1) + 12 + 4 * (hi - lo).toNat) ∧
    4 * (a / 4 + 1) + 12 + 4 * (hi - lo).toNat + 4
      = 4 * (a / 4 + 1) + 12 + 4 * (hi - lo + 1).toNat := by
  have e2 := (align4_succ a).2
  have hn : (hi - lo + 1).toNat = (hi - lo).toNat + 1 := by omega
  have key : rop_tableswitch g_code (a + 1)
      = some (4 * (a / 4 + 1) + 12 + 4 * (hi - lo).toNat) := by
    unfold rop_tableswitch
    rw [e2]
    cases h1 : argl g_code (4 * (a / 4 + 1)) with
    | none =>
      rw [argl_some g_code _ (by omega)] at h1
      exact Option.noConfusion h1
    | some r1 =>
      obtain ⟨d, pc1⟩ := r1
      obtain ⟨rfl, _⟩ := argl_next _ _ _ _ h1
      simp only
      cases h2 : argl g_code (4 * (a / 4 + 1) + 4) with
      | none =>
        rw [argl_some g_code _ (by omega)] at h2
        exact Option.noConfusion h2
      | some r2 =>
        obtain ⟨lo1, pc2⟩ := r2
        obtain ⟨rfl, _⟩ := argl_next _ _ _ _ h2
        rw [h2] at hlo
        simp only [Option.map_some', Option.some.injEq] at hlo
        subst hlo
        simp only
        cases h3 : argl g_code (4 * (a / 4 + 1) + 4 + 4) with
        | none =>
          rw [argl_some g_code _ (by omega)] at h3
          exact Option.noConfusion h3
        | some r3 =>
          obtain ⟨hi1, pc3⟩ := r3
          obtain ⟨rfl, _⟩ := argl_next _ _ _ _ h3
          rw [show 4 * (a / 4 + 1) + 8 = 4 * (a / 4 + 1) + 4 + 4 from by omega, h3] at hhi
          simp only [Option.map_some', Option.some.injEq] at hhi
          subst hhi
          simp only
          rw [argl_times_some g_code _ _ (by omega)]
  exact ⟨key, key, by omega⟩

/-- Witness for C29, on a method body whose `tableswitch` has the one case 0:
the handlers stop at 16, the offset of the jump offset, where the next
instruction is at 20; the loops of `refct_code` and `dump_code` then walk over
the four bytes of the jump offset, take its last byte, 18, as an `ldc` and the
`return` behind it, 177, as the pool index of that `ldc`. -/
theorem tableswitch_length_witness :
    (argl oneCaseSwitch (4 * (0 / 4 + 1) + 4)).map Prod.fst = some 0 ∧
    (argl oneCaseSwitch (4 * (0 / 4 + 1) + 8)).map Prod.fst = some 0 ∧
    rop_tableswitch oneCaseSwitch (0 + 1) = some (4 * (0 / 4 + 1) + 12 + 4 * ((0 : Int) - 0).toNat) ∧
    op_tableswitch oneCaseSwitch (0 + 1) = some (4 * (0 / 4 + 1) + 12 + 4 * ((0 : Int) - 0).toNat) ∧
    rop_tableswitch oneCaseSwitch 1 = some 16 ∧
    refct_code_addrs (refct_switches exampleNames) oneCaseSwitch 21
      = some [(0, 16), (16, 17), (17, 18), (18, 19), (19, 21)] ∧
    dump_code exampleNames oneCaseSwitch 21
      = some [(0, 16), (16, 17), (17, 18), (18, 19), (19, 21)] ∧
    code_refs (refct_switches exampleNames) oneCaseSwitch 21 = some [177] := by
  obtain ⟨h1, h2, _⟩ := tableswitch_length oneCaseSwitch 0 0 0 (by decide) (by decide)
    (by decide) (by decide)
  exact ⟨by decide, by decide, h1, h2, by decide, by decide!, by decide!, by decide!⟩

/-! ## The walk over the bytecode: the 4-byte operand -/

theorem toInt32_inj (v w : Nat) (hv : v < 4294967296) (hw : w < 4294967296)
    (h : toInt32 v = toInt32 w) : v = w := by
  unfold toInt32 at h
  have e1 : v % 2 ^ 32 = v := Nat.mod_eq_of_lt (by omega)
  have e2 : w % 2 ^ 32 = w := Nat.mod_eq_of_lt (by omega)
  rw [e1, e2] at h
  split_ifs at h <;> omega

theorem byte_testBit (b : Nat) (hb : b < 256) (i : Nat) (hi : 8 ≤ i) : b.testBit i = false := by
  apply Nat.testBit_lt_two_pow
  calc b < 2 ^ 8 := hb
    _ ≤ 2 ^ i := Nat.pow_le_pow_right (by decide) hi

/-- C30 (the 4-byte operand): `argl` on the four bytes `b4, b3, b2, b1` at the
cursor moves the cursor by 4 and returns `(b4 << 24) | (b3 << 8) | (b2 << 8) | b1`
as an `int`; this is the big-endian value `(b4 << 24) | (b3 << 16) | (b2 << 8) | b1`
that the bytecode stores exactly when `b3` is 0. -/
theorem argl_value (g_code : List Nat) (g_pc b4 b3 b2 b1 : Nat)
    (h4 : g_code.get? g_pc = some b4) (h3 : g_code.get? (g_pc + 1) = some b3)
    (h2 : g_code.get? (g_pc + 2) = some b2) (h1 : g_code.get? (g_pc + 3) = some b1)
    (hb : b4 < 256 ∧ b3 < 256 ∧ b2 < 256 ∧ b1 < 256) :
    argl g_code g_pc
      = some (toInt32 ((b4 <<< 24) ||| (b3 <<< 8) ||| (b2 <<< 8) ||| b1), g_pc + 4) ∧
    (toInt32 ((b4 <<< 24) ||| (b3 <<< 8) ||| (b2 <<< 8) ||| b1)
        = toInt32 ((b4 <<< 24) ||| (b3 <<< 16) ||| (b2 <<< 8) ||| b1) ↔ b3 = 0) := by
  obtain ⟨hb4, hb3, hb2, hb1⟩ := hb
  constructor
  · unfold argl
    rw [argb_eq _ _ _ h4]
    simp only
    rw [argb_eq _ _ _ h3]
    simp only
    rw [argb_eq _ _ _ h2]
    simp only
    rw [argb_eq _ _ _ h1]
  · have s4 : b4 <<< 24 < 2 ^ 32 := by
      rw [Nat.shiftLeft_eq]
      omega
    have s3 : b3 <<< 8 < 2 ^ 32 := by
      rw [Nat.shiftLeft_eq]
      omega
    have s3' : b3 <<< 16 < 2 ^ 32 := by
      rw [Nat.shiftLeft_eq]
      omega
    have s2 : b2 <<< 8 < 2 ^ 32 := by
      rw [Nat.shiftLeft_eq]
      omega
    have s1 : b1 < 2 ^ 32 := by omega
    constructor
    · intro h
      have e := toInt32_inj _ _
        (Nat.or_lt_two_pow (Nat.or_lt_two_pow (Nat.or_lt_two_pow s4 s3) s2) s1)
        (Nat.or_lt_two_pow (Nat.or_lt_two_pow (Nat.or_lt_two_pow s4 s3') s2) s1) h
      by_contra hne
      obtain ⟨j, hj⟩ := Nat.ne_zero_implies_bit_true hne
      have hj8 : j < 8 := by
        by_contra hc
        rw [byte_testBit b3 hb3 j (by omega)] at hj
        exact Bool.noConfusion hj
      have e1 := congrArg (fun x => x.testBit (16 + j)) e
      simp only [Nat.testBit_or, Nat.testBit_shiftLeft] at e1
      have d1 : decide (16 + j ≥ 24) = false := by simp; omega
      have d2 : 16 + j - 8 = 8 + j := by omega
      have d3 : 16 + j - 16 = j := by omega
      rw [d1, d2, d3, byte_testBit b3 hb3 (8 + j) (by omega),
        byte_testBit b2 hb2 (8 + j) (by omega), byte_testBit b1 hb1 (16 + j) (by omega),
        hj] at e1
      simp at e1
    · intro h
      subst h
      simp

/-- Witness for C30, on bytes that store 65536, and on a method body whose
`tableswitch` has the bounds -1 and 1: `argl` returns 256 for 65536 and
-16711681 for -1, and the walk of `refct_code` over the method body, which
then calls `argl` 16711682 times where the table has three offsets, leaves the
array. -/
theorem argl_value_witness :
    (argl [0, 1, 0, 0] 0 = some (toInt32 ((0 <<< 24) ||| (1 <<< 8) ||| (0 <<< 8) ||| 0), 0 + 4) ∧
      (toInt32 ((0 <<< 24) ||| (1 <<< 8) ||| (0 <<< 8) ||| 0)
          = toInt32 ((0 <<< 24) ||| (1 <<< 16) ||| (0 <<< 8) ||| 0) ↔ 1 = 0)) ∧
    argl [0, 1, 0, 0] 0 = some (256, 4) ∧
    toInt32 ((0 <<< 24) ||| (1 <<< 16) ||| (0 <<< 8) ||| 0) = 65536 ∧
    argl negativeSwitch 8 = some (-16711681, 12) ∧
    argl negativeSwitch 12 = some (1, 16) ∧
    rop_tableswitch negativeSwitch 1 = none ∧
    refct_code_addrs (refct_switches exampleNames) negativeSwitch 29 = none ∧
    dump_code exampleNames negativeSwitch 29 = none ∧
    ∀ pool, refct_code (refct_switches exampleNames) negativeSwitch 29 pool = none :=
  ⟨argl_value [0, 1, 0, 0] 0 0 1 0 0 (by rfl) (by rfl) (by rfl) (by rfl) (by decide),
    by decide, by decide, by decide, by decide, by decide!, by decide!, by decide!,
    fun pool => by
      have h : code_refs (refct_switches exampleNames) negativeSwitch 29 = none := by decide!
      rw [refct_code_refs, h]
      rfl⟩

/-! ## The codec: reading from a stream and scanning from a buffer -/

theorem read_attribute_info_eq (le : Bool) (pool : List (Option cp_info)) (s : List Nat) :
    read_attribute_info le pool s = scan_attribute_info le pool s := rfl

/-- The attributes nested in a Code attribute are decoded as `read_attributes`
reads attributes from a stream. -/
theorem decode_nested_read (le : Bool) (pool : List (Option cp_info)) (n : Nat)
    (info : List Nat) :
    decode_attribute_scan le pool info.length n info
      = decode_scan le (fun count s => read_attributes le pool s count) pool n info := by
  have key : ∀ d, info.length ≤ d + 1 → ∀ count (s : List Nat), s.length < info.length →
      scan_times (scan_attribute_info_with le
        (fun n i => (decode_attribute_scan le pool d n i).map Prod.fst)) count s
        = read_attributes le pool s count := by
    intro d hd count s hs
    unfold read_attributes
    apply scan_times_congr _ _ (scan_attribute_info_with_shrinks le _)
    intro t ht
    rw [read_attribute_info_eq]
    unfold scan_attribute_info
    apply scan_attribute_info_with_congr
    intro m i hi
    unfold decode_attribute_value
    rw [decode_attribute_scan_fuel le pool d i.length m i (by omega) (Nat.le_refl _)]
  cases hl : info.length with
  | zero =>
    rw [decode_attribute_scan]
    apply decode_scan_congr
    intro count s hs
    omega
  | succ d =>
    rw [decode_attribute_scan]
    apply decode_scan_congr
    intro count s hs
    exact key d (by omega) count s hs

/-- C21 (the stream and the cursor decode alike).  On every sequence of bytes
and for every pool, `read_attribute_info`, which reads from a stream, and
`scan_attribute_info`, which reads from a cursor into a buffer, return the same
attribute (name index, length, raw payload and decoded value) and leave the same
bytes unread, or both read past the end; so do `read_attributes` and the loop
of `scan_attributes`; and the attributes nested in a Code attribute, which
`decode_attribute_value` scans from the payload, are the attributes that
`read_attributes` reads from a stream of the same bytes. -/
theorem read_scan_agree (g_littleEndian : Bool) (constant_pool : List (Option cp_info))
    (bytes : List Nat) :
    read_attribute_info g_littleEndian constant_pool bytes
      = scan_attribute_info g_littleEndian constant_pool bytes ∧
    (∀ count, read_attributes g_littleEndian constant_pool bytes count
      = scan_times (scan_attribute_info g_littleEndian constant_pool) count bytes) ∧
    (∀ attribute_name_index,
      decode_attribute_value g_littleEndian constant_pool attribute_name_index bytes
        = (decode_scan g_littleEndian
            (fun count s => read_attributes g_littleEndian constant_pool s count)
            constant_pool attribute_name_index bytes).map Prod.fst) ∧
    read_u2 g_littleEndian bytes = scan_u2 g_littleEndian bytes ∧
    read_u4 g_littleEndian bytes = scan_u4 g_littleEndian bytes ∧
    (∀ length, read_u1_array bytes length = scan_u1_array bytes length) := by
  refine ⟨rfl, fun count => rfl, fun n => ?_, rfl, rfl, fun length => rfl⟩
  unfold decode_attribute_value
  rw [decode_nested_read]

/-- Witness for C21: the bytes of the Code attribute of the example class,
with its nested line number table, followed by two more bytes. -/
theorem read_scan_agree_witness :
    read_attribute_info true examplePool
        ([0, 1, 0, 0, 0, 31] ++ exampleCode.info ++ [7, 7])
      = scan_attribute_info true examplePool
        ([0, 1, 0, 0, 0, 31] ++ exampleCode.info ++ [7, 7]) ∧
    scan_attribute_info true examplePool ([0, 1, 0, 0, 0, 31] ++ exampleCode.info ++ [7, 7])
      = some (exampleCode, [7, 7]) :=
  ⟨(read_scan_agree true examplePool ([0, 1, 0, 0, 0, 31] ++ exampleCode.info ++ [7, 7])).1,
    by rfl⟩

/-! ## The codec: the round trip of a Code payload -/

theorem decode_scan_code (le : Bool)
    (scan_attributes : Nat → List Nat → Option (List attribute_info × List Nat))
    (pool : List (Option cp_info)) (n : Nat) (info : List Nat) (v : attribute_value)
    (rest : List Nat) (hn : pUtf8 pool n = some (cbytes "Code"))
    (h : decode_scan le scan_attributes pool n info = some (v, rest)) : isCode v = true := by
  unfold decode_scan at h
  rw [hn] at h
  simp only at h
  rw [if_neg (by decide)] at h
  simp only [if_true] at h
  split at h
  · simp at h
  split at h
  · simp at h
  split at h
  · simp at h
  split at h
  · simp at h
  split at h
  · simp at h
  split at h
  · simp at h
  split at h
  · simp at h
  simp only [Option.map_eq_some', Prod.mk.injEq] at h
  obtain ⟨r, _, h, _⟩ := h
  rw [← h]
  rfl

theorem decode_attribute_scan_code (le : Bool) (pool : List (Option cp_info)) (depth n : Nat)
    (info : List Nat) (v : attribute_value) (rest : List Nat)
    (hn : pUtf8 pool n = some (cbytes "Code"))
    (h : decode_attribute_scan le pool depth n info = some (v, rest)) : isCode v = true := by
  cases depth with
  | zero =>
    rw [decode_attribute_scan] at h
    exact decode_scan_code le _ pool n info v rest hn h
  | succ d =>
    rw [decode_attribute_scan] at h
    exact decode_scan_code le _ pool n info v rest hn h

theorem isCode_not_raw (v : attribute_value) (h : isCode v = true) : isRaw v = false := by
  cases v <;> first | rfl | exact Bool.noConfusion h

/-- C22 (the round trip of a Code payload).  Let `p` be the payload of an
attribute whose name is `Code`, decoded to its last byte into the value `v`.
Then `v` is a Code value, and `encode_attribute_value` on the attribute with
the value `v` as it was decoded returns the payload `p`, byte for byte and
with its length, if `p` is at most 65000 bytes long, and overruns its buffer
otherwise; decoding the payload that it returns gives `v` again. -/
theorem code_reencode (g_littleEndian : Bool) (constant_pool : List (Option cp_info))
    (n : Nat) (p : List Nat) (v : attribute_value)
    (hn : pUtf8 constant_pool n = some (cbytes "Code")) (hb : okBytes p)
    (hl : p.length < 2147483648)
    (hd : decode_attribute_scan g_littleEndian constant_pool p.length n p = some (v, [])) :
    isCode v = true ∧
    encode_attribute_value g_littleEndian (.mk n p.length p v)
      = (if p.length ≤ 65000 then some p else none) ∧
    ∀ q, encode_attribute_value g_littleEndian (.mk n p.length p v) = some q →
      q = p ∧ q.length = p.length ∧
      decode_attribute_value g_littleEndian constant_pool n q = some v := by
  have hc := decode_attribute_scan_code g_littleEndian constant_pool _ n p v [] hn hd
  obtain ⟨payload, w1, _, w3⟩ :=
    decode_attribute_scan_payload g_littleEndian constant_pool _ n p v [] hb hl hd
  have hp : p = payload := by
    have := w3 (isCode_not_raw v hc)
    rwa [List.append_nil] at this
  subst hp
  have key : encode_attribute_value g_littleEndian (.mk n p.length p v)
      = (if p.length ≤ 65000 then some p else none) := by
    rw [encode_attribute_value, w1]
    by_cases hfit : p.length ≤ 65000
    · obtain ⟨nested, hnested⟩ :=
        encode_attribute_value_total g_littleEndian constant_pool _ n p v [] hb hfit hd
      rw [hnested, if_pos hfit]
      simp only [Option.map_some']
      rw [if_pos hfit]
    · rw [if_neg hfit]
      cases emit_attributes g_littleEndian (nestedOf v) with
      | none => rfl
      | some nested =>
        simp only [Option.map_some']
        rw [if_neg hfit]
  refine ⟨hc, key, ?_⟩
  intro q hq
  rw [key] at hq
  split_ifs at hq
  simp only [Option.some.injEq] at hq
  subst hq
  refine ⟨rfl, rfl, ?_⟩
  unfold decode_attribute_value
  rw [hd]
  rfl

theorem bigCode_length : bigCode.length = 64990 :=
  List.length_replicate _ _

theorem bigCodePayload_length : bigCodePayload.length = 65002 := by
  rw [bigCodePayload, List.length_append, List.length_append, bigCode_length]
  rfl

theorem bigCodePayload_okBytes : okBytes bigCodePayload := by
  rw [bigCodePayload, okBytes_append, okBytes_append]
  refine ⟨⟨by unfold okBytes; decide, ?_⟩, by unfold okBytes; decide⟩
  intro b hb
  rw [bigCode, List.mem_replicate] at hb
  omega

theorem decode_plain_code (depth : Nat) (code : List Nat) (hc : code.length = 64990) :
    decode_attribute_scan true examplePool depth 1
        ([0, 0, 0, 0, 0, 0, 253, 222] ++ code ++ [0, 0, 0, 0])
      = some (.Code 0 0 64990 code 0 [] 0 [], []) := by
  have hname : pUtf8 examplePool 1 = some (cbytes "Code") := by decide
  have e : ∀ sa : Nat → List Nat → Option (List attribute_info × List Nat),
      (∀ s, sa 0 s = some ([], s)) →
      decode_scan true sa examplePool 1 ([0, 0, 0, 0, 0, 0, 253, 222] ++ code ++ [0, 0, 0, 0])
        = some (.Code 0 0 64990 code 0 [] 0 [], []) := by
    intro sa hsa
    unfold decode_scan
    rw [hname]
    simp only
    rw [if_neg (by decide)]
    simp only [if_true]
    simp [scan_u2_eq, scan_u4_eq, scan_u1_array, hc, scan_times, hsa]
  cases depth with
  | zero =>
    rw [decode_attribute_scan]
    exact e _ (fun s => rfl)
  | succ d =>
    rw [decode_attribute_scan]
    exact e _ (fun s => rfl)

/-- Witness for C22: the Code attribute of the example class, whose payload of
31 bytes comes back, and a Code attribute with 64990 bytes of bytecode, whose
payload of 65002 bytes does not. -/
theorem code_reencode_witness :
    (isCode exampleCode.value = true ∧
      encode_attribute_value true (.mk 1 exampleCode.info.length exampleCode.info
          exampleCode.value)
        = (if exampleCode.info.length ≤ 65000 then some exampleCode.info else none) ∧
      ∀ q, encode_attribute_value true (.mk 1 exampleCode.info.length exampleCode.info
          exampleCode.value) = some q →
        q = exampleCode.info ∧ q.length = exampleCode.info.length ∧
        decode_attribute_value true examplePool 1 q = some exampleCode.value) ∧
    decode_attribute_scan true examplePool bigCodePayload.length 1 bigCodePayload
      = some (.Code 0 0 64990 bigCode 0 [] 0 [], []) ∧
    encode_attribute_value true
      (.mk 1 bigCodePayload.length bigCodePayload (.Code 0 0 64990 bigCode 0 [] 0 [])) = none := by
  have hbig := decode_plain_code bigCodePayload.length bigCode bigCode_length
  refine ⟨code_reencode true examplePool 1 exampleCode.info exampleCode.value (by decide)
    (by unfold okBytes; decide) (by decide) (by rfl), hbig, ?_⟩
  have h := (code_reencode true examplePool 1 bigCodePayload (.Code 0 0 64990 bigCode 0 [] 0 [])
    (by decide) bigCodePayload_okBytes (by rw [bigCodePayload_length]; decide) hbig).2.1
  rw [h, bigCodePayload_length]
  rfl

/-! ## The codec: what is serialized for a nested attribute -/

theorem flatMap_emit_raw (le : Bool) : ∀ (as bs : List attribute_info),
    as.map rawOf = bs.map rawOf → as.flatMap (emit_raw le) = bs.flatMap (emit_raw le)
  | [], [], _ => rfl
  | [], _ :: _, h => by simp at h
  | _ :: _, [], h => by simp at h
  | a :: as, b :: bs, h => by
    simp only [List.map_cons, List.cons.injEq] at h
    obtain ⟨h1, h2⟩ := h
    rw [List.flatMap_cons, List.flatMap_cons, flatMap_emit_raw le as bs h2]
    congr 1
    obtain ⟨n, l, i, v⟩ := a
    obtain ⟨n1, l1, i1, v1⟩ := b
    simp only [rawOf, attribute_info.attribute_name_index, attribute_info.attribute_length,
      attribute_info.info, Prod.mk.injEq] at h1
    obtain ⟨rfl, rfl, rfl⟩ := h1
    rfl

theorem encode_code_some (le : Bool) (n l : Nat) (i : List Nat) (ms ml cl : Nat)
    (code : List Nat) (etl : Nat) (et : List exception_table_entry) (ac : Nat)
    (as : List attribute_info) (buf : List Nat)
    (h : encode_attribute_value le (.mk n l i (.Code ms ml cl code etl et ac as)) = some buf) :
    buf = emit_u2 le ms ++ emit_u2 le ml ++ emit_u4 le cl ++ emit_u1_array cl code
      ++ emit_u2 le etl
      ++ (et.take etl).flatMap (fun e =>
          emit_u2 le e.start_pc ++ emit_u2 le e.end_pc ++ emit_u2 le e.handler_pc
            ++ emit_u2 le e.catch_type)
      ++ emit_u2 le ac ++ as.flatMap (emit_raw le) := by
  rw [encode_attribute_value, encode_switch] at h
  cases hn : emit_attributes le as with
  | none => simp [hn] at h
  | some nested =>
    rw [hn] at h
    simp only at h
    split_ifs at h
    simp only [Option.some.injEq] at h
    rw [← h, emit_attributes_some le as nested hn]

/-- C23 (what is serialized for an attribute).  `write_attribute_info` writes
the name index, the length of the payload that `encode_attribute_value` builds
from the decoded value, and that payload.  But the payload that
`encode_attribute_value` builds for a Code attribute holds, for every nested
attribute, the length and the raw payload that the nested attribute has at
that moment, whatever its decoded value is: two lists of nested attributes
with the same name indices, lengths and raw payloads give the same bytes. -/
theorem nested_payload_raw (g_littleEndian : Bool) (n l : Nat) (i : List Nat)
    (max_stack max_locals code_length : Nat) (code : List Nat)
    (exception_table_length : Nat) (exception_table : List exception_table_entry)
    (attributes_count : Nat) (attributes : List attribute_info) :
    (∀ ai : attribute_info, write_attribute_info g_littleEndian ai
      = (encode_attribute_value g_littleEndian ai).map (fun info =>
          write_u2 g_littleEndian ai.attribute_name_index
            ++ write_u4 g_littleEndian info.length ++ info)) ∧
    (∀ buf, encode_attribute_value g_littleEndian
        (.mk n l i (.Code max_stack max_locals code_length code exception_table_length
          exception_table attributes_count attributes)) = some buf →
      buf = emit_u2 g_littleEndian max_stack ++ emit_u2 g_littleEndian max_locals
        ++ emit_u4 g_littleEndian code_length ++ emit_u1_array code_length code
        ++ emit_u2 g_littleEndian exception_table_length
        ++ (exception_table.take exception_table_length).flatMap (fun e =>
            emit_u2 g_littleEndian e.start_pc ++ emit_u2 g_littleEndian e.end_pc
              ++ emit_u2 g_littleEndian e.handler_pc ++ emit_u2 g_littleEndian e.catch_type)
        ++ emit_u2 g_littleEndian attributes_count
        ++ attributes.flatMap (fun att =>
            emit_u2 g_littleEndian att.attribute_name_index
              ++ emit_u4 g_littleEndian att.attribute_length
              ++ emit_u1_array att.attribute_length att.info)) ∧
    (∀ attributes1 buf buf1, attributes1.map rawOf = attributes.map rawOf →
      encode_attribute_value g_littleEndian
        (.mk n l i (.Code max_stack max_locals code_length code exception_table_length
          exception_table attributes_count attributes)) = some buf →
      encode_attribute_value g_littleEndian
        (.mk n l i (.Code max_stack max_locals code_length code exception_table_length
          exception_table attributes_count attributes1)) = some buf1 →
      buf1 = buf) := by
  refine ⟨?_, ?_, ?_⟩
  · intro ai
    unfold write_attribute_info
    cases encode_attribute_value g_littleEndian ai with
    | none => rfl
    | some info =>
      simp only [Option.map_some', write_u1_array, List.take_length]
  · intro buf h
    exact encode_code_some _ _ _ _ _ _ _ _ _ _ _ _ _ h
  · intro attributes1 buf buf1 hr h h1
    rw [encode_code_some _ _ _ _ _ _ _ _ _ _ _ _ _ h,
      encode_code_some _ _ _ _ _ _ _ _ _ _ _ _ _ h1,
      flatMap_emit_raw g_littleEndian attributes1 attributes hr]

set_option maxRecDepth 100000 in
/-- Witness for C23.  A Signature attribute whose decoded index was changed
from 6 to 5 after reading is written with the index 5 when it is an attribute
of a method, but a Code attribute that holds it is written with the bytes that
were read, `00 06`.  And in the pipeline: `nestedFile` is read, pruned and
compacted, which moves the text of the signature from 6 to 5 and remaps the
decoded index; the file that is then written reads back with the index 6. -/
theorem nested_payload_raw_witness :
    write_attribute_info true (.mk 5 2 [0, 6] (.Signature 5)) = some [0, 5, 0, 0, 0, 2, 0, 5] ∧
    write_attribute_info true
        (.mk 2 21 [] (.Code 0 1 1 [177] 0 [] 1 [.mk 5 2 [0, 6] (.Signature 5)]))
      = some [0, 2, 0, 0, 0, 21, 0, 0, 0, 1, 0, 0, 0, 1, 177, 0, 0, 0, 1,
          0, 5, 0, 0, 0, 2, 0, 6] ∧
    (∀ buf buf1,
      encode_attribute_value true
        (.mk 2 21 [] (.Code 0 1 1 [177] 0 [] 1 [.mk 5 2 [0, 6] (.Signature 6)])) = some buf →
      encode_attribute_value true
        (.mk 2 21 [] (.Code 0 1 1 [177] 0 [] 1 [.mk 5 2 [0, 6] (.Signature 5)])) = some buf1 →
      buf1 = buf) ∧
    read_ClassFile true nestedFile = some (nestedExample, []) ∧
    (prune_action stub_opcodes (fun _ _ => 0) nestedExample).rounds = some 2 ∧
    (prune_action stub_opcodes (fun _ _ => 0) nestedExample).classfile.map nested_indices
      = some [4, 5] ∧
    (prune_action stub_opcodes (fun _ _ => 0) nestedExample).classfile.bind (fun final =>
      (write_ClassFile true final).bind (fun out =>
        (read_ClassFile true out).map (fun r => (nested_indices r.1, r.2))))
      = some ([4, 6], []) :=
  ⟨by decide, by decide,
    fun buf buf1 =>
      (nested_payload_raw true 2 21 [] 0 1 1 [177] 0 [] 1
        [.mk 5 2 [0, 6] (.Signature 6)]).2.2 [.mk 5 2 [0, 6] (.Signature 5)] buf buf1 (by rfl),
    by rfl, by decide!, by decide!, by decide!⟩

/-! ## main.c: the write policy -/

theorem refct_access (t : code_h) (cf cf1 : ClassFile) (h : refct_ClassFile t cf = some cf1) :
    cf1.access_flags = cf.access_flags := by
  rw [refct_ClassFile_refs] at h
  simp only [Option.map_eq_some'] at h
  obtain ⟨p, _, rfl⟩ := h
  rfl

theorem gc_access (u : Nat → Nat) (cf cf2 : ClassFile) (b : Bool)
    (h : gc_ClassFile u cf = some (b, cf2)) : cf2.access_flags = cf.access_flags := by
  unfold gc_ClassFile at h
  simp only at h
  split at h
  · simp at h
  · split_ifs at h
    simp only [Option.some.injEq, Prod.mk.injEq] at h
    rw [← h.2]

theorem gc_loop_access (t : code_h) (uninit : Nat → Nat → Nat) :
    ∀ (fuel n : Nat) (cf : ClassFile) (r : Nat) (final : ClassFile),
      gc_loop t uninit fuel n cf = .finished r final → final.access_flags = cf.access_flags
  | 0, n, cf, r, final, h => by simp [gc_loop] at h
  | fuel + 1, n, cf, r, final, h => by
    rw [gc_loop] at h
    cases hr : refct_ClassFile t cf with
    | none => simp [hr] at h
    | some cf1 =>
      simp only [hr] at h
      cases hg : gc_ClassFile (uninit n) cf1 with
      | none => simp [hg] at h
      | some x =>
        obtain ⟨done, cf2⟩ := x
        simp only [hg] at h
        have e1 := refct_access t cf cf1 hr
        have e2 := gc_access _ cf1 cf2 done hg
        cases done with
        | true =>
          simp only [if_true, loop_result.finished.injEq] at h
          rw [← h.2, e2, e1]
        | false =>
          simp only [Bool.false_eq_true, if_false] at h
          rw [gc_loop_access t uninit fuel (n + 1) cf2 r final h, e2, e1]

theorem prune_access (cf cf1 : ClassFile) (h1 : prune_ClassFile cf = some cf1) :
    cf1.access_flags = cf.access_flags := by
  unfold prune_ClassFile at h1
  split at h1
  · simp at h1
  · split at h1
    · simp at h1
    · split at h1
      · simp at h1
      · simp only [Option.some.injEq] at h1
        subst h1
        rfl

theorem main_process_access (t : code_h) (uninit : Nat → Nat → Nat)
    (dump_returns : ClassFile → Bool) (act : action) (classfile cf : ClassFile)
    (h : main_process t uninit dump_returns act classfile = some cf) :
    cf.access_flags = classfile.access_flags := by
  cases act with
  | ACT_DUMP =>
    simp only [main_process] at h
    split at h
    · simp at h
    · rename_i cf1 h1
      split_ifs at h
      simp only [Option.some.injEq] at h
      rw [← h]
      exact refct_access t classfile cf1 h1
  | ACT_PRUNE =>
    simp only [main_process, prune_action] at h
    cases hp : prune_ClassFile classfile with
    | none => simp [hp, loop_result.classfile] at h
    | some cf0 =>
      simp only [hp] at h
      cases hl : gc_loop t uninit cf0.constant_pool_count 0 cf0 with
      | finished r final =>
        simp only [hl, loop_result.classfile, Option.some.injEq] at h
        rw [← h, gc_loop_access t uninit _ _ cf0 r final hl, prune_access classfile cf0 hp]
      | aborted => simp [hl, loop_result.classfile] at h
      | unfinished => simp [hl, loop_result.classfile] at h
  | ACT_WRITE =>
    simp only [main_process, Option.some.injEq] at h
    rw [h]

theorem land_public_abstract (x : Nat) :
    (x &&& (ACC_PUBLIC ||| ACC_ABSTRACT) ≠ 0) ↔ (x.testBit 0 = true ∨ x.testBit 10 = true) := by
  have hm : ACC_PUBLIC ||| ACC_ABSTRACT = 1025 := by decide
  rw [hm]
  have bits : ∀ i, Nat.testBit 1025 i = (decide (i = 0) || decide (i = 10)) := by
    intro i
    by_cases hi : i < 11
    · interval_cases i <;> decide
    · have : Nat.testBit 1025 i = false := by
        apply Nat.testBit_lt_two_pow
        calc 1025 < 2 ^ 11 := by norm_num
          _ ≤ 2 ^ i := Nat.pow_le_pow_right (by norm_num) (by omega)
      rw [this]
      have h0 : i ≠ 0 := by omega
      have h10 : i ≠ 10 := by omega
      simp [h0, h10]
  constructor
  · intro h
    by_contra hc
    simp only [not_or, Bool.not_eq_true] at hc
    apply h
    apply Nat.eq_of_testBit_eq
    intro i
    rw [Nat.testBit_land, Nat.zero_testBit, bits]
    by_cases h0 : i = 0
    · subst h0
      simp [hc.1]
    · by_cases h10 : i = 10
      · subst h10
        simp [hc.2]
      · simp [h0, h10]
  · intro h hz
    have h0 : (x &&& 1025).testBit 0 = false := by rw [hz]; simp
    have h10 : (x &&& 1025).testBit 10 = false := by rw [hz]; simp
    rw [Nat.testBit_land, bits] at h0 h10
    simp only [decide_True, Bool.true_or, Bool.or_true, Bool.and_true] at h0 h10
    rcases h with h | h
    · rw [h0] at h
      exact Bool.noConfusion h
    · rw [h10] at h
      exact Bool.noConfusion h

/-- C28 (the write policy).  Let `main` have opened and read the class file and
let the passes of its action have returned with the class file `cf`.  Then the
access flags of `cf` are those that were read.  For the dump action `main`
writes no file.  For the prune and the write action, `main` writes a file
exactly when the access flags have `ACC_PUBLIC` or `ACC_ABSTRACT` set; the file
has the name of the input with `.alt` behind it and holds what
`write_ClassFile` writes for `cf`.  (The name has to fit `nameBuf` and
`write_ClassFile` has to return; a run in which they do not is not followed to
its end.) -/
theorem write_policy (t : code_h) (uninit : Nat → Nat → Nat) (hostLittleEndian : Bool)
    (dump_returns : ClassFile → Bool) (act : action) (filename bytes rest : List Nat)
    (classfile cf : ClassFile)
    (hr : read_ClassFile (testEndianism hostLittleEndian) bytes = some (classfile, rest))
    (hp : main_process t uninit dump_returns act classfile = some cf) :
    cf.access_flags = classfile.access_flags ∧
    (act = .ACT_DUMP →
      main t uninit hostLittleEndian dump_returns act filename (some bytes) = some none) ∧
    (act ≠ .ACT_DUMP → cf.access_flags &&& (ACC_PUBLIC ||| ACC_ABSTRACT) = 0 →
      main t uninit hostLittleEndian dump_returns act filename (some bytes) = some none) ∧
    (act ≠ .ACT_DUMP → cf.access_flags &&& (ACC_PUBLIC ||| ACC_ABSTRACT) ≠ 0 →
      main t uninit hostLittleEndian dump_returns act filename (some bytes)
        = if filename.length + 4 < 1000 then
            (write_ClassFile (testEndianism hostLittleEndian) cf).map (fun out =>
              some (filename ++ cbytes ".alt", out))
          else none) ∧
    (∀ out, main t uninit hostLittleEndian dump_returns act filename (some bytes) = some out →
      (out.isSome = true ↔
        (act = .ACT_PRUNE ∨ act = .ACT_WRITE) ∧
          cf.access_flags &&& (ACC_PUBLIC ||| ACC_ABSTRACT) ≠ 0) ∧
      ∀ f ∈ out, f.1 = filename ++ cbytes ".alt" ∧
        write_ClassFile (testEndianism hostLittleEndian) cf = some f.2) ∧
    (cf.access_flags &&& (ACC_PUBLIC ||| ACC_ABSTRACT) ≠ 0
      ↔ (classfile.access_flags.testBit 0 = true ∨ classfile.access_flags.testBit 10 = true)) := by
  have hacc := main_process_access t uninit dump_returns act classfile cf hp
  have hm : main t uninit hostLittleEndian dump_returns act filename (some bytes)
      = if cf.access_flags &&& (ACC_PUBLIC ||| ACC_ABSTRACT) ≠ 0 then
          if act = .ACT_WRITE ∨ act = .ACT_PRUNE then
            if filename.length + 4 < 1000 then
              (write_ClassFile (testEndianism hostLittleEndian) cf).map (fun out =>
                some (filename ++ cbytes ".alt", out))
            else none
          else some none
        else some none := by
    simp only [main, hr, hp]
  have hact : act ≠ .ACT_DUMP ↔ (act = .ACT_WRITE ∨ act = .ACT_PRUNE) := by
    cases act <;> simp
  refine ⟨hacc, ?_, ?_, ?_, ?_, ?_⟩
  · intro ha
    rw [hm]
    have : ¬(act = .ACT_WRITE ∨ act = .ACT_PRUNE) := by
      rw [← hact]
      simp [ha]
    rw [if_neg this]
    split <;> rfl
  · intro _ hz
    rw [hm, if_neg (by simp [hz])]
  · intro ha hnz
    rw [hm, if_pos hnz, if_pos (hact.1 ha)]
  · intro out ho
    rw [hm] at ho
    by_cases hnz : cf.access_flags &&& (ACC_PUBLIC ||| ACC_ABSTRACT) ≠ 0
    · rw [if_pos hnz] at ho
      by_cases ha : act = .ACT_WRITE ∨ act = .ACT_PRUNE
      · rw [if_pos ha] at ho
        split_ifs at ho
        simp only [Option.map_eq_some', Option.some.injEq] at ho
        obtain ⟨o, ho1, rfl⟩ := ho
        refine ⟨⟨fun _ => ⟨ha.symm, hnz⟩, fun _ => rfl⟩, ?_⟩
        intro f hf
        simp only [Option.mem_def, Option.some.injEq] at hf
        subst hf
        exact ⟨rfl, ho1⟩
      · rw [if_neg ha] at ho
        simp only [Option.some.injEq] at ho
        subst ho
        refine ⟨⟨fun h => Bool.noConfusion h, fun h => absurd h.1.symm ha⟩, ?_⟩
        intro f hf
        simp at hf
    · rw [if_neg hnz] at ho
      simp only [Option.some.injEq] at ho
      subst ho
      refine ⟨⟨fun h => Bool.noConfusion h, fun h => absurd h.2 hnz⟩, ?_⟩
      intro f hf
      simp at hf
  · rw [hacc]
    exact land_public_abstract _

set_option maxRecDepth 100000 in
/-- Witness for C28: a public class is written by the write action and by the
prune action, to the name with `.alt`; the dump action writes nothing; a class
that is neither public nor abstract is written by no action. -/
theorem write_policy_witness :
    main stub_opcodes (fun _ _ => 0) true (fun _ => true) .ACT_WRITE (cbytes "A.class")
        (some emptyFile)
      = some (some (cbytes "A.class.alt", emptyFile)) ∧
    main stub_opcodes (fun _ _ => 0) true (fun _ => true) .ACT_DUMP (cbytes "A.class")
        (some emptyFile) = some none ∧
    (main stub_opcodes (fun _ _ => 0) true (fun _ => true) .ACT_PRUNE (cbytes "A.class")
        (some exampleFile)).map (Option.map (fun f => (f.1, f.2.length)))
      = some (some (cbytes "A.class.alt", 110)) ∧
    main stub_opcodes (fun _ _ => 0) true (fun _ => true) .ACT_WRITE (cbytes "A.class")
        (some packageFile) = some none ∧
    main stub_opcodes (fun _ _ => 0) true (fun _ => true) .ACT_PRUNE (cbytes "A.class")
        (some packageFile) = some none ∧
    main stub_opcodes (fun _ _ => 0) true (fun _ => true) .ACT_PRUNE (cbytes "A.class") none
      = some none :=
  ⟨((write_policy stub_opcodes (fun _ _ => 0) true (fun _ => true) .ACT_WRITE
        (cbytes "A.class") emptyFile [] emptyClass emptyClass (by rfl) (by rfl)).2.2.2.1
        (by decide) (by decide!)).trans (by decide!),
    by decide!,
    by decide!, by decide!, by decide!, by decide⟩

/-! ## The walk over the bytecode: the pool operands -/

theorem argw_value (hi lo : Nat) (h : lo < 256) : (hi <<< 8) ||| lo = hi * 256 + lo := by
  have e := Nat.mul_add_lt_is_or (i := 8) (b := lo) (by simpa using h) hi
  rw [Nat.shiftLeft_eq, Nat.mul_comm, ← e]

theorem pool_operand_case (n : opcode) : pool_operand n = (refct_code_case n).operand := by
  cases n <;> rfl

theorem getD_lt (code : List Nat) (hb : okBytes code) (i : Nat) : code.getD i 0 < 256 := by
  by_cases h : i < code.length
  · rw [List.getD_eq_getElem _ _ h]
    exact hb _ (List.getElem_mem _)
  · rw [List.getD_eq_default _ _ (by omega)]
    omega

/-- What a handler of `refct_code` passes to `ref`, and where it leaves the
cursor, by the shape of its operands. -/
theorem rop_refs_operand (t : code_h) (g_code : List Nat) (hb : okBytes g_code) (h : rop)
    (a pc2 : Nat) (refs : List Nat)
    (hr : rop_refs t g_code h (a + 1) = some (pc2, refs)) :
    refs = (match h.operand with
      | none => []
      | some (w, _) =>
        if w = 1 then [g_code.getD (a + 1) 0]
        else [g_code.getD (a + 1) 0 * 256 + g_code.getD (a + 2) 0]) ∧
    ∀ w sz, h.operand = some (w, sz) → pc2 = a + sz := by
  cases h with
  | rop_1bc =>
    simp only [rop_refs, Option.map_eq_some'] at hr
    obtain ⟨r, h1, h2⟩ := hr
    obtain ⟨v, pc1⟩ := r
    obtain ⟨e1, l1⟩ := argb_next _ _ _ _ h1
    rw [argb_some _ _ l1] at h1
    simp only [Option.some.injEq, Prod.mk.injEq] at h1 h2
    obtain ⟨rfl, rfl⟩ := h1
    obtain ⟨rfl, rfl⟩ := h2
    refine ⟨rfl, ?_⟩
    intro w sz hw
    simp only [rop.operand, Option.some.injEq, Prod.mk.injEq] at hw
    omega
  | rop_1wc =>
    simp only [rop_refs, Option.map_eq_some'] at hr
    obtain ⟨r, h1, h2⟩ := hr
    obtain ⟨v, pc1⟩ := r
    obtain ⟨e1, l1⟩ := argw_next _ _ _ _ h1
    rw [argw_some _ _ l1] at h1
    simp only [Option.some.injEq, Prod.mk.injEq] at h1 h2
    obtain ⟨rfl, rfl⟩ := h1
    obtain ⟨rfl, rfl⟩ := h2
    refine ⟨?_, ?_⟩
    · simp only [rop.operand]
      rw [if_neg (by decide), argw_value _ _ (getD_lt g_code hb _)]
    · intro w sz hw
      simp only [rop.operand, Option.some.injEq, Prod.mk.injEq] at hw
      omega
  | rop_2wcb =>
    simp only [rop_refs] at hr
    cases h1 : argw g_code (a + 1) with
    | none => simp [h1] at hr
    | some r =>
      obtain ⟨v, pc1⟩ := r
      obtain ⟨e1, l1⟩ := argw_next _ _ _ _ h1
      rw [argw_some _ _ l1] at h1
      simp only [Option.some.injEq, Prod.mk.injEq] at h1
      obtain ⟨rfl, rfl⟩ := h1
      rw [argw_some _ _ l1] at hr
      simp only [Option.map_eq_some'] at hr
      obtain ⟨r2, h2, h3⟩ := hr
      obtain ⟨v2, pc3⟩ := r2
      obtain ⟨e2, l2⟩ := argb_next _ _ _ _ h2
      simp only [Option.some.injEq, Prod.mk.injEq] at h3
      obtain ⟨rfl, rfl⟩ := h3
      refine ⟨?_, ?_⟩
      · simp only [rop.operand]
        rw [if_neg (by decide), argw_value _ _ (getD_lt g_code hb _)]
      · intro w sz hw
        simp only [rop.operand, Option.some.injEq, Prod.mk.injEq] at hw
        omega
  | rop_3wcbx =>
    simp only [rop_refs] at hr
    cases h1 : argw g_code (a + 1) with
    | none => simp [h1] at hr
    | some r =>
      obtain ⟨v, pc1⟩ := r
      obtain ⟨e1, l1⟩ := argw_next _ _ _ _ h1
      rw [argw_some _ _ l1] at h1
      simp only [Option.some.injEq, Prod.mk.injEq] at h1
      obtain ⟨rfl, rfl⟩ := h1
      rw [argw_some _ _ l1] at hr
      simp only at hr
      cases h2 : argb g_code (a + 1 + 2) with
      | none => simp [h2] at hr
      | some r2 =>
        obtain ⟨v2, pc3⟩ := r2
        obtain ⟨e2, l2⟩ := argb_next _ _ _ _ h2
        simp only [h2, Option.map_eq_some'] at hr
        obtain ⟨r3, h3, h4⟩ := hr
        obtain ⟨v3, pc4⟩ := r3
        obtain ⟨e3, l3⟩ := argb_next _ _ _ _ h3
        simp only [Option.some.injEq, Prod.mk.injEq] at h4
        obtain ⟨rfl, rfl⟩ := h4
        refine ⟨?_, ?_⟩
        · simp only [rop.operand]
          rw [if_neg (by decide), argw_value _ _ (getD_lt g_code hb _)]
        · intro w sz hw
          simp only [rop.operand, Option.some.injEq, Prod.mk.injEq] at hw
          omega
  | rop_0 =>
    simp only [rop_refs, Option.some.injEq, Prod.mk.injEq] at hr
    exact ⟨hr.2.symm, fun w sz hw => by simp [rop.operand] at hw⟩
  | no_case =>
    simp only [rop_refs, Option.some.injEq, Prod.mk.injEq] at hr
    exact ⟨hr.2.symm, fun w sz hw => by simp [rop.operand] at hw⟩
  | rop_1b =>
    simp only [rop_refs, Option.map_eq_some', Prod.mk.injEq] at hr
    obtain ⟨_, _, _, h2⟩ := hr
    exact ⟨h2.symm, fun w sz hw => by simp [rop.operand] at hw⟩
  | rop_1w =>
    simp only [rop_refs, Option.map_eq_some', Prod.mk.injEq] at hr
    obtain ⟨_, _, _, h2⟩ := hr
    exact ⟨h2.symm, fun w sz hw => by simp [rop.operand] at hw⟩
  | rop_1l =>
    simp only [rop_refs, Option.map_eq_some', Prod.mk.injEq] at hr
    obtain ⟨_, _, _, h2⟩ := hr
    exact ⟨h2.symm, fun w sz hw => by simp [rop.operand] at hw⟩
  | rop_2bb =>
    simp only [rop_refs] at hr
    cases h1 : argb g_code (a + 1) with
    | none => simp [h1] at hr
    | some r =>
      obtain ⟨v, pc1⟩ := r
      simp only [h1, Option.map_eq_some', Prod.mk.injEq] at hr
      obtain ⟨_, _, _, h2⟩ := hr
      exact ⟨h2.symm, fun w sz hw => by simp [rop.operand] at hw⟩
  | rop_lookupswitch =>
    simp only [rop_refs, Option.map_eq_some', Prod.mk.injEq] at hr
    obtain ⟨_, _, _, h2⟩ := hr
    exact ⟨h2.symm, fun w sz hw => by simp [rop.operand] at hw⟩
  | rop_tableswitch =>
    simp only [rop_refs, Option.map_eq_some', Prod.mk.injEq] at hr
    obtain ⟨_, _, _, h2⟩ := hr
    exact ⟨h2.symm, fun w sz hw => by simp [rop.operand] at hw⟩
  | rop_wide =>
    simp only [rop_refs, Option.map_eq_some', Prod.mk.injEq] at hr
    obtain ⟨_, _, _, h2⟩ := hr
    exact ⟨h2.symm, fun w sz hw => by simp [rop.operand] at hw⟩

theorem insn_refs_switch (names : Nat → Option opcode) (code : List Nat) (a b : Nat)
    (hg : code.get? a = some b) :
    insn_refs names code a
      = (match ((refct_switches names).refct_code_switch b).operand with
        | none => []
        | some (w, _) =>
          if w = 1 then [code.getD (a + 1) 0]
          else [code.getD (a + 1) 0 * 256 + code.getD (a + 2) 0]) := by
  unfold insn_refs
  rw [hg, Option.some_bind]
  cases hn : names b with
  | none =>
    have e : (refct_switches names).refct_code_switch b = rop.no_case := by
      simp only [refct_switches, hn]
    rw [e]
    rfl
  | some n =>
    rw [refct_switch_name names b n hn, ← pool_operand_case]

theorem code_refs_insns (names : Nat → Option opcode) (code : List Nat) (hb : okBytes code)
    (length : Nat) : ∀ (turns g_pc : Nat),
    code_refs_loop (refct_switches names) code length turns g_pc
      = (refct_code_addr_loop (refct_switches names) code length turns g_pc).map
          (fun l => l.flatMap (fun x => insn_refs names code x.1))
  | 0, g_pc => by
    rw [code_refs_loop, refct_code_addr_loop]
    split <;> rfl
  | turns + 1, g_pc => by
    rw [code_refs_loop, refct_code_addr_loop]
    split
    · cases hg : argb code g_pc with
      | none => rfl
      | some r =>
        obtain ⟨b, pc1⟩ := r
        obtain ⟨e1, l1⟩ := argb_next _ _ _ _ hg
        subst e1
        have hget : code.get? g_pc = some b := by
          unfold argb at hg
          split at hg
          · rename_i b1 hb1
            simp only [Option.some.injEq, Prod.mk.injEq] at hg
            rw [hb1, hg.1]
          · simp at hg
        simp only
        cases hr : rop_refs (refct_switches names) code
            ((refct_switches names).refct_code_switch b) (g_pc + 1) with
        | none => rfl
        | some r1 =>
          obtain ⟨pc2, refs⟩ := r1
          obtain ⟨e, _⟩ := rop_refs_operand _ code hb _ g_pc pc2 refs hr
          simp only
          rw [code_refs_insns names code hb length turns pc2, Option.map_map, Option.map_map]
          congr 1
          funext l
          simp only [Function.comp, List.flatMap_cons]
          rw [insn_refs_switch names code g_pc b hget, e]
    · rfl

/-- C31 (the shapes of the pool operands).  For every numbering of the opcode
names and every array of bytes: the handlers of `refct_code` that call `ref`
are those of `ldc` (one operand byte, 2 bytes in all), of `ldc_w`, `ldc2_w`,
`new`, `anewarray`, `checkcast`, `instanceof`, `getfield`, `putfield`,
`getstatic`, `putstatic`, `invokevirtual`, `invokespecial`, `invokestatic`
(two operand bytes, big-endian, 3 bytes in all), of `multianewarray` (4 bytes)
and of `invokeinterface` (5 bytes); such a handler passes exactly that operand
to `ref` and leaves the cursor behind the instruction, and every other handler
passes nothing.  So `refct_code` references, once each and in this order, the
pool operands at the addresses that its walk takes for the opcodes
(`refct_code_addrs`), and nothing else. -/
theorem pool_operand_shapes (names : Nat → Option opcode) (code : List Nat)
    (hb : okBytes code) (length : Nat) :
    (∀ n, (refct_code_case n).operand = pool_operand n) ∧
    (∀ (h : rop) (a pc2 : Nat) (refs : List Nat),
      rop_refs (refct_switches names) code h (a + 1) = some (pc2, refs) →
      refs = (match h.operand with
        | none => []
        | some (w, _) =>
          if w = 1 then [code.getD (a + 1) 0]
          else [code.getD (a + 1) 0 * 256 + code.getD (a + 2) 0]) ∧
      ∀ w sz, h.operand = some (w, sz) → pc2 = a + sz) ∧
    code_refs (refct_switches names) code length
      = (refct_code_addrs (refct_switches names) code length).map
          (fun l => l.flatMap (fun x => insn_refs names code x.1)) ∧
    (∀ pool, refct_code (refct_switches names) code length pool
      = mark_refs ((refct_code_addrs (refct_switches names) code length).map
          (fun l => l.flatMap (fun x => insn_refs names code x.1))) pool) := by
  have hw := code_refs_insns names code hb length length 0
  refine ⟨fun n => (pool_operand_case n).symm, ?_, hw, ?_⟩
  · intro h a pc2 refs hr
    exact rop_refs_operand _ code hb h a pc2 refs hr
  · intro pool
    rw [refct_code_refs]
    unfold code_refs refct_code_addrs
    rw [hw]

/-- Witness for C31.  In `poolCode` the walk finds the six instructions with a
pool operand and references 7, 258, 3, 4, 5 and 6.  In `switchThenLdc` the
`tableswitch` takes the bytes 0 to 19 and `ldc #5` stands at 20, but the walk
leaves the `tableswitch` at 16, takes the byte `0x12` of its jump offset at 19
for an `ldc` and references 18; the operand 5 is taken for an opcode and is
not referenced. -/
theorem pool_operand_shapes_witness :
    code_refs (refct_switches poolNames) poolCode 21 = some [7, 258, 3, 4, 5, 6] ∧
    refct_code_addrs (refct_switches poolNames) poolCode 21
      = some [(0, 2), (2, 5), (5, 8), (8, 12), (12, 17), (17, 20), (20, 21)] ∧
    refct_code_addrs (refct_switches poolNames) switchThenLdc 23
      = some [(0, 16), (16, 17), (17, 18), (18, 19), (19, 21), (21, 22), (22, 23)] ∧
    code_refs (refct_switches poolNames) switchThenLdc 23 = some [18] ∧
    insn_refs poolNames switchThenLdc 20 = [5] ∧
    insn_refs poolNames switchThenLdc 19 = [18] :=
  ⟨((pool_operand_shapes poolNames poolCode (by unfold okBytes; decide) 21).2.2.1).trans
      (by decide!),
    by decide!, by decide!, by decide!, by decide, by decide⟩

/-! ## The writer: what it leaves of the model -/

theorem reversed_u2_eq (le : Bool) (v : Nat) :
    reversed_u2 le v = v % 256 * 256 + v / 256 % 256 := by
  cases le <;> simp [reversed_u2, from_host, to_host, reverseBytes, List.range, List.range.loop]

theorem reversed_u2_fix (le : Bool) (v : Nat) (h : v < 65536) :
    reversed_u2 le v = v ↔ v % 256 = v / 256 := by
  rw [reversed_u2_eq]
  omega

theorem write_u2_array_eq (le : Bool) (n : Nat) (a : List Nat) :
    write_u2_array le n a = (a.take n).flatMap (fun v => [v / 256 % 256, v % 256]) := by
  unfold write_u2_array
  congr 1
  funext v
  exact write_u2_eq le v

theorem emit_u2_array_eq (le : Bool) (n : Nat) (a : List Nat) :
    emit_u2_array le n a = (a.take n).flatMap (fun v => [v / 256 % 256, v % 256]) := by
  unfold emit_u2_array
  congr 1
  funext v
  exact write_u2_eq le v

theorem write_u2_array_after_big (n : Nat) (a : List Nat) :
    write_u2_array_after false n a = a := rfl

theorem write_u2_array_after_little (n : Nat) (a : List Nat) :
    write_u2_array_after true n a
      = (a.take n).map (fun v => v % 256 * 256 + v / 256 % 256) ++ a.drop n := by
  unfold write_u2_array_after
  rw [if_pos rfl, show reversed_u2 true = fun v => v % 256 * 256 + v / 256 % 256 from
    funext (reversed_u2_eq true)]

theorem emit_u2_array_after_eq (le : Bool) (n : Nat) (a : List Nat) :
    emit_u2_array_after le n a = write_u2_array_after le n a := rfl

/-- What a second call of `write_u2_array` writes on a little-endian host: the
two bytes of every element exchanged. -/
theorem write_u2_array_twice (n : Nat) (a : List Nat) (h : ∀ v ∈ a, v < 65536) :
    write_u2_array true n (write_u2_array_after true n a)
      = (a.take n).flatMap (fun v => [v % 256, v / 256]) := by
  rw [write_u2_array_eq, write_u2_array_after_little]
  have hl : ((a.take n).map (fun v => v % 256 * 256 + v / 256 % 256) ++ a.drop n).take n
      = (a.take n).map (fun v => v % 256 * 256 + v / 256 % 256) := by
    rw [List.take_append_eq_append_take, List.take_of_length_le (by simp)]
    by_cases hn : n ≤ a.length
    · have e : n - ((a.take n).map (fun v => v % 256 * 256 + v / 256 % 256)).length = 0 := by
        rw [List.length_map, List.length_take]
        omega
      rw [e, List.take_zero, List.append_nil]
    · rw [List.drop_eq_nil_of_le (by omega), List.take_nil, List.append_nil]
  rw [hl, List.flatMap_map]
  apply List.flatMap_congr
  intro v hv
  have hv1 := h v (List.mem_of_mem_take hv)
  have h1 : v / 256 % 256 = v / 256 := Nat.mod_eq_of_lt (by omega)
  have h2 : (v % 256 * 256 + v / 256) / 256 = v % 256 := by omega
  have h3 : (v % 256 * 256 + v / 256) % 256 = v / 256 := by omega
  simp only [h1, h2, h3, Nat.mod_mod]

mutual
theorem encode_after_some (le : Bool) : ∀ (a : attribute_info),
    (encode_attribute_value_after le a).isSome = (encode_attribute_value le a).isSome
  | .mk n l i v => by
    rw [encode_attribute_value_after]
    cases he : encode_attribute_value le (.mk n l i v) with
    | none => rfl
    | some buf =>
      simp only
      have hs : (encode_switch le l i v).isSome = true := by
        rw [encode_attribute_value] at he
        cases hsw : encode_switch le l i v with
        | none => simp [hsw] at he
        | some b => rfl
      have := encode_switch_after_some le v l i hs
      cases hv : encode_switch_after le v with
      | none => simp [hv] at this
      | some v1 => rfl
theorem encode_switch_after_some (le : Bool) : ∀ (v : attribute_value) (l : Nat) (i : List Nat),
    (encode_switch le l i v).isSome = true → (encode_switch_after le v).isSome = true
  | .Code ms ml cl code etl et ac attrs, l, i, h => by
    rw [encode_switch] at h
    rw [encode_switch_after]
    cases hn : emit_attributes le attrs with
    | none => simp [hn] at h
    | some nested =>
      have := emit_attributes_after_some le attrs (by rw [hn]; rfl)
      cases ha : emit_attributes_after le attrs with
      | none => simp [ha] at this
      | some as1 => rfl
  | .Exceptions _ _, _, _, _ => by rw [encode_switch_after]; rfl
  | .Unknown, _, _, _ => by rw [encode_switch_after]; rfl
  | .ConstantValue _, _, _, _ => by rw [encode_switch_after]; rfl
  | .InnerClasses _ _, _, _, _ => by rw [encode_switch_after]; rfl
  | .Synthetic, _, _, _ => by rw [encode_switch_after]; rfl
  | .SourceFile _, _, _, _ => by rw [encode_switch_after]; rfl
  | .LineNumberTable _ _, _, _, _ => by rw [encode_switch_after]; rfl
  | .LocalVariableTable _ _, _, _, _ => by rw [encode_switch_after]; rfl
  | .Deprecated, _, _, _ => by rw [encode_switch_after]; rfl
  | .RuntimeVisibleAnnotations _ _, _, _, _ => by rw [encode_switch_after]; rfl
  | .EnclosingMethod _ _, _, _, _ => by rw [encode_switch_after]; rfl
  | .StackMapTable, _, _, _ => by rw [encode_switch_after]; rfl
  | .Signature _, _, _, _ => by rw [encode_switch_after]; rfl
  | .LocalVariableTypeTable _ _, _, _, _ => by rw [encode_switch_after]; rfl
  | .AnnotationDefault _, _, _, _ => by rw [encode_switch_after]; rfl
theorem emit_attributes_after_some (le : Bool) : ∀ (as : List attribute_info),
    (emit_attributes le as).isSome = true → (emit_attributes_after le as).isSome = true
  | [], _ => by rw [emit_attributes_after]; rfl
  | a :: rest, h => by
    rw [emit_attributes] at h
    rw [emit_attributes_after]
    cases he : encode_attribute_value le a with
    | none => simp [he] at h
    | some buf =>
      simp only [he] at h
      cases hr : emit_attributes le rest with
      | none => simp [hr] at h
      | some out =>
        have h1 := encode_after_some le a
        rw [he] at h1
        have h2 := emit_attributes_after_some le rest (by rw [hr]; rfl)
        cases ha : encode_attribute_value_after le a with
        | none => simp [ha] at h1
        | some a1 =>
          cases hb : emit_attributes_after le rest with
          | none => simp [hb] at h2
          | some r1 => rfl
end

mutual
theorem tables_after (le : Bool) : ∀ (a a1 : attribute_info),
    encode_attribute_value_after le a = some a1 →
    exception_index_tables a1
      = (exception_index_tables a).map (fun x => (x.1, emit_u2_array_after le x.1 x.2))
  | .mk n l i v, a1, h => by
    rw [encode_attribute_value_after] at h
    cases he : encode_attribute_value le (.mk n l i v) with
    | none => simp [he] at h
    | some buf =>
      simp only [he] at h
      cases hv : encode_switch_after le v with
      | none => simp [hv] at h
      | some v1 =>
        simp only [hv, Option.some.injEq] at h
        subst h
        exact tables_switch le v v1 hv n buf.length buf n l i
theorem tables_switch (le : Bool) : ∀ (v v1 : attribute_value),
    encode_switch_after le v = some v1 → ∀ (n1 l1 : Nat) (i1 : List Nat) (n l : Nat)
      (i : List Nat),
    exception_index_tables (.mk n1 l1 i1 v1)
      = (exception_index_tables (.mk n l i v)).map
          (fun x => (x.1, emit_u2_array_after le x.1 x.2))
  | .Code ms ml cl code etl et ac attrs, v1, h, n1, l1, i1, n, l, i => by
    rw [encode_switch_after] at h
    cases ha : emit_attributes_after le attrs with
    | none => simp [ha] at h
    | some as1 =>
      simp only [ha, Option.some.injEq] at h
      subst h
      simp only [exception_index_tables]
      exact tables_list le attrs as1 ha
  | .Exceptions k t, v1, h, n1, l1, i1, n, l, i => by
    rw [encode_switch_after] at h
    simp only [Option.some.injEq] at h
    subst h
    simp only [exception_index_tables, List.map_cons, List.map_nil]
  | .Unknown, v1, h, _, _, _, _, _, _ => by
    rw [encode_switch_after] at h
    simp only [Option.some.injEq] at h
    subst h
    rfl
  | .ConstantValue _, v1, h, _, _, _, _, _, _ => by
    rw [encode_switch_after] at h
    simp only [Option.some.injEq] at h
    subst h
    rfl
  | .InnerClasses _ _, v1, h, _, _, _, _, _, _ => by
    rw [encode_switch_after] at h
    simp only [Option.some.injEq] at h
    subst h
    rfl
  | .Synthetic, v1, h, _, _, _, _, _, _ => by
    rw [encode_switch_after] at h
    simp only [Option.some.injEq] at h
    subst h
    rfl
  | .SourceFile _, v1, h, _, _, _, _, _, _ => by
    rw [encode_switch_after] at h
    simp only [Option.some.injEq] at h
    subst h
    rfl
  | .LineNumberTable _ _, v1, h, _, _, _, _, _, _ => by
    rw [encode_switch_after] at h
    simp only [Option.some.injEq] at h
    subst h
    rfl
  | .LocalVariableTable _ _, v1, h, _, _, _, _, _, _ => by
    rw [encode_switch_after] at h
    simp only [Option.some.injEq] at h
    subst h
    rfl
  | .Deprecated, v1, h, _, _, _, _, _, _ => by
    rw [encode_switch_after] at h
    simp only [Option.some.injEq] at h
    subst h
    rfl
  | .RuntimeVisibleAnnotations _ _, v1, h, _, _, _, _, _, _ => by
    rw [encode_switch_after] at h
    simp only [Option.some.injEq] at h
    subst h
    rfl
  | .EnclosingMethod _ _, v1, h, _, _, _, _, _, _ => by
    rw [encode_switch_after] at h
    simp only [Option.some.injEq] at h
    subst h
    rfl
  | .StackMapTable, v1, h, _, _, _, _, _, _ => by
    rw [encode_switch_after] at h
    simp only [Option.some.injEq] at h
    subst h
    rfl
  | .Signature _, v1, h, _, _, _, _, _, _ => by
    rw [encode_switch_after] at h
    simp only [Option.some.injEq] at h
    subst h
    rfl
  | .LocalVariableTypeTable _ _, v1, h, _, _, _, _, _, _ => by
    rw [encode_switch_after] at h
    simp only [Option.some.injEq] at h
    subst h
    rfl
  | .AnnotationDefault _, v1, h, _, _, _, _, _, _ => by
    rw [encode_switch_after] at h
    simp only [Option.some.injEq] at h
    subst h
    rfl
theorem tables_list (le : Bool) : ∀ (as as1 : List attribute_info),
    emit_attributes_after le as = some as1 →
    exception_index_tables_list as1
      = (exception_index_tables_list as).map (fun x => (x.1, emit_u2_array_after le x.1 x.2))
  | [], as1, h => by
    rw [emit_attributes_after] at h
    simp only [Option.some.injEq] at h
    subst h
    rfl
  | a :: rest, as1, h => by
    rw [emit_attributes_after] at h
    cases ha : encode_attribute_value_after le a with
    | none => simp [ha] at h
    | some a1 =>
      simp only [ha] at h
      cases hr : emit_attributes_after le rest with
      | none => simp [hr] at h
      | some r1 =>
        simp only [hr, Option.some.injEq] at h
        subst h
        simp only [exception_index_tables_list, List.map_append]
        rw [tables_after le a a1 ha, tables_list le rest r1 hr]
end

theorem write_attributes_after_eq (le : Bool) : ∀ (as : List attribute_info),
    write_attributes_after le as = emit_attributes_after le as
  | [] => by
    rw [emit_attributes_after]
    rfl
  | a :: rest => by
    have ih := write_attributes_after_eq le rest
    unfold write_attributes_after at ih ⊢
    rw [emit_attributes_after, after_each, ih]
    unfold write_attribute_info_after
    cases encode_attribute_value_after le a with
    | none => rfl
    | some a1 => cases emit_attributes_after le rest <;> rfl

theorem after_each_flatMap {α β : Type} (after : α → Option α) (g : α → List β) (f : β → β)
    (h : ∀ a a1, after a = some a1 → g a1 = (g a).map f) :
    ∀ (l l1 : List α), after_each after l = some l1 → l1.flatMap g = (l.flatMap g).map f
  | [], l1, hl => by
    rw [after_each] at hl
    simp only [Option.some.injEq] at hl
    subst hl
    rfl
  | a :: rest, l1, hl => by
    rw [after_each] at hl
    cases ha : after a with
    | none => simp [ha] at hl
    | some a1 =>
      simp only [ha] at hl
      cases hr : after_each after rest with
      | none => simp [hr] at hl
      | some r1 =>
        simp only [hr, Option.some.injEq] at hl
        subst hl
        rw [List.flatMap_cons, List.flatMap_cons, List.map_append, h a a1 ha,
          after_each_flatMap after g f h rest r1 hr]

theorem after_each_isSome {α : Type} (after : α → Option α) (write : α → Option (List Nat))
    (h : ∀ a, (after a).isSome = (write a).isSome) :
    ∀ (l : List α), (after_each after l).isSome = (write_each write l).isSome
  | [] => rfl
  | a :: rest => by
    have ih := after_each_isSome after write h rest
    have ha := h a
    rw [after_each, write_each]
    cases h1 : after a with
    | none =>
      rw [h1] at ha
      cases h2 : write a with
      | none => rfl
      | some out => simp [h2] at ha
    | some a1 =>
      rw [h1] at ha
      cases h2 : write a with
      | none => simp [h2] at ha
      | some out =>
        simp only
        cases h3 : after_each after rest with
        | none =>
          rw [h3] at ih
          cases h4 : write_each write rest with
          | none => rfl
          | some o => simp [h4] at ih
        | some r1 =>
          rw [h3] at ih
          cases h4 : write_each write rest with
          | none => simp [h4] at ih
          | some o => rfl

theorem write_attributes_after_isSome (le : Bool) (as : List attribute_info) :
    (write_attributes_after le as).isSome = (write_attributes le as).isSome := by
  unfold write_attributes_after write_attributes
  apply after_each_isSome
  intro a
  unfold write_attribute_info_after write_attribute_info
  rw [encode_after_some]
  cases encode_attribute_value le a <;> rfl

theorem write_field_info_after_isSome (le : Bool) (fi : field_info) :
    (write_field_info_after le fi).isSome = (write_field_info le fi).isSome := by
  unfold write_field_info_after write_field_info
  rw [Option.isSome_map', Option.isSome_map', write_attributes_after_isSome]

theorem write_method_info_after_isSome (le : Bool) (mi : method_info) :
    (write_method_info_after le mi).isSome = (write_method_info le mi).isSome := by
  unfold write_method_info_after write_method_info
  rw [Option.isSome_map', Option.isSome_map', write_attributes_after_isSome]

theorem write_ClassFile_after_isSome (le : Bool) (cf : ClassFile) :
    (write_ClassFile_after le cf).isSome = (write_ClassFile le cf).isSome := by
  have hf := after_each_isSome (write_field_info_after le) (write_field_info le)
    (write_field_info_after_isSome le) cf.fields
  have hm := after_each_isSome (write_method_info_after le) (write_method_info le)
    (write_method_info_after_isSome le) cf.methods
  have ha := write_attributes_after_isSome le cf.attributes
  unfold write_ClassFile_after write_ClassFile write_fields write_methods
  cases write_constant_pool le cf.constant_pool_count cf.constant_pool with
  | none => rfl
  | some pool =>
    simp only
    cases h1 : after_each (write_field_info_after le) cf.fields with
    | none =>
      rw [h1] at hf
      cases h2 : write_each (write_field_info le) cf.fields with
      | none => rfl
      | some o => simp [h2] at hf
    | some fields =>
      rw [h1] at hf
      cases h2 : write_each (write_field_info le) cf.fields with
      | none => simp [h2] at hf
      | some o =>
        simp only
        cases h3 : after_each (write_method_info_after le) cf.methods with
        | none =>
          rw [h3] at hm
          cases h4 : write_each (write_method_info le) cf.methods with
          | none => rfl
          | some o1 => simp [h4] at hm
        | some methods =>
          rw [h3] at hm
          cases h4 : write_each (write_method_info le) cf.methods with
          | none => simp [h4] at hm
          | some o1 =>
            simp only
            cases h5 : write_attributes_after le cf.attributes with
            | none =>
              rw [h5] at ha
              cases h6 : write_attributes le cf.attributes with
              | none => rfl
              | some o2 => simp [h6] at ha
            | some atts =>
              rw [h5] at ha
              cases h6 : write_attributes le cf.attributes with
              | none => simp [h6] at ha
              | some o2 => rfl

theorem write_ClassFile_after_tables (le : Bool) (cf cf1 : ClassFile)
    (h : write_ClassFile_after le cf = some cf1) :
    cf1.interfaces = write_u2_array_after le cf.interfaces_count cf.interfaces ∧
    exception_index_tables_ClassFile cf1
      = (exception_index_tables_ClassFile cf).map
          (fun x => (x.1, emit_u2_array_after le x.1 x.2)) := by
  unfold write_ClassFile_after at h
  cases hp : write_constant_pool le cf.constant_pool_count cf.constant_pool with
  | none => simp [hp] at h
  | some pool =>
    simp only [hp] at h
    cases hf : after_each (write_field_info_after le) cf.fields with
    | none => simp [hf] at h
    | some fields =>
      simp only [hf] at h
      cases hm : after_each (write_method_info_after le) cf.methods with
      | none => simp [hm] at h
      | some methods =>
        simp only [hm] at h
        cases ha : write_attributes_after le cf.attributes with
        | none => simp [ha] at h
        | some atts =>
          simp only [ha, Option.some.injEq] at h
          subst h
          refine ⟨rfl, ?_⟩
          simp only [exception_index_tables_ClassFile, List.map_append]
          rw [write_attributes_after_eq] at ha
          rw [tables_list le cf.attributes atts ha]
          have kf := after_each_flatMap (write_field_info_after le)
            (fun fi : field_info => exception_index_tables_list fi.attributes)
            (fun x => (x.1, emit_u2_array_after le x.1 x.2))
            (by
              intro fi fi1 hfi
              unfold write_field_info_after at hfi
              simp only [Option.map_eq_some'] at hfi
              obtain ⟨as, h1, rfl⟩ := hfi
              rw [write_attributes_after_eq] at h1
              exact tables_list le fi.attributes as h1) cf.fields fields hf
          have km := after_each_flatMap (write_method_info_after le)
            (fun mi : method_info => exception_index_tables_list mi.attributes)
            (fun x => (x.1, emit_u2_array_after le x.1 x.2))
            (by
              intro mi mi1 hmi
              unfold write_method_info_after at hmi
              simp only [Option.map_eq_some'] at hmi
              obtain ⟨as, h1, rfl⟩ := hmi
              rw [write_attributes_after_eq] at h1
              exact tables_list le mi.attributes as h1) cf.methods methods hm
          rw [kf, km]

/-- C36 (what writing does to the model).  `write_ClassFile` returns exactly
when the byte-level model of it does.  After it the array of the interfaces is
the array that `write_u2_array` leaves, and the index table of every
Exceptions attribute, nested ones included, the array that `emit_u2_array`
leaves.  On a big-endian host both functions leave the array as it was.  On a
little-endian host they call `reverseBytes` on the first `length` elements of
the array itself: an element `v` becomes `(v % 256) * 256 + v / 256`.  On both
hosts the bytes that the two functions put out are those of the elements,
big-endian; a second `write_u2_array` on the array that the first one left on
a little-endian host puts out the two bytes of every element in the wrong
order. -/
theorem write_frame (g_littleEndian : Bool) (cf : ClassFile) :
    (write_ClassFile_after g_littleEndian cf).isSome
      = (write_ClassFile g_littleEndian cf).isSome ∧
    (∀ cf1, write_ClassFile_after g_littleEndian cf = some cf1 →
      cf1.interfaces
        = write_u2_array_after g_littleEndian cf.interfaces_count cf.interfaces ∧
      exception_index_tables_ClassFile cf1
        = (exception_index_tables_ClassFile cf).map
            (fun x => (x.1, emit_u2_array_after g_littleEndian x.1 x.2))) ∧
    (∀ cf1, write_ClassFile_after false cf = some cf1 →
      cf1.interfaces = cf.interfaces ∧
      exception_index_tables_ClassFile cf1 = exception_index_tables_ClassFile cf) ∧
    (∀ (length : Nat) (array : List Nat),
      write_u2_array_after false length array = array ∧
      emit_u2_array_after false length array = array ∧
      write_u2_array_after true length array
        = (array.take length).map (fun v => v % 256 * 256 + v / 256 % 256)
            ++ array.drop length ∧
      emit_u2_array_after true length array
        = (array.take length).map (fun v => v % 256 * 256 + v / 256 % 256)
            ++ array.drop length) ∧
    (∀ (length : Nat) (array : List Nat), (∀ v ∈ array, v < 65536) →
      write_u2_array g_littleEndian length array
        = (array.take length).flatMap (fun v => [v / 256 % 256, v % 256]) ∧
      emit_u2_array g_littleEndian length array
        = (array.take length).flatMap (fun v => [v / 256 % 256, v % 256]) ∧
      write_u2_array true length (write_u2_array_after true length array)
        = (array.take length).flatMap (fun v => [v % 256, v / 256])) := by
  refine ⟨write_ClassFile_after_isSome g_littleEndian cf,
    fun cf1 h => write_ClassFile_after_tables g_littleEndian cf cf1 h, ?_, ?_, ?_⟩
  · intro cf1 h
    obtain ⟨h1, h2⟩ := write_ClassFile_after_tables false cf cf1 h
    refine ⟨h1, ?_⟩
    rw [h2]
    have e : (fun x : Nat × List Nat => (x.1, emit_u2_array_after false x.1 x.2)) = id := by
      funext x
      rfl
    rw [e, List.map_id]
  · intro length array
    exact ⟨rfl, rfl, write_u2_array_after_little length array,
      write_u2_array_after_little length array⟩
  · intro length array h
    exact ⟨write_u2_array_eq g_littleEndian length array,
      emit_u2_array_eq g_littleEndian length array, write_u2_array_twice length array h⟩

/-- Witness for C36: the class `throwsClass`, whose interface and whose
declared exception are the class entry 6.  On a big-endian host both arrays
hold 6 after the writing and a second writing gives the same bytes.  On a
little-endian host both hold 1536 after it, and the file that a second writing
gives reads back with the interface 1536 and the exception 1536.  A second
writing can differ on a big-endian host as well: the first writing stores the
payloads that it builds, and in the model that pruning and compaction make of
`nestedExample` the stored payload of the nested attribute was stale. -/
theorem write_frame_witness :
    (write_ClassFile_after true throwsClass).isSome = true ∧
    (write_ClassFile_after false throwsClass).map (fun c =>
        (c.interfaces, exception_index_tables_ClassFile c)) = some ([6], [(1, [6])]) ∧
    (write_ClassFile_after true throwsClass).map (fun c =>
        (c.interfaces, exception_index_tables_ClassFile c)) = some ([1536], [(1, [1536])]) ∧
    (write_ClassFile_after false throwsClass).bind (write_ClassFile false)
      = write_ClassFile false throwsClass ∧
    (write_ClassFile_after true throwsClass).bind (write_ClassFile true)
      ≠ write_ClassFile true throwsClass ∧
    ((write_ClassFile true throwsClass).bind (read_ClassFile true)).map (fun r =>
        (r.1.interfaces, exception_index_tables_ClassFile r.1)) = some ([6], [(1, [6])]) ∧
    (((write_ClassFile_after true throwsClass).bind (write_ClassFile true)).bind
        (read_ClassFile true)).map (fun r =>
        (r.1.interfaces, exception_index_tables_ClassFile r.1))
      = some ([1536], [(1, [1536])]) ∧
    (prune_action stub_opcodes (fun _ _ => 0) nestedExample).classfile.bind (fun c =>
        (write_ClassFile_after false c).bind (write_ClassFile false))
      ≠ (prune_action stub_opcodes (fun _ _ => 0) nestedExample).classfile.bind
          (write_ClassFile false) :=
  ⟨(write_frame true throwsClass).1.trans (by decide!), by decide!, by decide!, by decide!,
    by decide!, by decide!, by decide!, by decide!⟩

/-- Counterexample for C36: on a little-endian host `write_ClassFile` changes
the interface of `throwsClass` from 6 to 1536, and writing the class a second
time does not give the bytes of the first writing. -/
theorem write_frame_counterexample :
    throwsClass.interfaces = [6] ∧
    (write_ClassFile_after true throwsClass).map (fun c => c.interfaces) = some [1536] ∧
    (write_ClassFile_after true throwsClass).map exception_index_tables_ClassFile
      = some [(1, [1536])] ∧
    (write_ClassFile_after true throwsClass).bind (write_ClassFile true)
      ≠ write_ClassFile true throwsClass :=
  ⟨rfl, by decide!, by decide!, by decide!⟩

/-! ## Pruning: the Code attribute in the bytes -/

theorem return_stub_length (c : Nat) (stub : List Nat) (h : return_stub c = some stub) :
    stub.length = (if c = 'V'.toNat then 1 else 2) ∧ c ∈ cbytes "VBCISZDFJL[" := by
  have hl : cbytes "VBCISZDFJL[" = [86, 66, 67, 73, 83, 90, 68, 70, 74, 76, 91] := by decide
  rw [hl]
  unfold return_stub at h
  simp only [Char.toNat, Char.reduceVal, UInt32.reduceToNat] at h ⊢
  split_ifs at h with h1 h2 h3 h4 h5 h6 <;> simp only [Option.some.injEq] at h <;> subst h
  all_goals first
    | (subst h1; simp)
    | (rcases h2 with e | e | e | e | e <;> subst e <;> simp)
    | (subst h3; simp)
    | (subst h4; simp)
    | (subst h5; simp)
    | (rcases h6 with e | e <;> subst e <;> simp)

theorem droppable_filter (attrs : List attribute_info)
    (h : attrs.all (fun b => droppable b.value) = true) :
    attrs.filter kept = [] ∧ noCode attrs = true := by
  constructor
  · rw [List.filter_eq_nil_iff]
    intro b hb
    have := List.all_eq_true.1 h b hb
    simp [kept, this]
  · unfold noCode
    rw [List.all_eq_true]
    intro b hb
    have := List.all_eq_true.1 h b hb
    obtain ⟨n, l, i, v⟩ := b
    cases v <;> first | rfl | exact Bool.noConfusion this

theorem emit_u4_small (le : Bool) (v : Nat) (h : v < 256) : emit_u4 le v = [0, 0, 0, v] := by
  rw [emit_u4_eq]
  have h1 : v / 16777216 % 256 = 0 := by omega
  have h2 : v / 65536 % 256 = 0 := by omega
  have h3 : v / 256 % 256 = 0 := by omega
  have h4 : v % 256 = v := by omega
  rw [h1, h2, h3, h4]

/-- The payload that `encode_attribute_value` builds for a Code attribute with
a short body, no exception handler and no nested attribute. -/
theorem encode_bare_code (le : Bool) (n l : Nat) (i : List Nat) (ms ml : Nat)
    (body : List Nat) (et : List exception_table_entry) (h : body.length < 256) :
    encode_attribute_value le (.mk n l i (.Code ms ml body.length body 0 et 0 []))
      = some ([ms / 256 % 256, ms % 256, ml / 256 % 256, ml % 256, 0, 0, 0, body.length]
          ++ body ++ [0, 0, 0, 0]) := by
  have hsw : encode_switch le l i (.Code ms ml body.length body 0 et 0 [])
      = some ([ms / 256 % 256, ms % 256, ml / 256 % 256, ml % 256, 0, 0, 0, body.length]
          ++ body ++ [0, 0, 0, 0]) := by
    rw [encode_switch, emit_attributes]
    simp only [emit_u2_eq, emit_u4_small le _ h, emit_u1_array, List.take_zero,
      List.flatMap_nil, List.append_nil]
    rw [if_pos (by omega), List.take_length]
    simp only [List.cons_append, List.nil_append, Nat.zero_div, Nat.zero_mod,
      List.append_assoc]
  rw [encode_attribute_value, hsw]
  simp only
  rw [if_pos]
  simp only [List.length_append, List.length_cons, List.length_nil]
  omega

theorem encode_bare_code_after (le : Bool) (n l : Nat) (i : List Nat) (ms ml : Nat)
    (body : List Nat) (et : List exception_table_entry) (h : body.length < 256) :
    encode_attribute_value_after le (.mk n l i (.Code ms ml body.length body 0 et 0 []))
      = some (.mk n (12 + body.length)
          ([ms / 256 % 256, ms % 256, ml / 256 % 256, ml % 256, 0, 0, 0, body.length]
            ++ body ++ [0, 0, 0, 0])
          (.Code ms ml body.length body 0 et 0 [])) := by
  rw [encode_attribute_value_after, encode_bare_code le n l i ms ml body et h]
  simp only
  rw [encode_switch_after, emit_attributes_after]
  simp only [Option.some.injEq, attribute_info.mk.injEq, and_true, true_and]
  simp only [List.length_append, List.length_cons, List.length_nil]
  omega

/-- C32 (the pruned Code attribute in the bytes).  Let the descriptor of the
method `mi` resolve to a text whose return type has a stub, and let every
attribute nested in the Code attribute be one that pruning drops.  Then
`prune_attribute_info` keeps the Code attribute with the stub as its bytecode,
no exception handler and no nested attribute; for both byte orders
`encode_attribute_value` builds for it the payload `max_stack` (2 bytes),
`max_locals` (2 bytes), `code_length` (4 bytes), the stub, `00 00`, `00 00`,
and leaves this payload in `info` and its length, 12 + `code_length`, in
`attribute_length`: 13 for a `void` method and 14 otherwise. -/
theorem pruned_code_payload (g_littleEndian : Bool) (constant_pool : List (Option cp_info))
    (mi : method_info) (n l : Nat) (i : List Nat) (max_stack max_locals code_length : Nat)
    (code : List Nat) (exception_table_length : Nat)
    (exception_table : List exception_table_entry) (attributes_count : Nat)
    (attributes : List attribute_info) (descriptor : List Nat) (c : Nat) (stub : List Nat)
    (hd : pUtf8 constant_pool mi.descriptor_index = some descriptor)
    (hc : returnTypeCode descriptor = some c)
    (hs : return_stub c = some stub)
    (hdrop : attributes.all (fun b => droppable b.value) = true) :
    prune_attribute_info constant_pool
        (.mk n l i (.Code max_stack max_locals code_length code exception_table_length
          exception_table attributes_count attributes)) (some mi)
      = some (false, .mk n l i (.Code max_stack max_locals stub.length stub 0
          exception_table 0 [])) ∧
    encode_attribute_value g_littleEndian
        (.mk n l i (.Code max_stack max_locals stub.length stub 0 exception_table 0 []))
      = some ([max_stack / 256 % 256, max_stack % 256, max_locals / 256 % 256,
          max_locals % 256, 0, 0, 0, stub.length] ++ stub ++ [0, 0, 0, 0]) ∧
    encode_attribute_value_after g_littleEndian
        (.mk n l i (.Code max_stack max_locals stub.length stub 0 exception_table 0 []))
      = some (.mk n (12 + stub.length)
          ([max_stack / 256 % 256, max_stack % 256, max_locals / 256 % 256,
            max_locals % 256, 0, 0, 0, stub.length] ++ stub ++ [0, 0, 0, 0])
          (.Code max_stack max_locals stub.length stub 0 exception_table 0 [])) ∧
    stub.length = (if c = 'V'.toNat then 1 else 2) ∧
    12 + stub.length = (if c = 'V'.toNat then 13 else 14) := by
  obtain ⟨hlen, _⟩ := return_stub_length c stub hs
  obtain ⟨hf, hno⟩ := droppable_filter attributes hdrop
  have hlt : stub.length < 256 := by
    rw [hlen]
    split <;> omega
  refine ⟨?_, encode_bare_code g_littleEndian n l i max_stack max_locals stub exception_table hlt,
    encode_bare_code_after g_littleEndian n l i max_stack max_locals stub exception_table hlt,
    hlen, ?_⟩
  · obtain ⟨marked, hm⟩ := prune_attributes_total_null constant_pool attributes hno
    have hk := (prune_attributes_null constant_pool attributes marked hm).1
    rw [prune_attribute_info]
    simp only [hd, hc, hm, repack_eq, hk, hf, prune_code_stub c stub code code_length hs,
      List.length_nil]
  · rw [hlen]
    split <;> rfl

/-- Witness for C32: the protected method of the example class, whose
descriptor is `()I` and whose Code attribute has a nested line number table.
After pruning the payload is `00 01 00 01 00 00 00 02 03 ac 00 00 00 00`, 14
bytes. -/
theorem pruned_code_payload_witness :
    prune_attribute_info examplePool exampleCode (some ⟨ACC_PROTECTED, 4, 2, 1, [exampleCode]⟩)
      = some (false, .mk 1 31 exampleCode.info (.Code 1 1 2 [0x03, 0xac] 0 [⟨0, 3, 3, 7⟩] 0 [])) ∧
    encode_attribute_value true
        (.mk 1 31 exampleCode.info (.Code 1 1 2 [0x03, 0xac] 0 [⟨0, 3, 3, 7⟩] 0 []))
      = some [0, 1, 0, 1, 0, 0, 0, 2, 0x03, 0xac, 0, 0, 0, 0] ∧
    (encode_attribute_value_after true
        (.mk 1 31 exampleCode.info (.Code 1 1 2 [0x03, 0xac] 0 [⟨0, 3, 3, 7⟩] 0 []))).map
        (fun a => a.attribute_length) = some 14 ∧
    ((prune_ClassFile exampleClass).bind (fun cf =>
        after_each (write_method_info_after true) cf.methods)).map
        (fun ms => ms.map (fun m => m.attributes.map (fun a => (a.attribute_length, a.info))))
      = some [[(14, [0, 1, 0, 1, 0, 0, 0, 2, 0x03, 0xac, 0, 0, 0, 0])]] := by
  obtain ⟨h1, h2, h3, _, _⟩ := pruned_code_payload true examplePool
    ⟨ACC_PROTECTED, 4, 2, 1, [exampleCode]⟩ 1 31 exampleCode.info 1 1 3 [16, 7, 172] 1
    [⟨0, 3, 3, 7⟩] 1 [.mk 10 2 [0, 0] (.LineNumberTable 0 [])] (cbytes "()I") 73 [0x03, 0xac]
    (by decide) (by decide) (by decide) (by decide)
  exact ⟨h1, h2, (congrArg (Option.map (fun a => a.attribute_length)) h3).trans rfl,
    by decide!⟩

/-! ## The codec: the round trip of annotations -/

theorem scan_u1_emit (tag : Nat) (h : tag < 256) (s : List Nat) :
    scan_u1 (emit_u1 tag ++ s) = some (tag, s) := by
  simp only [emit_u1, Nat.mod_eq_of_lt h, List.singleton_append, scan_u1]

theorem scan_u2_emit (le : Bool) (v : Nat) (h : v < 65536) (s : List Nat) :
    scan_u2 le (emit_u2 le v ++ s) = some (v, s) := by
  rw [emit_u2_eq]
  simp only [List.cons_append, List.nil_append]
  rw [scan_u2_eq]
  congr 2
  omega

theorem isConstTag_lt (tag : Nat) (h : isConstTag tag = true) : tag < 256 := by
  simp only [isConstTag, Bool.or_eq_true, decide_eq_true_eq] at h
  omega

mutual
theorem scan_emit_element_value (le : Bool) : ∀ (e : element_value),
    wf_element_value e = true → ∀ (d : Nat), depth_element_value e ≤ d → ∀ (rest : List Nat),
    scan_element_value le d (emit_element_value le e ++ rest) = some (e, rest)
  | .const tag idx, hw, d, hd, rest => by
    simp only [wf_element_value, Bool.and_eq_true, decide_eq_true_eq] at hw
    simp only [depth_element_value] at hd
    obtain ⟨d1, rfl⟩ : ∃ d1, d = d1 + 1 := ⟨d - 1, by omega⟩
    simp only [emit_element_value, hw.1, if_true, List.append_assoc]
    rw [scan_element_value, scan_u1_emit _ (isConstTag_lt _ hw.1)]
    simp only [hw.1, if_true]
    rw [scan_u2_emit le _ hw.2]
    rfl
  | .enum_const a b, hw, d, hd, rest => by
    simp only [wf_element_value, Bool.and_eq_true, decide_eq_true_eq] at hw
    simp only [depth_element_value] at hd
    obtain ⟨d1, rfl⟩ : ∃ d1, d = d1 + 1 := ⟨d - 1, by omega⟩
    simp only [emit_element_value, List.append_assoc]
    rw [scan_element_value, scan_u1_emit _ (by decide)]
    simp only
    rw [if_neg (by decide), if_pos trivial, scan_u2_emit le _ hw.1]
    simp only
    rw [scan_u2_emit le _ hw.2]
    rfl
  | .class_info i, hw, d, hd, rest => by
    simp only [wf_element_value, decide_eq_true_eq] at hw
    simp only [depth_element_value] at hd
    obtain ⟨d1, rfl⟩ : ∃ d1, d = d1 + 1 := ⟨d - 1, by omega⟩
    simp only [emit_element_value, List.append_assoc]
    rw [scan_element_value, scan_u1_emit _ (by decide)]
    simp only
    rw [if_neg (by decide), if_neg (by decide), if_pos trivial, scan_u2_emit le _ hw]
    rfl
  | .annotation_value a, hw, d, hd, rest => by
    simp only [wf_element_value] at hw
    simp only [depth_element_value] at hd
    obtain ⟨d1, rfl⟩ : ∃ d1, d = d1 + 1 := ⟨d - 1, by omega⟩
    simp only [emit_element_value, List.append_assoc]
    rw [scan_element_value, scan_u1_emit _ (by decide)]
    simp only
    rw [if_neg (by decide), if_neg (by decide), if_neg (by decide), if_pos trivial,
      scan_emit_annotation le a hw d1 (by omega) rest]
    rfl
  | .array n vs, hw, d, hd, rest => by
    simp only [wf_element_value, Bool.and_eq_true, decide_eq_true_eq] at hw
    simp only [depth_element_value] at hd
    obtain ⟨d1, rfl⟩ : ∃ d1, d = d1 + 1 := ⟨d - 1, by omega⟩
    obtain ⟨⟨hn, hlt⟩, hvs⟩ := hw
    simp only [emit_element_value, List.append_assoc]
    rw [scan_element_value, scan_u1_emit _ (by decide)]
    simp only
    rw [if_neg (by decide), if_neg (by decide), if_neg (by decide), if_neg (by decide),
      if_pos trivial, scan_u2_emit le _ hlt]
    simp only
    have := scan_emit_element_values le vs hvs d1 (by omega) rest
    rw [← hn] at this
    rw [this]
    rfl
theorem scan_emit_element_values (le : Bool) : ∀ (vs : List element_value),
    wf_element_values vs = true → ∀ (d : Nat), depth_element_values vs ≤ d →
    ∀ (rest : List Nat),
    scan_times (scan_element_value le d) vs.length (emit_element_values le vs ++ rest)
      = some (vs, rest)
  | [], _, d, _, rest => by
    simp only [emit_element_values, List.nil_append, List.length_nil, scan_times]
  | v :: vs, hw, d, hd, rest => by
    simp only [wf_element_values, Bool.and_eq_true] at hw
    simp only [depth_element_values] at hd
    simp only [emit_element_values, List.append_assoc, List.length_cons, scan_times]
    rw [scan_emit_element_value le v hw.1 d (by omega)]
    simp only
    rw [scan_emit_element_values le vs hw.2 d (by omega) rest]
theorem scan_emit_annotation (le : Bool) : ∀ (a : annotation),
    wf_annotation a = true → ∀ (d : Nat), depth_annotation a ≤ d → ∀ (rest : List Nat),
    scan_annotation_with le (scan_element_value le d) ( emit_annotation le a ++ rest)
      = some (a, rest)
  | .mk t n ps, hw, d, hd, rest => by
    simp only [ wf_annotation, Bool.and_eq_true, decide_eq_true_eq] at hw
    simp only [ depth_annotation] at hd
    obtain ⟨⟨⟨ht, hn⟩, hlt⟩, hps⟩ := hw
    simp only [ emit_annotation, List.append_assoc]
    rw [scan_annotation_with, scan_u2_emit le _ ht]
    simp only
    rw [scan_u2_emit le _ hlt]
    simp only
    have := scan_emit_element_value_pairs le ps hps d hd rest
    rw [← hn] at this
    rw [this]
    rfl
theorem scan_emit_element_value_pairs (le : Bool) : ∀ (ps : List element_value_pair),
    wf_element_value_pairs ps = true → ∀ (d : Nat), depth_element_value_pairs ps ≤ d →
    ∀ (rest : List Nat),
    scan_times (scan_element_value_pair le (scan_element_value le d)) ps.length
        (emit_element_value_pairs le ps ++ rest)
      = some (ps, rest)
  | [], _, d, _, rest => by
    simp only [emit_element_value_pairs, List.nil_append, List.length_nil, scan_times]
  | .mk name v :: ps, hw, d, hd, rest => by
    simp only [wf_element_value_pairs, Bool.and_eq_true, decide_eq_true_eq] at hw
    simp only [depth_element_value_pairs] at hd
    simp only [emit_element_value_pairs, List.append_assoc, List.length_cons, scan_times]
    rw [scan_element_value_pair, scan_u2_emit le _ hw.1.1]
    simp only
    rw [scan_emit_element_value le v hw.1.2 d (by omega)]
    simp only [Option.map_some']
    rw [scan_emit_element_value_pairs le ps hw.2 d (by omega) rest]
end

theorem emit_u1_length (v : Nat) : (emit_u1 v).length = 1 := rfl

theorem emit_u2_length (le : Bool) (v : Nat) : (emit_u2 le v).length = 2 := by
  rw [emit_u2_eq]
  rfl

mutual
theorem depth_le_element_value (le : Bool) : ∀ (e : element_value),
    depth_element_value e ≤ (emit_element_value le e).length
  | .const tag idx => by
    simp only [depth_element_value, emit_element_value, List.length_append, emit_u1_length]
    omega
  | .enum_const a b => by
    simp only [depth_element_value, emit_element_value, List.length_append, emit_u1_length]
    omega
  | .class_info i => by
    simp only [depth_element_value, emit_element_value, List.length_append, emit_u1_length]
    omega
  | .annotation_value a => by
    have := depth_le_annotation le a
    simp only [depth_element_value, emit_element_value, List.length_append, emit_u1_length]
    omega
  | .array n vs => by
    have := depth_le_element_values le vs
    simp only [depth_element_value, emit_element_value, List.length_append, emit_u1_length]
    omega
theorem depth_le_element_values (le : Bool) : ∀ (vs : List element_value),
    depth_element_values vs ≤ (emit_element_values le vs).length
  | [] => by simp [depth_element_values]
  | v :: vs => by
    have h1 := depth_le_element_value le v
    have h2 := depth_le_element_values le vs
    simp only [depth_element_values, emit_element_values, List.length_append]
    omega
theorem depth_le_annotation (le : Bool) : ∀ (a : annotation),
    depth_annotation a ≤ ( emit_annotation le a).length
  | .mk t n ps => by
    have := depth_le_element_value_pairs le ps
    simp only [ depth_annotation, emit_annotation, List.length_append]
    omega
theorem depth_le_element_value_pairs (le : Bool) : ∀ (ps : List element_value_pair),
    depth_element_value_pairs ps ≤ (emit_element_value_pairs le ps).length
  | [] => by simp [depth_element_value_pairs]
  | .mk name v :: ps => by
    have h1 := depth_le_element_value le v
    have h2 := depth_le_element_value_pairs le ps
    simp only [depth_element_value_pairs, emit_element_value_pairs, List.length_append]
    omega
end

/-- C33 (the round trip of the annotation codec).  For both byte orders, every
well-formed element value `e` (one of the nine constant tags with one index,
an enum constant with two, a class literal with one, a nested annotation, or
an array of element values, nested to any depth), every well-formed annotation
`a` and every sequence of bytes `rest` that follows: `scan_element_value` on
the bytes that `emit_element_value` emits for `e` returns `e` and leaves
`rest`, and `scan_annotation` on the bytes that `emit_annotation` emits for `a`
returns `a` and leaves `rest`. -/
theorem annotation_roundtrip (g_littleEndian : Bool) (e : element_value) (a : annotation)
    (he : wf_element_value e = true) (ha : wf_annotation a = true) (rest : List Nat) :
    scan_element_value g_littleEndian (emit_element_value g_littleEndian e ++ rest).length
        (emit_element_value g_littleEndian e ++ rest) = some (e, rest) ∧
    (∀ depth, depth_element_value e ≤ depth →
      scan_element_value g_littleEndian depth (emit_element_value g_littleEndian e ++ rest)
        = some (e, rest)) ∧
    scan_annotation g_littleEndian ( emit_annotation g_littleEndian a ++ rest) = some (a, rest) := by
  refine ⟨?_, ?_, ?_⟩
  · apply scan_emit_element_value g_littleEndian e he
    have := depth_le_element_value g_littleEndian e
    rw [List.length_append]
    omega
  · intro depth hd
    exact scan_emit_element_value g_littleEndian e he depth hd rest
  · unfold scan_annotation
    apply scan_emit_annotation g_littleEndian a ha
    have := depth_le_annotation g_littleEndian a
    rw [List.length_append]
    omega

set_option maxRecDepth 100000 in
/-- Witness for C33: the array of an enum constant and a class literal, and
the annotation `exampleAnnotation`, followed by the bytes 1 and 2. -/
theorem annotation_roundtrip_witness :
    emit_annotation true exampleAnnotation
      = [0, 3, 0, 3, 0, 4, 73, 0, 5, 0, 6, 91, 0, 2, 101, 0, 7, 0, 8, 99, 0, 9, 0, 10, 64,
          0, 11, 0, 1, 0, 12, 115, 1, 44] ∧
    scan_annotation true
        ([0, 3, 0, 3, 0, 4, 73, 0, 5, 0, 6, 91, 0, 2, 101, 0, 7, 0, 8, 99, 0, 9, 0, 10, 64,
          0, 11, 0, 1, 0, 12, 115, 1, 44] ++ [1, 2])
      = some ( exampleAnnotation, [1, 2]) ∧
    scan_element_value true 2 ([91, 0, 2, 101, 0, 7, 0, 8, 99, 0, 9] ++ [1, 2])
      = some (.array 2 [.enum_const 7 8, .class_info 9], [1, 2]) := by
  obtain ⟨_, h2, h3⟩ := annotation_roundtrip true (.array 2 [.enum_const 7 8, .class_info 9])
    exampleAnnotation (by decide) (by decide) [1, 2]
  have e1 : emit_annotation true exampleAnnotation
      = [0, 3, 0, 3, 0, 4, 73, 0, 5, 0, 6, 91, 0, 2, 101, 0, 7, 0, 8, 99, 0, 9, 0, 10, 64,
          0, 11, 0, 1, 0, 12, 115, 1, 44] := by decide
  have e2 : emit_element_value true (.array 2 [.enum_const 7 8, .class_info 9])
      = [91, 0, 2, 101, 0, 7, 0, 8, 99, 0, 9] := by decide
  rw [e1] at h3
  rw [e2] at h2
  exact ⟨e1, h3, h2 2 (by decide)⟩

/-! ## The driver loop: a round at the fixpoint -/

theorem pool_wf_none_prev : ∀ (suffix : List (Option cp_info)) (s : Nat)
    (P : List (Option cp_info)),
    P.drop s = suffix → pool_wf_from suffix = true →
    ∀ i, s ≤ i → P[i]? = some none →
      s < i ∧ ∃ cp, P[i - 1]? = some (some cp) ∧ isLong cp = true
  | [], s, P, hd, _ => by
    intro i hi hget
    have : P.length ≤ s := by simpa using hd
    have hlt : i < P.length := by
      by_contra hc
      rw [List.getElem?_eq_none (by omega)] at hget
      simp at hget
    omega
  | none :: rest, s, P, _, hwf => by simp [pool_wf_from] at hwf
  | [some c0], s, P, hd, hwf => by
    intro i hi hget
    obtain ⟨hget0, hdrop, hlt⟩ := drop_cons_info P s _ _ hd
    rcases Nat.eq_or_lt_of_le hi with e | e
    · subst e
      rw [hget0] at hget
      simp at hget
    · obtain ⟨h1, h2⟩ := pool_wf_none_prev [] (s + 1) P hdrop (by simp [pool_wf_from]) i
        (by omega) hget
      exact ⟨e, h2⟩
  | some c0 :: p :: rest, s, P, hd, hwf => by
    intro i hi hget
    obtain ⟨hget0, hdrop, hlt⟩ := drop_cons_info P s _ _ hd
    obtain ⟨hget1, hdrop1, hlt1⟩ := drop_cons_info P (s + 1) _ _ hdrop
    rcases Nat.eq_or_lt_of_le hi with e | e
    · subst e
      rw [hget0] at hget
      simp at hget
    by_cases hl0 : isLong c0 = true
    · have hp : p = none ∧ pool_wf_from rest = true := by
        cases p with
        | none => simpa [pool_wf_from, hl0] using hwf
        | some cp1 => simp [pool_wf_from, hl0] at hwf
      obtain ⟨hp, hwf1⟩ := hp
      subst hp
      by_cases e1 : i = s + 1
      · subst e1
        exact ⟨e, c0, by simpa using hget0, hl0⟩
      · obtain ⟨h1, h2⟩ := pool_wf_none_prev rest (s + 2) P hdrop1 hwf1 i (by omega) hget
        exact ⟨e, h2⟩
    · have hl1 : isLong c0 = false := by simpa using hl0
      have hwf1 : pool_wf_from (p :: rest) = true := by
        cases p with
        | none => simp [pool_wf_from, hl1] at hwf
        | some cp1 => simpa [pool_wf_from, hl1] using hwf
      obtain ⟨h1, h2⟩ := pool_wf_none_prev (p :: rest) (s + 1) P hdrop hwf1 i (by omega) hget
      exact ⟨e, h2⟩

theorem survivors_all (cf : ClassFile) (hwf : pool_wf cf = true)
    (hall : ∀ (i : Nat) (cp : cp_info), cf.constant_pool[i]? = some (some cp) →
      cp.refCount ≠ 0) :
    survivors cf = List.range' 1 (cf.constant_pool_count - 1) := by
  have hwf' := hwf
  simp only [pool_wf, Bool.and_eq_true, decide_eq_true_eq] at hwf'
  obtain ⟨⟨hlen, hpos⟩, hwf1⟩ := hwf'
  unfold survivors
  rw [List.filter_eq_self]
  intro i hi
  rw [List.mem_range'_1] at hi
  have hlt : i < cf.constant_pool.length := by omega
  cases he : cf.constant_pool[i] with
  | some cp =>
    have hg : cf.constant_pool[i]? = some (some cp) := by
      rw [List.getElem?_eq_getElem hlt, he]
    rw [survives_entry _ i cp hg]
    simpa using hall i cp hg
  | none =>
    have hg : cf.constant_pool[i]? = some none := by
      rw [List.getElem?_eq_getElem hlt, he]
    obtain ⟨h1, cp, hprev, hl⟩ :=
      pool_wf_none_prev _ 1 cf.constant_pool rfl hwf1 i hi.1 hg
    have e : i = i - 1 + 1 := by omega
    rw [e] at hg ⊢
    rw [survives_placeholder _ (i - 1) cp hprev hg, hl]
    simpa using hall (i - 1) cp hprev

theorem nonzero_of_all (pool : List (Option cp_info))
    (h : pool.all (fun e =>
      match e with
      | some cp => cp.refCount != 0
      | none => true) = true) :
    ∀ (i : Nat) (cp : cp_info), pool[i]? = some (some cp) → cp.refCount ≠ 0 := by
  intro i cp hg
  have hm : some cp ∈ pool := by
    obtain ⟨hlt, he⟩ := List.getElem?_eq_some_iff.1 hg
    rw [← he]
    exact List.getElem_mem _
  have := List.all_eq_true.1 h (some cp) hm
  simpa using this

/-- C34 (a round at the fixpoint changes nothing).  Let the pool be well
formed, with a null slot 0, and let the mark pass leave every entry of the
pool with a reference count that is not zero.  Then `gc_ClassFile` returns
true, and the class file after it is the class file before it, with the same
pool, count and index fields, and with the old-to-new map in
`constant_pool_map`; `MAP` is the identity on every index from 1 to
`constant_pool_count - 1`, and every index field of the model and of the
entries of the pool that is used holds such an index. -/
theorem fixpoint_round_noop (t : code_h) (uninit : Nat → Nat) (cf0 cf : ClassFile)
    (hwf : pool_wf cf0 = true) (h0 : cf0.constant_pool[0]? = some none)
    (hr : refct_ClassFile t cf0 = some cf)
    (hall : ∀ (i : Nat) (cp : cp_info), cf.constant_pool[i]? = some (some cp) →
      cp.refCount ≠ 0) :
    gc_ClassFile uninit cf = some (true, { cf with constant_pool_map := gc_map uninit cf }) ∧
    (∀ i, 1 ≤ i → i < cf.constant_pool_count →
      map_cp uninit { cf with constant_pool_map := gc_map uninit cf } i = i) ∧
    (∀ i ∈ refs_of (idx_ClassFile cf), 1 ≤ i ∧ i < cf.constant_pool_count) ∧
    (∀ e ∈ cf.constant_pool, ∀ i ∈ refs_of (idx_slot e),
      1 ≤ i ∧ i < cf.constant_pool_count) := by
  obtain ⟨hwf1, hcount, hsame⟩ := refct_pool_wf t cf0 cf hwf hr
  have h01 : cf.constant_pool[0]? = some none := same_pool_get_none hsame 0 h0
  obtain ⟨_, hidx, _, hm1, hm2⟩ := refct_ClassFile_spec t cf0 cf hr
  have hm1' : ∀ i, i ∈ refs_of (idx_ClassFile cf) → marked cf.constant_pool i := by
    rw [hidx]
    exact hm1
  have hm2' : ∀ e, e ∈ cf.constant_pool → ∀ i, i ∈ refs_of (idx_slot e) →
      marked cf.constant_pool i := by
    intro e he i hi
    obtain ⟨e0, he0, hs⟩ := same_pool_mem hsame e he
    rw [← idx_slot_same hs] at hi
    exact hm2 e0 he0 i hi
  have hsv := survivors_all cf hwf1 hall
  have hpos := pool_wf_pos cf hwf1
  have hc : cf.constant_pool_count = 1 + (survivors cf).length := by
    rw [hsv, List.length_range']
    omega
  have hg := gc_ClassFile_spec uninit cf hwf1
  have hb : (cf.constant_pool_count == 1 + (survivors cf).length) = true := by
    rw [beq_iff_eq]
    exact hc
  rw [hb] at hg
  obtain ⟨hfix, _⟩ := gc_fixpoint uninit cf _ hwf1 h01 hm1' hm2' hg
  refine ⟨?_, ?_, ?_, ?_⟩
  · rw [hg, hfix]
  · intro i h1 h2
    exact gc_MAP_full uninit cf hc i h1 h2
  · intro i hi
    exact marked_range cf hwf1 h01 i (hm1' i hi)
  · intro e he i hi
    exact marked_range cf hwf1 h01 i (hm2' e he i hi)

/-- Witness for C34: the class `emptyClass`, in which the mark pass references
every entry of the pool once.  The round returns true, the map is the
identity and the model is the one that the mark pass left. -/
theorem fixpoint_round_noop_witness :
    gc_ClassFile (fun _ => 0) emptyMarked
      = some (true, { emptyMarked with constant_pool_map := gc_map (fun _ => 0) emptyMarked }) ∧
    gc_map (fun _ => 0) emptyMarked = [0, 1, 2, 3, 4] ∧
    (gc_ClassFile (fun _ => 0) emptyMarked).map (fun r =>
        (r.1, r.2.constant_pool, r.2.constant_pool_count, r.2.this_class, r.2.super_class))
      = some (true, emptyMarked.constant_pool, 5, 2, 4) :=
  ⟨(fixpoint_round_noop stub_opcodes (fun _ => 0) emptyClass emptyMarked (by decide) (by decide)
      (by rfl) (nonzero_of_all _ (by decide))).1,
    by decide, by decide⟩

/-! ## Pruning: idempotence -/

theorem prune_code_idem (c : Nat) (code : List Nat) (code_length : Nat) :
    prune_code c (prune_code c code code_length).1 (prune_code c code code_length).2
      = prune_code c code code_length := by
  by_cases h : c ∈ [86, 66, 67, 73, 83, 90, 68, 70, 74, 76, 91]
  · simp only [List.mem_cons, List.mem_nil_iff, or_false] at h
    rcases h with h | h | h | h | h | h | h | h | h | h | h <;> subst h <;> rfl
  · simp only [List.mem_cons, List.mem_nil_iff, or_false, not_or] at h
    have e : ∀ (code : List Nat) (n : Nat), prune_code c code n = (code.take n, n) := by
      intro code n
      unfold prune_code
      simp only
      split <;> first | rfl | omega
    rw [e code code_length]
    simp only
    rw [e, List.take_take, Nat.min_self]

theorem prune_kept_fix (pool : List (Option cp_info)) (a : attribute_info)
    (mi : Option method_info) (hk : kept a = true) (hc : isCode a.value = false) :
    prune_attribute_info pool a mi = some (false, a) := by
  obtain ⟨n, l, i, v⟩ := a
  cases v <;> first
    | rfl
    | exact Bool.noConfusion hk
    | exact Bool.noConfusion hc

theorem prune_attributes_fix (pool : List (Option cp_info)) (mi : Option method_info) :
    ∀ (bs : List attribute_info),
      (∀ b ∈ bs, prune_attribute_info pool b mi = some (false, b)) →
      prune_attributes pool bs mi = some (bs.map some)
  | [], _ => by rw [prune_attributes]; rfl
  | b :: rest, h => by
    rw [prune_attributes, h b (List.mem_cons_self _ _)]
    simp only
    rw [prune_attributes_fix pool mi rest (fun x hx => h x (List.mem_cons_of_mem _ hx))]
    rfl

theorem filterMap_map_some {α : Type} (l : List α) : (l.map some).filterMap id = l := by
  induction l with
  | nil => rfl
  | cons a rest ih => simp [ih]

theorem prune_attribute_info_again (pool : List (Option cp_info)) (m m1 : method_info)
    (hm : m1.descriptor_index = m.descriptor_index) (a a1 : attribute_info)
    (h : prune_attribute_info pool a (some m) = some (false, a1)) :
    prune_attribute_info pool a1 (some m1) = some (false, a1) := by
  obtain ⟨n, l, i, v⟩ := a
  cases v with
  | Code ms ml cl code etl et ac attrs =>
    rw [prune_attribute_info] at h
    cases hd : pUtf8 pool m.descriptor_index with
    | none => simp [hd] at h
    | some descriptor =>
      simp only [hd] at h
      cases hc : returnTypeCode descriptor with
      | none => simp [hc] at h
      | some c =>
        simp only [hc] at h
        cases hp : prune_attributes pool attrs none with
        | none => simp [hp] at h
        | some marked =>
          simp only [hp, Option.some.injEq, Prod.mk.injEq, true_and] at h
          obtain ⟨hf, hno⟩ := prune_attributes_null pool attrs marked hp
          rw [repack_eq, hf] at h
          simp only at h
          subst h
          have hnested : prune_attributes pool (attrs.filter kept) none
              = some ((attrs.filter kept).map some) := by
            apply prune_attributes_fix
            intro b hb
            obtain ⟨hb1, hb2⟩ := List.mem_filter.1 hb
            apply prune_kept_fix pool b none hb2
            have := List.all_eq_true.1 hno b hb1
            simpa using this
          rw [prune_attribute_info]
          simp only [hm, hd, hc, hnested, repack_eq, filterMap_map_some, prune_code_idem]
  | _ =>
    simp only [prune_attribute_info, Option.some.injEq, Prod.mk.injEq, true_and,
      Bool.true_eq_false, false_and] at h <;> (subst h; rfl)

theorem prune_attributes_again (pool : List (Option cp_info)) (m m1 : method_info)
    (hm : m1.descriptor_index = m.descriptor_index) :
    ∀ (as : List attribute_info) (marked : List (Option attribute_info)),
      prune_attributes pool as (some m) = some marked →
      ∀ b ∈ marked.filterMap id, prune_attribute_info pool b (some m1) = some (false, b)
  | [], marked, h => by
    rw [prune_attributes] at h
    simp only [Option.some.injEq] at h
    subst h
    intro b hb
    simp at hb
  | a :: rest, marked, h => by
    rw [prune_attributes] at h
    cases ha : prune_attribute_info pool a (some m) with
    | none => simp [ha] at h
    | some r =>
      obtain ⟨drop, a1⟩ := r
      simp only [ha] at h
      cases hr : prune_attributes pool rest (some m) with
      | none => simp [hr] at h
      | some marked1 =>
        simp only [hr, Option.some.injEq] at h
        subst h
        have ih := prune_attributes_again pool m m1 hm rest marked1 hr
        intro b hb
        cases drop with
        | true =>
          simp only [if_true, List.filterMap_cons_none] at hb
          exact ih b hb
        | false =>
          have e : List.filterMap id (some a1 :: marked1)
              = a1 :: List.filterMap id marked1 := rfl
          simp only [Bool.false_eq_true, if_false] at hb
          rw [e, List.mem_cons] at hb
          rcases hb with hb | hb
          · rw [hb]
            exact prune_attribute_info_again pool m m1 hm a a1 ha
          · exact ih b hb

theorem prune_attributes_null_again (pool : List (Option cp_info)) (as : List attribute_info)
    (marked : List (Option attribute_info)) (h : prune_attributes pool as none = some marked) :
    prune_attributes pool (marked.filterMap id) none = some ((marked.filterMap id).map some) := by
  obtain ⟨hf, hno⟩ := prune_attributes_null pool as marked h
  apply prune_attributes_fix
  intro b hb
  rw [hf] at hb
  obtain ⟨hb1, hb2⟩ := List.mem_filter.1 hb
  apply prune_kept_fix pool b none hb2
  have := List.all_eq_true.1 hno b hb1
  simpa using this

theorem prune_field_info_again (cf cf1 : ClassFile)
    (hpool : cf1.constant_pool = cf.constant_pool) (fi fi1 : field_info)
    (h : prune_field_info cf fi = some (false, fi1)) :
    prune_field_info cf1 fi1 = some (false, fi1) := by
  unfold prune_field_info at h
  by_cases hv : fi.access_flags &&& (ACC_PUBLIC ||| ACC_PROTECTED) ≠ 0
  swap
  · rw [if_neg hv] at h
    simp at h
  rw [if_pos hv] at h
  cases hp : prune_attributes cf.constant_pool fi.attributes none with
  | none => simp [hp] at h
  | some marked =>
    simp only [hp, Option.some.injEq, Prod.mk.injEq, true_and] at h
    subst h
    unfold prune_field_info
    simp only
    rw [if_pos hv, hpool, repack_eq]
    simp only
    rw [prune_attributes_null_again cf.constant_pool fi.attributes marked hp]
    simp only [repack_eq, filterMap_map_some]

theorem prune_method_info_again (cf cf1 : ClassFile)
    (hpool : cf1.constant_pool = cf.constant_pool) (mi mi1 : method_info)
    (h : prune_method_info cf mi = some (false, mi1)) :
    prune_method_info cf1 mi1 = some (false, mi1) := by
  unfold prune_method_info at h
  by_cases hv : mi.access_flags &&& (ACC_PUBLIC ||| ACC_PROTECTED) ≠ 0
  swap
  · rw [if_neg hv] at h
    simp at h
  rw [if_pos hv] at h
  cases hp : prune_attributes cf.constant_pool mi.attributes (some mi) with
  | none => simp [hp] at h
  | some marked =>
    simp only [hp, Option.some.injEq, Prod.mk.injEq, true_and] at h
    subst h
    unfold prune_method_info
    simp only
    rw [if_pos hv, hpool, repack_eq]
    simp only
    have key := fun (m1 : method_info) (hm1 : m1.descriptor_index = mi.descriptor_index) =>
      prune_attributes_fix cf.constant_pool (some m1) _
        (prune_attributes_again cf.constant_pool mi m1 hm1 mi.attributes marked hp)
    rw [key]
    · simp only [repack_eq, filterMap_map_some]
    · rfl

theorem prune_fields_again (cf cf1 : ClassFile)
    (hpool : cf1.constant_pool = cf.constant_pool) :
    ∀ (fs : List field_info) (marked : List (Option field_info)),
      prune_fields cf fs = some marked →
      prune_fields cf1 (marked.filterMap id) = some ((marked.filterMap id).map some)
  | [], marked, h => by
    rw [prune_fields] at h
    simp only [Option.some.injEq] at h
    subst h
    rfl
  | fi :: rest, marked, h => by
    rw [prune_fields] at h
    cases ha : prune_field_info cf fi with
    | none => simp [ha] at h
    | some r =>
      obtain ⟨drop, fi1⟩ := r
      simp only [ha] at h
      cases hr : prune_fields cf rest with
      | none => simp [hr] at h
      | some marked1 =>
        simp only [hr, Option.some.injEq] at h
        subst h
        have ih := prune_fields_again cf cf1 hpool rest marked1 hr
        cases drop with
        | true =>
          simp only [if_true, List.filterMap_cons_none]
          exact ih
        | false =>
          have e : List.filterMap id (some fi1 :: marked1)
              = fi1 :: List.filterMap id marked1 := rfl
          simp only [Bool.false_eq_true, if_false]
          rw [e, List.map_cons, prune_fields,
            prune_field_info_again cf cf1 hpool fi fi1 ha, ih]
          rfl

theorem prune_methods_again (cf cf1 : ClassFile)
    (hpool : cf1.constant_pool = cf.constant_pool) :
    ∀ (ms : List method_info) (marked : List (Option method_info)),
      prune_methods cf ms = some marked →
      prune_methods cf1 (marked.filterMap id) = some ((marked.filterMap id).map some)
  | [], marked, h => by
    rw [prune_methods] at h
    simp only [Option.some.injEq] at h
    subst h
    rfl
  | mi :: rest, marked, h => by
    rw [prune_methods] at h
    cases ha : prune_method_info cf mi with
    | none => simp [ha] at h
    | some r =>
      obtain ⟨drop, mi1⟩ := r
      simp only [ha] at h
      cases hr : prune_methods cf rest with
      | none => simp [hr] at h
      | some marked1 =>
        simp only [hr, Option.some.injEq] at h
        subst h
        have ih := prune_methods_again cf cf1 hpool rest marked1 hr
        cases drop with
        | true =>
          simp only [if_true, List.filterMap_cons_none]
          exact ih
        | false =>
          have e : List.filterMap id (some mi1 :: marked1)
              = mi1 :: List.filterMap id marked1 := rfl
          simp only [Bool.false_eq_true, if_false]
          rw [e, List.map_cons, prune_methods,
            prune_method_info_again cf cf1 hpool mi mi1 ha, ih]
          rfl

theorem prune_ClassFile_again (cf cf1 : ClassFile) (h : prune_ClassFile cf = some cf1) :
    prune_ClassFile cf1 = some cf1 := by
  unfold prune_ClassFile at h
  cases hf : prune_fields cf cf.fields with
  | none => simp [hf] at h
  | some fields =>
    simp only [hf] at h
    cases hm : prune_methods cf cf.methods with
    | none => simp [hm] at h
    | some methods =>
      simp only [hm] at h
      cases ha : prune_attributes cf.constant_pool cf.attributes none with
      | none => simp [ha] at h
      | some attributes =>
        simp only [ha, Option.some.injEq] at h
        subst h
        unfold prune_ClassFile
        simp only [repack_eq]
        have kf := fun (c1 : ClassFile) (hc : c1.constant_pool = cf.constant_pool) =>
          prune_fields_again cf c1 hc cf.fields fields hf
        have km := fun (c1 : ClassFile) (hc : c1.constant_pool = cf.constant_pool) =>
          prune_methods_again cf c1 hc cf.methods methods hm
        rw [kf, km, prune_attributes_null_again cf.constant_pool cf.attributes attributes ha]
        · simp only [repack_eq, filterMap_map_some]
        · rfl
        · rfl

/-- C35 (pruning is idempotent).  A class file that `prune_ClassFile` returns
is returned unchanged by a second call: the same kept fields, methods and
attributes, the same stub bytecode and `code_length`, the exception table
length 0.  So pruning twice gives what pruning once gives; and on a model
that can be pruned, both calls return. -/
theorem prune_idempotent (cf : ClassFile) :
    (prune_ClassFile cf).bind prune_ClassFile = prune_ClassFile cf ∧
    (∀ cf1, prune_ClassFile cf = some cf1 → prune_ClassFile cf1 = some cf1) ∧
    (prunable cf = true →
      ∃ cf1, prune_ClassFile cf = some cf1 ∧ prune_ClassFile cf1 = some cf1) := by
  refine ⟨?_, prune_ClassFile_again cf, ?_⟩
  · cases h : prune_ClassFile cf with
    | none => rfl
    | some cf1 => exact prune_ClassFile_again cf cf1 h
  · intro hp
    obtain ⟨cf1, h⟩ := prune_ClassFile_total cf hp
    exact ⟨cf1, h, prune_ClassFile_again cf cf1 h⟩

/-- Witness for C35: the example class, which has two fields, two methods with
a Code attribute and two attributes.  Pruning it once and pruning it twice
leave the public field, the protected method with the stub
`iconst_0; ireturn` and the Deprecated attribute. -/
theorem prune_idempotent_witness :
    prunable exampleClass = true ∧
    (∃ cf1, prune_ClassFile exampleClass = some cf1 ∧ prune_ClassFile cf1 = some cf1) ∧
    ((prune_ClassFile exampleClass).bind prune_ClassFile).map (fun c =>
        (c.fields.map (fun fi => fi.access_flags), c.fields_count,
          c.methods.map (fun mi => mi.attributes.map (fun a => a.value)), c.methods_count,
          c.attributes.map (fun a => a.value), c.attributes_count))
      = some ([ACC_PUBLIC], 1, [[.Code 1 1 2 [0x03, 0xac] 0 [⟨0, 3, 3, 7⟩] 0 []]], 1,
          [.Deprecated], 1) :=
  ⟨by decide, (prune_idempotent exampleClass).2.2 (by decide), by rfl⟩

/-! ## Pruning: a return type that is not recognized -/

theorem prune_code_other (c : Nat) (code : List Nat) (code_length : Nat)
    (h : c ∉ cbytes "VBCISZDFJL[") :
    prune_code c code code_length = (code.take code_length, code_length) := by
  have hl : cbytes "VBCISZDFJL[" = [86, 66, 67, 73, 83, 90, 68, 70, 74, 76, 91] := by decide
  rw [hl] at h
  simp only [List.mem_cons, List.mem_nil_iff, or_false, not_or] at h
  unfold prune_code
  simp only
  split <;> first | rfl | omega

/-- C37 (a return type that is not recognized).  Let the descriptor of the
method `mi` resolve to a text whose character behind the closing parenthesis
is none of `V B C I S Z D F J L [`, and let no Code attribute be nested in the
Code attribute.  Then `prune_code` installs no stub: it returns a copy of the
`code_length` bytes of the bytecode and the same `code_length`; and
`prune_attribute_info` keeps the attribute, with this bytecode and length, the
exception table length 0 and the kept ones of the nested attributes. -/
theorem prune_unrecognized_return (constant_pool : List (Option cp_info)) (mi : method_info)
    (n l : Nat) (i : List Nat) (max_stack max_locals code_length : Nat) (code : List Nat)
    (exception_table_length : Nat) (exception_table : List exception_table_entry)
    (attributes_count : Nat) (attributes : List attribute_info)
    (descriptor : List Nat) (c : Nat)
    (hd : pUtf8 constant_pool mi.descriptor_index = some descriptor)
    (hc : returnTypeCode descriptor = some c)
    (hn : c ∉ cbytes "VBCISZDFJL[")
    (hnest : noCode attributes = true) :
    prune_code c code code_length = (code.take code_length, code_length) ∧
    (code_length = code.length → (prune_code c code code_length).1 = code) ∧
    prune_attribute_info constant_pool
        (.mk n l i (.Code max_stack max_locals code_length code exception_table_length
          exception_table attributes_count attributes)) (some mi)
      = some (false, .mk n l i (.Code max_stack max_locals code_length
          (code.take code_length) 0 exception_table (attributes.filter kept).length
          (attributes.filter kept))) := by
  have hp := prune_code_other c code code_length hn
  refine ⟨hp, ?_, ?_⟩
  · intro hlen
    rw [hp, hlen]
    exact List.take_length _
  · obtain ⟨marked, hm⟩ := prune_attributes_total_null constant_pool attributes hnest
    have hf := (prune_attributes_null constant_pool attributes marked hm).1
    rw [prune_attribute_info]
    simp only [hd, hc, hm, hp, repack_eq, hf]

/-- Witness for C37: the method `m` of `oddReturnClass`, whose descriptor is
`()Q`.  After `prune_ClassFile` its Code attribute has the three bytes of the
body that was read and an exception table of length 0. -/
theorem prune_unrecognized_return_witness :
    (prune_code 81 [16, 7, 172] 3 = ([16, 7, 172].take 3, 3) ∧
      (3 = [16, 7, 172].length → (prune_code 81 [16, 7, 172] 3).1 = [16, 7, 172]) ∧
      prune_attribute_info oddReturnClass.constant_pool
          (.mk 5 23 [0, 1, 0, 1, 0, 0, 0, 3, 16, 7, 172, 0, 1, 0, 0, 0, 3, 0, 3, 0, 2, 0, 0]
            (.Code 1 1 3 [16, 7, 172] 1 [⟨0, 3, 3, 2⟩] 0 [])) (some ⟨ACC_PUBLIC, 6, 7, 1, []⟩)
        = some (false,
          .mk 5 23 [0, 1, 0, 1, 0, 0, 0, 3, 16, 7, 172, 0, 1, 0, 0, 0, 3, 0, 3, 0, 2, 0, 0]
            (.Code 1 1 3 ([16, 7, 172].take 3) 0 [⟨0, 3, 3, 2⟩]
              (([] : List attribute_info).filter kept).length ([].filter kept)))) ∧
    (prune_ClassFile oddReturnClass).map (fun cf =>
        cf.methods.map (fun m => m.attributes.map (fun a => a.value)))
      = some [[.Code 1 1 3 [16, 7, 172] 0 [⟨0, 3, 3, 2⟩] 0 []]] :=
  ⟨prune_unrecognized_return oddReturnClass.constant_pool ⟨ACC_PUBLIC, 6, 7, 1, []⟩ 5 23
      [0, 1, 0, 1, 0, 0, 0, 3, 16, 7, 172, 0, 1, 0, 0, 0, 3, 0, 3, 0, 2, 0, 0] 1 1 3
      [16, 7, 172] 1 [⟨0, 3, 3, 2⟩] 0 [] (cbytes "()Q") 81 (by decide) (by decide) (by decide)
      (by decide),
    by rfl⟩

/-! ## The mark pass: the slots that it touches -/

theorem super_class_in_refs (t : code_h) (cf : ClassFile) (l : List Nat)
    (hl : refs_ClassFile t cf = some l) : cf.super_class ∈ l := by
  unfold refs_ClassFile at hl
  split at hl
  · simp at hl
  · split at hl
    · simp at hl
    · simp only [Option.map_eq_some'] at hl
      obtain ⟨al, _, rfl⟩ := hl
      simp

/-- C38 (the slots that the mark pass touches).  Let `l` be the references of
the model, the indices that `refct_ClassFile` passes to `ref`: `this_class`,
`super_class` and the required index fields whatever they hold, the optional
ones when they are not 0.  Let every one of them that is not 0 denote an entry
of the pool, let slot 0 be null and let there be fewer than 2^31 references.
If 0 is not among the references, the pass returns: the pool has the same
slots, null where they were null, and only the reference counts of entries
that exist have changed.  But `super_class` is always among the references,
so for a root class, whose `super_class` is 0, `ref` dereferences the null
slot 0 and the pass does not return. -/
theorem mark_pass_slots (t : code_h) (cf : ClassFile) (l : List Nat)
    (hl : refs_ClassFile t cf = some l)
    (hv : ∀ i ∈ l, i ≠ 0 → present cf.constant_pool i = true)
    (hn : l.length < 2147483648)
    (h0 : cf.constant_pool[0]? = some none) :
    cf.super_class ∈ l ∧
    (cf.super_class = 0 → refct_ClassFile t cf = none) ∧
    (refct_ClassFile t cf = none ↔ 0 ∈ l) ∧
    (0 ∉ l → ∃ q, refct_ClassFile t cf = some { cf with constant_pool := q } ∧
      q.length = cf.constant_pool.length ∧ same_pool cf.constant_pool q ∧
      (∀ i, q[i]? = counted l cf.constant_pool i) ∧
      ∀ i ∈ l, i ≠ 0 ∧ present cf.constant_pool i = true) := by
  have hsup := super_class_in_refs t cf l hl
  have hpos : 0 ∉ l → ∃ q, refct_ClassFile t cf = some { cf with constant_pool := q } ∧
      q.length = cf.constant_pool.length ∧ same_pool cf.constant_pool q ∧
      (∀ i, q[i]? = counted l cf.constant_pool i) ∧
      ∀ i ∈ l, i ≠ 0 ∧ present cf.constant_pool i = true := by
    intro hz
    have hne : ∀ i ∈ l, i ≠ 0 := fun i hi e => hz (e ▸ hi)
    have hv' : ∀ i ∈ l, present cf.constant_pool i = true := fun i hi => hv i hi (hne i hi)
    obtain ⟨q, h1, h2, h3, h4⟩ := refct_ClassFile_counts t cf l hl hv' hn
    exact ⟨q, h1, h2, h4, h3, fun i hi => ⟨hne i hi, hv' i hi⟩⟩
  have hneg : 0 ∈ l → refct_ClassFile t cf = none := by
    intro hz
    rw [refct_ClassFile_refs, hl]
    simp only [mark_refs]
    cases hm : mark_all l (reset_counts cf.constant_pool) with
    | none => rfl
    | some q =>
      obtain ⟨cp, hcp, _⟩ := mark_all_valid l _ q hm 0 hz
      rw [reset_counts_get, h0] at hcp
      simp at hcp
  refine ⟨hsup, fun hs => hneg (hs ▸ hsup), ⟨?_, hneg⟩, hpos⟩
  intro hnone
  by_contra hz
  obtain ⟨q, hq, _⟩ := hpos hz
  rw [hq] at hnone
  simp at hnone

/-- Witness for C38: the root class `rootExample`, whose references are its
`this_class` 2, its `super_class` 0 and the name 1 of its class entry: the mark
pass does not return.  On `markExample`, whose `super_class` is 5, it does. -/
theorem mark_pass_slots_witness :
    refs_ClassFile stub_opcodes rootExample = some [2, 0, 1] ∧
    rootExample.super_class = 0 ∧
    refct_ClassFile stub_opcodes rootExample = none ∧
    (refct_ClassFile stub_opcodes markExample).map (fun c => c.constant_pool)
      = some [ none, utf8 0 "dead", utf8 1 "A", some ⟨2, .class_info 2⟩,
          utf8 1 "java/lang/Object", some ⟨1, .class_info 4⟩,
          utf8 1 "Code", utf8 1 "m", utf8 1 "()V" ] :=
  ⟨by decide, rfl,
    (mark_pass_slots stub_opcodes rootExample [2, 0, 1] (by decide) (by decide) (by decide)
      (by decide)).2.1 rfl,
    by decide⟩

/-! ## An invalid constant-pool tag -/

/-- C20 (a pool tag that is not known).  Let the header of the input be read,
with the pool count `count`; let the loop of `read_constant_pool` have filled
`k` slots, with more to fill, and let the next byte, the tag of the next entry,
be outside 1, 3, 4, 5, 6, 7, 8, 9, 10, 11, 12.  Then `read_cp_info` returns:
it has read the tag byte and nothing else, and what it returns is the null
pointer, not an entry.  `read_constant_pool` stores that pointer and evaluates
`result[i]->tag` on it, so it does not return, and neither does
`read_ClassFile`, whatever follows the byte in the input: the read ends in the
dereference of a null pointer, and no failure is returned to a caller. -/
theorem read_bad_pool_tag (g_littleEndian : Bool) (fyle s1 s2 s3 s4 s5 s6 : List Nat)
    (magic minor_version major_version count k tag : Nat) (l : List (Option cp_info))
    (h1 : read_u4 g_littleEndian fyle = some (magic, s1))
    (h2 : read_u2 g_littleEndian s1 = some (minor_version, s2))
    (h3 : read_u2 g_littleEndian s2 = some (major_version, s3))
    (h4 : read_u2 g_littleEndian s3 = some (count, s4))
    (hk : read_constant_pool_loop g_littleEndian k s4 = some (l, s5))
    (hlt : k + 1 < count)
    (ht : read_u1 s5 = some (tag, s6)) (hbad : tag ∉ known_tags) :
    read_cp_info g_littleEndian s5 = some (none, s6) ∧
    (∀ r, read_constant_pool_loop g_littleEndian (r + 1) s5 = none) ∧
    read_constant_pool g_littleEndian s4 count = none ∧
    read_ClassFile g_littleEndian fyle = none := by
  have hc := read_cp_info_bad_tag g_littleEndian s5 s6 tag ht hbad
  have hp := read_constant_pool_bad_tag g_littleEndian count k tag s4 s5 s6 l hk hlt ht hbad
  refine ⟨hc, ?_, hp, ?_⟩
  · intro r
    rw [read_constant_pool_loop, hc]
  · unfold read_ClassFile
    simp only [h1, h2, h3, h4, hp]

/-- Witness for C20: a file whose second pool entry has the tag 15.  The first
entry is read, `read_cp_info` returns null at the byte 15, and the read does
not return. -/
theorem read_bad_pool_tag_witness :
    read_constant_pool_loop false 1 (badTagFile.drop 10)
      = some ([utf8 0 "A"], badTagFile.drop 14) ∧
    read_u1 (badTagFile.drop 14) = some (15, badTagFile.drop 15) ∧
    read_cp_info false (badTagFile.drop 14) = some (none, badTagFile.drop 15) ∧
    read_constant_pool false (badTagFile.drop 10) 4 = none ∧
    read_ClassFile false badTagFile = none :=
  have h := read_bad_pool_tag false badTagFile (badTagFile.drop 4) (badTagFile.drop 6)
      (badTagFile.drop 8) (badTagFile.drop 10) (badTagFile.drop 14) (badTagFile.drop 15)
      0xCAFEBABE 0 51 4 1 15 [utf8 0 "A"]
      (by decide) (by decide) (by decide) (by decide) (by decide) (by decide) (by decide)
      (by decide)
  ⟨by decide, by decide, h.1, h.2.2.1, h.2.2.2⟩

/-! ## The compaction moves whole entries -/

/-- What `gc_cp_info` makes of an entry is that entry with only its own
indices sent through the map. -/
theorem gc_cp_info_remapped (MAP : Nat → Nat) (cp : cp_info) :
    remapped_entry MAP cp (gc_cp_info MAP cp) := by
  obtain ⟨r, d⟩ := cp
  cases d <;> simp [remapped_entry, gc_cp_info]

/-- C6 (stable compaction).  On every well-formed pool `gc_ClassFile` returns,
and its old-to-new map sends the surviving slots, taken in increasing order, to
1, 2, 3, ... (so it starts at 1, has no gaps and is strictly increasing on the
surviving slots).  The new pool has these slots and slot 0, and no other.  At
`map[i]` it holds the entry that was at the old index `i`: the same variant
with the same reference count, the same literal data in an Integer, Float,
Long, Double or Utf8 entry, and in a Class, String, Fieldref, Methodref,
InterfaceMethodref or NameAndType entry every index `x` replaced by `map[x]`;
the null placeholder behind a Long or Double is a null slot again. -/
theorem gc_stable_compaction (uninit : Nat → Nat) (cf : ClassFile)
    (hwf : pool_wf cf = true) :
    ∃ done cf1, gc_ClassFile uninit cf = some (done, cf1) ∧
      (∀ k (hk : k < (survivors cf).length),
        map_cp uninit cf1 ((survivors cf)[k]) = k + 1) ∧
      (∀ i j, i ∈ survivors cf → j ∈ survivors cf → i < j →
        map_cp uninit cf1 i < map_cp uninit cf1 j) ∧
      cf1.constant_pool.length = 1 + (survivors cf).length ∧
      (∀ i cp, i ∈ survivors cf → cf.constant_pool[i]? = some (some cp) →
        ∃ cp1, cf1.constant_pool[map_cp uninit cf1 i]? = some (some cp1) ∧
          remapped_entry (map_cp uninit cf1) cp cp1) ∧
      (∀ i, i ∈ survivors cf → cf.constant_pool[i]? = some none →
        cf1.constant_pool[map_cp uninit cf1 i]? = some none) := by
  have hspec := gc_ClassFile_spec uninit cf hwf
  simp only [pool_wf, Bool.and_eq_true, decide_eq_true_eq] at hwf
  obtain ⟨⟨hlen, hpos⟩, hwf1⟩ := hwf
  have h1 : (cf.constant_pool.take 1).length = 1 := by
    rw [List.length_take]
    omega
  refine ⟨_, _, hspec, ?_, ?_, ?_, ?_, ?_⟩
  · intro k hk
    exact gc_MAP_survivor uninit cf k hk
  · intro i j hi hj hij
    obtain ⟨a, ha, rfl⟩ := List.getElem_of_mem hi
    obtain ⟨b, hb, rfl⟩ := List.getElem_of_mem hj
    have hab := sorted_index_lt _ (survivors_sorted cf) a b ha hb hij
    show gc_MAP uninit cf _ < gc_MAP uninit cf _
    rw [gc_MAP_survivor uninit cf a ha, gc_MAP_survivor uninit cf b hb]
    omega
  · show (List.map _ _).length = _
    rw [List.length_map, List.length_append, h1, List.length_map]
  · intro i cp hi hcp
    refine ⟨gc_cp_info (gc_MAP uninit cf) cp, ?_, gc_cp_info_remapped _ cp⟩
    have h := gc_pool_at_survivor uninit cf hlen hpos i hi
    rw [List.getD_eq_getElem?_getD, hcp] at h
    exact h
  · intro i hi hcp
    have h := gc_pool_at_survivor uninit cf hlen hpos i hi
    rw [List.getD_eq_getElem?_getD, hcp] at h
    exact h

/-- Witness for C6: in the example the old slots 2, 3, 4, 5, 8, ..., 12 get the
new indices 1, ..., 9.  The class entry at 3, whose name index is 2, is at 2
with the name index 1; the class entry at 9, whose name index is 8, is at 6
with the name index 5; the Long at 4 is at 3 with its data, and the slot
behind it is null. -/
theorem gc_stable_compaction_witness :
    pool_wf gcExample = true ∧
    ∃ done cf1, gc_ClassFile (fun _ => 0) gcExample = some (done, cf1) ∧
      [2, 3, 4, 5, 8, 9, 10, 11, 12].map (map_cp (fun _ => 0) cf1)
        = [1, 2, 3, 4, 5, 6, 7, 8, 9] ∧
      cf1.constant_pool
        = [none, utf8 1 "A", some ⟨2, .class_info 1⟩, some ⟨1, .long 0 7⟩, none,
            utf8 1 "java/lang/Object", some ⟨1, .class_info 5⟩,
            utf8 1 "Code", utf8 1 "m", utf8 1 "()V"] := by
  refine ⟨by decide, ?_⟩
  obtain ⟨done, cf1, h, _⟩ := gc_stable_compaction (fun _ => 0) gcExample (by decide)
  have hx : (gc_ClassFile (fun _ => 0) gcExample).map (fun r =>
      ([2, 3, 4, 5, 8, 9, 10, 11, 12].map (map_cp (fun _ => 0) r.2), r.2.constant_pool))
      = some ([1, 2, 3, 4, 5, 6, 7, 8, 9],
          [none, utf8 1 "A", some ⟨2, .class_info 1⟩, some ⟨1, .long 0 7⟩, none,
            utf8 1 "java/lang/Object", some ⟨1, .class_info 5⟩,
            utf8 1 "Code", utf8 1 "m", utf8 1 "()V"]) := by rfl
  rw [h] at hx
  simp only [Option.map_some', Option.some.injEq, Prod.mk.injEq] at hx
  exact ⟨done, cf1, h, hx.1, hx.2⟩

/-! ## Index fields that are zero -/

/-- For every opcode of fixed length the handler of `refct_code` reads the
number of operand bytes that the format gives the instruction. -/
theorem case_bytes (n : opcode) (ht : n ≠ .TABLESWITCH) (hl : n ≠ .LOOKUPSWITCH)
    (hw : n ≠ .WIDE) : (refct_code_case n).bytes = some (operand_bytes n) := by
  cases n <;> first | rfl | contradiction

theorem wide_case_operand (n : opcode) :
    rop_wide_case n = (if n = .IINC then wide_rop.rop_2ww
      else if wide_operand n = true then wide_rop.rop_1w else wide_rop.illegal) := by
  cases n <;> rfl

/-- A handler that reads a fixed number of operand bytes leaves the cursor
behind them. -/
theorem rop_refs_bytes (t : code_h) (g_code : List Nat) (h : rop) (n pc : Nat)
    (hb : h.bytes = some n) (hlen : pc + n ≤ g_code.length) :
    ∃ refs, rop_refs t g_code h pc = some (pc + n, refs) := by
  cases h with
  | rop_0 =>
    simp only [rop.bytes, Option.some.injEq] at hb
    subst hb
    exact ⟨_, rfl⟩
  | rop_1b =>
    simp only [rop.bytes, Option.some.injEq] at hb
    subst hb
    simp only [rop_refs, argb_some g_code pc (by omega), Option.map_some']
    exact ⟨_, rfl⟩
  | rop_1bc =>
    simp only [rop.bytes, Option.some.injEq] at hb
    subst hb
    simp only [rop_refs, argb_some g_code pc (by omega), Option.map_some']
    exact ⟨_, rfl⟩
  | rop_1w =>
    simp only [rop.bytes, Option.some.injEq] at hb
    subst hb
    simp only [rop_refs, argw_some g_code pc (by omega), Option.map_some']
    exact ⟨_, rfl⟩
  | rop_1wc =>
    simp only [rop.bytes, Option.some.injEq] at hb
    subst hb
    simp only [rop_refs, argw_some g_code pc (by omega), Option.map_some']
    exact ⟨_, rfl⟩
  | rop_1l =>
    simp only [rop.bytes, Option.some.injEq] at hb
    subst hb
    simp only [rop_refs, argl_some g_code pc (by omega), Option.map_some']
    exact ⟨_, rfl⟩
  | rop_2bb =>
    simp only [rop.bytes, Option.some.injEq] at hb
    subst hb
    simp only [rop_refs, argb_some g_code pc (by omega),
      argb_some g_code (pc + 1) (by omega), Option.map_some']
    exact ⟨_, rfl⟩
  | rop_2wcb =>
    simp only [rop.bytes, Option.some.injEq] at hb
    subst hb
    simp only [rop_refs, argw_some g_code pc (by omega),
      argb_some g_code (pc + 2) (by omega), Option.map_some']
    exact ⟨_, rfl⟩
  | rop_3wcbx =>
    simp only [rop.bytes, Option.some.injEq] at hb
    subst hb
    simp only [rop_refs, argw_some g_code pc (by omega),
      argb_some g_code (pc + 2) (by omega), argb_some g_code (pc + 2 + 1) (by omega),
      Option.map_some']
    exact ⟨_, rfl⟩
  | rop_lookupswitch => simp [rop.bytes] at hb
  | rop_tableswitch => simp [rop.bytes] at hb
  | rop_wide => simp [rop.bytes] at hb
  | no_case => simp [rop.bytes] at hb

/-- The handler of `wide` on a modified instruction of the format. -/
theorem rop_wide_format (names : Nat → Option opcode) (g_code : List Nat) (pc b : Nat)
    (n : opcode) (hg : g_code.get? pc = some b) (hn : names b = some n) (k : Nat)
    (hk : (if n = .IINC then some 6 else if wide_operand n = true then some 4 else none)
      = some k)
    (hlen : pc + k ≤ g_code.length + 1) :
    rop_wide (refct_switches names) g_code pc = some (pc + k - 1) := by
  unfold rop_wide
  rw [argb_eq _ _ _ hg]
  simp only [rop_wide_switch_name names b n hn, wide_case_operand]
  by_cases h1 : n = .IINC
  · simp only [h1, if_true, Option.some.injEq] at hk ⊢
    subst hk
    rw [argw_some g_code (pc + 1) (by omega)]
    simp only
    rw [argw_some g_code (pc + 1 + 2) (by omega)]
    rfl
  · simp only [h1, if_false] at hk ⊢
    by_cases h2 : wide_operand n = true
    · simp only [h2, if_true, Option.some.injEq] at hk ⊢
      subst hk
      rw [argw_some g_code (pc + 1) (by omega)]
      rfl
    · simp [h2] at hk

/-- One instruction of the format that is no switch: the walk of `refct_code`
leaves it where the format says it ends. -/
theorem walk_insn (names : Nat → Option opcode) (g_code : List Nat) (a b k : Nat)
    (hg : g_code.get? a = some b)
    (hk : insn_length names g_code a = some k)
    (ht : (g_code.get? a).bind names ≠ some opcode.TABLESWITCH)
    (hl : (g_code.get? a).bind names ≠ some opcode.LOOKUPSWITCH)
    (hlen : a + k ≤ g_code.length) :
    1 ≤ k ∧ ∃ refs, rop_refs (refct_switches names) g_code
      ((refct_switches names).refct_code_switch b) (a + 1) = some (a + k, refs) := by
  rw [hg, Option.some_bind] at ht hl
  unfold insn_length at hk
  rw [hg, Option.some_bind] at hk
  cases hn : names b with
  | none => simp [hn] at hk
  | some n =>
    rw [hn] at hk ht hl
    have ht1 : n ≠ .TABLESWITCH := fun e => ht (by rw [e])
    have hl1 : n ≠ .LOOKUPSWITCH := fun e => hl (by rw [e])
    rw [refct_switch_name names b n hn]
    by_cases hw : n = .WIDE
    · subst hw
      simp only at hk
      cases hg1 : g_code.get? (a + 1) with
      | none =>
        rw [hg1] at hk
        simp at hk
      | some b1 =>
        rw [hg1, Option.some_bind] at hk
        cases hn1 : names b1 with
        | none => simp [hn1] at hk
        | some n1 =>
          rw [hn1] at hk
          have hk1 : (if n1 = .IINC then some 6
              else if wide_operand n1 = true then some 4 else none) = some k := by
            by_cases e : n1 = .IINC
            · subst e
              simpa using hk
            · rw [if_neg e]
              cases n1 <;> first | exact hk | exact absurd rfl e
          have hpos : 1 ≤ k := by
            by_cases e : n1 = .IINC
            · simp only [e, if_true, Option.some.injEq] at hk1
              omega
            · simp only [e, if_false] at hk1
              by_cases e2 : wide_operand n1 = true
              · simp only [e2, if_true, Option.some.injEq] at hk1
                omega
              · simp [e2] at hk1
          refine ⟨hpos, [], ?_⟩
          show (rop_wide (refct_switches names) g_code (a + 1)).map _ = _
          rw [rop_wide_format names g_code (a + 1) b1 n1 hg1 hn1 k hk1 (by omega)]
          simp only [Option.map_some', Option.some.injEq, Prod.mk.injEq, and_true]
          omega
    · have hk2 : k = 1 + operand_bytes n := by
        cases n <;> first
          | exact absurd rfl ht1 | exact absurd rfl hl1 | exact absurd rfl hw
          | (simp only [Option.some.injEq] at hk; exact hk.symm)
      subst hk2
      obtain ⟨refs, hr⟩ := rop_refs_bytes (refct_switches names) g_code (refct_code_case n)
        (operand_bytes n) (a + 1) (case_bytes n ht1 hl1 hw) (by omega)
      refine ⟨by omega, refs, ?_⟩
      rw [hr]
      congr 2
      omega

theorem addr_loop_done (t : code_h) (g_code : List Nat) (length turns a : Nat)
    (h : ¬ a < length) : refct_code_addr_loop t g_code length turns a = some [] := by
  cases turns with
  | zero => rw [refct_code_addr_loop, if_neg h]
  | succ n => rw [refct_code_addr_loop, if_neg h]

/-- On a sequence of instructions of the format without a switch, the walk of
`refct_code` takes the instructions of the format. -/
theorem walk_plain (names : Nat → Option opcode) (code : List Nat) (length : Nat)
    (hlen : length ≤ code.length) :
    ∀ (fuel a : Nat) (l : List Nat), insn_addrs_from names code length fuel a = some l →
      (∀ x ∈ l, (code.get? x).bind names ≠ some opcode.TABLESWITCH ∧
        (code.get? x).bind names ≠ some opcode.LOOKUPSWITCH) →
      a ≤ length →
      ∀ turns, length - a ≤ turns →
        ∃ l1, refct_code_addr_loop (refct_switches names) code length turns a = some l1 ∧
          l1.map Prod.fst = l
  | 0, a, l, h, _, _, turns, _ => by
    rw [insn_addrs_from] at h
    by_cases e : a = length
    · rw [if_pos e] at h
      simp only [Option.some.injEq] at h
      subst h
      exact ⟨[], addr_loop_done _ _ _ _ _ (by omega), rfl⟩
    · rw [if_neg e] at h
      simp at h
  | fuel + 1, a, l, h, hp, ha, turns, ht => by
    rw [insn_addrs_from] at h
    by_cases e : a = length
    · rw [if_pos e] at h
      simp only [Option.some.injEq] at h
      subst h
      exact ⟨[], addr_loop_done _ _ _ _ _ (by omega), rfl⟩
    · rw [if_neg e] at h
      cases hk : insn_length names code a with
      | none => simp [hk] at h
      | some k =>
        simp only [hk] at h
        by_cases hle : a + k ≤ length
        · rw [if_pos hle] at h
          cases hrec : insn_addrs_from names code length fuel (a + k) with
          | none => simp [hrec] at h
          | some l2 =>
            simp only [hrec, Option.map_some', Option.some.injEq] at h
            subst h
            have halt : a < code.length := by omega
            have hg : code.get? a = some (code.getD a 0) := by
              rw [List.get?_eq_getElem?, List.getElem?_eq_getElem halt,
                List.getD_eq_getElem _ _ halt]
            have hpa := hp a (List.mem_cons_self _ _)
            obtain ⟨hpos, refs, hr⟩ := walk_insn names code a _ k hg hk hpa.1 hpa.2 (by omega)
            obtain ⟨l3, h3, h4⟩ := walk_plain names code length hlen fuel (a + k) l2 hrec
              (fun x hx => hp x (List.mem_cons_of_mem _ hx)) hle (turns - 1) (by omega)
            have et : turns = (turns - 1) + 1 := by omega
            rw [et, refct_addr_turn _ _ _ _ a _ (by omega) hg, hr]
            simp only [h3, Option.map_some']
            exact ⟨_, rfl, by simp [h4]⟩
        · rw [if_neg hle] at h
          simp at h

/-- On bytecode that is a sequence of instructions of the format without a
switch, the walk of `refct_code` finds the constant-pool operands of the
bytecode. -/
theorem plain_code_refs (names : Nat → Option opcode) (code : List Nat) (length : Nat)
    (h : plain_code names code length = true) :
    ∃ l, bytecode_operands names code length = some l ∧
      code_refs (refct_switches names) code length = some l := by
  simp only [plain_code, Bool.and_eq_true, List.all_eq_true, decide_eq_true_eq] at h
  obtain ⟨hb, h2⟩ := h
  cases ha : insn_addrs names code length with
  | none => simp [ha] at h2
  | some l =>
    simp only [ha, List.all_eq_true, Bool.and_eq_true, bne_iff_ne, ne_eq] at h2
    unfold insn_addrs at ha
    by_cases hlen : length ≤ code.length
    · rw [if_pos hlen] at ha
      obtain ⟨l1, h3, h4⟩ := walk_plain names code length hlen length 0 l ha h2 (by omega)
        length (by omega)
      refine ⟨l.flatMap (insn_refs names code), ?_, ?_⟩
      · unfold bytecode_operands insn_addrs
        rw [if_pos hlen, ha]
        rfl
      · unfold code_refs
        rw [code_refs_insns names code hb length length 0, h3, Option.map_some', ← h4,
          List.flatMap_map]
    · rw [if_neg hlen] at ha
      simp at ha

theorem operands_of_append (names : Nat → Option opcode)
    (x y : List (Nat × List Nat × Nat × List exception_table_entry)) :
    operands_of names (x ++ y)
      = (operands_of names x).bind (fun a => (operands_of names y).map (fun b => a ++ b)) := by
  induction x with
  | nil =>
    simp only [List.nil_append, operands_of, Option.some_bind]
    cases operands_of names y <;> simp
  | cons s rest ih =>
    simp only [List.cons_append, operands_of]
    have ih1 : operands_of names (rest.append y)
        = (operands_of names rest).bind (fun a =>
            (operands_of names y).map (fun b => a ++ b)) := ih
    rw [ih1]
    cases bytecode_operands names s.2.1 s.1 with
    | none => rfl
    | some l =>
      cases operands_of names rest with
      | none => rfl
      | some a =>
        cases operands_of names y with
        | none => rfl
        | some b => simp

theorem catches_of_append (x y : List (Nat × List Nat × Nat × List exception_table_entry)) :
    catches_of (x ++ y) = catches_of x ++ catches_of y := by
  simp [catches_of]

theorem counts_quiet (names : Nat → Option opcode) (v : attribute_value) (n len : Nat)
    (info : List Nat) (hq : quiet_attribute_value (refct_switches names) v = true)
    (hs : code_sections (.mk n len info v) = []) :
    Counts names (refs_attribute_info (refct_switches names) (.mk n len info v))
      (idx_attribute_info (.mk n len info v)) (code_sections (.mk n len info v)) := by
  refine ⟨n :: refs_of (idx_attribute_value v), [], ?_, by rw [hs]; rfl, ?_⟩
  · simp only [refs_attribute_info, quiet_attribute_value_refs _ v hq, Option.map_some']
  · intro i
    rw [hs]
    simp [idx_attribute_info, refs_of_required, catches_of]

theorem counts_append (names : Nat → Option opcode) (r1 r2 : Option (List Nat))
    (f1 f2 : List (Bool × Nat))
    (s1 s2 : List (Nat × List Nat × Nat × List exception_table_entry))
    (h1 : Counts names r1 f1 s1) (h2 : Counts names r2 f2 s2) :
    Counts names (r1.bind (fun a => r2.map (fun b => a ++ b))) (f1 ++ f2) (s1 ++ s2) := by
  obtain ⟨l1, o1, e1, p1, c1⟩ := h1
  obtain ⟨l2, o2, e2, p2, c2⟩ := h2
  refine ⟨l1 ++ l2, o1 ++ o2, by rw [e1, e2]; rfl, ?_, ?_⟩
  · rw [operands_of_append, p1, p2]
    rfl
  · intro i
    rw [refs_of_append, catches_of_append]
    simp only [List.count_append]
    have := c1 i
    have := c2 i
    omega

mutual
theorem plain_attribute_info_counts (names : Nat → Option opcode) :
    ∀ (a : attribute_info),
      (code_sections a).all (fun s => plain_code names s.2.1 s.1) = true →
      Counts names (refs_attribute_info (refct_switches names) a) (idx_attribute_info a)
        (code_sections a)
  | .mk n len info (.Code ms ml cl code etl et ac attrs), h => by
    simp only [code_sections, List.all_cons, Bool.and_eq_true] at h
    obtain ⟨hp, hrest⟩ := h
    obtain ⟨l1, hb, hc⟩ := plain_code_refs names code cl hp
    obtain ⟨l2, o2, e2, p2, c2⟩ := plain_attributes_counts names attrs hrest
    refine ⟨n :: (l1 ++ catch_refs etl et ++ l2), l1 ++ o2, ?_, ?_, ?_⟩
    · simp only [refs_attribute_info, refs_attribute_value, hc, e2, Option.map_some']
    · simp only [code_sections, operands_of, hb, p2, Option.map_some']
    · intro i
      have := c2 i
      simp only [code_sections, idx_attribute_info, idx_attribute_value, refs_of_required,
        catches_of, List.flatMap_cons, List.count_cons, List.count_append] at this ⊢
      omega
  | .mk n len info .Unknown, _ => counts_quiet names _ n len info rfl rfl
  | .mk n len info (.ConstantValue _), _ => counts_quiet names _ n len info rfl rfl
  | .mk n len info (.Exceptions _ _), _ => counts_quiet names _ n len info rfl rfl
  | .mk n len info (.InnerClasses _ _), _ => counts_quiet names _ n len info rfl rfl
  | .mk n len info .Synthetic, _ => counts_quiet names _ n len info rfl rfl
  | .mk n len info (.SourceFile _), _ => counts_quiet names _ n len info rfl rfl
  | .mk n len info (.LineNumberTable _ _), _ => counts_quiet names _ n len info rfl rfl
  | .mk n len info (.LocalVariableTable _ _), _ => counts_quiet names _ n len info rfl rfl
  | .mk n len info .Deprecated, _ => counts_quiet names _ n len info rfl rfl
  | .mk n len info (.RuntimeVisibleAnnotations _ _), _ =>
    counts_quiet names _ n len info rfl rfl
  | .mk n len info (.EnclosingMethod _ _), _ => counts_quiet names _ n len info rfl rfl
  | .mk n len info .StackMapTable, _ => counts_quiet names _ n len info rfl rfl
  | .mk n len info (.Signature _), _ => counts_quiet names _ n len info rfl rfl
  | .mk n len info (.LocalVariableTypeTable _ _), _ => counts_quiet names _ n len info rfl rfl
  | .mk n len info (.AnnotationDefault _), _ => counts_quiet names _ n len info rfl rfl
theorem plain_attributes_counts (names : Nat → Option opcode) :
    ∀ (as : List attribute_info),
      (code_sections_list as).all (fun s => plain_code names s.2.1 s.1) = true →
      Counts names (refs_attributes (refct_switches names) as) (idx_attributes as)
        (code_sections_list as)
  | [], _ => ⟨[], [], rfl, rfl, fun i => by simp [idx_attributes, refs_of, catches_of,
      code_sections_list]⟩
  | a :: rest, h => by
    simp only [code_sections_list, List.all_append, Bool.and_eq_true] at h
    have h1 := plain_attribute_info_counts names a h.1
    have h2 := plain_attributes_counts names rest h.2
    have h3 := counts_append names _ _ _ _ _ _ h1 h2
    have e : refs_attributes (refct_switches names) (a :: rest)
        = (refs_attribute_info (refct_switches names) a).bind (fun x =>
            (refs_attributes (refct_switches names) rest).map (fun y => x ++ y)) := by
      rw [refs_attributes]
      cases refs_attribute_info (refct_switches names) a <;> rfl
    rw [e]
    exact h3
end

theorem refs_each_bind {α : Type} (f : α → Option (List Nat)) (a : α) (rest : List α) :
    refs_each f (a :: rest)
      = (f a).bind (fun x => (refs_each f rest).map (fun y => x ++ y)) := by
  rw [refs_each]
  cases f a <;> rfl

theorem counts_each {α : Type} (names : Nat → Option opcode) (f : α → Option (List Nat))
    (g : α → List (Bool × Nat))
    (s : α → List (Nat × List Nat × Nat × List exception_table_entry))
    (hf : ∀ a, (s a).all (fun x => plain_code names x.2.1 x.1) = true →
      Counts names (f a) (g a) (s a)) :
    ∀ (l : List α), (l.flatMap s).all (fun x => plain_code names x.2.1 x.1) = true →
      Counts names (refs_each f l) (l.flatMap g) (l.flatMap s)
  | [], _ => ⟨[], [], rfl, rfl, fun i => by simp [refs_of, catches_of]⟩
  | a :: rest, h => by
    simp only [List.flatMap_cons, List.all_append, Bool.and_eq_true] at h
    have h1 := hf a h.1
    have h2 := counts_each names f g s hf rest h.2
    rw [refs_each_bind]
    simp only [List.flatMap_cons]
    exact counts_append names _ _ _ _ _ _ h1 h2

theorem counts_field (names : Nat → Option opcode) (fi : field_info)
    (h : (code_sections_list fi.attributes).all (fun x => plain_code names x.2.1 x.1) = true) :
    Counts names (refs_field_info (refct_switches names) fi) (idx_field_info fi)
      (code_sections_list fi.attributes) := by
  obtain ⟨l, ops, e, p, c⟩ := plain_attributes_counts names fi.attributes h
  refine ⟨fi.name_index :: fi.descriptor_index :: l, ops, ?_, p, ?_⟩
  · simp only [refs_field_info, e, Option.map_some']
  · intro i
    have := c i
    simp only [idx_field_info, refs_of_required, List.count_cons] at this ⊢
    omega

theorem counts_method (names : Nat → Option opcode) (mi : method_info)
    (h : (code_sections_list mi.attributes).all (fun x => plain_code names x.2.1 x.1) = true) :
    Counts names (refs_method_info (refct_switches names) mi) (idx_method_info mi)
      (code_sections_list mi.attributes) := by
  obtain ⟨l, ops, e, p, c⟩ := plain_attributes_counts names mi.attributes h
  refine ⟨mi.name_index :: mi.descriptor_index :: l, ops, ?_, p, ?_⟩
  · simp only [refs_method_info, e, Option.map_some']
  · intro i
    have := c i
    simp only [idx_method_info, refs_of_required, List.count_cons] at this ⊢
    omega

/-- On a model whose bytecode is plain, the references that the mark pass
takes are those of the model, each as often. -/
theorem plain_refs (names : Nat → Option opcode) (cf : ClassFile)
    (hp : plain names cf = true) :
    ∃ lw l, refs_ClassFile (refct_switches names) cf = some lw ∧
      model_refs names cf = some l ∧ lw.Perm l := by
  simp only [plain, code_sections_ClassFile, List.all_append, Bool.and_eq_true] at hp
  obtain ⟨⟨hf, hm⟩, ha⟩ := hp
  obtain ⟨fl, fo, ef, pf, cf1⟩ := counts_each names (refs_field_info (refct_switches names))
    idx_field_info (fun fi => code_sections_list fi.attributes) (counts_field names)
    cf.fields hf
  obtain ⟨ml, mo, em, pm, cm⟩ := counts_each names (refs_method_info (refct_switches names))
    idx_method_info (fun mi => code_sections_list mi.attributes) (counts_method names)
    cf.methods hm
  obtain ⟨al, ao, ea, pa, ca⟩ := plain_attributes_counts names cf.attributes ha
  have hops : operands_of names (code_sections_ClassFile cf) = some (fo ++ mo ++ ao) := by
    simp only [code_sections_ClassFile, operands_of_append, pf, pm, pa, Option.some_bind,
      Option.map_some']
  refine ⟨cf.this_class :: cf.super_class ::
      (refs_pool cf.constant_pool ++ cf.interfaces ++ fl ++ ml ++ al),
    roots cf ++ refs_pool cf.constant_pool ++ catches_of (code_sections_ClassFile cf)
      ++ (fo ++ mo ++ ao), ?_, ?_, ?_⟩
  · simp only [refs_ClassFile, ef, em, ea, Option.map_some']
  · simp only [model_refs, hops, Option.map_some']
  · rw [List.perm_iff_count]
    intro i
    have h1 := cf1 i
    have h2 := cm i
    have h3 := ca i
    simp only [roots, idx_ClassFile, refs_of_required, refs_of_append, refs_of_map_required,
      code_sections_ClassFile, catches_of_append, List.count_cons, List.count_append]
    omega

/-- C11 (the mark pass counts exactly).  Let `l` be the references of the
model as the claim lists them (`model_refs`): this class, super class, the
interfaces, the name and descriptor indices of the fields and methods, the
attribute name indices, the indices of the decoded attributes, annotations and
element values (an optional one only when it is not 0), the indices inside
the pool entries, the catch types that are not 0, and the constant-pool
operands of the instructions in the bytecode of every Code attribute, the
instructions being those of the class-file format.  Let the bytecode of every
Code attribute be a sequence of instructions without a `tableswitch` or a
`lookupswitch`, let every index in `l` denote an entry of the pool, and let
`l` have fewer than 2^31 elements, the range of the `int` count.  Then
`refct_ClassFile` returns, whatever counts the entries held before; it changes
nothing but the counts; the count of the entry at every index is the number of
occurrences of that index in `l`; and a second pass returns the same model, so
counts do not accumulate. -/
theorem refct_counts_exactly (names : Nat → Option opcode) (cf : ClassFile) (l : List Nat)
    (hp : plain names cf = true)
    (hl : model_refs names cf = some l)
    (hv : ∀ i ∈ l, present cf.constant_pool i = true)
    (hn : l.length < 2147483648) :
    ∃ cf1, refct_ClassFile (refct_switches names) cf = some cf1 ∧
      cf1 = { cf with constant_pool := cf1.constant_pool } ∧
      cf1.constant_pool.length = cf.constant_pool.length ∧
      (∀ i, cf1.constant_pool[i]? = counted l cf.constant_pool i) ∧
      refct_ClassFile (refct_switches names) cf1 = some cf1 := by
  obtain ⟨lw, l0, hw, hl0, hperm⟩ := plain_refs names cf hp
  rw [hl] at hl0
  simp only [Option.some.injEq] at hl0
  subst hl0
  have hvw : ∀ i ∈ lw, present cf.constant_pool i = true :=
    fun i hi => hv i (hperm.mem_iff.1 hi)
  have hnw : lw.length < 2147483648 := by
    rw [hperm.length_eq]
    exact hn
  have hcount : ∀ i, counted lw cf.constant_pool i = counted l cf.constant_pool i := by
    intro i
    unfold counted
    rw [hperm.count_eq]
  obtain ⟨q, hq, hlen, hc, hs⟩ := refct_ClassFile_counts (refct_switches names) cf lw hw hvw hnw
  refine ⟨_, hq, rfl, hlen, fun i => (hc i).trans (hcount i), ?_⟩
  have hl1 : refs_ClassFile (refct_switches names) { cf with constant_pool := q } = some lw := by
    rw [refs_ClassFile_pool (refct_switches names) cf q hs, hw]
  have hv1 : ∀ i ∈ lw, present q i = true := by
    intro i hi
    obtain ⟨cp, hcp⟩ := (present_iff _ _).1 (hvw i hi)
    refine (present_iff _ _).2 ⟨{ cp with refCount := lw.count i }, ?_⟩
    rw [hc i, counted, hcp]
    rfl
  obtain ⟨q1, hq1, _, hc1, _⟩ :=
    refct_ClassFile_counts (refct_switches names) { cf with constant_pool := q } lw hl1 hv1 hnw
  rw [hq1]
  have e : q1 = q := by
    apply List.ext_getElem?
    intro i
    rw [hc1 i, hc i]
    simp only [counted]
    rw [hc i, counted]
    cases cf.constant_pool[i]? with
    | none => rfl
    | some e => cases e <;> rfl
  rw [e]

/-- Witness for C11.  In `operandClass` the bytecode has no switch: the
references of the model are 2, 4, 7, 8, 6, 1, 3 and the six operands 7, 258,
3, 4, 5, 6, and the pass gives the entries 1 to 9 the counts 1, 1, 2, 2, 1,
2, 2, 1, 0.  In `switchClass` the bytecode is a `tableswitch` followed by
`ldc #5`: the references of the model are 2, 4, 7, 8, 6, 1, 3 and the operand
5, but the pass leaves the entry 5 with the count 0 and gives the entry 18,
which nothing refers to, the count 1. -/
theorem refct_counts_exactly_witness :
    plain poolNames operandClass = true ∧
    model_refs poolNames operandClass = some [2, 4, 7, 8, 6, 1, 3, 7, 258, 3, 4, 5, 6] ∧
    (∃ cf1, refct_ClassFile (refct_switches poolNames) operandClass = some cf1 ∧
      (cf1.constant_pool.take 10).map (Option.map (fun cp => cp.refCount))
        = [none, some 1, some 1, some 2, some 2, some 1, some 2, some 2, some 1, some 0] ∧
      refct_ClassFile (refct_switches poolNames) cf1 = some cf1) ∧
    plain poolNames switchClass = false ∧
    model_refs poolNames switchClass = some [2, 4, 7, 8, 6, 1, 3, 5] ∧
    (refct_ClassFile (refct_switches poolNames) switchClass).map (fun c =>
      c.constant_pool.map (Option.map (fun cp => cp.refCount)))
      = some [none, some 1, some 1, some 1, some 1, some 0, some 1, some 1, some 1,
          some 0, some 0, some 0, some 0, some 0, some 0, some 0, some 0, some 0, some 1] := by
  have hm : model_refs poolNames operandClass
      = some [2, 4, 7, 8, 6, 1, 3, 7, 258, 3, 4, 5, 6] := by decide!
  obtain ⟨cf1, h, _, _, _, h2⟩ := refct_counts_exactly poolNames operandClass
    [2, 4, 7, 8, 6, 1, 3, 7, 258, 3, 4, 5, 6] (by decide!) hm (by decide!) (by decide)
  have hx : (refct_ClassFile (refct_switches poolNames) operandClass).map (fun r =>
      (r.constant_pool.take 10).map (Option.map (fun cp => cp.refCount)))
      = some [none, some 1, some 1, some 2, some 2, some 1, some 2, some 2, some 1, some 0] := by
    decide!
  rw [h] at hx
  simp only [Option.map_some', Option.some.injEq] at hx
  exact ⟨by decide!, hm, ⟨cf1, h, hx, h2⟩, by decide!, by decide!, by decide!⟩

/-! ## The model and the pool array in place -/

/-! ## The pool array in place: the model below the count -/

theorem pool_of_length (m : pool_memory) (count : Nat) (hc : count ≤ m.slots.length) :
    (pool_of m count).length = count := by
  unfold pool_of
  rw [List.length_map, List.length_take]
  omega

theorem holds_length (cf : ClassFile) (m : pool_memory) (hh : holds cf m) :
    cf.constant_pool.length = cf.constant_pool_count := by
  rw [hh.1, pool_of_length m _ hh.2.1]

end StripClass

/-! ## Run/common: the difference of two directory listings -/

namespace Watch

theorem contains_loop_spec (d : t_dirContents) (entry : List Nat) :
    ∀ fuel i, i + fuel = d.entries.length →
      contains_loop d entry fuel i = some (decide (entry ∈ d.entries.drop i))
  | 0, i, h => by
    have : d.entries.drop i = [] := List.drop_eq_nil_of_le (by omega)
    simp [contains_loop, this]
  | fuel + 1, i, h => by
    have hi : i < d.entries.length := by omega
    rw [contains_loop, List.get?_eq_get hi]
    simp only
    rw [List.drop_eq_getElem_cons hi]
    by_cases he : d.entries.get ⟨i, hi⟩ = entry
    · rw [if_pos he]
      simp only [List.get_eq_getElem] at he
      simp [he]
    · rw [if_neg he, contains_loop_spec d entry fuel (i + 1) (by omega)]
      simp only [List.get_eq_getElem] at he
      have he1 : ¬ entry = d.entries[i] := fun h => he h.symm
      simp only [List.mem_cons, he1, false_or]

theorem contains_spec (d : t_dirContents) (entry : List Nat) (h : d.count = d.entries.length) :
    contains (some d) entry = some (decide (entry ∈ d.entries)) := by
  rw [contains, contains_loop_spec d entry d.count 0 (by omega), List.drop_zero]

theorem addEntry_collected (r : List (List Nat)) (e : List Nat)
    (h : r.length + 1 < 2147483648) : addEntry (collected r) e = some ⟨r.length + 1, r ++ [e]⟩ := by
  unfold collected
  by_cases hr : r = []
  · subst hr
    rfl
  · rw [if_neg hr]
    simp only [addEntry]
    rw [if_pos h, if_pos (Nat.le_refl _), List.take_length]

theorem collected_snoc (r : List (List Nat)) (e : List Nat) :
    collected (r ++ [e]) = some ⟨r.length + 1, r ++ [e]⟩ := by
  unfold collected
  rw [if_neg (by simp)]
  simp

theorem diffs_loop_spec (iter other : t_dirContents) (ho : other.count = other.entries.length) :
    ∀ fuel i (r : List (List Nat)), i + fuel = iter.entries.length →
      r.length + fuel < 2147483648 →
      diffs_loop iter other fuel i (collected r)
        = some (collected (r ++ (iter.entries.drop i).filter (fun e => decide (e ∉ other.entries))))
  | 0, i, r, h, _ => by
    have : iter.entries.drop i = [] := List.drop_eq_nil_of_le (by omega)
    simp [diffs_loop, this]
  | fuel + 1, i, r, h, hr => by
    have hi : i < iter.entries.length := by omega
    rw [diffs_loop, List.get?_eq_get hi]
    simp only
    rw [contains_spec other _ ho, List.drop_eq_getElem_cons hi, List.filter_cons]
    simp only [List.get_eq_getElem]
    by_cases he : iter.entries[i] ∈ other.entries
    · simp only [he, decide_True, not_true_eq_false, decide_False, Bool.false_eq_true, if_false]
      exact diffs_loop_spec iter other ho fuel (i + 1) r (by omega) (by omega)
    · simp only [he, decide_False, not_false_eq_true, decide_True, if_true]
      rw [addEntry_collected r _ (by omega)]
      simp only
      rw [← collected_snoc, diffs_loop_spec iter other ho fuel (i + 1) (r ++ [iter.entries[i]]) (by omega)
        (by rw [List.length_append]; simp; omega)]
      simp

/-- C39 (the difference of two directory listings).  For two listings that are
not null and well formed, `diffs` returns the entries of the longer listing,
of the first one when the counts are equal, that are the text of no entry of
the other listing, in their order and with their count, and it returns a null
pointer, not an empty listing, when there is no such entry; `contains` returns
true exactly when an entry of the listing has the text of `entry`, and false
for a null pointer. -/
theorem diffs_spec (d1 d2 : t_dirContents) (h1 : listing_ok d1) (h2 : listing_ok d2) :
    diffs (some d1) (some d2)
      = some (collected (if d2.count > d1.count then missing d2 d1 else missing d1 d2)) ∧
    (∀ l, diffs (some d1) (some d2) = some (some l) →
      l.entries ≠ [] ∧ l.count = l.entries.length ∧
      l.entries = (if d2.count > d1.count then missing d2 d1 else missing d1 d2)) ∧
    (diffs (some d1) (some d2) = some none ↔
      (if d2.count > d1.count then missing d2 d1 else missing d1 d2) = []) ∧
    (∀ entry, contains (some d1) entry = some (decide (∃ e ∈ d1.entries, e = entry))) ∧
    (∀ entry, contains none entry = some false) := by
  have key : diffs (some d1) (some d2)
      = some (collected (if d2.count > d1.count then missing d2 d1 else missing d1 d2)) := by
    unfold diffs missing
    simp only
    by_cases hc : d2.count > d1.count
    · rw [if_pos hc, if_pos hc]
      have := diffs_loop_spec d2 d1 h1.1 d2.count 0 [] (by rw [h2.1]; omega)
        (by have := h2.2; simp; omega)
      simpa [collected] using this
    · rw [if_neg hc, if_neg hc]
      have := diffs_loop_spec d1 d2 h2.1 d1.count 0 [] (by rw [h1.1]; omega)
        (by have := h1.2; simp; omega)
      simpa [collected] using this
  refine ⟨key, ?_, ?_, ?_, fun _ => rfl⟩
  · intro l hl
    rw [key] at hl
    generalize (if d2.count > d1.count then missing d2 d1 else missing d1 d2) = m at hl ⊢
    simp only [Option.some.injEq] at hl
    unfold collected at hl
    split_ifs at hl with hnil
    simp only [Option.some.injEq] at hl
    subst hl
    exact ⟨hnil, rfl, rfl⟩
  · rw [key]
    generalize (if d2.count > d1.count then missing d2 d1 else missing d1 d2) = m
    simp only [Option.some.injEq]
    unfold collected
    constructor
    · intro h
      split_ifs at h with hnil
      exact hnil
    · intro h
      rw [if_pos h]
  · intro entry
    rw [contains_spec d1 entry h1.1]
    simp

/-- Witness for C39: the listings `a b c` and `b x`; the first is the longer
one, and its entries `a` and `c` are not in the second.  With the arguments
exchanged the result is the same; two listings with the same entries give a
null pointer; and of two listings of the same count the first is searched. -/
theorem diffs_spec_witness :
    (listing_ok (listing ["a", "b", "c"]) ∧ listing_ok (listing ["b", "x"])) ∧
    diffs (some (listing ["a", "b", "c"])) (some (listing ["b", "x"]))
      = some (some (listing ["a", "c"])) ∧
    diffs (some (listing ["b", "x"])) (some (listing ["a", "b", "c"]))
      = some (some (listing ["a", "c"])) ∧
    diffs (some (listing ["a", "b"])) (some (listing ["b", "a"])) = some none ∧
    diffs (some (listing ["a", "b"])) (some (listing ["b", "c"])) = some (some (listing ["a"])) ∧
    contains (some (listing ["a", "b", "c"])) [98] = some true ∧
    contains (some (listing ["a", "b", "c"])) [120] = some false :=
  ⟨⟨⟨rfl, by decide⟩, ⟨rfl, by decide⟩⟩,
    (diffs_spec (listing ["a", "b", "c"]) (listing ["b", "x"]) ⟨rfl, by decide⟩
      ⟨rfl, by decide⟩).1.trans (by decide),
    by decide, by decide, by decide, by decide, by decide⟩

end Watch
